import Mathlib

/-!
# magnetron CPU backend: kernels and work partitioning

A shallow embedding of `magnetron_cpu.c`.

Modelling conventions.

* `int64_t` values (dimensions, strides, element counts, worker indices) are natural numbers;
  the products and sums formed by the kernels are assumed to fit in 64 bits.
* A storage buffer viewed as `mag_f32_t*` is a function from element offsets to values, and a
  pointer into it is an offset.  The output storage of a node and the storages of its inputs
  are separate buffers: inputs are only read, the output buffer is threaded through the kernel.
  The section on shared storages embeds the kernels once more with all storages in one state,
  every load and every store naming the storage it acts on.
* `float`/`double` arithmetic is not interpreted: every primitive the source applies to floating
  point values is a field of `FloatOps`, and the kernels are defined for an arbitrary
  interpretation of them.  Results therefore hold bit for bit for whatever the target computes.
* A kernel returns `none` when the process aborts: `mag_panic`, a failed `mag_assert2`, or an
  integer division or remainder by zero.
* `mag_bnd_chk` is compiled out (release build) and the `MAG_ACCELERATE` branches are not taken.
* The build selects the approximate SIMD paths through `lanes`: `0` when `MAG_APPROXMATH` is off
  (only the scalar loops remain), otherwise the number of `float` lanes of the vector unit.
-/

namespace Magnetron

/-! ## Integer helpers -/

/-- C integer division; division by zero aborts. -/
def cdiv (a b : Nat) : Option Nat := if b = 0 then none else some (a / b)

/-- C remainder; remainder by zero aborts. -/
def cmod (a b : Nat) : Option Nat := if b = 0 then none else some (a % b)

/-- Sequencing of a step that may abort with the rest of the computation. -/
@[noinline]
def and_then {α β : Type} (x : Option α) (k : α → Option β) : Option β :=
  match x with
  | none => none
  | some a => k a

/-- Modelled from the spec: the integer use of `mag_xmin` of `magnetron_internal.h` (not under
`src/`), the smaller of its two arguments. -/
def mag_xmin (a b : Nat) : Nat := if a < b then a else b

/-- Modelled from the spec: the integer use of `mag_xmax` of `magnetron_internal.h` (not under
`src/`), the larger of its two arguments. -/
def mag_xmax (a b : Nat) : Nat := if a > b then a else b

/-! ## Loops and buffers -/

/-- The loop `for (i = lo; i < lo + n; ++i) s = body i s`. -/
def forN {σ : Type} (body : Nat → σ → σ) : Nat → Nat → σ → σ
  | _, 0, s => s
  | lo, n + 1, s => forN body (lo + 1) n (body lo s)

/-- The loop `for (i = lo; i < lo + n; ++i)` whose body may abort. -/
def forNM {σ : Type} (body : Nat → σ → Option σ) : Nat → Nat → σ → Option σ
  | _, 0, s => some s
  | lo, n + 1, s => (body lo s).bind (forNM body (lo + 1) n)

/-- A buffer of elements addressed by element offset. -/
abbrev Buf (F : Type) := Nat → F

/-- The assignment `b[i] = v`. -/
def store {F : Type} (b : Buf F) (i : Nat) (v : F) : Buf F := fun j => if j = i then v else b j

/-- A buffer holding the listed elements from offset 0, and `d` elsewhere. -/
def Buf.ofList {F : Type} (l : List F) (d : F) : Buf F := fun i => l.getD i d

/-- The first `n` elements of a buffer. -/
def Buf.take {F : Type} (b : Buf F) (n : Nat) : List F := (List.range n).map b

/-! ## Work partitioning -/

/-- The slice of a unary or scalar-RHS kernel (source lines 1143-1145 and 1190-1192):
`chunk = (numel + tc - 1)/tc; ra = ti*chunk; vmel = ra < numel ? min(ra + chunk, numel) - ra : 0`.
Returns `(ra, vmel)`. -/
def mag_slice_unary (tc ti numel : Nat) : Option (Nat × Nat) :=
  (cdiv (numel + tc - 1) tc).map fun chunk =>
    let ra := ti * chunk
    (ra, if ra < numel then mag_xmin (ra + chunk) numel - ra else 0)

/-- The slice of a broadcast-binary or matmul kernel (source lines 1225-1227 and 1307-1309):
`chunk = (numel + tc - 1)/tc; ra = chunk*ti; rb = min(ra + chunk, numel)`.
Returns `(ra, rb)`. -/
def mag_slice_rows (tc ti numel : Nat) : Option (Nat × Nat) :=
  (cdiv (numel + tc - 1) tc).map fun chunk =>
    let ra := chunk * ti
    (ra, mag_xmin (ra + chunk) numel)

/-- The chunk size as the specification words it: `ceil(numel / worker_count)`. -/
def spec_chunk (numel tc : Nat) : Nat := Nat.ceil ((numel : ℚ) / (tc : ℚ))

/-- The first index of worker `t` as the specification words it: `worker_idx * chunk`. -/
def spec_start (numel tc t : Nat) : Nat := t * spec_chunk numel tc

/-- The end index of worker `t` as the specification words it: `min(start + chunk, numel)`. -/
def spec_end (numel tc t : Nat) : Nat := min (spec_start numel tc t + spec_chunk numel tc) numel


/-! ## Floating point primitives -/

/-- The floating point primitives applied by the kernels, for `mag_f32_t = float` and
`mag_f64_t = double`.  No law is assumed of them. -/
structure FloatOps (F32 F64 : Type) where
  /-- The literal `0.0f`. -/
  zero : F32
  /-- The literal `1.0f`. -/
  one : F32
  /-- The literal `3.0f`. -/
  three : F32
  /-- The literal `6.0f`. -/
  six : F32
  /-- The literal `0.5f`. -/
  half : F32
  /-- The literal `0.79788456080286535587989211986876f`. -/
  sqrt_2_div_pi : F32
  /-- The constant `MAG_GELU_COEFF` of `magnetron_internal.h` (not under `src/`). -/
  gelu_coeff : F32
  /-- The constant `INFINITY`. -/
  infinity : F32
  /-- Binary `+` on `float`. -/
  add : F32 → F32 → F32
  /-- Binary `-` on `float`. -/
  sub : F32 → F32 → F32
  /-- Binary `*` on `float`. -/
  mul : F32 → F32 → F32
  /-- Binary `/` on `float`. -/
  div : F32 → F32 → F32
  /-- Unary `-` on `float`. -/
  neg : F32 → F32
  /-- The comparison `a <= b` on `float` (and `b >= a`). -/
  le : F32 → F32 → Bool
  /-- The comparison `a < b` on `float` (and `b > a`). -/
  lt : F32 → F32 → Bool
  /-- Library `fabsf`. -/
  fabsf : F32 → F32
  /-- Library `sqrtf`. -/
  sqrtf : F32 → F32
  /-- Library `logf`. -/
  logf : F32 → F32
  /-- Library `sinf`. -/
  sinf : F32 → F32
  /-- Library `cosf`. -/
  cosf : F32 → F32
  /-- Library `expf`. -/
  expf : F32 → F32
  /-- Library `tanhf`. -/
  tanhf : F32 → F32
  /-- Library `coshf`. -/
  coshf : F32 → F32
  /-- Library `fminf`. -/
  fminf : F32 → F32 → F32
  /-- Library `fmaxf`. -/
  fmaxf : F32 → F32 → F32
  /-- One lane of `mag_simd_expf`. -/
  simd_expf : F32 → F32
  /-- One lane of `mag_simd_tanh`. -/
  simd_tanh : F32 → F32
  /-- One lane of the sine output of `mag_simd_sincos`. -/
  simd_sin : F32 → F32
  /-- One lane of the cosine output of `mag_simd_sincos`. -/
  simd_cos : F32 → F32
  /-- One lane of the vectorised logarithm inlined in `mag_vlog_f32`. -/
  simd_log : F32 → F32
  /-- The literal `0.0` of type `double`. -/
  zero64 : F64
  /-- Binary `+` on `double`. -/
  add64 : F64 → F64 → F64
  /-- Binary `/` on `double`. -/
  div64 : F64 → F64 → F64
  /-- The conversion `(mag_f64_t)n` of an `int64_t`. -/
  ofInt64 : Nat → F64
  /-- The conversion `(mag_f64_t)x` of a `float`. -/
  up : F32 → F64
  /-- The conversion `(mag_f32_t)x` of a `double`. -/
  down : F64 → F32

section Kernels

variable {F32 F64 : Type}

/-- Modelled from the spec: the `float` use of `mag_xmax` of `magnetron_internal.h` (not under
`src/`), `a > b ? a : b`. -/
def mag_xmaxf (A : FloatOps F32 F64) (a b : F32) : F32 := if A.lt b a then a else b

/-- A value is a NaN when it does not compare `<=` to itself. -/
def FloatOps.isNaN (A : FloatOps F32 F64) (a : F32) : Bool := !A.le a a

/-! ### Pointwise functions of the unary kernels -/

/-- Body of `mag_vsqr_f32`: `x*x`. -/
def sqr_f32 (A : FloatOps F32 F64) (x : F32) : F32 := A.mul x x

/-- Body of `mag_vstep_f32`: `x >= 0.0f ? 1.0f : 0.0f`. -/
def step_f32 (A : FloatOps F32 F64) (x : F32) : F32 := if A.le A.zero x then A.one else A.zero

/-- Scalar body of `mag_vsigmoid_f32`: `1.0f / (1.0f + expf(-x))`. -/
def sigmoid_f32 (A : FloatOps F32 F64) (x : F32) : F32 :=
  A.div A.one (A.add A.one (A.expf (A.neg x)))

/-- Vector body of `mag_vsigmoid_f32`, one lane: `one / (one + mag_simd_expf(zero - x))`. -/
def sigmoid_lane (A : FloatOps F32 F64) (x : F32) : F32 :=
  A.div A.one (A.add A.one (A.simd_expf (A.sub A.zero x)))

/-- Body of `mag_vsigmoid_dv_f32`: `x * (1.0f - x)`. -/
def sigmoid_dv_f32 (A : FloatOps F32 F64) (x : F32) : F32 := A.mul x (A.sub A.one x)

/-- Body of `mag_vhard_sigmoid_f32`: `fminf(1.0f, fmaxf(0.0f, (x + 3.0f) / 6.0f))`. -/
def hard_sigmoid_f32 (A : FloatOps F32 F64) (x : F32) : F32 :=
  A.fminf A.one (A.fmaxf A.zero (A.div (A.add x A.three) A.six))

/-- Scalar body of `mag_vsilu_f32`: `x / (1.0f + expf(-x))`. -/
def silu_f32 (A : FloatOps F32 F64) (x : F32) : F32 :=
  A.div x (A.add A.one (A.expf (A.neg x)))

/-- Vector body of `mag_vsilu_f32`, one lane: `x / (one + mag_simd_expf(zero - x))`. -/
def silu_lane (A : FloatOps F32 F64) (x : F32) : F32 :=
  A.div x (A.add A.one (A.simd_expf (A.sub A.zero x)))

/-- Body of `mag_vtanh_dv_f32`: `cx = coshf(x); 1.0f / (cx*cx)`. -/
def tanh_dv_f32 (A : FloatOps F32 F64) (x : F32) : F32 :=
  A.div A.one (A.mul (A.coshf x) (A.coshf x))

/-- Body of `mag_vrelu_f32`: `mag_xmax(x, 0.0f)`. -/
def relu_f32 (A : FloatOps F32 F64) (x : F32) : F32 := mag_xmaxf A x A.zero

/-- Body of `mag_vrelu_dv_f32`: `x <= 0.0f ? 0.0f : 1.0f`. -/
def relu_dv_f32 (A : FloatOps F32 F64) (x : F32) : F32 := if A.le x A.zero then A.zero else A.one

/-- Scalar body of `mag_vgelu_f32`:
`0.5f*x*(1.0f + tanhf(0.7978...f*x*(1.0f + MAG_GELU_COEFF*x*x)))`. -/
def gelu_f32 (A : FloatOps F32 F64) (x : F32) : F32 :=
  A.mul (A.mul A.half x)
    (A.add A.one
      (A.tanhf (A.mul (A.mul A.sqrt_2_div_pi x) (A.add A.one (A.mul (A.mul A.gelu_coeff x) x)))))

/-- Vector body of `mag_vgelu_f32`, one lane (NEON and SSE2 variants):
`a = one + coeff2*(x*x); b = one + mag_simd_tanh(coeff1*(x*a)); half*(x*b)`. -/
def gelu_lane (A : FloatOps F32 F64) (x : F32) : F32 :=
  A.mul A.half
    (A.mul x
      (A.add A.one
        (A.simd_tanh (A.mul A.sqrt_2_div_pi (A.mul x (A.add A.one (A.mul A.gelu_coeff (A.mul x x))))))))

/-! ### Vector primitives (contiguous 1-D) -/

/-- A unary vector primitive `mag_v<name>_f32(n, o, x)`; `o` and `x` are given as a buffer and
an offset into it. -/
abbrev VecUnary (F : Type) := Nat → Buf F → Nat → Buf F → Nat → Option (Buf F)

/-- The scalar loop `for (i = 0; i < n; ++i) o[i] = f(x[i])`. -/
def vec_map {F : Type} (f : F → F) (n : Nat) (o : Buf F) (po : Nat) (x : Buf F) (px : Nat) :
    Buf F :=
  forN (fun i b => store b (po + i) (f (x (px + i)))) 0 n o

/-- A primitive with an approximate vector path: `n / lanes` full vectors are mapped by the lane
function `g` (`for (; i + lanes - 1 < n; i += lanes)`), the leftover elements by the scalar
function `f` (`for (; i < n; ++i)`).  With `lanes = 0` only the scalar loop is compiled. -/
def vec_map_simd {F : Type} (lanes : Nat) (g f : F → F) (n : Nat) (o : Buf F) (po : Nat)
    (x : Buf F) (px : Nat) : Buf F :=
  let nb := n / lanes
  let o1 := forN (fun k b =>
      forN (fun l b => store b (po + (k * lanes + l)) (g (x (px + (k * lanes + l))))) 0 lanes b)
    0 nb o
  forN (fun i b => store b (po + i) (f (x (px + i)))) (nb * lanes) (n - nb * lanes) o1

/-- The loop `for (i = 0; i < n; ++i) mag_panic(...)` of an unimplemented derivative. -/
def vec_panic {F : Type} (n : Nat) (o : Buf F) : Option (Buf F) := if n = 0 then some o else none

/-- Source `mag_vabs_f32`. -/
def mag_vabs_f32 (A : FloatOps F32 F64) : VecUnary F32 :=
  fun n o po x px => some (vec_map A.fabsf n o po x px)

/-- Source `mag_vneg_f32`. -/
def mag_vneg_f32 (A : FloatOps F32 F64) : VecUnary F32 :=
  fun n o po x px => some (vec_map A.neg n o po x px)

/-- Source `mag_vlog_f32`. -/
def mag_vlog_f32 (A : FloatOps F32 F64) (lanes : Nat) : VecUnary F32 :=
  fun n o po x px => some (vec_map_simd lanes A.simd_log A.logf n o po x px)

/-- Source `mag_vsqr_f32`. -/
def mag_vsqr_f32 (A : FloatOps F32 F64) : VecUnary F32 :=
  fun n o po x px => some (vec_map (sqr_f32 A) n o po x px)

/-- Source `mag_vsqrt_f32`. -/
def mag_vsqrt_f32 (A : FloatOps F32 F64) : VecUnary F32 :=
  fun n o po x px => some (vec_map A.sqrtf n o po x px)

/-- Source `mag_vsin_f32`. -/
def mag_vsin_f32 (A : FloatOps F32 F64) (lanes : Nat) : VecUnary F32 :=
  fun n o po x px => some (vec_map_simd lanes A.simd_sin A.sinf n o po x px)

/-- Source `mag_vcos_f32`. -/
def mag_vcos_f32 (A : FloatOps F32 F64) (lanes : Nat) : VecUnary F32 :=
  fun n o po x px => some (vec_map_simd lanes A.simd_cos A.cosf n o po x px)

/-- Source `mag_vstep_f32`. -/
def mag_vstep_f32 (A : FloatOps F32 F64) : VecUnary F32 :=
  fun n o po x px => some (vec_map (step_f32 A) n o po x px)

/-- Source `mag_vsoftmax_f32`. -/
def mag_vsoftmax_f32 (A : FloatOps F32 F64) (lanes : Nat) : VecUnary F32 :=
  fun n o po x px => some (vec_map_simd lanes A.simd_expf A.expf n o po x px)

/-- Source `mag_vsoftmax_dv_f32`: calls `mag_vsoftmax_f32`. -/
def mag_vsoftmax_dv_f32 (A : FloatOps F32 F64) (lanes : Nat) : VecUnary F32 :=
  fun n o po x px => mag_vsoftmax_f32 A lanes n o po x px

/-- Source `mag_vsigmoid_f32`. -/
def mag_vsigmoid_f32 (A : FloatOps F32 F64) (lanes : Nat) : VecUnary F32 :=
  fun n o po x px => some (vec_map_simd lanes (sigmoid_lane A) (sigmoid_f32 A) n o po x px)

/-- Source `mag_vsigmoid_dv_f32`. -/
def mag_vsigmoid_dv_f32 (A : FloatOps F32 F64) : VecUnary F32 :=
  fun n o po x px => some (vec_map (sigmoid_dv_f32 A) n o po x px)

/-- Source `mag_vhard_sigmoid_f32`. -/
def mag_vhard_sigmoid_f32 (A : FloatOps F32 F64) : VecUnary F32 :=
  fun n o po x px => some (vec_map (hard_sigmoid_f32 A) n o po x px)

/-- Source `mag_vsilu_f32`. -/
def mag_vsilu_f32 (A : FloatOps F32 F64) (lanes : Nat) : VecUnary F32 :=
  fun n o po x px => some (vec_map_simd lanes (silu_lane A) (silu_f32 A) n o po x px)

/-- Source `mag_vsilu_dv_f32`: panics on its first element. -/
def mag_vsilu_dv_f32 : VecUnary F32 := fun n o _ _ _ => vec_panic n o

/-- Source `mag_vtanh_f32`. -/
def mag_vtanh_f32 (A : FloatOps F32 F64) (lanes : Nat) : VecUnary F32 :=
  fun n o po x px => some (vec_map_simd lanes A.simd_tanh A.tanhf n o po x px)

/-- Source `mag_vtanh_dv_f32`. -/
def mag_vtanh_dv_f32 (A : FloatOps F32 F64) : VecUnary F32 :=
  fun n o po x px => some (vec_map (tanh_dv_f32 A) n o po x px)

/-- Source `mag_vrelu_f32`. -/
def mag_vrelu_f32 (A : FloatOps F32 F64) : VecUnary F32 :=
  fun n o po x px => some (vec_map (relu_f32 A) n o po x px)

/-- Source `mag_vrelu_dv_f32`. -/
def mag_vrelu_dv_f32 (A : FloatOps F32 F64) : VecUnary F32 :=
  fun n o po x px => some (vec_map (relu_dv_f32 A) n o po x px)

/-- Source `mag_vgelu_f32`. -/
def mag_vgelu_f32 (A : FloatOps F32 F64) (lanes : Nat) : VecUnary F32 :=
  fun n o po x px => some (vec_map_simd lanes (gelu_lane A) (gelu_f32 A) n o po x px)

/-- Source `mag_vgelu_dv_f32`: panics on its first element. -/
def mag_vgelu_dv_f32 : VecUnary F32 := fun n o _ _ _ => vec_panic n o

/-- The loop `for (i = 0; i < n; ++i) o[i] = x[i] op y[i]` of `mag_vadd_f32`, `mag_vsub_f32`,
`mag_vmul_f32` and `mag_vdiv_f32`. -/
def vec_zip {F : Type} (op : F → F → F) (n : Nat) (o : Buf F) (po : Nat) (x : Buf F) (px : Nat)
    (y : Buf F) (py : Nat) : Buf F :=
  forN (fun i b => store b (po + i) (op (x (px + i)) (y (py + i)))) 0 n o

/-- Source `mag_vadd_f32`. -/
def mag_vadd_f32 (A : FloatOps F32 F64) := vec_zip A.add

/-- Source `mag_vsub_f32`. -/
def mag_vsub_f32 (A : FloatOps F32 F64) := vec_zip A.sub

/-- Source `mag_vmul_f32`. -/
def mag_vmul_f32 (A : FloatOps F32 F64) := vec_zip A.mul

/-- Source `mag_vdiv_f32`. -/
def mag_vdiv_f32 (A : FloatOps F32 F64) := vec_zip A.div

/-- The loop `for (i = 0; i < n; ++i) o[i] = x[i] op y` of `mag_vadds_f32`, `mag_vsubs_f32`,
`mag_vmuls_f32` and `mag_vdivs_f32`. -/
def vec_scalar {F : Type} (op : F → F → F) (n : Nat) (o : Buf F) (po : Nat) (x : Buf F)
    (px : Nat) (y : F) : Buf F :=
  forN (fun i b => store b (po + i) (op (x (px + i)) y)) 0 n o

/-- Source `mag_vadds_f32`. -/
def mag_vadds_f32 (A : FloatOps F32 F64) := vec_scalar A.add

/-- Source `mag_vsubs_f32`. -/
def mag_vsubs_f32 (A : FloatOps F32 F64) := vec_scalar A.sub

/-- Source `mag_vmuls_f32`. -/
def mag_vmuls_f32 (A : FloatOps F32 F64) := vec_scalar A.mul

/-- Source `mag_vdivs_f32`. -/
def mag_vdivs_f32 (A : FloatOps F32 F64) := vec_scalar A.div

/-- Source `mag_vsum_f64_f32`: `sum = 0.0; for (i < n) sum += (mag_f64_t)x[i]`. -/
def mag_vsum_f64_f32 (A : FloatOps F32 F64) (n : Nat) (x : Buf F32) (px : Nat) : F64 :=
  forN (fun i sum => A.add64 sum (A.up (x (px + i)))) 0 n A.zero64

/-- Source `mag_vmin_f32`: `min = INFINITY; for (i < n) min = fminf(min, x[i])`. -/
def mag_vmin_f32 (A : FloatOps F32 F64) (n : Nat) (x : Buf F32) (px : Nat) : F32 :=
  forN (fun i m => A.fminf m (x (px + i))) 0 n A.infinity

/-- Source `mag_vmax_f32`: `min = -INFINITY; for (i < n) min = fmaxf(min, x[i])`. -/
def mag_vmax_f32 (A : FloatOps F32 F64) (n : Nat) (x : Buf F32) (px : Nat) : F32 :=
  forN (fun i m => A.fmaxf m (x (px + i))) 0 n (A.neg A.infinity)

/-! ### Tensors and nodes -/

/-- Six `int64_t` entries (`shape` or `strides`), as `mag_load_local_storage_group` loads them
into six locals. -/
structure Arr6 where
  /-- Entry 0. -/
  a0 : Nat
  /-- Entry 1. -/
  a1 : Nat
  /-- Entry 2. -/
  a2 : Nat
  /-- Entry 3. -/
  a3 : Nat
  /-- Entry 4. -/
  a4 : Nat
  /-- Entry 5. -/
  a5 : Nat
deriving DecidableEq

/-- Operator tags, in the order of the dispatch table. -/
inductive mag_op_t
  | NOP | CLONE | VIEW | TRANSPOSE | PERMUTE
  | MEAN | MIN | MAX | SUM
  | ABS | NEG | LOG | SQR | SQRT | SIN | COS | STEP
  | SOFTMAX | SOFTMAX_DV | SIGMOID | SIGMOID_DV | HARD_SIGMOID
  | SILU | SILU_DV | TANH | TANH_DV | RELU | RELU_DV | GELU | GELU_DV
  | ADD | SUB | MUL | DIV | ADDS | SUBS | MULS | DIVS
  | MATMUL
deriving DecidableEq

/-- An input tensor: the fields of `mag_tensor_t` the kernels read, with the contents of its
storage. -/
structure mag_tensor_t (F : Type) where
  /-- Field `numel`. -/
  numel : Nat
  /-- Field `shape`. -/
  shape : Arr6
  /-- Field `strides`. -/
  strides : Arr6
  /-- Contents of `storage.base`, viewed as `const mag_f32_t*`. -/
  base : Buf F

/-- A node: the output tensor `r` with its operator, inputs and parameters.  The contents of its
own storage are passed to the kernels separately. -/
structure mag_node_t (F : Type) where
  /-- Field `op`. -/
  op : mag_op_t
  /-- Field `numel`. -/
  numel : Nat
  /-- Field `shape`. -/
  shape : Arr6
  /-- Field `strides`. -/
  strides : Arr6
  /-- Input `op_inputs[0]`. -/
  x : mag_tensor_t F
  /-- Input `op_inputs[1]`. -/
  y : mag_tensor_t F
  /-- Scalar parameter `op_params->x.f32`. -/
  xi : F

/-- Source `mag_compute_payload_t`. -/
structure mag_compute_payload_t (F : Type) where
  /-- Field `thread_num`, the worker count. -/
  thread_num : Nat
  /-- Field `thread_idx`, the worker index. -/
  thread_idx : Nat
  /-- Field `node`. -/
  node : mag_node_t F

/-- A kernel of the dispatch table: from the payload and the contents of the output storage to
the new contents, or `none` when it aborts. -/
abbrev Kernel (F : Type) := mag_compute_payload_t F → Buf F → Option (Buf F)

/-- Modelled from the spec: `mag_tensor_is_shape_eq` of `magnetron_internal.h` (not under
`src/`), equality of the six dimension sizes. -/
def mag_tensor_is_shape_eq (a b : Arr6) : Bool := decide (a = b)

/-- The offset `i1*s1 + i2*s2 + i3*s3 + i4*s4 + i5*s5` formed by the reduction kernels. -/
def row_offset (s : Arr6) (i1 i2 i3 i4 i5 : Nat) : Nat :=
  i1 * s.a1 + i2 * s.a2 + i3 * s.a3 + i4 * s.a4 + i5 * s.a5

/-- The loop nest `for (i5 < d5) for (i4 < d4) for (i3 < d3) for (i2 < d2) for (i1 < d1)` of the
reduction kernels. -/
def walk5 {σ : Type} (d : Arr6) (body : Nat → Nat → Nat → Nat → Nat → σ → σ) (s : σ) : σ :=
  forN (fun i5 s =>
    forN (fun i4 s =>
      forN (fun i3 s =>
        forN (fun i2 s =>
          forN (fun i1 s => body i1 i2 i3 i4 i5 s) 0 d.a1 s) 0 d.a2 s) 0 d.a3 s) 0 d.a4 s) 0 d.a5 s

/-! ### Tensor kernels -/

/-- Source `mag_blas_nop`. -/
def mag_blas_nop : Kernel F32 := fun _ br => some br

/-- Source `mag_blas_clone`: `memcpy` of the `mag_tensor_data_size(r)` bytes of `r`, that is of
its `numel` elements, after asserting equal shapes. -/
def mag_blas_clone : Kernel F32 := fun payload br =>
  let r := payload.node
  let x := r.x
  if mag_tensor_is_shape_eq x.shape r.shape then
    some (forN (fun i b => store b i (x.base i)) 0 r.numel br)
  else none

/-- Source `mag_blas_mean_f32`. -/
def mag_blas_mean_f32 (A : FloatOps F32 F64) : Kernel F32 := fun payload br =>
  let x := payload.node.x
  let sum := walk5 x.shape (fun i1 i2 i3 i4 i5 sum =>
    A.add64 sum (mag_vsum_f64_f32 A x.shape.a0 x.base (row_offset x.strides i1 i2 i3 i4 i5)))
    A.zero64
  some (store br 0 (A.down (A.div64 sum (A.ofInt64 x.numel))))

/-- Source `mag_blas_min_f32`. -/
def mag_blas_min_f32 (A : FloatOps F32 F64) : Kernel F32 := fun payload br =>
  let x := payload.node.x
  let min := walk5 x.shape (fun i1 i2 i3 i4 i5 min =>
    A.fminf (mag_vmin_f32 A x.shape.a0 x.base (row_offset x.strides i1 i2 i3 i4 i5)) min)
    A.infinity
  some (store br 0 min)

/-- Source `mag_blas_max_f32`. -/
def mag_blas_max_f32 (A : FloatOps F32 F64) : Kernel F32 := fun payload br =>
  let x := payload.node.x
  let max := walk5 x.shape (fun i1 i2 i3 i4 i5 max =>
    A.fmaxf (mag_vmax_f32 A x.shape.a0 x.base (row_offset x.strides i1 i2 i3 i4 i5)) max)
    (A.neg A.infinity)
  some (store br 0 max)

/-- Source `mag_blas_sum_f32`. -/
def mag_blas_sum_f32 (A : FloatOps F32 F64) : Kernel F32 := fun payload br =>
  let x := payload.node.x
  let sum := walk5 x.shape (fun i1 i2 i3 i4 i5 sum =>
    A.add64 sum (mag_vsum_f64_f32 A x.shape.a0 x.base (row_offset x.strides i1 i2 i3 i4 i5)))
    A.zero64
  some (store br 0 (A.down sum))

/-- Source `mag_cpu_blas_impl_unary(T, name)`: the kernel generated for the vector primitive
`v = mag_v<name>_f32`. -/
def mag_cpu_blas_impl_unary (v : VecUnary F32) : Kernel F32 := fun payload br =>
  let r := payload.node
  let x := r.x
  (mag_slice_unary payload.thread_num payload.thread_idx r.numel).bind fun (ra, vmel) =>
    if vmel ≤ 0 then some br
    else v vmel br ra x.base ra

/-- Source `mag_cpu_blas_impl_unary_scalar(T, name)`: the kernel generated for the vector
primitive `v = mag_v<name>s_f32`. -/
def mag_cpu_blas_impl_unary_scalar
    (v : Nat → Buf F32 → Nat → Buf F32 → Nat → F32 → Buf F32) : Kernel F32 := fun payload br =>
  let r := payload.node
  let x := r.x
  let xi := r.xi
  (mag_slice_unary payload.thread_num payload.thread_idx r.numel).bind fun (ra, vmel) =>
    if vmel ≤ 0 then some br
    else some (v vmel br ra x.base ra xi)

/-- The index arithmetic at the head of both row loops of `mag_cpu_blas_impl_binary`: the outer
index `ri` is decomposed into `xi1 .. xi5`, reduced to `yi1 .. yi5`, and the three row pointers
`(pr, px, py)` are formed. -/
def mag_binary_row (rs xd xs yd ys : Arr6) (ri : Nat) : Option (Nat × Nat × Nat) :=
  let ro := ri
  and_then (cmod ro xd.a1) fun xi1 =>
  and_then (cdiv ro xd.a1) fun ro =>
  and_then (cmod ro xd.a2) fun xi2 =>
  and_then (cdiv ro xd.a2) fun ro =>
  and_then (cmod ro xd.a3) fun xi3 =>
  and_then (cdiv ro xd.a3) fun ro =>
  and_then (cmod ro xd.a4) fun xi4 =>
  and_then (cdiv ro xd.a4) fun ro =>
  let xi5 := ro
  and_then (cmod xi5 yd.a5) fun yi5 =>
  and_then (cmod xi4 yd.a4) fun yi4 =>
  and_then (cmod xi3 yd.a3) fun yi3 =>
  and_then (cmod xi2 yd.a2) fun yi2 =>
  and_then (cmod xi1 yd.a1) fun yi1 =>
  let pr := xi5 * rs.a5 + xi4 * rs.a4 + xi3 * rs.a3 + xi2 * rs.a2 + xi1 * rs.a1
  let px := xi5 * xs.a5 + xi4 * xs.a4 + xi3 * xs.a3 + xi2 * xs.a2 + xi1 * xs.a1
  let py := yi5 * ys.a5 + yi4 * ys.a4 + yi3 * ys.a3 + yi2 * ys.a2 + yi1 * ys.a1
  some (pr, px, py)

/-- One iteration of the row loop of the `ys0 == 1` branch of `mag_cpu_blas_impl_binary`:
`yor = xd0 / yd0` calls of the vector primitive on runs of `yd0` elements. -/
def mag_binary_fast_row (v : Nat → Buf F32 → Nat → Buf F32 → Nat → Buf F32 → Nat → Buf F32)
    (r : mag_node_t F32) (ri : Nat) (br : Buf F32) : Option (Buf F32) := do
  let (pr, px, py) ← mag_binary_row r.strides r.x.shape r.x.strides r.y.shape r.y.strides ri
  let yor ← cdiv r.x.shape.a0 r.y.shape.a0
  pure (forN (fun i b =>
    v r.y.shape.a0 b (pr + i * r.y.shape.a0) r.x.base (px + i * r.y.shape.a0) r.y.base py)
    0 yor br)

/-- One iteration of the row loop of the strided branch of `mag_cpu_blas_impl_binary`:
`for (i < rd0) pr[i] = px[i] op by[.. + i%yd0*ys0]`. -/
def mag_binary_strided_row (op : F32 → F32 → F32) (r : mag_node_t F32) (ri : Nat)
    (br : Buf F32) : Option (Buf F32) := do
  let (pr, px, py) ← mag_binary_row r.strides r.x.shape r.x.strides r.y.shape r.y.strides ri
  forNM (fun i b => do
    let m ← cmod i r.y.shape.a0
    pure (store b (pr + i) (op (r.x.base (px + i)) (r.y.base (py + m * r.y.strides.a0)))))
    0 r.shape.a0 br

/-- The `ys0 == 1` branch of `mag_cpu_blas_impl_binary` for the rows `[ra, rb)`. -/
def mag_binary_fast (v : Nat → Buf F32 → Nat → Buf F32 → Nat → Buf F32 → Nat → Buf F32)
    (r : mag_node_t F32) (ra rb : Nat) (br : Buf F32) : Option (Buf F32) :=
  forNM (mag_binary_fast_row v r) ra (rb - ra) br

/-- The strided branch of `mag_cpu_blas_impl_binary` for the rows `[ra, rb)`. -/
def mag_binary_strided (op : F32 → F32 → F32) (r : mag_node_t F32) (ra rb : Nat)
    (br : Buf F32) : Option (Buf F32) :=
  forNM (mag_binary_strided_row op r) ra (rb - ra) br

/-- Source `mag_cpu_blas_impl_binary(T, name, op)`: the kernel generated for the vector primitive
`v = mag_v<name>_f32` and the C operator `op`. -/
def mag_cpu_blas_impl_binary
    (v : Nat → Buf F32 → Nat → Buf F32 → Nat → Buf F32 → Nat → Buf F32)
    (op : F32 → F32 → F32) : Kernel F32 := fun payload br =>
  let r := payload.node
  let xd := r.x.shape
  let numel := xd.a5 * xd.a4 * xd.a3 * xd.a2 * xd.a1
  (mag_slice_rows payload.thread_num payload.thread_idx numel).bind fun (ra, rb) =>
    if r.y.strides.a0 = 1 then mag_binary_fast v r ra rb br
    else mag_binary_strided op r ra rb br

/-- The body of the row loop of `mag_blas_matmul_f32`: row `i` of `R` is zeroed, then
accumulated over `k` and `j`. -/
def mag_matmul_row (A : FloatOps F32 F64) (r : mag_node_t F32) (i : Nat) (br : Buf F32) :
    Buf F32 :=
  let b1 := forN (fun j b => store b (r.shape.a1 * i + j) A.zero) 0 r.y.shape.a1 br
  forN (fun k b =>
    forN (fun j b =>
      store b (r.shape.a1 * i + j)
        (A.add (b (r.shape.a1 * i + j))
          (A.mul (r.x.base (r.x.shape.a1 * i + k)) (r.y.base (r.y.shape.a1 * k + j)))))
      0 r.y.shape.a1 b)
    0 r.x.shape.a1 b1

/-- Source `mag_blas_matmul_f32`. -/
def mag_blas_matmul_f32 (A : FloatOps F32 F64) : Kernel F32 := fun payload br =>
  let r := payload.node
  if r.x.shape.a2 = 1 ∧ r.x.shape.a3 = 1 then
    if r.y.shape.a2 = 1 ∧ r.y.shape.a3 = 1 then
      (mag_slice_rows payload.thread_num payload.thread_idx r.x.shape.a0).map fun (ra, rb) =>
        forN (mag_matmul_row A r) ra (rb - ra) br
    else none
  else none

/-- Source `mag_blas_dispatch_table_forward`. -/
def mag_blas_dispatch_table_forward (A : FloatOps F32 F64) (lanes : Nat) : mag_op_t → Kernel F32
  | .NOP => mag_blas_nop
  | .CLONE => mag_blas_clone
  | .VIEW => mag_blas_nop
  | .TRANSPOSE => mag_blas_nop
  | .PERMUTE => mag_blas_nop
  | .MEAN => mag_blas_mean_f32 A
  | .MIN => mag_blas_min_f32 A
  | .MAX => mag_blas_max_f32 A
  | .SUM => mag_blas_sum_f32 A
  | .ABS => mag_cpu_blas_impl_unary (mag_vabs_f32 A)
  | .NEG => mag_cpu_blas_impl_unary (mag_vneg_f32 A)
  | .LOG => mag_cpu_blas_impl_unary (mag_vlog_f32 A lanes)
  | .SQR => mag_cpu_blas_impl_unary (mag_vsqr_f32 A)
  | .SQRT => mag_cpu_blas_impl_unary (mag_vsqrt_f32 A)
  | .SIN => mag_cpu_blas_impl_unary (mag_vsin_f32 A lanes)
  | .COS => mag_cpu_blas_impl_unary (mag_vcos_f32 A lanes)
  | .STEP => mag_cpu_blas_impl_unary (mag_vstep_f32 A)
  | .SOFTMAX => mag_cpu_blas_impl_unary (mag_vsoftmax_f32 A lanes)
  | .SOFTMAX_DV => mag_cpu_blas_impl_unary (mag_vsoftmax_dv_f32 A lanes)
  | .SIGMOID => mag_cpu_blas_impl_unary (mag_vsigmoid_f32 A lanes)
  | .SIGMOID_DV => mag_cpu_blas_impl_unary (mag_vsigmoid_dv_f32 A)
  | .HARD_SIGMOID => mag_cpu_blas_impl_unary (mag_vhard_sigmoid_f32 A)
  | .SILU => mag_cpu_blas_impl_unary (mag_vsilu_f32 A lanes)
  | .SILU_DV => mag_cpu_blas_impl_unary mag_vsilu_dv_f32
  | .TANH => mag_cpu_blas_impl_unary (mag_vtanh_f32 A lanes)
  | .TANH_DV => mag_cpu_blas_impl_unary (mag_vtanh_dv_f32 A)
  | .RELU => mag_cpu_blas_impl_unary (mag_vrelu_f32 A)
  | .RELU_DV => mag_cpu_blas_impl_unary (mag_vrelu_dv_f32 A)
  | .GELU => mag_cpu_blas_impl_unary (mag_vgelu_f32 A lanes)
  | .GELU_DV => mag_cpu_blas_impl_unary mag_vgelu_dv_f32
  | .ADD => mag_cpu_blas_impl_binary (mag_vadd_f32 A) A.add
  | .SUB => mag_cpu_blas_impl_binary (mag_vsub_f32 A) A.sub
  | .MUL => mag_cpu_blas_impl_binary (mag_vmul_f32 A) A.mul
  | .DIV => mag_cpu_blas_impl_binary (mag_vdiv_f32 A) A.div
  | .ADDS => mag_cpu_blas_impl_unary_scalar (mag_vadds_f32 A)
  | .SUBS => mag_cpu_blas_impl_unary_scalar (mag_vsubs_f32 A)
  | .MULS => mag_cpu_blas_impl_unary_scalar (mag_vmuls_f32 A)
  | .DIVS => mag_cpu_blas_impl_unary_scalar (mag_vdivs_f32 A)
  | .MATMUL => mag_blas_matmul_f32 A

/-- One kernel launch with the workers serialised: the kernel dispatched for the node is run
once for every worker index of `order`, in that order, with worker count `tc`, each run starting
from the output storage the previous one left. -/
def launch (A : FloatOps F32 F64) (lanes : Nat) (node : mag_node_t F32) (tc : Nat) :
    List Nat → Buf F32 → Option (Buf F32)
  | [], br => some br
  | ti :: rest, br =>
    (mag_blas_dispatch_table_forward A lanes node.op ⟨tc, ti, node⟩ br).bind
      (launch A lanes node tc rest)

/-! ### The unary and scalar-RHS kernels in place -/

/-- A unary vector primitive called with `o` and `x` pointing into one buffer: the element
count, the buffer, the offset of `o` and the offset of `x`. -/
abbrev VecUnaryAlias (F : Type) := Nat → Buf F → Nat → Nat → Option (Buf F)

/-- The scalar loop `for (i = 0; i < n; ++i) o[i] = f(x[i])` when `o` and `x` point into one
buffer: `x[i]` is read from the buffer as the earlier iterations left it. -/
def vec_map_alias {F : Type} (f : F → F) (n : Nat) (b : Buf F) (po px : Nat) : Buf F :=
  forN (fun i b => store b (po + i) (f (b (px + i)))) 0 n b

/-- The loops of `vec_map_simd` when `o` and `x` point into one buffer: each full vector is
loaded from the buffer as the earlier vectors left it, mapped by `g` and stored; the leftover
elements are read and stored one by one. -/
def vec_map_simd_alias {F : Type} (lanes : Nat) (g f : F → F) (n : Nat) (b : Buf F)
    (po px : Nat) : Buf F :=
  let nb := n / lanes
  let o1 := forN (fun k b =>
      forN (fun l c => store c (po + (k * lanes + l)) (g (b (px + (k * lanes + l))))) 0 lanes b)
    0 nb b
  forN (fun i b => store b (po + i) (f (b (px + i)))) (nb * lanes) (n - nb * lanes) o1

/-- The loop `for (i = 0; i < n; ++i) o[i] = x[i] op y` when `o` and `x` point into one
buffer. -/
def vec_scalar_alias {F : Type} (op : F → F → F) (n : Nat) (b : Buf F) (po px : Nat) (y : F) :
    Buf F :=
  forN (fun i b => store b (po + i) (op (b (px + i)) y)) 0 n b

/-- Source `mag_cpu_blas_impl_unary(T, name)` for a node whose input `x` lives in the storage of
the node itself: `bx` and `br` are the same pointer, so `px = pr = br + ra`. -/
def mag_cpu_blas_impl_unary_alias (v : VecUnaryAlias F32) : Kernel F32 := fun payload br =>
  let r := payload.node
  (mag_slice_unary payload.thread_num payload.thread_idx r.numel).bind fun (ra, vmel) =>
    if vmel ≤ 0 then some br
    else v vmel br ra ra

/-- Source `mag_cpu_blas_impl_unary_scalar(T, name)` for a node whose input `x` lives in the
storage of the node itself. -/
def mag_cpu_blas_impl_unary_scalar_alias
    (v : Nat → Buf F32 → Nat → Nat → F32 → Buf F32) : Kernel F32 := fun payload br =>
  let r := payload.node
  let xi := r.xi
  (mag_slice_unary payload.thread_num payload.thread_idx r.numel).bind fun (ra, vmel) =>
    if vmel ≤ 0 then some br
    else some (v vmel br ra ra xi)

/-- The entries of `mag_blas_dispatch_table_forward` for the unary and the scalar-RHS operators,
run in place: each kernel with the loops of its vector primitive reading the buffer they write.
`none` for the other operators. -/
def mag_blas_dispatch_table_alias (A : FloatOps F32 F64) (lanes : Nat) :
    mag_op_t → Option (Kernel F32)
  | .ABS => some (mag_cpu_blas_impl_unary_alias fun n b po px =>
      some (vec_map_alias A.fabsf n b po px))
  | .NEG => some (mag_cpu_blas_impl_unary_alias fun n b po px =>
      some (vec_map_alias A.neg n b po px))
  | .LOG => some (mag_cpu_blas_impl_unary_alias fun n b po px =>
      some (vec_map_simd_alias lanes A.simd_log A.logf n b po px))
  | .SQR => some (mag_cpu_blas_impl_unary_alias fun n b po px =>
      some (vec_map_alias (sqr_f32 A) n b po px))
  | .SQRT => some (mag_cpu_blas_impl_unary_alias fun n b po px =>
      some (vec_map_alias A.sqrtf n b po px))
  | .SIN => some (mag_cpu_blas_impl_unary_alias fun n b po px =>
      some (vec_map_simd_alias lanes A.simd_sin A.sinf n b po px))
  | .COS => some (mag_cpu_blas_impl_unary_alias fun n b po px =>
      some (vec_map_simd_alias lanes A.simd_cos A.cosf n b po px))
  | .STEP => some (mag_cpu_blas_impl_unary_alias fun n b po px =>
      some (vec_map_alias (step_f32 A) n b po px))
  | .SOFTMAX => some (mag_cpu_blas_impl_unary_alias fun n b po px =>
      some (vec_map_simd_alias lanes A.simd_expf A.expf n b po px))
  | .SOFTMAX_DV => some (mag_cpu_blas_impl_unary_alias fun n b po px =>
      some (vec_map_simd_alias lanes A.simd_expf A.expf n b po px))
  | .SIGMOID => some (mag_cpu_blas_impl_unary_alias fun n b po px =>
      some (vec_map_simd_alias lanes (sigmoid_lane A) (sigmoid_f32 A) n b po px))
  | .SIGMOID_DV => some (mag_cpu_blas_impl_unary_alias fun n b po px =>
      some (vec_map_alias (sigmoid_dv_f32 A) n b po px))
  | .HARD_SIGMOID => some (mag_cpu_blas_impl_unary_alias fun n b po px =>
      some (vec_map_alias (hard_sigmoid_f32 A) n b po px))
  | .SILU => some (mag_cpu_blas_impl_unary_alias fun n b po px =>
      some (vec_map_simd_alias lanes (silu_lane A) (silu_f32 A) n b po px))
  | .SILU_DV => some (mag_cpu_blas_impl_unary_alias fun n b _ _ => vec_panic n b)
  | .TANH => some (mag_cpu_blas_impl_unary_alias fun n b po px =>
      some (vec_map_simd_alias lanes A.simd_tanh A.tanhf n b po px))
  | .TANH_DV => some (mag_cpu_blas_impl_unary_alias fun n b po px =>
      some (vec_map_alias (tanh_dv_f32 A) n b po px))
  | .RELU => some (mag_cpu_blas_impl_unary_alias fun n b po px =>
      some (vec_map_alias (relu_f32 A) n b po px))
  | .RELU_DV => some (mag_cpu_blas_impl_unary_alias fun n b po px =>
      some (vec_map_alias (relu_dv_f32 A) n b po px))
  | .GELU => some (mag_cpu_blas_impl_unary_alias fun n b po px =>
      some (vec_map_simd_alias lanes (gelu_lane A) (gelu_f32 A) n b po px))
  | .GELU_DV => some (mag_cpu_blas_impl_unary_alias fun n b _ _ => vec_panic n b)
  | .ADDS => some (mag_cpu_blas_impl_unary_scalar_alias (vec_scalar_alias A.add))
  | .SUBS => some (mag_cpu_blas_impl_unary_scalar_alias (vec_scalar_alias A.sub))
  | .MULS => some (mag_cpu_blas_impl_unary_scalar_alias (vec_scalar_alias A.mul))
  | .DIVS => some (mag_cpu_blas_impl_unary_scalar_alias (vec_scalar_alias A.div))
  | _ => none

/-- One launch of the kernel `k` with the workers serialised, as `launch` does for the kernel
of the dispatch table. -/
def launch_kernel (k : Kernel F32) (node : mag_node_t F32) (tc : Nat) :
    List Nat → Buf F32 → Option (Buf F32)
  | [], br => some br
  | ti :: rest, br => (k ⟨tc, ti, node⟩ br).bind (launch_kernel k node tc rest)

/-- The node with the buffer `s` as the content of the storage of its input `x`. -/
def with_input {F : Type} (node : mag_node_t F) (s : Buf F) : mag_node_t F :=
  { op := node.op, numel := node.numel, shape := node.shape, strides := node.strides,
    x := { numel := node.x.numel, shape := node.x.shape, strides := node.x.strides, base := s },
    y := node.y, xi := node.xi }

/-! ### Vocabulary of the statements -/

/-- The pointwise function of each unary operator that has an implemented kernel, in scalar
semantics (library functions, no vector approximation). -/
def unary_fn (A : FloatOps F32 F64) : mag_op_t → Option (F32 → F32)
  | .ABS => some A.fabsf
  | .NEG => some A.neg
  | .LOG => some A.logf
  | .SQR => some (fun x => A.mul x x)
  | .SQRT => some A.sqrtf
  | .SIN => some A.sinf
  | .COS => some A.cosf
  | .STEP => some (fun x => if A.le A.zero x then A.one else A.zero)
  | .SOFTMAX => some A.expf
  | .SOFTMAX_DV => some A.expf
  | .SIGMOID => some (fun x => A.div A.one (A.add A.one (A.expf (A.neg x))))
  | .SIGMOID_DV => some (fun x => A.mul x (A.sub A.one x))
  | .HARD_SIGMOID => some (fun x => A.fminf A.one (A.fmaxf A.zero (A.div (A.add x A.three) A.six)))
  | .SILU => some (fun x => A.div x (A.add A.one (A.expf (A.neg x))))
  | .TANH => some A.tanhf
  | .TANH_DV => some (fun x => A.div A.one (A.mul (A.coshf x) (A.coshf x)))
  | .RELU => some (fun x => if A.lt A.zero x then x else A.zero)
  | .RELU_DV => some (fun x => if A.le x A.zero then A.zero else A.one)
  | .GELU => some (gelu_f32 A)
  | _ => none

/-- The unary operators whose vector primitive has an approximate SIMD path. -/
def has_simd_path : mag_op_t → Bool
  | .LOG | .SIN | .COS | .SOFTMAX | .SOFTMAX_DV | .SIGMOID | .SILU | .TANH | .GELU => true
  | _ => false

/-- The C operator of each broadcast-binary and scalar-RHS operator. -/
def binary_fn (A : FloatOps F32 F64) : mag_op_t → Option (F32 → F32 → F32)
  | .ADD | .ADDS => some A.add
  | .SUB | .SUBS => some A.sub
  | .MUL | .MULS => some A.mul
  | .DIV | .DIVS => some A.div
  | _ => none

/-- The operators dispatched to `mag_cpu_blas_impl_binary`. -/
def is_broadcast_binary : mag_op_t → Bool
  | .ADD | .SUB | .MUL | .DIV => true
  | _ => false

/-- The operators dispatched to `mag_cpu_blas_impl_unary_scalar`. -/
def is_scalar_rhs : mag_op_t → Bool
  | .ADDS | .SUBS | .MULS | .DIVS => true
  | _ => false

/-- The operators whose kernel is an aborting stub. -/
def is_stub : mag_op_t → Bool
  | .SILU_DV | .GELU_DV => true
  | _ => false

/-- The number of elements of a shape, the product of its six dimensions. -/
def Arr6.prod (d : Arr6) : Nat := d.a0 * d.a1 * d.a2 * d.a3 * d.a4 * d.a5

/-- The strides of a dense tensor of shape `d`: `strides[0] = 1` is the innermost and
`strides[k] = strides[k-1] * shape[k-1]`. -/
def dense_strides (d : Arr6) : Arr6 :=
  ⟨1, d.a0, d.a0 * d.a1, d.a0 * d.a1 * d.a2, d.a0 * d.a1 * d.a2 * d.a3,
    d.a0 * d.a1 * d.a2 * d.a3 * d.a4⟩

/-- The element offset of the logical index `i` under the strides `s`. -/
def offset6 (s i : Arr6) : Nat :=
  i.a0 * s.a0 + i.a1 * s.a1 + i.a2 * s.a2 + i.a3 * s.a3 + i.a4 * s.a4 + i.a5 * s.a5

/-- The logical index `i` lies within the shape `d`. -/
def in_shape (d i : Arr6) : Prop :=
  i.a0 < d.a0 ∧ i.a1 < d.a1 ∧ i.a2 < d.a2 ∧ i.a3 < d.a3 ∧ i.a4 < d.a4 ∧ i.a5 < d.a5

/-- The index into a broadcast operand of shape `e`: each coordinate is reduced modulo the
operand's extent. -/
def bcast_index (e i : Arr6) : Arr6 :=
  ⟨i.a0 % e.a0, i.a1 % e.a1, i.a2 % e.a2, i.a3 % e.a3, i.a4 % e.a4, i.a5 % e.a5⟩

/-- The decomposition of the outer index `ri` by the broadcast-binary kernel:
`xi1 = ri % d1`, `xi2 = ri / d1 % d2`, .., `xi5 = ri / d1 / d2 / d3 / d4`; coordinate 0 is
set to `i0`. -/
def outer_index (d : Arr6) (i0 ri : Nat) : Arr6 :=
  ⟨i0, ri % d.a1, ri / d.a1 % d.a2, ri / d.a1 / d.a2 % d.a3, ri / d.a1 / d.a2 / d.a3 % d.a4,
    ri / d.a1 / d.a2 / d.a3 / d.a4⟩

/-- The row pointers `(pr, px, py)` formed by the broadcast-binary kernel for the outer index
`ri`, when no remainder or quotient by zero arises. -/
def binary_row_ptrs (rs xd xs yd ys : Arr6) (ri : Nat) : Nat × Nat × Nat :=
  let u := outer_index xd 0 ri
  (u.a5 * rs.a5 + u.a4 * rs.a4 + u.a3 * rs.a3 + u.a2 * rs.a2 + u.a1 * rs.a1,
   u.a5 * xs.a5 + u.a4 * xs.a4 + u.a3 * xs.a3 + u.a2 * xs.a2 + u.a1 * xs.a1,
   u.a5 % yd.a5 * ys.a5 + u.a4 % yd.a4 * ys.a4 + u.a3 % yd.a3 * ys.a3 + u.a2 % yd.a2 * ys.a2
     + u.a1 % yd.a1 * ys.a1)

/-- The value the broadcast-binary kernel stores at offset `p` of a dense output whose rows
have `d0 = x.shape[0]` elements: row `p / d0`, column `p % d0`. -/
def binary_val {F : Type} (op : F → F → F) (r : mag_node_t F) (p : Nat) : F :=
  let d0 := r.x.shape.a0
  let q := binary_row_ptrs r.strides r.x.shape r.x.strides r.y.shape r.y.strides (p / d0)
  op (r.x.base (q.2.1 + p % d0)) (r.y.base (q.2.2 + p % d0 % r.y.shape.a0 * r.y.strides.a0))

/-- The element offset at which the broadcast-binary kernel reads `x` for the output offset `p`
of a dense output: the row pointer `px` of row `p / d0` plus the column `p % d0`. -/
def binary_x_offset {F : Type} (r : mag_node_t F) (p : Nat) : Nat :=
  (binary_row_ptrs r.strides r.x.shape r.x.strides r.y.shape r.y.strides (p / r.x.shape.a0)).2.1
    + p % r.x.shape.a0

/-- The element offset at which the broadcast-binary kernel reads `y` for the output offset `p`
of a dense output: the row pointer `py` of row `p / d0` plus `(i % e0) * ys0` for the column
`i = p % d0`. -/
def binary_y_offset {F : Type} (r : mag_node_t F) (p : Nat) : Nat :=
  (binary_row_ptrs r.strides r.x.shape r.x.strides r.y.shape r.y.strides (p / r.x.shape.a0)).2.2
    + p % r.x.shape.a0 % r.y.shape.a0 * r.y.strides.a0

/-- The standing assumptions on a broadcast-binary node under which no row aborts: dense output
of the shape of `x`, positive outer extents of `x` and positive extents of `y`. -/
structure BinaryOk {F : Type} (r : mag_node_t F) : Prop where
  shape_eq : r.shape = r.x.shape
  dense : r.strides = dense_strides r.shape
  d1 : 1 ≤ r.x.shape.a1
  d2 : 1 ≤ r.x.shape.a2
  d3 : 1 ≤ r.x.shape.a3
  d4 : 1 ≤ r.x.shape.a4
  e0 : 1 ≤ r.y.shape.a0
  e1 : 1 ≤ r.y.shape.a1
  e2 : 1 ≤ r.y.shape.a2
  e3 : 1 ≤ r.y.shape.a3
  e4 : 1 ≤ r.y.shape.a4
  e5 : 1 ≤ r.y.shape.a5

/-- Every extent of the shape is at least 1. -/
def all_pos (d : Arr6) : Prop :=
  1 ≤ d.a0 ∧ 1 ≤ d.a1 ∧ 1 ≤ d.a2 ∧ 1 ≤ d.a3 ∧ 1 ≤ d.a4 ∧ 1 ≤ d.a5

/-- Broadcast compatibility: every extent of `e` equals the extent of `d` or is 1. -/
def bcast_compat (d e : Arr6) : Prop :=
  (e.a0 = d.a0 ∨ e.a0 = 1) ∧ (e.a1 = d.a1 ∨ e.a1 = 1) ∧ (e.a2 = d.a2 ∨ e.a2 = 1) ∧
  (e.a3 = d.a3 ∨ e.a3 = 1) ∧ (e.a4 = d.a4 ∨ e.a4 = 1) ∧ (e.a5 = d.a5 ∨ e.a5 = 1)

instance (d : Arr6) : Decidable (all_pos d) := by
  unfold all_pos
  exact inferInstance

instance (d e : Arr6) : Decidable (bcast_compat d e) := by
  unfold bcast_compat
  exact inferInstance

instance (d i : Arr6) : Decidable (in_shape d i) := by
  unfold in_shape
  exact inferInstance

/-- The sum of `f 0, .., f (n-1)` accumulated in increasing index from the seed `z`. -/
def fold_sum {F : Type} (add : F → F → F) (z : F) (f : Nat → F) (n : Nat) : F :=
  (List.range n).foldl (fun acc k => add acc (f k)) z

/-- The value the matmul kernel leaves at offset `p` of `R`, for `K` columns of `X` and `N`
columns of `Y`: the products `X[i*K + k] * Y[k*N + j]` for row `i = p / N` and column
`j = p % N`, accumulated in increasing `k` from `0.0f`. -/
def matmul_val (A : FloatOps F32 F64) (x y : Buf F32) (K N p : Nat) : F32 :=
  fold_sum A.add A.zero (fun k => A.mul (x (K * (p / N) + k)) (y (N * k + p % N))) K

/-- The buffer `b` with every element at an offset in `[lo, hi)` replaced by `val`. -/
def fill {F : Type} (lo hi : Nat) (val : Nat → F) (b : Buf F) : Buf F :=
  fun p => if lo ≤ p ∧ p < hi then val p else b p

/-- The buffer `b` with every element at an offset `p` in `[lo, hi)` replaced by `h p (b p)`,
a function of the element that was there. -/
def pmap {F : Type} (lo hi : Nat) (h : Nat → F → F) (b : Buf F) : Buf F :=
  fun p => if lo ≤ p ∧ p < hi then h p (b p) else b p

/-- The effect `res` of a launch of `node` with `tc` workers: whatever the order of the workers
and the previous content of the output storage, the launch aborts when `res` is `none`, and
otherwise overwrites the elements at the offsets below `res.1` with the values `res.2`. -/
def launch_is (A : FloatOps F32 F64) (lanes : Nat) (node : mag_node_t F32) (tc : Nat)
    (res : Option (Nat × (Nat → F32))) : Prop :=
  ∀ order : List Nat, order.Perm (List.range tc) → ∀ br : Buf F32,
    launch A lanes node tc order br = res.map (fun e => fill 0 e.1 e.2 br)

/-- The sum the reduction kernels form over a dense tensor of `rows` rows of `d0` contiguous
elements: each row is summed in `double` from `0.0`, in increasing offset, and the row sums
are added in row order to an accumulator that starts at `0.0`. -/
def rows_sum (A : FloatOps F32 F64) (x : Buf F32) (d0 rows : Nat) : F64 :=
  fold_sum A.add64 A.zero64
    (fun row => fold_sum A.add64 A.zero64 (fun i => A.up (x (row * d0 + i))) d0) rows

/-- The number of rows the reduction kernels walk: the product of the extents 1 to 5. -/
def Arr6.rows (d : Arr6) : Nat := d.a1 * d.a2 * d.a3 * d.a4 * d.a5

/-- The facts about an order `le`, a binary selection `sel` and a seed `top` under which a fold
of `sel` from `top` computes an extremum: on values that compare to themselves (values that are
not NaN) `le` is transitive, `sel a b` is one of its operands and precedes both, and `top` is
the one value that every such value precedes. -/
structure ExtremumLaws {F : Type} (le : F → F → Bool) (sel : F → F → F) (top : F) : Prop where
  trans : ∀ a b c, le a b = true → le b c = true → le a c = true
  sel_mem : ∀ a b, le a a = true → le b b = true → sel a b = a ∨ sel a b = b
  sel_left : ∀ a b, le a a = true → le b b = true → le (sel a b) a = true
  sel_right : ∀ a b, le a a = true → le b b = true → le (sel a b) b = true
  top_self : le top top = true
  le_top : ∀ a, le a a = true → le a top = true
  top_le : ∀ a, le top a = true → a = top

/-- The IEEE-754 facts about `<=`, `fminf`, `fmaxf` and the infinities that the MIN and MAX
kernels rely on: `fminf` selects the smaller operand with seed `INFINITY`, `fmaxf` the larger
with seed `-INFINITY`. -/
structure MinMaxLaws (A : FloatOps F32 F64) : Prop where
  min_laws : ExtremumLaws A.le A.fminf A.infinity
  max_laws : ExtremumLaws (fun a b => A.le b a) A.fmaxf (A.neg A.infinity)

/-- The IEEE-754 facts about `double` accumulation that the exactness of MEAN on a constant
tensor rests on.  `val32` and `val64` give the rational value of a finite `float` and `double`
(`none` for an infinity or a NaN).  Conversions of a `float` and of an integer of at most `2^53`
to `double` are exact; a `double` sum or quotient whose exact value is that of some finite
`double` is that value (correct rounding), and so is the conversion to `float` of a `double`
whose value is that of a `float`; a multiple `k * q`, `k <= 2^29`, of a `float` value `q` (24
significant bits) has at most 53 significant bits and is the value of a `double`; two finite
`float` data of the same value other than zero are the same datum. -/
structure RoundingLaws (A : FloatOps F32 F64) (val32 : F32 → Option ℚ)
    (val64 : F64 → Option ℚ) : Prop where
  zero64 : val64 A.zero64 = some 0
  up : ∀ x q, val32 x = some q → val64 (A.up x) = some q
  ofInt64 : ∀ n : Nat, n ≤ 2 ^ 53 → val64 (A.ofInt64 n) = some (n : ℚ)
  add64 : ∀ a b d qa qb, val64 a = some qa → val64 b = some qb → val64 d = some (qa + qb) →
    val64 (A.add64 a b) = some (qa + qb)
  div64 : ∀ a b d qa qb, val64 a = some qa → val64 b = some qb → qb ≠ 0 →
    val64 d = some (qa / qb) → val64 (A.div64 a b) = some (qa / qb)
  down : ∀ d c q, val64 d = some q → val32 c = some q → val32 (A.down d) = some q
  multiples : ∀ c q (k : Nat), val32 c = some q → k ≤ 2 ^ 29 → ∃ d, val64 d = some ((k : ℚ) * q)
  inj32 : ∀ a b q, val32 a = some q → val32 b = some q → q ≠ 0 → a = b

/-- The data-model invariants of a node that its kernel relies on: the output of a
broadcast-binary node is dense, has the shape of `x`, and every extent of `y` equals that of `x`
or is 1; the output of a matmul node has as many columns as `y` (shapes `(M, K)`, `(K, N)` and
`(M, N)`).  Extents may be 0. -/
def node_ok {F : Type} (node : mag_node_t F) : Prop :=
  (is_broadcast_binary node.op = true →
    node.shape = node.x.shape ∧ node.strides = dense_strides node.shape ∧
      bcast_compat node.x.shape node.y.shape) ∧
  (node.op = .MATMUL → node.shape.a1 = node.y.shape.a1)

instance {F : Type} (node : mag_node_t F) : Decidable (node_ok node) := by
  unfold node_ok
  exact inferInstance

end Kernels

/-! ## Storage buffers -/

/-- The value of an unsigned 64-bit expression (`uintptr_t`, `size_t`, `uint64_t`): the
arithmetic wraps at `2^64`. -/
def wrap64 (n : Nat) : Nat := n % 2 ^ 64

/-- Source `mag_storage_buffer_t`, the data fields the CPU device sets: the base address
(`uintptr_t`), the size in bytes and the alignment. -/
structure mag_storage_buffer_t where
  /-- Address of the first byte. -/
  base : Nat
  /-- Size in bytes. -/
  size : Nat
  /-- Alignment of the block. -/
  alignment : Nat
deriving DecidableEq

/-- The byte memory of the process: host and device buffers of the CPU device live in the same
address space. -/
abbrev Mem (B : Type) := Nat → B

/-- C `memset(p, x, n)`: the `n` bytes from address `p` become `x`. -/
def memset {B : Type} (mem : Mem B) (p : Nat) (x : B) (n : Nat) : Mem B :=
  fun a => if p ≤ a ∧ a < p + n then x else mem a

/-- C `memcpy(dst, src, n)` for regions that do not overlap: byte `dst + i` becomes the byte at
`src + i`, for `i < n`. -/
def memcpy {B : Type} (mem : Mem B) (dst src n : Nat) : Mem B :=
  fun a => if dst ≤ a ∧ a < dst + n then mem (src + (a - dst)) else mem a

/-- Source `mag_cpu_buf_set`: `mag_assert2(base+offs <= base+size)`, then
`memset(base+offs, x, size-offs)`, all in unsigned 64-bit arithmetic. -/
def mag_cpu_buf_set {B : Type} (sto : mag_storage_buffer_t) (offs : Nat) (x : B) (mem : Mem B) :
    Option (Mem B) :=
  if wrap64 (sto.base + offs) ≤ wrap64 (sto.base + sto.size) then
    some (memset mem (wrap64 (sto.base + offs)) x (wrap64 (sto.size + 2 ^ 64 - offs)))
  else none

/-- Source `mag_cpu_buf_cpy_host_device`: `mag_assert2(base+offs+n <= base+size)`, then
`memcpy(base+offs, src, n)`. -/
def mag_cpu_buf_cpy_host_device {B : Type} (sto : mag_storage_buffer_t) (offs src n : Nat)
    (mem : Mem B) : Option (Mem B) :=
  if wrap64 (wrap64 (sto.base + offs) + n) ≤ wrap64 (sto.base + sto.size) then
    some (memcpy mem (wrap64 (sto.base + offs)) src n)
  else none

/-- Source `mag_cpu_buf_cpy_device_host`: `mag_assert2(base+offs+n <= base+size)`, then
`memcpy(dst, base+offs, n)`. -/
def mag_cpu_buf_cpy_device_host {B : Type} (sto : mag_storage_buffer_t) (offs dst n : Nat)
    (mem : Mem B) : Option (Mem B) :=
  if wrap64 (wrap64 (sto.base + offs) + n) ≤ wrap64 (sto.base + sto.size) then
    some (memcpy mem dst (wrap64 (sto.base + offs)) n)
  else none

/-- Source `mag_storage_buffer_t`, the function fields the CPU device sets: the operations
`set`, `cpy_host_device` (copy in) and `cpy_device_host` (copy out). -/
structure mag_storage_buffer_ops (B : Type) where
  /-- Field `set`. -/
  set : mag_storage_buffer_t → Nat → B → Mem B → Option (Mem B)
  /-- Field `cpy_host_device`. -/
  cpy_host_device : mag_storage_buffer_t → Nat → Nat → Nat → Mem B → Option (Mem B)
  /-- Field `cpy_device_host`. -/
  cpy_device_host : mag_storage_buffer_t → Nat → Nat → Nat → Mem B → Option (Mem B)

/-- Source `mag_cpu_alloc_storage`: `mag_assert2(size)`, then the descriptor is set up over the
block `mag_alloc_aligned(size, 16)` returned, whose address is `block`.  `none` when the
assertion fails. -/
def mag_cpu_alloc_storage {B : Type} (block size : Nat) :
    Option (mag_storage_buffer_t × mag_storage_buffer_ops B) :=
  if size = 0 then none
  else
    let align := 16
    some ({ base := block, size := size, alignment := align },
      { set := mag_cpu_buf_set, cpy_host_device := mag_cpu_buf_cpy_host_device,
        cpy_device_host := mag_cpu_buf_cpy_device_host })

/-! ## Thread pool -/

/-- The outcome of a pool operation: it returns, it aborts (failed assertion or fatal error in a
kernel), or it waits on the condition variable for ever. -/
inductive Run (α : Type)
  | done (a : α)
  | abort
  | blocked
deriving DecidableEq

/-- The result of an operation that returned, mapped by `f`. -/
def Run.map {α β : Type} (f : α → β) : Run α → Run β
  | .done a => .done (f a)
  | .abort => .abort
  | .blocked => .blocked

section Pool

variable {F32 F64 : Type}

/-- Source `mag_compute_payload_t` as a pool worker holds it: `node` is `NULL` (`none`) between
launches. -/
structure mag_worker_payload_t (F : Type) where
  /-- Field `thread_num`. -/
  thread_num : Nat
  /-- Field `thread_idx`. -/
  thread_idx : Nat
  /-- Field `node`, `none` for `NULL`. -/
  node : Option (mag_node_t F)

/-- Source `mag_worker_t`: the local phase, the payload, and whether an OS thread was spawned for
the worker (`thread != NULL`). -/
structure mag_worker_t (F : Type) where
  /-- Field `phase`. -/
  phase : Nat
  /-- Field `payload`. -/
  payload : mag_worker_payload_t F
  /-- Whether `thread` is set. -/
  thread : Bool

/-- Source `mag_threadpool_t`, without the mutex and the condition variable. -/
structure mag_threadpool_t (F : Type) where
  /-- Field `interrupt`. -/
  interrupt : Bool
  /-- Field `phase`. -/
  phase : Nat
  /-- Field `num_completed`. -/
  num_completed : Nat
  /-- Field `num_workers`. -/
  num_workers : Nat
  /-- The array `workers`. -/
  workers : List (mag_worker_t F)

/-- Source `mag_worker_await_work`, evaluated in one pool state: `none` while the wake condition
`interrupt || pool->phase > worker->phase` is false (the worker keeps waiting), else the returned
flag and the worker. -/
def mag_worker_await_work {F : Type} (worker : mag_worker_t F) (pool : mag_threadpool_t F) :
    Option (Bool × mag_worker_t F) :=
  if ¬ (pool.interrupt = true ∨ pool.phase > worker.phase) then none
  else if pool.interrupt = true then some (false, worker)
  else some (true, { worker with phase := pool.phase })

/-- Source `mag_worker_exec_thread_local`: runs the dispatched kernel when `payload->node` is set
and clears it.  `none` when the kernel aborts. -/
def mag_worker_exec_thread_local (A : FloatOps F32 F64) (lanes : Nat)
    (payload : mag_worker_payload_t F32) (br : Buf F32) :
    Option (mag_worker_payload_t F32 × Buf F32) :=
  match payload.node with
  | some node =>
    (mag_blas_dispatch_table_forward A lanes node.op
      ⟨payload.thread_num, payload.thread_idx, node⟩ br).map
      fun b => ({ payload with node := none }, b)
  | none => some (payload, br)

/-- Source `mag_worker_exec_and_broadcast`, called on the payload of worker `i` of the pool:
the kernel runs, then `++pool->num_completed`. -/
def mag_worker_exec_and_broadcast (A : FloatOps F32 F64) (lanes : Nat)
    (pool : mag_threadpool_t F32) (i : Nat) (br : Buf F32) :
    Option (mag_threadpool_t F32 × Buf F32) :=
  match pool.workers[i]? with
  | none => none
  | some w =>
    (mag_worker_exec_thread_local A lanes w.payload br).map fun r =>
      ({ pool with
          workers := pool.workers.set i { w with payload := r.1 },
          num_completed := wrap64 (pool.num_completed + 1) }, r.2)

/-- Source `mag_worker_thread_exec_op`, one turn of the thread of worker `i`: when
`mag_worker_await_work` returns true the worker executes and broadcasts; when it returns false
(the thread exits) or keeps waiting, nothing changes. -/
def mag_worker_thread_exec_op (A : FloatOps F32 F64) (lanes : Nat)
    (pool : mag_threadpool_t F32) (i : Nat) (br : Buf F32) :
    Option (mag_threadpool_t F32 × Buf F32) :=
  match pool.workers[i]? with
  | none => none
  | some w =>
    match mag_worker_await_work w pool with
    | some (true, w1) =>
      mag_worker_exec_and_broadcast A lanes { pool with workers := pool.workers.set i w1 } i br
    | _ => some (pool, br)

/-- Source `mag_worker_init`; the creation of the thread is taken to succeed. -/
def mag_worker_init {F : Type} (idx num_workers : Nat) (spawn_thread : Bool) : mag_worker_t F :=
  { phase := 0,
    payload := { thread_num := num_workers, thread_idx := idx, node := none },
    thread := spawn_thread }

/-- Source `mag_threadpool_create`: worker `i` spawns a thread exactly when `i > 0`. -/
def mag_threadpool_create {F : Type} (num_workers : Nat) : mag_threadpool_t F :=
  { interrupt := false, phase := 0, num_completed := 0, num_workers := num_workers,
    workers := (List.range num_workers).map fun i =>
      mag_worker_init i num_workers (decide (i > 0)) }

/-- Source `mag_threadpool_kickoff`. -/
def mag_threadpool_kickoff {F : Type} (pool : mag_threadpool_t F) (node : mag_node_t F) :
    mag_threadpool_t F :=
  { pool with
    workers := pool.workers.map fun w => { w with payload := { w.payload with node := some node } },
    phase := wrap64 (pool.phase + 1),
    num_completed := 0 }

/-- Source `mag_threadpool_barrier`, evaluated once every thread has taken its turn: the main
thread waits for ever unless `num_completed == num_workers`; with `MAG_DEBUG` (`debug`) it then
asserts `workers[i].phase == pool->phase` for every worker. -/
def mag_threadpool_barrier {F : Type} (debug : Bool) (pool : mag_threadpool_t F) :
    Run (mag_threadpool_t F) :=
  if pool.num_completed ≠ pool.num_workers then .blocked
  else if debug = true ∧ pool.workers.all (fun w => decide (w.phase = pool.phase)) = false then
    .abort
  else .done pool

/-- Source `mag_worker_destroy`: the payload's node is cleared; the join of the thread is taken
to succeed. -/
def mag_worker_destroy {F : Type} (worker : mag_worker_t F) : mag_worker_t F :=
  { worker with payload := { worker.payload with node := none } }

/-- Source `mag_threadpool_destroy`, the state it leaves before the memory is freed: under the
mutex `interrupt = true` and `++phase`, then every worker is destroyed. -/
def mag_threadpool_destroy {F : Type} (pool : mag_threadpool_t F) : mag_threadpool_t F :=
  { pool with
    interrupt := true,
    phase := wrap64 (pool.phase + 1),
    workers := pool.workers.map mag_worker_destroy }

/-- The turns of the threads between kickoff and barrier, serialised in the order `order`:
index 0 is the main thread, which calls `mag_worker_exec_and_broadcast` on the payload of
worker 0 without awaiting; an index `i > 0` is a turn of the thread of worker `i`. -/
def pool_turns (A : FloatOps F32 F64) (lanes : Nat) :
    List Nat → mag_threadpool_t F32 → Buf F32 → Option (mag_threadpool_t F32 × Buf F32)
  | [], pool, br => some (pool, br)
  | i :: rest, pool, br =>
    (if i = 0 then mag_worker_exec_and_broadcast A lanes pool 0 br
      else mag_worker_thread_exec_op A lanes pool i br).bind
      fun s => pool_turns A lanes rest s.1 s.2

/-- Source `mag_threadpool_parallel_compute`.  Without a pool the main thread runs the payload
`{node, thread_idx = 0, thread_num = 1}`; with a pool: kickoff, the turns of the threads in the
order `order`, barrier. -/
def mag_threadpool_parallel_compute (A : FloatOps F32 F64) (lanes : Nat) (debug : Bool)
    (pool : Option (mag_threadpool_t F32)) (node : mag_node_t F32) (order : List Nat)
    (br : Buf F32) : Run (Option (mag_threadpool_t F32) × Buf F32) :=
  match pool with
  | none =>
    match mag_worker_exec_thread_local A lanes ⟨1, 0, some node⟩ br with
    | none => .abort
    | some r => .done (none, r.2)
  | some p =>
    match pool_turns A lanes order (mag_threadpool_kickoff p node) br with
    | none => .abort
    | some s => (mag_threadpool_barrier debug s.1).map fun p1 => (some p1, s.2)

/-- The pool states reachable from `mag_threadpool_create(n)` by kernel launches: each launch is
a call of `mag_threadpool_parallel_compute` that returns, for any node, any order of the
threads' turns and any content of the output storage. -/
inductive Reachable (A : FloatOps F32 F64) (lanes : Nat) (debug : Bool) (n : Nat) :
    mag_threadpool_t F32 → Prop
  | create : Reachable A lanes debug n (mag_threadpool_create n)
  | launch (p p1 : mag_threadpool_t F32) (node : mag_node_t F32) (order : List Nat)
      (br b1 : Buf F32) :
      Reachable A lanes debug n p →
      mag_threadpool_parallel_compute A lanes debug (some p) node order br = .done (some p1, b1) →
      Reachable A lanes debug n p1

/-- The workers of the pool are indexed `0 .. n-1`: the pool has `n` workers, and worker `i`
carries `thread_idx = i` and `thread_num = n`. -/
def workers_indexed {F : Type} (n : Nat) (pool : mag_threadpool_t F) : Prop :=
  pool.num_workers = n ∧ pool.workers.length = n ∧
    ∀ (i : Nat) (w : mag_worker_t F), pool.workers[i]? = some w →
      w.payload.thread_idx = i ∧ w.payload.thread_num = n

/-- The pool `p1` differs from `p` at most in `num_completed` and in the phase and the
payload node of its workers: `phase`, `interrupt`, `num_workers`, the number of workers and
every worker's `thread_idx`, `thread_num` and thread are the same. -/
def pool_frame {F : Type} (p p1 : mag_threadpool_t F) : Prop :=
  p1.phase = p.phase ∧ p1.interrupt = p.interrupt ∧ p1.num_workers = p.num_workers ∧
    p1.workers.length = p.workers.length ∧
    ∀ (j : Nat) (w1 : mag_worker_t F), p1.workers[j]? = some w1 →
      ∃ w, p.workers[j]? = some w ∧ w1.payload.thread_idx = w.payload.thread_idx ∧
        w1.payload.thread_num = w.payload.thread_num ∧ w1.thread = w.thread

end Pool

/-! ## The CPU device -/

section Device

variable {F32 F64 : Type}

/-- Source `mag_ctx_t`, the one field the CPU device reads: `sys.cpu_virtual_cores`. -/
structure mag_ctx_t where
  /-- Field `sys.cpu_virtual_cores`. -/
  cpu_virtual_cores : Nat
deriving DecidableEq

/-- Source `mag_device_descriptor_t`, the field `thread_count`. -/
structure mag_device_descriptor_t where
  /-- Field `thread_count`; 0 asks for the hardware concurrency. -/
  thread_count : Nat
deriving DecidableEq

/-- Source `mag_compute_device_t`, the data fields the CPU device sets: `impl` (the thread pool,
`none` for `NULL`) and `is_async`. -/
structure mag_compute_device_t (F : Type) where
  /-- Field `impl`. -/
  impl : Option (mag_threadpool_t F)
  /-- Field `is_async`. -/
  is_async : Bool

/-- Source `mag_cpu_init_interface`: a pool is created when `num_threads > 1`. -/
def mag_cpu_init_interface {F : Type} (_ctx : mag_ctx_t) (num_threads : Nat) :
    mag_compute_device_t F :=
  { impl := if num_threads > 1 then some (mag_threadpool_create num_threads) else none,
    is_async := false }

/-- Source `mag_init_device_cpu`. -/
def mag_init_device_cpu {F : Type} (ctx : mag_ctx_t) (desc : mag_device_descriptor_t) :
    mag_compute_device_t F :=
  let hw_concurrency := mag_xmax 1 ctx.cpu_virtual_cores
  let num_threads := desc.thread_count
  let num_threads := if num_threads ≠ 0 then num_threads else hw_concurrency
  mag_cpu_init_interface ctx num_threads

/-- Source `mag_cpu_exec_fwd`: the node is handed to `mag_threadpool_parallel_compute` with the
pool of the device. -/
def mag_cpu_exec_fwd (A : FloatOps F32 F64) (lanes : Nat) (debug : Bool)
    (dvc : mag_compute_device_t F32) (node : mag_node_t F32) (order : List Nat) (br : Buf F32) :
    Run (Option (mag_threadpool_t F32) × Buf F32) :=
  mag_threadpool_parallel_compute A lanes debug dvc.impl node order br

/-- Source `mag_cpu_exec_bwd`: `mag_panic("NYI")`, whatever the device and the node. -/
def mag_cpu_exec_bwd {F : Type} (_dvc : mag_compute_device_t F) (_root : mag_node_t F)
    (_br : Buf F) : Run (Option (mag_threadpool_t F) × Buf F) :=
  .abort

end Device

/-! ## Tensors over shared storages -/

section Storages

variable {F32 F64 : Type}

/-- The storage buffers of the tensors, by storage reference: `storages s` is the content of
the storage `s`, viewed as `float` elements. -/
abbrev Storages (F : Type) := Nat → Buf F

/-- Source `mag_tensor_t` as an input of a node: the metadata the kernels read and the
reference `storage` to its storage buffer. -/
structure tensor_ref where
  /-- Field `numel`. -/
  numel : Nat
  /-- Field `shape`. -/
  shape : Arr6
  /-- Field `strides`. -/
  strides : Arr6
  /-- Field `storage`, a reference. -/
  storage : Nat
deriving DecidableEq

/-- Source `mag_tensor_t` as a node: the output tensor with the reference to its storage, its
operator, the inputs `op_inputs[0]`, `op_inputs[1]` and the scalar parameter. -/
structure node_ref (F : Type) where
  /-- Field `op`. -/
  op : mag_op_t
  /-- Field `numel`. -/
  numel : Nat
  /-- Field `shape`. -/
  shape : Arr6
  /-- Field `strides`. -/
  strides : Arr6
  /-- Field `storage`, a reference. -/
  storage : Nat
  /-- Input `op_inputs[0]`. -/
  x : tensor_ref
  /-- Input `op_inputs[1]`. -/
  y : tensor_ref
  /-- Scalar parameter `op_params->x.f32`. -/
  xi : F

/-- The input tensor with the content of its storage, as `mag_f32p` hands it to a kernel. -/
def tensor_ref.load {F : Type} (t : tensor_ref) (m : Storages F) : mag_tensor_t F :=
  { numel := t.numel, shape := t.shape, strides := t.strides, base := m t.storage }

/-- The node with the contents of the storages of its inputs. -/
def node_ref.load {F : Type} (n : node_ref F) (m : Storages F) : mag_node_t F :=
  { op := n.op, numel := n.numel, shape := n.shape, strides := n.strides,
    x := n.x.load m, y := n.y.load m, xi := n.xi }

/-- The assignment `p[i] = v` through a pointer into the storage `s`: the element at offset `i`
of that storage is replaced, every other storage is left alone. -/
def store_in {F : Type} (m : Storages F) (s i : Nat) (v : F) : Storages F :=
  Function.update m s (store (m s) i v)

/-- A kernel of the dispatch table acting on the storages: from the payload fields `thread_num`,
`thread_idx` and `node` and the storages to the storages it leaves, or `none` when it aborts.
Every load names the storage it reads and every store the storage it writes. -/
abbrev KernelRef (F : Type) := Nat → Nat → node_ref F → Storages F → Option (Storages F)

/-- A unary vector primitive `mag_v<name>_f32(n, o, x)` acting on the storages: `o` and `x` are
each given as a storage and an offset into it. -/
abbrev VecUnaryRef (F : Type) := Nat → Nat → Nat → Nat → Nat → Storages F → Option (Storages F)

/-- The scalar loop `for (i = 0; i < n; ++i) o[i] = f(x[i])`. -/
def vec_map_ref {F : Type} (f : F → F) (n so po sx px : Nat) (m : Storages F) : Storages F :=
  forN (fun i m => store_in m so (po + i) (f (m sx (px + i)))) 0 n m

/-- The loops of a primitive with an approximate vector path: each full vector is loaded, mapped
by the lane function `g` and stored; the leftover elements are mapped by `f` one by one. -/
def vec_map_simd_ref {F : Type} (lanes : Nat) (g f : F → F) (n so po sx px : Nat)
    (m : Storages F) : Storages F :=
  let nb := n / lanes
  let m1 := forN (fun k m =>
      forN (fun l c => store_in c so (po + (k * lanes + l)) (g (m sx (px + (k * lanes + l)))))
        0 lanes m)
    0 nb m
  forN (fun i m => store_in m so (po + i) (f (m sx (px + i)))) (nb * lanes) (n - nb * lanes) m1

/-- The loop `for (i = 0; i < n; ++i) mag_panic(...)` of an unimplemented derivative. -/
def vec_panic_ref {F : Type} (n : Nat) (m : Storages F) : Option (Storages F) :=
  if n = 0 then some m else none

/-- The loop `for (i = 0; i < n; ++i) o[i] = x[i] op y[i]`. -/
def vec_zip_ref {F : Type} (op : F → F → F) (n so po sx px sy py : Nat) (m : Storages F) :
    Storages F :=
  forN (fun i m => store_in m so (po + i) (op (m sx (px + i)) (m sy (py + i)))) 0 n m

/-- The loop `for (i = 0; i < n; ++i) o[i] = x[i] op y`. -/
def vec_scalar_ref {F : Type} (op : F → F → F) (n so po sx px : Nat) (y : F) (m : Storages F) :
    Storages F :=
  forN (fun i m => store_in m so (po + i) (op (m sx (px + i)) y)) 0 n m

/-- Source `mag_blas_nop`. -/
def mag_blas_nop_ref : KernelRef F32 := fun _ _ _ m => some m

/-- Source `mag_blas_clone`: after the shape assertion, `memcpy(b_r, b_x, ..)` of the `numel`
elements of `r`. -/
def mag_blas_clone_ref : KernelRef F32 := fun _ _ r m =>
  let x := r.x
  if mag_tensor_is_shape_eq x.shape r.shape then
    some (forN (fun i m => store_in m r.storage i (m x.storage i)) 0 r.numel m)
  else none

/-- Source `mag_blas_mean_f32`: the loop nest reads `b_x`, the one store is `*b_r = ..`. -/
def mag_blas_mean_f32_ref (A : FloatOps F32 F64) : KernelRef F32 := fun _ _ r m =>
  let x := r.x
  let sum := walk5 x.shape (fun i1 i2 i3 i4 i5 sum =>
    A.add64 sum (mag_vsum_f64_f32 A x.shape.a0 (m x.storage)
      (row_offset x.strides i1 i2 i3 i4 i5)))
    A.zero64
  some (store_in m r.storage 0 (A.down (A.div64 sum (A.ofInt64 x.numel))))

/-- Source `mag_blas_min_f32`. -/
def mag_blas_min_f32_ref (A : FloatOps F32 F64) : KernelRef F32 := fun _ _ r m =>
  let x := r.x
  let min := walk5 x.shape (fun i1 i2 i3 i4 i5 min =>
    A.fminf (mag_vmin_f32 A x.shape.a0 (m x.storage) (row_offset x.strides i1 i2 i3 i4 i5)) min)
    A.infinity
  some (store_in m r.storage 0 min)

/-- Source `mag_blas_max_f32`. -/
def mag_blas_max_f32_ref (A : FloatOps F32 F64) : KernelRef F32 := fun _ _ r m =>
  let x := r.x
  let max := walk5 x.shape (fun i1 i2 i3 i4 i5 max =>
    A.fmaxf (mag_vmax_f32 A x.shape.a0 (m x.storage) (row_offset x.strides i1 i2 i3 i4 i5)) max)
    (A.neg A.infinity)
  some (store_in m r.storage 0 max)

/-- Source `mag_blas_sum_f32`. -/
def mag_blas_sum_f32_ref (A : FloatOps F32 F64) : KernelRef F32 := fun _ _ r m =>
  let x := r.x
  let sum := walk5 x.shape (fun i1 i2 i3 i4 i5 sum =>
    A.add64 sum (mag_vsum_f64_f32 A x.shape.a0 (m x.storage)
      (row_offset x.strides i1 i2 i3 i4 i5)))
    A.zero64
  some (store_in m r.storage 0 (A.down sum))

/-- Source `mag_cpu_blas_impl_unary(T, name)`: `br = mag_f32p_mut(r)`, `bx = mag_f32p(x)`, and
the vector primitive is called on `br + ra` and `bx + ra`. -/
def mag_cpu_blas_impl_unary_ref (v : VecUnaryRef F32) : KernelRef F32 := fun tc ti r m =>
  let x := r.x
  (mag_slice_unary tc ti r.numel).bind fun (ra, vmel) =>
    if vmel ≤ 0 then some m
    else v vmel r.storage ra x.storage ra m

/-- Source `mag_cpu_blas_impl_unary_scalar(T, name)`. -/
def mag_cpu_blas_impl_unary_scalar_ref
    (v : Nat → Nat → Nat → Nat → Nat → F32 → Storages F32 → Storages F32) : KernelRef F32 :=
  fun tc ti r m =>
    let x := r.x
    let xi := r.xi
    (mag_slice_unary tc ti r.numel).bind fun (ra, vmel) =>
      if vmel ≤ 0 then some m
      else some (v vmel r.storage ra x.storage ra xi m)

/-- One iteration of the row loop of the `ys0 == 1` branch of `mag_cpu_blas_impl_binary`: the
vector primitive is called on `pr + i*yd0` in the storage of `r`, `px + i*yd0` in the storage
of `x` and `py` in the storage of `y`. -/
def mag_binary_fast_row_ref
    (v : Nat → Nat → Nat → Nat → Nat → Nat → Nat → Storages F32 → Storages F32)
    (r : node_ref F32) (ri : Nat) (m : Storages F32) : Option (Storages F32) := do
  let (pr, px, py) ← mag_binary_row r.strides r.x.shape r.x.strides r.y.shape r.y.strides ri
  let yor ← cdiv r.x.shape.a0 r.y.shape.a0
  pure (forN (fun i m =>
    v r.y.shape.a0 r.storage (pr + i * r.y.shape.a0) r.x.storage (px + i * r.y.shape.a0)
      r.y.storage py m)
    0 yor m)

/-- One iteration of the row loop of the strided branch of `mag_cpu_blas_impl_binary`:
`for (i < rd0) pr[i] = px[i] op by[.. + i%yd0*ys0]`. -/
def mag_binary_strided_row_ref (op : F32 → F32 → F32) (r : node_ref F32) (ri : Nat)
    (m : Storages F32) : Option (Storages F32) := do
  let (pr, px, py) ← mag_binary_row r.strides r.x.shape r.x.strides r.y.shape r.y.strides ri
  forNM (fun i m => do
    let k ← cmod i r.y.shape.a0
    pure (store_in m r.storage (pr + i)
      (op (m r.x.storage (px + i)) (m r.y.storage (py + k * r.y.strides.a0)))))
    0 r.shape.a0 m

/-- Source `mag_cpu_blas_impl_binary(T, name, op)`. -/
def mag_cpu_blas_impl_binary_ref
    (v : Nat → Nat → Nat → Nat → Nat → Nat → Nat → Storages F32 → Storages F32)
    (op : F32 → F32 → F32) : KernelRef F32 := fun tc ti r m =>
  let xd := r.x.shape
  let numel := xd.a5 * xd.a4 * xd.a3 * xd.a2 * xd.a1
  (mag_slice_rows tc ti numel).bind fun (ra, rb) =>
    if r.y.strides.a0 = 1 then forNM (mag_binary_fast_row_ref v r) ra (rb - ra) m
    else forNM (mag_binary_strided_row_ref op r) ra (rb - ra) m

/-- The body of the row loop of `mag_blas_matmul_f32`: `b_r[r_d1*i + j] = 0.0f` for the row,
then `b_r[r_d1*i + j] += b_x[x_d1*i + k] * b_y[y_d1*k + j]` over `k` and `j`. -/
def mag_matmul_row_ref (A : FloatOps F32 F64) (r : node_ref F32) (i : Nat) (m : Storages F32) :
    Storages F32 :=
  let m1 := forN (fun j m => store_in m r.storage (r.shape.a1 * i + j) A.zero) 0 r.y.shape.a1 m
  forN (fun k m =>
    forN (fun j m =>
      store_in m r.storage (r.shape.a1 * i + j)
        (A.add (m r.storage (r.shape.a1 * i + j))
          (A.mul (m r.x.storage (r.x.shape.a1 * i + k)) (m r.y.storage (r.y.shape.a1 * k + j)))))
      0 r.y.shape.a1 m)
    0 r.x.shape.a1 m1

/-- Source `mag_blas_matmul_f32`. -/
def mag_blas_matmul_f32_ref (A : FloatOps F32 F64) : KernelRef F32 := fun tc ti r m =>
  if r.x.shape.a2 = 1 ∧ r.x.shape.a3 = 1 then
    if r.y.shape.a2 = 1 ∧ r.y.shape.a3 = 1 then
      (mag_slice_rows tc ti r.x.shape.a0).map fun (ra, rb) =>
        forN (mag_matmul_row_ref A r) ra (rb - ra) m
    else none
  else none

/-- Source `mag_blas_dispatch_table_forward`, with the kernels acting on the storages. -/
def mag_blas_dispatch_table_ref (A : FloatOps F32 F64) (lanes : Nat) : mag_op_t → KernelRef F32
  | .NOP => mag_blas_nop_ref
  | .CLONE => mag_blas_clone_ref
  | .VIEW => mag_blas_nop_ref
  | .TRANSPOSE => mag_blas_nop_ref
  | .PERMUTE => mag_blas_nop_ref
  | .MEAN => mag_blas_mean_f32_ref A
  | .MIN => mag_blas_min_f32_ref A
  | .MAX => mag_blas_max_f32_ref A
  | .SUM => mag_blas_sum_f32_ref A
  | .ABS => mag_cpu_blas_impl_unary_ref fun n so po sx px m =>
      some (vec_map_ref A.fabsf n so po sx px m)
  | .NEG => mag_cpu_blas_impl_unary_ref fun n so po sx px m =>
      some (vec_map_ref A.neg n so po sx px m)
  | .LOG => mag_cpu_blas_impl_unary_ref fun n so po sx px m =>
      some (vec_map_simd_ref lanes A.simd_log A.logf n so po sx px m)
  | .SQR => mag_cpu_blas_impl_unary_ref fun n so po sx px m =>
      some (vec_map_ref (sqr_f32 A) n so po sx px m)
  | .SQRT => mag_cpu_blas_impl_unary_ref fun n so po sx px m =>
      some (vec_map_ref A.sqrtf n so po sx px m)
  | .SIN => mag_cpu_blas_impl_unary_ref fun n so po sx px m =>
      some (vec_map_simd_ref lanes A.simd_sin A.sinf n so po sx px m)
  | .COS => mag_cpu_blas_impl_unary_ref fun n so po sx px m =>
      some (vec_map_simd_ref lanes A.simd_cos A.cosf n so po sx px m)
  | .STEP => mag_cpu_blas_impl_unary_ref fun n so po sx px m =>
      some (vec_map_ref (step_f32 A) n so po sx px m)
  | .SOFTMAX => mag_cpu_blas_impl_unary_ref fun n so po sx px m =>
      some (vec_map_simd_ref lanes A.simd_expf A.expf n so po sx px m)
  | .SOFTMAX_DV => mag_cpu_blas_impl_unary_ref fun n so po sx px m =>
      some (vec_map_simd_ref lanes A.simd_expf A.expf n so po sx px m)
  | .SIGMOID => mag_cpu_blas_impl_unary_ref fun n so po sx px m =>
      some (vec_map_simd_ref lanes (sigmoid_lane A) (sigmoid_f32 A) n so po sx px m)
  | .SIGMOID_DV => mag_cpu_blas_impl_unary_ref fun n so po sx px m =>
      some (vec_map_ref (sigmoid_dv_f32 A) n so po sx px m)
  | .HARD_SIGMOID => mag_cpu_blas_impl_unary_ref fun n so po sx px m =>
      some (vec_map_ref (hard_sigmoid_f32 A) n so po sx px m)
  | .SILU => mag_cpu_blas_impl_unary_ref fun n so po sx px m =>
      some (vec_map_simd_ref lanes (silu_lane A) (silu_f32 A) n so po sx px m)
  | .SILU_DV => mag_cpu_blas_impl_unary_ref fun n _ _ _ _ m => vec_panic_ref n m
  | .TANH => mag_cpu_blas_impl_unary_ref fun n so po sx px m =>
      some (vec_map_simd_ref lanes A.simd_tanh A.tanhf n so po sx px m)
  | .TANH_DV => mag_cpu_blas_impl_unary_ref fun n so po sx px m =>
      some (vec_map_ref (tanh_dv_f32 A) n so po sx px m)
  | .RELU => mag_cpu_blas_impl_unary_ref fun n so po sx px m =>
      some (vec_map_ref (relu_f32 A) n so po sx px m)
  | .RELU_DV => mag_cpu_blas_impl_unary_ref fun n so po sx px m =>
      some (vec_map_ref (relu_dv_f32 A) n so po sx px m)
  | .GELU => mag_cpu_blas_impl_unary_ref fun n so po sx px m =>
      some (vec_map_simd_ref lanes (gelu_lane A) (gelu_f32 A) n so po sx px m)
  | .GELU_DV => mag_cpu_blas_impl_unary_ref fun n _ _ _ _ m => vec_panic_ref n m
  | .ADD => mag_cpu_blas_impl_binary_ref (vec_zip_ref A.add) A.add
  | .SUB => mag_cpu_blas_impl_binary_ref (vec_zip_ref A.sub) A.sub
  | .MUL => mag_cpu_blas_impl_binary_ref (vec_zip_ref A.mul) A.mul
  | .DIV => mag_cpu_blas_impl_binary_ref (vec_zip_ref A.div) A.div
  | .ADDS => mag_cpu_blas_impl_unary_scalar_ref (vec_scalar_ref A.add)
  | .SUBS => mag_cpu_blas_impl_unary_scalar_ref (vec_scalar_ref A.sub)
  | .MULS => mag_cpu_blas_impl_unary_scalar_ref (vec_scalar_ref A.mul)
  | .DIVS => mag_cpu_blas_impl_unary_scalar_ref (vec_scalar_ref A.div)
  | .MATMUL => mag_blas_matmul_f32_ref A

end Storages

/-! ## Two interpretations of the floating point primitives -/

/-- Extended rationals: the values on which arithmetic is exact, the two infinities and a
NaN. -/
inductive XR
  | nan
  | ninf
  | fin (q : ℚ)
  | pinf
deriving DecidableEq

namespace XR

/-- An exact binary operation on finite values; `nan` when an operand is not finite. -/
def lift2 (f : ℚ → ℚ → ℚ) : XR → XR → XR
  | fin a, fin b => fin (f a b)
  | _, _ => nan

/-- Exact division of finite values; `nan` for a zero divisor or an operand that is not
finite. -/
def div : XR → XR → XR
  | fin a, fin b => if b = 0 then nan else fin (a / b)
  | _, _ => nan

/-- Negation. -/
def neg : XR → XR
  | nan => nan
  | ninf => pinf
  | fin a => fin (-a)
  | pinf => ninf

/-- Absolute value. -/
def abs : XR → XR
  | nan => nan
  | ninf => pinf
  | fin a => fin |a|
  | pinf => pinf

/-- The comparison `<=`: false as soon as an operand is a NaN. -/
def le : XR → XR → Bool
  | nan, _ => false
  | _, nan => false
  | ninf, _ => true
  | _, pinf => true
  | fin a, fin b => decide (a ≤ b)
  | _, _ => false

/-- The comparison `<`: false as soon as an operand is a NaN. -/
def lt : XR → XR → Bool
  | nan, _ => false
  | _, nan => false
  | pinf, _ => false
  | _, ninf => false
  | fin a, fin b => decide (a < b)
  | _, _ => true

/-- The smaller operand; a NaN operand is ignored, as by `fminf`. -/
def fmin : XR → XR → XR
  | nan, b => b
  | a, nan => a
  | a, b => if le a b then a else b

/-- The larger operand; a NaN operand is ignored, as by `fmaxf`. -/
def fmax : XR → XR → XR
  | nan, b => b
  | a, nan => a
  | a, b => if le a b then b else a

end XR

/-- Exact arithmetic on extended rationals, `float` and `double` alike.  The library and vector
routines whose values are not rational in general are left without a value (`nan`). -/
def exactOps : FloatOps XR XR where
  zero := .fin 0
  one := .fin 1
  three := .fin 3
  six := .fin 6
  half := .fin (1 / 2)
  sqrt_2_div_pi := .fin (79788456080286535587989211986876 / 100000000000000000000000000000000)
  gelu_coeff := .fin (44715 / 1000000)
  infinity := .pinf
  add := XR.lift2 (· + ·)
  sub := XR.lift2 (· - ·)
  mul := XR.lift2 (· * ·)
  div := XR.div
  neg := XR.neg
  le := XR.le
  lt := XR.lt
  fabsf := XR.abs
  sqrtf := fun _ => .nan
  logf := fun _ => .nan
  sinf := fun _ => .nan
  cosf := fun _ => .nan
  expf := fun _ => .nan
  tanhf := fun _ => .nan
  coshf := fun _ => .nan
  fminf := XR.fmin
  fmaxf := XR.fmax
  simd_expf := fun _ => .nan
  simd_tanh := fun _ => .nan
  simd_sin := fun _ => .nan
  simd_cos := fun _ => .nan
  simd_log := fun _ => .nan
  zero64 := .fin 0
  add64 := XR.lift2 (· + ·)
  div64 := XR.div
  ofInt64 := fun n => .fin n
  up := id
  down := id

/-- Exact arithmetic on the rationals, `float` and `double` alike: the finite values, with
`fminf` and `fmaxf` the minimum and the maximum.  The library and vector routines whose values
are not rational in general are left at 0. -/
def qOps : FloatOps ℚ ℚ where
  zero := 0
  one := 1
  three := 3
  six := 6
  half := 1 / 2
  sqrt_2_div_pi := 79788456080286535587989211986876 / 100000000000000000000000000000000
  gelu_coeff := 44715 / 1000000
  infinity := 0
  add := fun a b => a + b
  sub := fun a b => a - b
  mul := fun a b => a * b
  div := fun a b => a / b
  neg := fun a => -a
  le := fun a b => decide (a ≤ b)
  lt := fun a b => decide (a < b)
  fabsf := fun a => |a|
  sqrtf := fun _ => 0
  logf := fun _ => 0
  sinf := fun _ => 0
  cosf := fun _ => 0
  expf := fun _ => 0
  tanhf := fun _ => 0
  coshf := fun _ => 0
  fminf := fun a b => min a b
  fmaxf := fun a b => max a b
  simd_expf := fun _ => 0
  simd_tanh := fun _ => 0
  simd_sin := fun _ => 0
  simd_cos := fun _ => 0
  simd_log := fun _ => 0
  zero64 := 0
  add64 := fun a b => a + b
  div64 := fun a b => a / b
  ofInt64 := fun n => (n : ℚ)
  up := id
  down := id

/-- Rounding of a rational to the nearest integer, ties to the even one. -/
def round_half_even (q : ℚ) : ℤ :=
  if q - ⌊q⌋ < 1 / 2 then ⌊q⌋
  else if 1 / 2 < q - ⌊q⌋ then ⌊q⌋ + 1
  else if ⌊q⌋ % 2 = 0 then ⌊q⌋ else ⌊q⌋ + 1

/-- Rounding to the nearest value with a significand of `p` bits, ties to even (the IEEE-754
default rounding, with an unbounded exponent): for `2^L <= |q| < 2^(L+1)` the unit in the last
place is `2^(L - (p - 1))` and `q` is rounded to the nearest multiple of it. -/
def rne (p : Nat) (q : ℚ) : ℚ :=
  if q = 0 then 0
  else
    let e := Int.log 2 |q| - ((p : ℤ) - 1)
    (round_half_even (q / 2 ^ e) : ℚ) * 2 ^ e

/-- IEEE-754 arithmetic on finite values: a `float` (binary32) and a `double` (binary64) are the
rational numbers they denote, and every operation is the exact one followed by `rne` to 24 or
53 significant bits.  Conversion of a `float` to `double` is exact.  Overflow, underflow,
infinities, NaN and the sign of zero are not represented; the library and vector routines are
left at 0 as in `qOps`. -/
def ieeeOps : FloatOps ℚ ℚ :=
  { qOps with
    sqrt_2_div_pi := rne 24 qOps.sqrt_2_div_pi,
    gelu_coeff := rne 24 qOps.gelu_coeff,
    add := fun a b => rne 24 (a + b),
    sub := fun a b => rne 24 (a - b),
    mul := fun a b => rne 24 (a * b),
    div := fun a b => rne 24 (a / b),
    add64 := fun a b => rne 53 (a + b),
    div64 := fun a b => rne 53 (a / b),
    ofInt64 := fun n => rne 53 (n : ℚ),
    up := id,
    down := rne 24 }

/-- The value of a datum of `ieeeOps` with `p` significant bits: the rational itself when it is
its own rounding to `p` bits. -/
def ieee_val (p : Nat) (x : ℚ) : Option ℚ := if rne p x = x then some x else none

/-- Names of the floating point primitives, for the symbolic interpretation. -/
inductive Prim
  | add | sub | mul | div | neg | fabsf | sqrtf | logf | sinf | cosf | expf | tanhf | coshf
  | fminf | fmaxf | simd_expf | simd_tanh | simd_sin | simd_cos | simd_log
  | add64 | div64 | up | down
deriving DecidableEq

/-- Symbolic values: an atom, or a primitive applied to symbolic values.  Two symbolic values
are equal exactly when they are built by the same primitives from the same atoms. -/
inductive Sym
  | atom (n : Nat)
  | un (p : Prim) (a : Sym)
  | bin (p : Prim) (a b : Sym)
deriving DecidableEq

/-- The symbolic interpretation: every primitive builds the term that names it, and a
comparison of symbolic values is false.  Atoms 0 to 7 are the constants. -/
def symOps : FloatOps Sym Sym where
  zero := .atom 0
  one := .atom 1
  three := .atom 2
  six := .atom 3
  half := .atom 4
  sqrt_2_div_pi := .atom 5
  gelu_coeff := .atom 6
  infinity := .atom 7
  add := .bin .add
  sub := .bin .sub
  mul := .bin .mul
  div := .bin .div
  neg := .un .neg
  le := fun _ _ => false
  lt := fun _ _ => false
  fabsf := .un .fabsf
  sqrtf := .un .sqrtf
  logf := .un .logf
  sinf := .un .sinf
  cosf := .un .cosf
  expf := .un .expf
  tanhf := .un .tanhf
  coshf := .un .coshf
  fminf := .bin .fminf
  fmaxf := .bin .fmaxf
  simd_expf := .un .simd_expf
  simd_tanh := .un .simd_tanh
  simd_sin := .un .simd_sin
  simd_cos := .un .simd_cos
  simd_log := .un .simd_log
  zero64 := .atom 0
  add64 := .bin .add64
  div64 := .bin .div64
  ofInt64 := fun n => .atom (100 + n)
  up := .un .up
  down := .un .down

/-! ## Concrete nodes -/

/-- A dense input tensor of the given shape over the listed elements. -/
def dense_input (d : Arr6) (l : List XR) : mag_tensor_t XR :=
  { numel := d.prod, shape := d, strides := dense_strides d, base := Buf.ofList l .nan }

/-- A node with a dense output of shape `d`, the operator `op`, the inputs `x` and `y` and the
scalar parameter `xi`. -/
def dense_node (op : mag_op_t) (d : Arr6) (x y : mag_tensor_t XR) (xi : XR) : mag_node_t XR :=
  { op := op, numel := d.prod, shape := d, strides := dense_strides d, x := x, y := y, xi := xi }

/-- An output storage whose elements are all NaN. -/
def blank : Buf XR := fun _ => .nan

/-- The vector `[-1, 0, 1]`. -/
def relu_input : mag_tensor_t XR := dense_input ⟨3, 1, 1, 1, 1, 1⟩ [.fin (-1), .fin 0, .fin 1]

/-- The node `RELU([-1, 0, 1])`. -/
def relu_node : mag_node_t XR := dense_node .RELU ⟨3, 1, 1, 1, 1, 1⟩ relu_input relu_input .nan

/-- The vector `[1, 2, 3]`. -/
def muls_input : mag_tensor_t XR := dense_input ⟨3, 1, 1, 1, 1, 1⟩ [.fin 1, .fin 2, .fin 3]

/-- The node `MULS([1, 2, 3], 2.5)`. -/
def muls_node : mag_node_t XR :=
  dense_node .MULS ⟨3, 1, 1, 1, 1, 1⟩ muls_input muls_input (.fin (5 / 2))

/-- The node `ADD([1, 2, 3, 4], [10, 20, 30, 40])`. -/
def add_node : mag_node_t XR :=
  dense_node .ADD ⟨4, 1, 1, 1, 1, 1⟩
    (dense_input ⟨4, 1, 1, 1, 1, 1⟩ [.fin 1, .fin 2, .fin 3, .fin 4])
    (dense_input ⟨4, 1, 1, 1, 1, 1⟩ [.fin 10, .fin 20, .fin 30, .fin 40]) .nan

/-- The node `ADD(x, y)` with `x.shape = (2, 3)`, `x = [[1, 2, 3], [4, 5, 6]]`,
`y.shape = (1, 3)` and `y = [[10, 20, 30]]`.  With dense strides the element `x(i0, i1)` lies at
offset `i0 + 2*i1`, so the storage of `x` reads `1, 4, 2, 5, 3, 6`; `y(0, i1)` lies at offset
`i1`. -/
def bcast_node : mag_node_t XR :=
  dense_node .ADD ⟨2, 3, 1, 1, 1, 1⟩
    (dense_input ⟨2, 3, 1, 1, 1, 1⟩ [.fin 1, .fin 4, .fin 2, .fin 5, .fin 3, .fin 6])
    (dense_input ⟨1, 3, 1, 1, 1, 1⟩ [.fin 10, .fin 20, .fin 30]) .nan

/-- The node `ADD(x, y)` with `x.shape = y.shape = r.shape = (0, 1, 1, 1, 1, 1)`, all dense: one
outer row of zero elements. -/
def empty_row_node : mag_node_t XR :=
  dense_node .ADD ⟨0, 1, 1, 1, 1, 1⟩ (dense_input ⟨0, 1, 1, 1, 1, 1⟩ [])
    (dense_input ⟨0, 1, 1, 1, 1, 1⟩ []) .nan

/-- The node `MATMUL(X, Y)` with `X = [[1, 2], [3, 4]]` and `Y = [[5, 6], [7, 8]]`, row-major. -/
def matmul_node : mag_node_t XR :=
  dense_node .MATMUL ⟨2, 2, 1, 1, 1, 1⟩
    (dense_input ⟨2, 2, 1, 1, 1, 1⟩ [.fin 1, .fin 2, .fin 3, .fin 4])
    (dense_input ⟨2, 2, 1, 1, 1, 1⟩ [.fin 5, .fin 6, .fin 7, .fin 8]) .nan

/-- The node `SUM(x)` with `x = [[1, 2], [3, 4]]` of shape `(2, 2)`. -/
def sum_node : mag_node_t XR :=
  dense_node .SUM ⟨1, 1, 1, 1, 1, 1⟩
    (dense_input ⟨2, 2, 1, 1, 1, 1⟩ [.fin 1, .fin 2, .fin 3, .fin 4])
    (dense_input ⟨2, 2, 1, 1, 1, 1⟩ [.fin 1, .fin 2, .fin 3, .fin 4]) .nan

/-- A vector of 1000 elements, all `1.0`. -/
def ones_input : mag_tensor_t ℚ :=
  { numel := 1000, shape := ⟨1000, 1, 1, 1, 1, 1⟩, strides := dense_strides ⟨1000, 1, 1, 1, 1, 1⟩,
    base := fun _ => 1 }

/-- The node `MEAN(x)` over the vector of 1000 ones. -/
def mean_node : mag_node_t ℚ :=
  { op := .MEAN, numel := 1, shape := ⟨1, 1, 1, 1, 1, 1⟩,
    strides := dense_strides ⟨1, 1, 1, 1, 1, 1⟩, x := ones_input, y := ones_input, xi := 0 }

/-- The largest `float` below `2.0`: `2 - 2^-23`, with the significand `2^24 - 1`. -/
def near_two : ℚ := 2 - 1 / 8388608

/-- A vector of `2^31` elements, all `near_two`. -/
def near_two_input : mag_tensor_t ℚ :=
  { numel := 2147483648, shape := ⟨2147483648, 1, 1, 1, 1, 1⟩,
    strides := dense_strides ⟨2147483648, 1, 1, 1, 1, 1⟩, base := fun _ => near_two }

/-- The node `MEAN(x)` over the vector of `2^31` elements `near_two`. -/
def near_two_mean_node : mag_node_t ℚ :=
  { op := .MEAN, numel := 1, shape := ⟨1, 1, 1, 1, 1, 1⟩,
    strides := dense_strides ⟨1, 1, 1, 1, 1, 1⟩, x := near_two_input, y := near_two_input,
    xi := 0 }

/-- The vector `[3, 1, 2]`. -/
def minmax_input : mag_tensor_t XR := dense_input ⟨3, 1, 1, 1, 1, 1⟩ [.fin 3, .fin 1, .fin 2]

/-- The node `MIN([3, 1, 2])`. -/
def min_node : mag_node_t XR :=
  dense_node .MIN ⟨1, 1, 1, 1, 1, 1⟩ minmax_input minmax_input .nan

/-- The node `MAX([3, 1, 2])`. -/
def max_node : mag_node_t XR :=
  dense_node .MAX ⟨1, 1, 1, 1, 1, 1⟩ minmax_input minmax_input .nan

/-- An output storage of symbolic values: element `p` is the atom `1000 + p`. -/
def sym_blank : Buf Sym := fun p => .atom (1000 + p)

/-- The vector of the five atoms `10, ..., 14`. -/
def sym_input : mag_tensor_t Sym :=
  { numel := 5, shape := ⟨5, 1, 1, 1, 1, 1⟩, strides := dense_strides ⟨5, 1, 1, 1, 1, 1⟩,
    base := fun i => .atom (10 + i) }

/-- The node `TANH(x)` over the five atoms, in the symbolic interpretation. -/
def tanh_sym_node : mag_node_t Sym :=
  { op := .TANH, numel := 5, shape := ⟨5, 1, 1, 1, 1, 1⟩,
    strides := dense_strides ⟨5, 1, 1, 1, 1, 1⟩, x := sym_input, y := sym_input, xi := .atom 0 }

/-- The node `SILU_DV([2])`: one element. -/
def silu_dv_node : mag_node_t XR :=
  dense_node .SILU_DV ⟨1, 1, 1, 1, 1, 1⟩ (dense_input ⟨1, 1, 1, 1, 1, 1⟩ [.fin 2])
    (dense_input ⟨1, 1, 1, 1, 1, 1⟩ [.fin 2]) .nan

/-- The node `CLONE([1, 2, 3])`. -/
def clone_node : mag_node_t XR := dense_node .CLONE ⟨3, 1, 1, 1, 1, 1⟩ muls_input muls_input .nan

/-- The node `CLONE(x)` with `x` of shape `(3)` and an output of shape `(2)`. -/
def clone_mismatch_node : mag_node_t XR :=
  dense_node .CLONE ⟨2, 1, 1, 1, 1, 1⟩ muls_input muls_input .nan

/-- A storage buffer of 16 bytes at address 4096. -/
def small_storage : mag_storage_buffer_t := { base := 4096, size := 16, alignment := 16 }

/-- A memory whose byte at address `a` is `a % 251`. -/
def ramp_memory : Mem Nat := fun a => a % 251

/-- A pool of two workers, as created. -/
def pool_of_two : mag_threadpool_t XR := mag_threadpool_create 2

/-- The node `SIGMOID_DV([0])`: one element. -/
def sigmoid_dv_node : mag_node_t XR :=
  dense_node .SIGMOID_DV ⟨1, 1, 1, 1, 1, 1⟩ (dense_input ⟨1, 1, 1, 1, 1, 1⟩ [.fin 0])
    (dense_input ⟨1, 1, 1, 1, 1, 1⟩ [.fin 0]) .nan

/-- Three storages: storage 0 holds NaN, storage 1 holds `1, 2, 3, 4` and storage 2 holds
`10, 20, 30, 40`. -/
def three_storages : Storages XR := fun s =>
  if s = 1 then Buf.ofList [.fin 1, .fin 2, .fin 3, .fin 4] .nan
  else if s = 2 then Buf.ofList [.fin 10, .fin 20, .fin 30, .fin 40] .nan
  else blank

/-- The node `ADD(x, y)` over four elements, with `x` in storage 1, `y` in storage 2 and the
output in storage 0. -/
def add_ref : node_ref XR :=
  { op := .ADD, numel := 4, shape := ⟨4, 1, 1, 1, 1, 1⟩,
    strides := dense_strides ⟨4, 1, 1, 1, 1, 1⟩, storage := 0,
    x := { numel := 4, shape := ⟨4, 1, 1, 1, 1, 1⟩,
           strides := dense_strides ⟨4, 1, 1, 1, 1, 1⟩, storage := 1 },
    y := { numel := 4, shape := ⟨4, 1, 1, 1, 1, 1⟩,
           strides := dense_strides ⟨4, 1, 1, 1, 1, 1⟩, storage := 2 },
    xi := .nan }

theorem spec_chunk_eq (numel tc : Nat) (htc : 1 ≤ tc) :
    spec_chunk numel tc = (numel + tc - 1) / tc := by
  unfold spec_chunk
  have hq : (0 : ℚ) < (tc : ℚ) := by exact_mod_cast htc
  apply le_antisymm
  · rw [Nat.ceil_le, div_le_iff₀ hq]
    have h : numel ≤ (numel + tc - 1) / tc * tc := by
      have h1 := Nat.div_add_mod (numel + tc - 1) tc
      have h2 := Nat.mod_lt (numel + tc - 1) htc
      rw [Nat.mul_comm]
      generalize tc * ((numel + tc - 1) / tc) = m at h1 ⊢
      omega
    exact_mod_cast h
  · have hc : (numel : ℚ) ≤ (Nat.ceil ((numel : ℚ) / (tc : ℚ)) : ℚ) * tc := by
      have := Nat.le_ceil ((numel : ℚ) / (tc : ℚ))
      rwa [div_le_iff₀ hq] at this
    have hc2 : numel ≤ Nat.ceil ((numel : ℚ) / (tc : ℚ)) * tc := by exact_mod_cast hc
    rw [Nat.div_le_iff_le_mul_add_pred htc]
    rw [Nat.mul_comm] at hc2
    generalize tc * Nat.ceil ((numel : ℚ) / (tc : ℚ)) = m at hc2 ⊢
    omega

theorem le_chunk_mul (numel tc : Nat) (htc : 1 ≤ tc) : numel ≤ (numel + tc - 1) / tc * tc := by
  have h1 := Nat.div_add_mod (numel + tc - 1) tc
  have h2 := Nat.mod_lt (numel + tc - 1) htc
  rw [Nat.mul_comm]
  generalize tc * ((numel + tc - 1) / tc) = m at h1 ⊢
  omega

theorem mag_xmin_eq (a b : Nat) : mag_xmin a b = min a b := by
  unfold mag_xmin
  split <;> omega

theorem cdiv_pos (a b : Nat) (hb : 1 ≤ b) : cdiv a b = some (a / b) := by
  unfold cdiv
  rw [if_neg (by omega)]

theorem cmod_pos (a b : Nat) (hb : 1 ≤ b) : cmod a b = some (a % b) := by
  unfold cmod
  rw [if_neg (by omega)]

theorem mag_slice_unary_eq (tc ti numel : Nat) (htc : 1 ≤ tc) :
    mag_slice_unary tc ti numel =
      some (ti * ((numel + tc - 1) / tc),
        min (ti * ((numel + tc - 1) / tc) + (numel + tc - 1) / tc) numel
          - ti * ((numel + tc - 1) / tc)) := by
  unfold mag_slice_unary
  rw [cdiv_pos _ _ htc]
  simp only [Option.map_some', mag_xmin_eq]
  congr 2
  split <;> omega

theorem mag_slice_rows_eq (tc ti numel : Nat) (htc : 1 ≤ tc) :
    mag_slice_rows tc ti numel =
      some (ti * ((numel + tc - 1) / tc),
        min (ti * ((numel + tc - 1) / tc) + (numel + tc - 1) / tc) numel) := by
  unfold mag_slice_rows
  rw [cdiv_pos _ _ htc]
  simp only [Option.map_some', mag_xmin_eq, Nat.mul_comm]

/-- Membership of an index in the slice of worker `t`, for chunk size `c`. -/
theorem slice_mem_iff (numel c tc : Nat) (hc : numel ≤ c * tc) (i : Nat) :
    i < numel ↔ ∃ t, t < tc ∧ t * c ≤ i ∧ i < min (t * c + c) numel := by
  constructor
  · intro hi
    have hcpos : 0 < c := by
      rcases Nat.eq_zero_or_pos c with h | h
      · subst h; omega
      · exact h
    refine ⟨i / c, ?_, ?_, ?_⟩
    · rw [Nat.div_lt_iff_lt_mul hcpos]
      rw [Nat.mul_comm]
      omega
    · exact Nat.div_mul_le_self i c
    · have h1 := Nat.div_add_mod i c
      have h2 := Nat.mod_lt i hcpos
      rw [Nat.mul_comm] at h1
      generalize i / c * c = m at h1 ⊢
      omega
  · rintro ⟨t, _, _, h⟩
    omega

theorem slice_disjoint (numel c t u i : Nat) (ht1 : t * c ≤ i) (ht2 : i < min (t * c + c) numel)
    (hu1 : u * c ≤ i) (hu2 : i < min (u * c + c) numel) : t = u := by
  have e1 : i / c = t := Nat.div_eq_of_lt_le ht1 (by rw [Nat.add_mul]; omega)
  have e2 : i / c = u := Nat.div_eq_of_lt_le hu1 (by rw [Nat.add_mul]; omega)
  omega

/-- C4. With `chunk = ceil(numel / tc)`, `start_t = t*chunk` and
`end_t = min(start_t + chunk, numel)`, the ranges `[start_t, end_t)` of the workers
`t = 0 .. tc-1` cover exactly `[0, numel)` and are pairwise disjoint; the slice computed by the
unary and scalar-RHS kernels is `[start_t, start_t + (end_t - start_t))` and the slice computed
by the broadcast-binary and matmul kernels is `[start_t, end_t)`. -/
theorem partition_exact (numel tc : Nat) (htc : 1 ≤ tc) :
    (∀ i, i < numel ↔
      ∃ t, t < tc ∧ spec_start numel tc t ≤ i ∧ i < spec_end numel tc t) ∧
    (∀ t u i, spec_start numel tc t ≤ i → i < spec_end numel tc t →
      spec_start numel tc u ≤ i → i < spec_end numel tc u → t = u) ∧
    (∀ t, mag_slice_unary tc t numel =
      some (spec_start numel tc t, spec_end numel tc t - spec_start numel tc t)) ∧
    (∀ t, mag_slice_rows tc t numel = some (spec_start numel tc t, spec_end numel tc t)) := by
  simp only [spec_start, spec_end, spec_chunk_eq numel tc htc]
  refine ⟨?_, ?_, ?_, ?_⟩
  · intro i
    exact slice_mem_iff numel _ tc (le_chunk_mul numel tc htc) i
  · intro t u i h1 h2 h3 h4
    exact slice_disjoint numel _ t u i h1 h2 h3 h4
  · intro t
    exact mag_slice_unary_eq tc t numel htc
  · intro t
    exact mag_slice_rows_eq tc t numel htc

/-- Witness for C4: ten elements over four workers. -/
theorem partition_exact_witness :
    1 ≤ 4 ∧
    ((∀ i, i < 10 ↔ ∃ t, t < 4 ∧ spec_start 10 4 t ≤ i ∧ i < spec_end 10 4 t) ∧
    (∀ t u i, spec_start 10 4 t ≤ i → i < spec_end 10 4 t →
      spec_start 10 4 u ≤ i → i < spec_end 10 4 u → t = u) ∧
    (∀ t, mag_slice_unary 4 t 10 =
      some (spec_start 10 4 t, spec_end 10 4 t - spec_start 10 4 t)) ∧
    (∀ t, mag_slice_rows 4 t 10 = some (spec_start 10 4 t, spec_end 10 4 t))) :=
  ⟨by decide, partition_exact 10 4 (by decide)⟩

/-! ## Loops and buffers: proofs -/

section LoopLemmas

variable {F : Type} {σ : Type}

theorem forN_succ_last (body : Nat → σ → σ) (lo n : Nat) (s : σ) :
    forN body lo (n + 1) s = body (lo + n) (forN body lo n s) := by
  induction n generalizing lo s with
  | zero => simp [forN]
  | succ n ih =>
    rw [forN, ih (lo + 1) (body lo s)]
    have e : lo + 1 + n = lo + (n + 1) := by omega
    rw [e]
    rfl

theorem forN_congr (body body2 : Nat → σ → σ) (lo n : Nat) (s : σ)
    (h : ∀ i, lo ≤ i → i < lo + n → ∀ t, body i t = body2 i t) :
    forN body lo n s = forN body2 lo n s := by
  induction n generalizing lo s with
  | zero => simp [forN]
  | succ n ih =>
    rw [forN, forN, h lo (le_refl _) (by omega) s]
    apply ih
    intro i h1 h2 t
    exact h i (by omega) (by omega) t

theorem forN_append (body : Nat → σ → σ) (lo n m : Nat) (s : σ) :
    forN body lo (n + m) s = forN body (lo + n) m (forN body lo n s) := by
  induction m with
  | zero => simp [forN]
  | succ m ih =>
    rw [← Nat.add_assoc, forN_succ_last, forN_succ_last, ih, Nat.add_assoc]

theorem forNM_pure (body : Nat → σ → Option σ) (pbody : Nat → σ → σ) (lo n : Nat) (s : σ)
    (h : ∀ i, lo ≤ i → i < lo + n → ∀ t, body i t = some (pbody i t)) :
    forNM body lo n s = some (forN pbody lo n s) := by
  induction n generalizing lo s with
  | zero => simp [forNM, forN]
  | succ n ih =>
    rw [forNM, forN, h lo (le_refl _) (by omega) s, Option.some_bind]
    apply ih
    intro i h1 h2 t
    exact h i (by omega) (by omega) t

theorem forNM_none (body : Nat → σ → Option σ) (lo n : Nat) (s : σ) (hn : 0 < n)
    (h : ∀ t, body lo t = none) : forNM body lo n s = none := by
  cases n with
  | zero => omega
  | succ n => rw [forNM, h s]; rfl

theorem fill_empty (lo hi : Nat) (val : Nat → F) (b : Buf F) (h : hi ≤ lo) :
    fill lo hi val b = b := by
  funext p
  unfold fill
  rw [if_neg (by omega)]

theorem fill_congr (lo hi : Nat) (val val2 : Nat → F) (b : Buf F)
    (h : ∀ p, lo ≤ p → p < hi → val p = val2 p) : fill lo hi val b = fill lo hi val2 b := by
  funext p
  unfold fill
  split
  · rename_i hp
    exact h p hp.1 hp.2
  · rfl

theorem fill_fill (lo mid hi : Nat) (val : Nat → F) (b : Buf F) (h1 : lo ≤ mid)
    (h2 : mid ≤ hi) : fill mid hi val (fill lo mid val b) = fill lo hi val b := by
  funext p
  unfold fill
  by_cases c1 : mid ≤ p ∧ p < hi
  · rw [if_pos c1, if_pos (by omega)]
  · rw [if_neg c1]
    by_cases c2 : lo ≤ p ∧ p < mid
    · rw [if_pos c2, if_pos (by omega)]
    · rw [if_neg c2, if_neg (by omega)]

theorem store_fill (lo hi : Nat) (val : Nat → F) (b : Buf F) (h : lo ≤ hi) :
    store (fill lo hi val b) hi (val hi) = fill lo (hi + 1) val b := by
  funext p
  unfold store fill
  by_cases c1 : p = hi
  · subst c1
    rw [if_pos rfl, if_pos (by omega)]
  · rw [if_neg c1]
    by_cases c2 : lo ≤ p ∧ p < hi
    · rw [if_pos c2, if_pos (by omega)]
    · rw [if_neg c2, if_neg (by omega)]

/-- A loop of stores to consecutive offsets, with values that do not depend on the buffer,
overwrites a range. -/
theorem forN_store_fill (v : Nat → F) (base lo n : Nat) (b : Buf F) :
    forN (fun i b => store b (base + i) (v i)) lo n b =
      fill (base + lo) (base + lo + n) (fun p => v (p - base)) b := by
  induction n with
  | zero => rw [fill_empty _ _ _ _ (by omega)]; rfl
  | succ n ih =>
    rw [forN_succ_last, ih]
    have e : v (lo + n) = (fun p => v (p - base)) (base + lo + n) := by
      show v (lo + n) = v (base + lo + n - base)
      congr 1
      omega
    rw [e, ← Nat.add_assoc, store_fill (base + lo) (base + lo + n) _ b (by omega)]
    rfl

theorem vec_map_eq_fill (f : F → F) (n : Nat) (o : Buf F) (po : Nat) (x : Buf F) (px : Nat) :
    vec_map f n o po x px = fill po (po + n) (fun p => f (x (px + (p - po)))) o := by
  unfold vec_map
  rw [forN_store_fill (fun i => f (x (px + i))) po 0 n o]
  rfl

theorem vec_map_simd_zero (g f : F → F) (n : Nat) (o : Buf F) (po : Nat) (x : Buf F)
    (px : Nat) : vec_map_simd 0 g f n o po x px = vec_map f n o po x px := by
  unfold vec_map_simd vec_map
  simp [forN]

theorem vec_scalar_eq_fill (op : F → F → F) (n : Nat) (o : Buf F) (po : Nat) (x : Buf F)
    (px : Nat) (y : F) :
    vec_scalar op n o po x px y = fill po (po + n) (fun p => op (x (px + (p - po))) y) o := by
  unfold vec_scalar
  rw [forN_store_fill (fun i => op (x (px + i)) y) po 0 n o]
  rfl

theorem vec_zip_eq_fill (op : F → F → F) (n : Nat) (o : Buf F) (po : Nat) (x : Buf F)
    (px : Nat) (y : Buf F) (py : Nat) :
    vec_zip op n o po x px y py =
      fill po (po + n) (fun p => op (x (px + (p - po))) (y (py + (p - po)))) o := by
  unfold vec_zip
  rw [forN_store_fill (fun i => op (x (px + i)) (y (py + i))) po 0 n o]
  rfl

end LoopLemmas

/-! ## Serialised launches -/

section Launch

variable {F32 F64 : Type}

/-- When every worker's run overwrites a range with values of one common function, a launch
overwrites the union of the ranges. -/
theorem launch_fill (A : FloatOps F32 F64) (lanes : Nat) (node : mag_node_t F32) (tc : Nat)
    (lo hi : Nat → Nat) (val : Nat → F32)
    (h : ∀ ti br, mag_blas_dispatch_table_forward A lanes node.op ⟨tc, ti, node⟩ br =
      some (fill (lo ti) (hi ti) val br))
    (order : List Nat) (br : Buf F32) :
    launch A lanes node tc order br =
      some (fun p => if order.any (fun t => decide (lo t ≤ p ∧ p < hi t)) then val p
        else br p) := by
  induction order generalizing br with
  | nil => simp [launch]
  | cons t rest ih =>
    rw [launch, h t br, Option.some_bind, ih]
    congr 1
    funext p
    unfold fill
    by_cases c1 : lo t ≤ p ∧ p < hi t
    · simp [c1]
    · by_cases c2 : rest.any (fun t => decide (lo t ≤ p ∧ p < hi t)) = true
      · simp only [List.any_cons, c2, Bool.or_true, if_true]
      · simp only [List.any_cons, c2, c1, decide_False, Bool.or_self, if_false]

/-- A launch over all workers of a kernel whose ranges cover exactly `[0, total)`. -/
theorem launch_fill_total (A : FloatOps F32 F64) (lanes : Nat) (node : mag_node_t F32)
    (tc : Nat) (lo hi : Nat → Nat) (val : Nat → F32) (total : Nat)
    (h : ∀ ti br, mag_blas_dispatch_table_forward A lanes node.op ⟨tc, ti, node⟩ br =
      some (fill (lo ti) (hi ti) val br))
    (hcover : ∀ p, p < total ↔ ∃ t, t < tc ∧ lo t ≤ p ∧ p < hi t)
    (order : List Nat) (horder : order.Perm (List.range tc)) (br : Buf F32) :
    launch A lanes node tc order br = some (fill 0 total val br) := by
  rw [launch_fill A lanes node tc lo hi val h]
  congr 1
  funext p
  unfold fill
  by_cases c : p < total
  · have hc := (hcover p).1 c
    obtain ⟨t, ht, h1, h2⟩ := hc
    have hm : t ∈ order := (horder.mem_iff).2 (List.mem_range.2 ht)
    have ha : order.any (fun t => decide (lo t ≤ p ∧ p < hi t)) = true := by
      rw [List.any_eq_true]
      exact ⟨t, hm, by simp [h1, h2]⟩
    rw [if_pos ha, if_pos ⟨Nat.zero_le _, c⟩]
  · have ha : ¬ (order.any (fun t => decide (lo t ≤ p ∧ p < hi t)) = true) := by
      rw [List.any_eq_true]
      rintro ⟨t, hm, hd⟩
      have ht : t < tc := List.mem_range.1 ((horder.mem_iff).1 hm)
      have hd2 : lo t ≤ p ∧ p < hi t := by simpa using hd
      exact c ((hcover p).2 ⟨t, ht, hd2.1, hd2.2⟩)
    rw [if_neg ha, if_neg (by omega)]

/-- The ranges of the ceil-chunk partition cover exactly `[0, numel)`. -/
theorem chunk_cover (numel tc : Nat) (htc : 1 ≤ tc) (p : Nat) :
    p < numel ↔ ∃ t, t < tc ∧ t * ((numel + tc - 1) / tc) ≤ p ∧
      p < min (t * ((numel + tc - 1) / tc) + (numel + tc - 1) / tc) numel :=
  slice_mem_iff numel _ tc (le_chunk_mul numel tc htc) p

/-- One run of a kernel generated by `mag_cpu_blas_impl_unary` from a scalar loop. -/
theorem unary_kernel_fill (v : VecUnary F32) (f : F32 → F32)
    (hv : ∀ n o po x px, v n o po x px = some (vec_map f n o po x px))
    (tc ti : Nat) (node : mag_node_t F32) (br : Buf F32) (htc : 1 ≤ tc) :
    mag_cpu_blas_impl_unary v ⟨tc, ti, node⟩ br =
      some (fill (ti * ((node.numel + tc - 1) / tc))
        (min (ti * ((node.numel + tc - 1) / tc) + (node.numel + tc - 1) / tc) node.numel)
        (fun p => f (node.x.base p)) br) := by
  unfold mag_cpu_blas_impl_unary
  simp only [mag_slice_unary_eq tc ti node.numel htc, Option.some_bind]
  split
  · rename_i h0
    rw [fill_empty _ _ _ _ (by omega)]
  · rename_i h0
    rw [hv, vec_map_eq_fill]
    congr 1
    have e : ti * ((node.numel + tc - 1) / tc) +
        (min (ti * ((node.numel + tc - 1) / tc) + (node.numel + tc - 1) / tc) node.numel
          - ti * ((node.numel + tc - 1) / tc)) =
        min (ti * ((node.numel + tc - 1) / tc) + (node.numel + tc - 1) / tc) node.numel := by
      omega
    rw [e]
    apply fill_congr
    intro p h1 h2
    show f (node.x.base (_ + (p - _))) = f (node.x.base p)
    congr 2
    omega

/-- One run of a kernel generated by `mag_cpu_blas_impl_unary_scalar`. -/
theorem scalar_kernel_fill (op : F32 → F32 → F32)
    (tc ti : Nat) (node : mag_node_t F32) (br : Buf F32) (htc : 1 ≤ tc) :
    mag_cpu_blas_impl_unary_scalar (vec_scalar op) ⟨tc, ti, node⟩ br =
      some (fill (ti * ((node.numel + tc - 1) / tc))
        (min (ti * ((node.numel + tc - 1) / tc) + (node.numel + tc - 1) / tc) node.numel)
        (fun p => op (node.x.base p) node.xi) br) := by
  unfold mag_cpu_blas_impl_unary_scalar
  simp only [mag_slice_unary_eq tc ti node.numel htc, Option.some_bind]
  split
  · rename_i h0
    rw [fill_empty _ _ _ _ (by omega)]
  · rename_i h0
    rw [vec_scalar_eq_fill]
    congr 1
    have e : ti * ((node.numel + tc - 1) / tc) +
        (min (ti * ((node.numel + tc - 1) / tc) + (node.numel + tc - 1) / tc) node.numel
          - ti * ((node.numel + tc - 1) / tc)) =
        min (ti * ((node.numel + tc - 1) / tc) + (node.numel + tc - 1) / tc) node.numel := by
      omega
    rw [e]
    apply fill_congr
    intro p h1 h2
    show op (node.x.base (_ + (p - _))) node.xi = op (node.x.base p) node.xi
    congr 2
    omega

/-- The dispatch table sends every unary operator with an implemented kernel to the kernel
generated from its scalar loop, when the build has no approximate vector path for it. -/
theorem unary_dispatch (A : FloatOps F32 F64) (lanes : Nat) (op : mag_op_t) (f : F32 → F32)
    (hf : unary_fn A op = some f) (hmode : lanes = 0 ∨ has_simd_path op = false) :
    ∃ v : VecUnary F32, mag_blas_dispatch_table_forward A lanes op = mag_cpu_blas_impl_unary v ∧
      ∀ n o po x px, v n o po x px = some (vec_map f n o po x px) := by
  cases op <;> simp only [unary_fn, Option.some.injEq] at hf <;> try contradiction
  all_goals subst hf
  all_goals first
    | exact ⟨_, rfl, fun _ _ _ _ _ => rfl⟩
    | (rcases hmode with h | h
       · subst h
         exact ⟨_, rfl, fun n o po x px => congrArg some (vec_map_simd_zero _ _ n o po x px)⟩
       · simp [has_simd_path] at h)

/-- The dispatch table sends every scalar-RHS operator to the kernel generated from the scalar
loop of its C operator. -/
theorem scalar_dispatch (A : FloatOps F32 F64) (lanes : Nat) (op : mag_op_t)
    (f : F32 → F32 → F32) (hop : is_scalar_rhs op = true) (hf : binary_fn A op = some f) :
    mag_blas_dispatch_table_forward A lanes op = mag_cpu_blas_impl_unary_scalar (vec_scalar f) := by
  cases op <;> simp only [is_scalar_rhs, Bool.false_eq_true] at hop <;>
    simp only [binary_fn, Option.some.injEq] at hf <;> subst hf <;> rfl

/-- C9. For every scalar-RHS node (ADDS, SUBS, MULS, DIVS) with C operator `op` and scalar
`s = op_params`, every element count and every worker count `tc >= 1`: after the kernel has run
once for each worker index `0 .. tc-1`, in any order, `r[i] = x[i] op s` for every `i < numel`,
with `x[i]` the left operand, and the storage beyond `numel` is untouched. -/
theorem scalar_kernel_pointwise (A : FloatOps F32 F64) (lanes : Nat) (node : mag_node_t F32)
    (op : F32 → F32 → F32) (tc : Nat) (order : List Nat) (br : Buf F32)
    (hop : is_scalar_rhs node.op = true) (hf : binary_fn A node.op = some op)
    (htc : 1 ≤ tc) (horder : order.Perm (List.range tc)) :
    ∃ out, launch A lanes node tc order br = some out ∧
      (∀ i, i < node.numel → out i = op (node.x.base i) node.xi) ∧
      (∀ i, node.numel ≤ i → out i = br i) := by
  have hd := scalar_dispatch A lanes node.op op hop hf
  have hrun := launch_fill_total A lanes node tc _ _ (fun p => op (node.x.base p) node.xi)
    node.numel
    (fun ti b => by rw [hd]; exact scalar_kernel_fill op tc ti node b htc)
    (chunk_cover node.numel tc htc) order horder br
  refine ⟨_, hrun, ?_, ?_⟩
  · intro i hi
    unfold fill
    rw [if_pos ⟨Nat.zero_le _, hi⟩]
  · intro i hi
    unfold fill
    rw [if_neg (by omega)]

/-- Witness for C9: `MULS` on `[1, 2, 3]` with `s = 2.5` gives `[2.5, 5.0, 7.5]`, here with two
workers. -/
theorem scalar_kernel_pointwise_witness :
    ∃ out, launch exactOps 0 muls_node 2 [0, 1] blank = some out ∧
      out.take 3 = [.fin (5 / 2), .fin 5, .fin (15 / 2)] := by
  obtain ⟨out, h1, h2, _⟩ := scalar_kernel_pointwise exactOps 0 muls_node exactOps.mul 2 [0, 1]
    blank rfl rfl (by decide) (List.Perm.refl _)
  refine ⟨out, h1, ?_⟩
  show [out 0, out 1, out 2] = _
  rw [h2 0 (by decide), h2 1 (by decide), h2 2 (by decide)]
  decide!

end Launch

/-! ## Broadcast-binary kernels -/

section Binary

variable {F32 F64 : Type}

theorem mag_binary_row_pure (rs xd xs yd ys : Arr6) (ri : Nat)
    (h1 : 1 ≤ xd.a1) (h2 : 1 ≤ xd.a2) (h3 : 1 ≤ xd.a3) (h4 : 1 ≤ xd.a4)
    (e1 : 1 ≤ yd.a1) (e2 : 1 ≤ yd.a2) (e3 : 1 ≤ yd.a3) (e4 : 1 ≤ yd.a4) (e5 : 1 ≤ yd.a5) :
    mag_binary_row rs xd xs yd ys ri = some (binary_row_ptrs rs xd xs yd ys ri) := by
  unfold mag_binary_row
  simp only [cmod_pos _ _ h1, cmod_pos _ _ h2, cmod_pos _ _ h3, cmod_pos _ _ h4,
    cdiv_pos _ _ h1, cdiv_pos _ _ h2, cdiv_pos _ _ h3, cdiv_pos _ _ h4,
    cmod_pos _ _ e1, cmod_pos _ _ e2, cmod_pos _ _ e3, cmod_pos _ _ e4, cmod_pos _ _ e5,
    and_then]
  rfl

/-- A loop of range overwrites over `n` consecutive blocks of width `w`, all with values of one
function, overwrites the union of the blocks. -/
theorem forN_fill_blocks {F : Type} (val : Nat → F) (base w lo n : Nat) (b : Buf F) :
    forN (fun i b => fill (base + i * w) (base + i * w + w) val b) lo n b =
      fill (base + lo * w) (base + (lo + n) * w) val b := by
  induction n with
  | zero => rw [fill_empty _ _ _ _ (by simp)]; rfl
  | succ n ih =>
    rw [forN_succ_last, ih]
    have e : base + (lo + n) * w + w = base + (lo + (n + 1)) * w := by ring
    rw [e]
    apply fill_fill
    · exact Nat.add_le_add_left (Nat.mul_le_mul_right w (by omega)) _
    · exact Nat.add_le_add_left (Nat.mul_le_mul_right w (by omega)) _

theorem dense_row_ptr (d xs yd ys : Arr6) (ri : Nat) :
    (binary_row_ptrs (dense_strides d) d xs yd ys ri).1 = ri * d.a0 := by
  simp only [binary_row_ptrs, outer_index, dense_strides]
  have k1 := Nat.mod_add_div ri d.a1
  have k2 := Nat.mod_add_div (ri / d.a1) d.a2
  have k3 := Nat.mod_add_div (ri / d.a1 / d.a2) d.a3
  have k4 := Nat.mod_add_div (ri / d.a1 / d.a2 / d.a3) d.a4
  generalize ri / d.a1 / d.a2 / d.a3 / d.a4 = q5 at *
  generalize ri / d.a1 / d.a2 / d.a3 % d.a4 = m4 at *
  generalize ri / d.a1 / d.a2 / d.a3 = q4 at *
  generalize ri / d.a1 / d.a2 % d.a3 = m3 at *
  generalize ri / d.a1 / d.a2 = q3 at *
  generalize ri / d.a1 % d.a2 = m2 at *
  generalize ri / d.a1 = q2 at *
  generalize ri % d.a1 = m1 at *
  subst k1 k2 k3 k4
  ring

theorem row_div_mod (ri d0 p : Nat) (h1 : ri * d0 ≤ p) (h2 : p < ri * d0 + d0) :
    p / d0 = ri ∧ p % d0 = p - ri * d0 := by
  have hq : p / d0 = ri := Nat.div_eq_of_lt_le h1 (by rw [Nat.add_mul]; omega)
  refine ⟨hq, ?_⟩
  have := Nat.div_add_mod p d0
  rw [hq, Nat.mul_comm] at this
  omega

theorem binary_strided_row_fill (op : F32 → F32 → F32) (r : mag_node_t F32) (ri : Nat)
    (br : Buf F32) (ok : BinaryOk r) :
    mag_binary_strided_row op r ri br =
      some (fill (0 + ri * r.x.shape.a0) (0 + ri * r.x.shape.a0 + r.x.shape.a0)
        (binary_val op r) br) := by
  unfold mag_binary_strided_row
  rw [mag_binary_row_pure _ _ _ _ _ _ ok.d1 ok.d2 ok.d3 ok.d4 ok.e1 ok.e2 ok.e3 ok.e4 ok.e5]
  simp only [Option.bind_eq_bind, Option.some_bind, Option.pure_def]
  rw [forNM_pure _ (fun i b => store b
      ((binary_row_ptrs r.strides r.x.shape r.x.strides r.y.shape r.y.strides ri).1 + i)
      (op (r.x.base
          ((binary_row_ptrs r.strides r.x.shape r.x.strides r.y.shape r.y.strides ri).2.1 + i))
        (r.y.base
          ((binary_row_ptrs r.strides r.x.shape r.x.strides r.y.shape r.y.strides ri).2.2
            + i % r.y.shape.a0 * r.y.strides.a0))))]
  · rw [forN_store_fill (fun i => op (r.x.base
          ((binary_row_ptrs r.strides r.x.shape r.x.strides r.y.shape r.y.strides ri).2.1 + i))
        (r.y.base
          ((binary_row_ptrs r.strides r.x.shape r.x.strides r.y.shape r.y.strides ri).2.2
            + i % r.y.shape.a0 * r.y.strides.a0)))]
    have hp : (binary_row_ptrs r.strides r.x.shape r.x.strides r.y.shape r.y.strides ri).1 =
        ri * r.x.shape.a0 := by
      rw [ok.dense, ok.shape_eq]
      exact dense_row_ptr _ _ _ _ _
    rw [hp, ok.shape_eq]
    congr 1
    simp only [Nat.add_zero, Nat.zero_add]
    apply fill_congr
    intro p h1 h2
    obtain ⟨hq, hm⟩ := row_div_mod ri r.x.shape.a0 p h1 h2
    simp only [binary_val, hq, hm]
  · intro i _ _ t
    rw [cmod_pos _ _ ok.e0]
    rfl

theorem binary_fast_row_fill (op : F32 → F32 → F32) (r : mag_node_t F32) (ri : Nat)
    (br : Buf F32) (ok : BinaryOk r) (hys : r.y.strides.a0 = 1)
    (hdvd : r.x.shape.a0 / r.y.shape.a0 * r.y.shape.a0 = r.x.shape.a0) :
    mag_binary_fast_row (vec_zip op) r ri br =
      some (fill (0 + ri * r.x.shape.a0) (0 + ri * r.x.shape.a0 + r.x.shape.a0)
        (binary_val op r) br) := by
  unfold mag_binary_fast_row
  rw [mag_binary_row_pure _ _ _ _ _ _ ok.d1 ok.d2 ok.d3 ok.d4 ok.e1 ok.e2 ok.e3 ok.e4 ok.e5,
    cdiv_pos _ _ ok.e0]
  simp only [Option.bind_eq_bind, Option.some_bind, Option.pure_def]
  have hp : (binary_row_ptrs r.strides r.x.shape r.x.strides r.y.shape r.y.strides ri).1 =
      ri * r.x.shape.a0 := by
    rw [ok.dense, ok.shape_eq]
    exact dense_row_ptr _ _ _ _ _
  rw [hp]
  congr 1
  rw [forN_congr _ (fun i b => fill (ri * r.x.shape.a0 + i * r.y.shape.a0)
      (ri * r.x.shape.a0 + i * r.y.shape.a0 + r.y.shape.a0) (binary_val op r) b)]
  · rw [forN_fill_blocks]
    simp only [Nat.zero_mul, Nat.add_zero, Nat.zero_add, hdvd]
  · intro i _ hi b
    rw [vec_zip_eq_fill]
    apply fill_congr
    intro p h1 h2
    have hle : i * r.y.shape.a0 + r.y.shape.a0 ≤ r.x.shape.a0 := by
      have : (i + 1) * r.y.shape.a0 ≤ r.x.shape.a0 / r.y.shape.a0 * r.y.shape.a0 :=
        Nat.mul_le_mul_right _ (by omega)
      rw [hdvd, Nat.add_mul] at this
      omega
    obtain ⟨hq, hm⟩ := row_div_mod ri r.x.shape.a0 p (by omega) (by omega)
    have hj : (p - ri * r.x.shape.a0) % r.y.shape.a0 =
        p - (ri * r.x.shape.a0 + i * r.y.shape.a0) := by
      have e : p - ri * r.x.shape.a0 =
          (p - (ri * r.x.shape.a0 + i * r.y.shape.a0)) + i * r.y.shape.a0 := by omega
      rw [e, Nat.add_mul_mod_self_right]
      exact Nat.mod_eq_of_lt (by omega)
    simp only [binary_val, hq, hm, hj, hys, Nat.mul_one]
    generalize ri * r.x.shape.a0 = R at *
    generalize i * r.y.shape.a0 = I at *
    have e1 : (binary_row_ptrs r.strides r.x.shape r.x.strides r.y.shape r.y.strides ri).2.1
        + I + (p - (R + I)) =
        (binary_row_ptrs r.strides r.x.shape r.x.strides r.y.shape r.y.strides ri).2.1
        + (p - R) := by omega
    rw [e1]

/-- The rows `[ra, rb)` written by either branch of the broadcast-binary kernel. -/
theorem binary_rows_fill (rowf : Nat → Buf F32 → Option (Buf F32)) (d0 : Nat)
    (val : Nat → F32)
    (hrow : ∀ ri b, rowf ri b = some (fill (0 + ri * d0) (0 + ri * d0 + d0) val b))
    (ra rb : Nat) (br : Buf F32) :
    forNM rowf ra (rb - ra) br = some (fill (ra * d0) (rb * d0) val br) := by
  rw [forNM_pure _ (fun ri b => fill (0 + ri * d0) (0 + ri * d0 + d0) val b) _ _ _
    (fun i _ _ t => hrow i t), forN_fill_blocks]
  simp only [Nat.zero_add]
  by_cases h : ra ≤ rb
  · rw [Nat.add_sub_cancel' h]
  · have e : rb - ra = 0 := by omega
    rw [e, Nat.add_zero, fill_empty _ _ _ _ (le_refl _), fill_empty]
    exact Nat.mul_le_mul_right _ (by omega)

/-- One run of a broadcast-binary kernel on a node that meets `BinaryOk`, with `y.shape[0]`
dividing `x.shape[0]`: whichever branch is taken, the rows of the worker's slice are
overwritten by `binary_val`. -/
theorem binary_kernel_fill (op : F32 → F32 → F32) (tc ti : Nat) (r : mag_node_t F32)
    (br : Buf F32) (htc : 1 ≤ tc) (ok : BinaryOk r)
    (hdvd : r.x.shape.a0 / r.y.shape.a0 * r.y.shape.a0 = r.x.shape.a0) :
    mag_cpu_blas_impl_binary (vec_zip op) op ⟨tc, ti, r⟩ br =
      some (fill
        (ti * ((r.x.shape.a5 * r.x.shape.a4 * r.x.shape.a3 * r.x.shape.a2 * r.x.shape.a1
          + tc - 1) / tc) * r.x.shape.a0)
        (min (ti * ((r.x.shape.a5 * r.x.shape.a4 * r.x.shape.a3 * r.x.shape.a2 * r.x.shape.a1
          + tc - 1) / tc)
          + (r.x.shape.a5 * r.x.shape.a4 * r.x.shape.a3 * r.x.shape.a2 * r.x.shape.a1
          + tc - 1) / tc)
          (r.x.shape.a5 * r.x.shape.a4 * r.x.shape.a3 * r.x.shape.a2 * r.x.shape.a1)
          * r.x.shape.a0)
        (binary_val op r) br) := by
  unfold mag_cpu_blas_impl_binary
  simp only [mag_slice_rows_eq tc ti _ htc, Option.some_bind]
  split
  · rename_i hys
    exact binary_rows_fill _ _ _ (fun ri b => binary_fast_row_fill op r ri b ok hys hdvd) _ _ _
  · exact binary_rows_fill _ _ _ (fun ri b => binary_strided_row_fill op r ri b ok) _ _ _

/-- The row ranges of the partition, scaled by the row length, cover `[0, numel * d0)`. -/
theorem chunk_cover_rows (numel tc d0 : Nat) (htc : 1 ≤ tc) (hd : 1 ≤ d0) (p : Nat) :
    p < numel * d0 ↔ ∃ t, t < tc ∧ t * ((numel + tc - 1) / tc) * d0 ≤ p ∧
      p < min (t * ((numel + tc - 1) / tc) + (numel + tc - 1) / tc) numel * d0 := by
  rw [← Nat.div_lt_iff_lt_mul hd, chunk_cover numel tc htc (p / d0)]
  constructor
  · rintro ⟨t, ht, h1, h2⟩
    exact ⟨t, ht, (Nat.le_div_iff_mul_le hd).1 h1, (Nat.div_lt_iff_lt_mul hd).1 h2⟩
  · rintro ⟨t, ht, h1, h2⟩
    exact ⟨t, ht, (Nat.le_div_iff_mul_le hd).2 h1, (Nat.div_lt_iff_lt_mul hd).2 h2⟩

theorem outer_index_rank (d : Arr6) (i0 i1 i2 i3 i4 i5 : Nat) (h1 : i1 < d.a1)
    (h2 : i2 < d.a2) (h3 : i3 < d.a3) (h4 : i4 < d.a4) :
    outer_index d i0 (i1 + d.a1 * (i2 + d.a2 * (i3 + d.a3 * (i4 + d.a4 * i5)))) =
      ⟨i0, i1, i2, i3, i4, i5⟩ := by
  have p1 : 0 < d.a1 := by omega
  have p2 : 0 < d.a2 := by omega
  have p3 : 0 < d.a3 := by omega
  have p4 : 0 < d.a4 := by omega
  simp only [outer_index, Nat.add_mul_mod_self_left, Nat.add_mul_div_left _ _ p1,
    Nat.add_mul_div_left _ _ p2, Nat.add_mul_div_left _ _ p3, Nat.add_mul_div_left _ _ p4,
    Nat.mod_eq_of_lt h1, Nat.mod_eq_of_lt h2, Nat.mod_eq_of_lt h3, Nat.mod_eq_of_lt h4,
    Nat.div_eq_of_lt h1, Nat.div_eq_of_lt h2, Nat.div_eq_of_lt h3, Nat.div_eq_of_lt h4,
    Nat.zero_add]

/-- The dispatch table sends every broadcast-binary operator to the kernel generated from the
vector loop and the C operator of that operator. -/
theorem binary_dispatch (A : FloatOps F32 F64) (lanes : Nat) (op : mag_op_t)
    (f : F32 → F32 → F32) (hop : is_broadcast_binary op = true) (hf : binary_fn A op = some f) :
    mag_blas_dispatch_table_forward A lanes op = mag_cpu_blas_impl_binary (vec_zip f) f := by
  cases op <;> simp only [is_broadcast_binary, Bool.false_eq_true] at hop <;>
    simp only [binary_fn, Option.some.injEq] at hf <;> subst hf <;> rfl

theorem digit_lt (a b i j : Nat) (hi : i < a) (hj : j < b) : i + a * j < a * b := by
  have h : a * (j + 1) ≤ a * b := Nat.mul_le_mul_left a hj
  rw [Nat.mul_add, Nat.mul_one] at h
  omega

theorem binary_ok_of_compat (r : mag_node_t F32) (hshape : r.shape = r.x.shape)
    (hrs : r.strides = dense_strides r.shape) (hd : all_pos r.x.shape)
    (he : bcast_compat r.x.shape r.y.shape) :
    BinaryOk r ∧ r.x.shape.a0 / r.y.shape.a0 * r.y.shape.a0 = r.x.shape.a0 := by
  obtain ⟨d0, d1, d2, d3, d4, d5⟩ := hd
  obtain ⟨c0, c1, c2, c3, c4, c5⟩ := he
  refine ⟨⟨hshape, hrs, d1, d2, d3, d4, ?_, ?_, ?_, ?_, ?_, ?_⟩, ?_⟩
  · omega
  · omega
  · omega
  · omega
  · omega
  · omega
  · rcases c0 with h | h
    · rw [h, Nat.div_self (by omega), Nat.one_mul]
    · rw [h, Nat.div_one, Nat.mul_one]

/-- C2. For every broadcast-binary node (ADD, SUB, MUL, DIV) with C operator `op`, `x` and `r`
of shape `d` with all extents at least 1, `y` of a shape `e` with each `e_k` equal to `d_k` or
to 1, `r` dense, `x` with innermost stride 1 and `y` with any strides, and every worker count
`tc >= 1`: after the kernel has run once for each worker index `0 .. tc-1`, in any order, the
element of `r` at every logical index `i` equals `x(i) op y(i mod e)`, each element addressed
through its tensor's strides, and the storage beyond `numel` is untouched.  Dense `x` and `y`
are a special case, as are identical shapes. -/
theorem binary_kernel_broadcast (A : FloatOps F32 F64) (lanes : Nat) (node : mag_node_t F32)
    (op : F32 → F32 → F32) (tc : Nat) (order : List Nat) (br : Buf F32)
    (hop : is_broadcast_binary node.op = true) (hf : binary_fn A node.op = some op)
    (hshape : node.shape = node.x.shape) (hd : all_pos node.x.shape)
    (he : bcast_compat node.x.shape node.y.shape)
    (hrs : node.strides = dense_strides node.shape) (hxs : node.x.strides.a0 = 1)
    (htc : 1 ≤ tc) (horder : order.Perm (List.range tc)) :
    ∃ out, launch A lanes node tc order br = some out ∧
      (∀ i, in_shape node.shape i →
        out (offset6 node.strides i) =
          op (node.x.base (offset6 node.x.strides i))
            (node.y.base (offset6 node.y.strides (bcast_index node.y.shape i)))) ∧
      (∀ p, node.shape.prod ≤ p → out p = br p) := by
  obtain ⟨ok, hdvd⟩ := binary_ok_of_compat node hshape hrs hd he
  have hdisp := binary_dispatch A lanes node.op op hop hf
  have hrun := launch_fill_total A lanes node tc _ _ (binary_val op node)
    (node.x.shape.a5 * node.x.shape.a4 * node.x.shape.a3 * node.x.shape.a2 * node.x.shape.a1
      * node.x.shape.a0)
    (fun ti b => by rw [hdisp]; exact binary_kernel_fill op tc ti node b htc ok hdvd)
    (chunk_cover_rows _ tc _ htc hd.1) order horder br
  refine ⟨_, hrun, ?_, ?_⟩
  · intro i hi
    rw [hshape] at hi
    obtain ⟨b0, b1, b2, b3, b4, b5⟩ := hi
    have hoff : offset6 node.strides i = i.a0 + node.x.shape.a0 *
        (i.a1 + node.x.shape.a1 * (i.a2 + node.x.shape.a2 * (i.a3 + node.x.shape.a3 *
          (i.a4 + node.x.shape.a4 * i.a5)))) := by
      rw [hrs, hshape]
      simp only [offset6, dense_strides]
      ring
    have hrank : i.a1 + node.x.shape.a1 * (i.a2 + node.x.shape.a2 * (i.a3 + node.x.shape.a3 *
          (i.a4 + node.x.shape.a4 * i.a5))) <
        node.x.shape.a5 * node.x.shape.a4 * node.x.shape.a3 * node.x.shape.a2
          * node.x.shape.a1 := by
      have k4 := digit_lt _ _ _ _ b4 b5
      have k3 := digit_lt _ _ _ _ b3 k4
      have k2 := digit_lt _ _ _ _ b2 k3
      have k1 := digit_lt _ _ _ _ b1 k2
      calc _ < node.x.shape.a1 * (node.x.shape.a2 * (node.x.shape.a3 *
            (node.x.shape.a4 * node.x.shape.a5))) := k1
        _ = _ := by ring
    rw [hoff]
    generalize hρ : i.a1 + node.x.shape.a1 * (i.a2 + node.x.shape.a2 * (i.a3 + node.x.shape.a3 *
          (i.a4 + node.x.shape.a4 * i.a5))) = ρ at hrank
    have hq : (i.a0 + node.x.shape.a0 * ρ) / node.x.shape.a0 = ρ := by
      rw [Nat.add_mul_div_left _ _ (by omega), Nat.div_eq_of_lt b0, Nat.zero_add]
    have hm : (i.a0 + node.x.shape.a0 * ρ) % node.x.shape.a0 = i.a0 := by
      rw [Nat.add_mul_mod_self_left, Nat.mod_eq_of_lt b0]
    have hlt : i.a0 + node.x.shape.a0 * ρ <
        node.x.shape.a5 * node.x.shape.a4 * node.x.shape.a3 * node.x.shape.a2
          * node.x.shape.a1 * node.x.shape.a0 := by
      rw [Nat.mul_comm _ node.x.shape.a0]
      exact digit_lt _ _ _ _ b0 hrank
    unfold fill
    rw [if_pos ⟨Nat.zero_le _, hlt⟩]
    simp only [binary_val, binary_row_ptrs, hq, hm]
    rw [← hρ, outer_index_rank _ 0 _ _ _ _ _ b1 b2 b3 b4]
    simp only [offset6, bcast_index, hxs]
    congr 2
    · ring
    · ring
  · intro p hp
    unfold fill
    rw [if_neg]
    rw [hshape] at hp
    unfold Arr6.prod at hp
    intro hc
    have e : node.x.shape.a5 * node.x.shape.a4 * node.x.shape.a3 * node.x.shape.a2
          * node.x.shape.a1 * node.x.shape.a0 =
        node.x.shape.a0 * node.x.shape.a1 * node.x.shape.a2 * node.x.shape.a3
          * node.x.shape.a4 * node.x.shape.a5 := by ring
    omega

/-- Witness for C2: `ADD [1,2,3,4] + [10,20,30,40] = [11,22,33,44]` with two workers, and
`x = [[1,2,3],[4,5,6]]`, `y = [[10,20,30]]` of shapes `(2,3)` and `(1,3)` give
`[[11,22,33],[14,25,36]]` with three workers; the second result is read at the offsets of the
logical indices `(0,0), (0,1), (0,2), (1,0), (1,1), (1,2)`. -/
theorem binary_kernel_broadcast_witness :
    (∃ out, launch exactOps 0 add_node 2 [0, 1] blank = some out ∧
      out.take 4 = [.fin 11, .fin 22, .fin 33, .fin 44]) ∧
    (∃ out, launch exactOps 0 bcast_node 3 [2, 0, 1] blank = some out ∧
      [(⟨0, 0, 0, 0, 0, 0⟩ : Arr6), ⟨0, 1, 0, 0, 0, 0⟩, ⟨0, 2, 0, 0, 0, 0⟩,
        ⟨1, 0, 0, 0, 0, 0⟩, ⟨1, 1, 0, 0, 0, 0⟩, ⟨1, 2, 0, 0, 0, 0⟩].map
          (fun i => out (offset6 bcast_node.strides i)) =
        [.fin 11, .fin 22, .fin 33, .fin 14, .fin 25, .fin 36]) := by
  constructor
  · obtain ⟨out, h1, h2, _⟩ := binary_kernel_broadcast exactOps 0 add_node exactOps.add 2
      [0, 1] blank rfl rfl rfl (by decide) (by decide) rfl rfl (by decide) (List.Perm.refl _)
    refine ⟨out, h1, ?_⟩
    have k0 := h2 ⟨0, 0, 0, 0, 0, 0⟩ (by decide)
    have k1 := h2 ⟨1, 0, 0, 0, 0, 0⟩ (by decide)
    have k2 := h2 ⟨2, 0, 0, 0, 0, 0⟩ (by decide)
    have k3 := h2 ⟨3, 0, 0, 0, 0, 0⟩ (by decide)
    show [out 0, out 1, out 2, out 3] = _
    have e0 : out 0 = XR.fin 11 := by rw [← show offset6 add_node.strides ⟨0, 0, 0, 0, 0, 0⟩ = 0 from rfl, k0]; decide!
    have e1 : out 1 = XR.fin 22 := by rw [← show offset6 add_node.strides ⟨1, 0, 0, 0, 0, 0⟩ = 1 from rfl, k1]; decide!
    have e2 : out 2 = XR.fin 33 := by rw [← show offset6 add_node.strides ⟨2, 0, 0, 0, 0, 0⟩ = 2 from rfl, k2]; decide!
    have e3 : out 3 = XR.fin 44 := by rw [← show offset6 add_node.strides ⟨3, 0, 0, 0, 0, 0⟩ = 3 from rfl, k3]; decide!
    rw [e0, e1, e2, e3]
  · obtain ⟨out, h1, h2, _⟩ := binary_kernel_broadcast exactOps 0 bcast_node exactOps.add 3
      [2, 0, 1] blank rfl rfl rfl (by decide) (by decide) rfl rfl (by decide)
      (by decide)
    refine ⟨out, h1, ?_⟩
    simp only [List.map]
    rw [h2 ⟨0, 0, 0, 0, 0, 0⟩ (by decide), h2 ⟨0, 1, 0, 0, 0, 0⟩ (by decide),
      h2 ⟨0, 2, 0, 0, 0, 0⟩ (by decide), h2 ⟨1, 0, 0, 0, 0, 0⟩ (by decide),
      h2 ⟨1, 1, 0, 0, 0, 0⟩ (by decide), h2 ⟨1, 2, 0, 0, 0, 0⟩ (by decide)]
    decide!

theorem forNM_congr {σ : Type} (body body2 : Nat → σ → Option σ) (lo n : Nat) (s : σ)
    (h : ∀ i t, body i t = body2 i t) : forNM body lo n s = forNM body2 lo n s := by
  have e : body = body2 := funext fun i => funext fun t => h i t
  rw [e]

/-- On one row the two branches of the broadcast-binary kernel write the same elements. -/
theorem binary_fast_row_eq_strided_row (op : F32 → F32 → F32) (r : mag_node_t F32) (ri : Nat)
    (br : Buf F32) (hys : r.y.strides.a0 = 1) (hshape : r.shape = r.x.shape)
    (he : r.y.shape.a0 = r.x.shape.a0 ∨ r.y.shape.a0 = 1) (hpos : 1 ≤ r.y.shape.a0) :
    mag_binary_fast_row (vec_zip op) r ri br = mag_binary_strided_row op r ri br := by
  unfold mag_binary_fast_row mag_binary_strided_row
  cases hrow : mag_binary_row r.strides r.x.shape r.x.strides r.y.shape r.y.strides ri with
  | none => rfl
  | some q =>
    obtain ⟨pr, px, py⟩ := q
    simp only [Option.bind_eq_bind, Option.some_bind, Option.pure_def, cdiv_pos _ _ hpos]
    have hdvd : r.x.shape.a0 / r.y.shape.a0 * r.y.shape.a0 = r.x.shape.a0 := by
      rcases he with h | h
      · rw [h, Nat.div_self (by omega), Nat.one_mul]
      · rw [h, Nat.div_one, Nat.mul_one]
    rw [forNM_pure _ (fun i b => store b (pr + i)
      (op (r.x.base (px + i)) (r.y.base (py + i % r.y.shape.a0 * r.y.strides.a0))))]
    · congr 1
      rw [forN_store_fill (fun i => op (r.x.base (px + i))
        (r.y.base (py + i % r.y.shape.a0 * r.y.strides.a0)))]
      rw [forN_congr _ (fun i b => fill (pr + i * r.y.shape.a0)
        (pr + i * r.y.shape.a0 + r.y.shape.a0)
        (fun p => op (r.x.base (px + (p - pr)))
          (r.y.base (py + (p - pr) % r.y.shape.a0 * r.y.strides.a0))) b)]
      · rw [forN_fill_blocks]
        simp only [Nat.zero_mul, Nat.add_zero, Nat.zero_add, hdvd, hshape]
      · intro i _ hi b
        rw [vec_zip_eq_fill]
        apply fill_congr
        intro p h1 h2
        have hj : (p - pr) % r.y.shape.a0 = p - (pr + i * r.y.shape.a0) := by
          have e : p - pr = (p - (pr + i * r.y.shape.a0)) + i * r.y.shape.a0 := by omega
          rw [e, Nat.add_mul_mod_self_right]
          exact Nat.mod_eq_of_lt (by omega)
        simp only [hj, hys, Nat.mul_one]
        generalize i * r.y.shape.a0 = I at *
        have e1 : px + I + (p - (pr + I)) = px + (p - pr) := by omega
        rw [e1]
    · intro i _ _ t
      rw [cmod_pos _ _ hpos]
      rfl

/-- C10, amended. For every broadcast-binary node whose `y` has innermost stride `ys[0] = 1`,
with `r.shape = x.shape`, `e0` equal to `d0` or to 1, and `e0 >= 1`: for every range of rows
(in particular every worker's slice) and every content of the output storage, the fast-path
branch and the strided-path branch of the kernel produce the same result: the same output
storage, or an abort in both. -/
theorem fast_path_eq_strided_path (op : F32 → F32 → F32) (r : mag_node_t F32) (ra rb : Nat)
    (br : Buf F32) (hys : r.y.strides.a0 = 1) (hshape : r.shape = r.x.shape)
    (he : r.y.shape.a0 = r.x.shape.a0 ∨ r.y.shape.a0 = 1) (hpos : 1 ≤ r.y.shape.a0) :
    mag_binary_fast (vec_zip op) r ra rb br = mag_binary_strided op r ra rb br := by
  unfold mag_binary_fast mag_binary_strided
  exact forNM_congr _ _ _ _ _
    (fun ri b => binary_fast_row_eq_strided_row op r ri b hys hshape he hpos)

/-- Witness for C10: the two branches on the broadcast node of shapes `(2, 3)` and `(1, 3)`,
for the rows of worker 1 of 2. -/
theorem fast_path_eq_strided_path_witness :
    mag_binary_fast (vec_zip exactOps.add) bcast_node 2 3 blank =
      mag_binary_strided exactOps.add bcast_node 2 3 blank :=
  fast_path_eq_strided_path exactOps.add bcast_node 2 3 blank rfl rfl (Or.inr rfl) (by decide)

/-- Counterexample for C10 as stated: a node with `ys[0] = 1`, `r.shape = x.shape` and
`e0 = d0 = 0`.  On its single outer row the fast-path branch, and so the dispatched kernel,
evaluates `xd0 / yd0 = 0 / 0` and aborts; the strided-path branch iterates over `rd0 = 0`
elements and returns normally. -/
theorem fast_path_aborts_on_empty_row :
    empty_row_node.y.strides.a0 = 1 ∧ empty_row_node.shape = empty_row_node.x.shape ∧
    empty_row_node.y.shape.a0 = empty_row_node.x.shape.a0 ∧
    mag_slice_rows 1 0 1 = some (0, 1) ∧
    (mag_binary_fast (mag_vadd_f32 exactOps) empty_row_node 0 1 blank).isSome = false ∧
    (mag_blas_dispatch_table_forward exactOps 0 .ADD ⟨1, 0, empty_row_node⟩ blank).isSome
      = false ∧
    (mag_binary_strided exactOps.add empty_row_node 0 1 blank).isSome = true := by
  decide

end Binary

/-! ## Matrix multiplication -/

section Matmul

variable {F32 F64 : Type}

/-- A loop that updates consecutive elements in place, each from its own previous value. -/
theorem forN_update_fill {F : Type} (g : Nat → F → F) (base n : Nat) (b : Buf F) :
    forN (fun j b => store b (base + j) (g j (b (base + j)))) 0 n b =
      fun p => if base ≤ p ∧ p < base + n then g (p - base) (b p) else b p := by
  induction n with
  | zero =>
    funext p
    rw [if_neg (by omega)]
    rfl
  | succ n ih =>
    rw [forN_succ_last, ih]
    funext p
    unfold store
    simp only [Nat.zero_add]
    by_cases c1 : p = base + n
    · subst c1
      rw [if_pos rfl, if_neg (by omega), if_pos (by omega)]
      congr 1
      omega
    · rw [if_neg c1]
      by_cases c2 : base ≤ p ∧ p < base + n
      · rw [if_pos c2, if_pos (by omega)]
      · rw [if_neg c2, if_neg (by omega)]

theorem fold_sum_succ {F : Type} (add : F → F → F) (z : F) (f : Nat → F) (n : Nat) :
    fold_sum add z f (n + 1) = add (fold_sum add z f n) (f n) := by
  unfold fold_sum
  rw [List.range_succ, List.foldl_append]
  rfl

/-- The row loop body of the matmul kernel overwrites row `i` of `R` with its products. -/
theorem matmul_row_fill (A : FloatOps F32 F64) (r : mag_node_t F32) (i : Nat) (br : Buf F32)
    (hN : r.shape.a1 = r.y.shape.a1) :
    mag_matmul_row A r i br =
      fill (0 + i * r.y.shape.a1) (0 + i * r.y.shape.a1 + r.y.shape.a1)
        (matmul_val A r.x.base r.y.base r.x.shape.a1 r.y.shape.a1) br := by
  unfold mag_matmul_row
  rw [hN]
  simp only [Nat.zero_add]
  rw [forN_store_fill (fun _ => A.zero) (r.y.shape.a1 * i) 0 r.y.shape.a1 br]
  have key : ∀ k, forN (fun k b =>
      forN (fun j b =>
        store b (r.y.shape.a1 * i + j)
          (A.add (b (r.y.shape.a1 * i + j))
            (A.mul (r.x.base (r.x.shape.a1 * i + k)) (r.y.base (r.y.shape.a1 * k + j)))))
        0 r.y.shape.a1 b)
      0 k (fill (r.y.shape.a1 * i + 0) (r.y.shape.a1 * i + 0 + r.y.shape.a1)
        (fun _ => A.zero) br) =
      fill (r.y.shape.a1 * i) (r.y.shape.a1 * i + r.y.shape.a1)
        (fun p => fold_sum A.add A.zero
          (fun k => A.mul (r.x.base (r.x.shape.a1 * i + k))
            (r.y.base (r.y.shape.a1 * k + (p - r.y.shape.a1 * i)))) k) br := by
    intro k
    induction k with
    | zero => rfl
    | succ k ih =>
      rw [forN_succ_last, ih]
      simp only [Nat.zero_add]
      rw [forN_update_fill (fun j v => A.add v
        (A.mul (r.x.base (r.x.shape.a1 * i + k)) (r.y.base (r.y.shape.a1 * k + j))))]
      funext p
      unfold fill
      by_cases c : r.y.shape.a1 * i ≤ p ∧ p < r.y.shape.a1 * i + r.y.shape.a1
      · rw [if_pos c, if_pos c, if_pos c]
        exact (fold_sum_succ A.add A.zero
          (fun k => A.mul (r.x.base (r.x.shape.a1 * i + k))
            (r.y.base (r.y.shape.a1 * k + (p - r.y.shape.a1 * i)))) k).symm
      · rw [if_neg c, if_neg c, if_neg c]
  rw [key, Nat.mul_comm r.y.shape.a1 i]
  apply fill_congr
  intro p h1 h2
  obtain ⟨hq, hm⟩ := row_div_mod i r.y.shape.a1 p h1 h2
  simp only [matmul_val, hq, hm]

/-- The scaled row ranges of the partition cover `[0, numel * d0)`, also for `d0 = 0`. -/
theorem chunk_cover_scaled (numel tc d0 : Nat) (htc : 1 ≤ tc) (p : Nat) :
    p < numel * d0 ↔ ∃ t, t < tc ∧ t * ((numel + tc - 1) / tc) * d0 ≤ p ∧
      p < min (t * ((numel + tc - 1) / tc) + (numel + tc - 1) / tc) numel * d0 := by
  rcases Nat.eq_zero_or_pos d0 with h | h
  · subst h
    simp
  · exact chunk_cover_rows numel tc d0 htc h p

/-- One run of the matmul kernel on operands of shapes `(M, K)`, `(K, N)` and `(M, N)`. -/
theorem matmul_kernel_fill (A : FloatOps F32 F64) (tc ti : Nat) (r : mag_node_t F32)
    (br : Buf F32) (htc : 1 ≤ tc) (hN : r.shape.a1 = r.y.shape.a1)
    (hx : r.x.shape.a2 = 1 ∧ r.x.shape.a3 = 1) (hy : r.y.shape.a2 = 1 ∧ r.y.shape.a3 = 1) :
    mag_blas_matmul_f32 A ⟨tc, ti, r⟩ br =
      some (fill (ti * ((r.x.shape.a0 + tc - 1) / tc) * r.y.shape.a1)
        (min (ti * ((r.x.shape.a0 + tc - 1) / tc) + (r.x.shape.a0 + tc - 1) / tc)
          r.x.shape.a0 * r.y.shape.a1)
        (matmul_val A r.x.base r.y.base r.x.shape.a1 r.y.shape.a1) br) := by
  unfold mag_blas_matmul_f32
  simp only [if_pos hx, if_pos hy, mag_slice_rows_eq tc ti _ htc, Option.map_some']
  congr 1
  rw [forN_congr _ (fun i b => fill (0 + i * r.y.shape.a1) (0 + i * r.y.shape.a1 + r.y.shape.a1)
    (matmul_val A r.x.base r.y.base r.x.shape.a1 r.y.shape.a1) b) _ _ _
    (fun i _ _ t => matmul_row_fill A r i t hN), forN_fill_blocks]
  simp only [Nat.zero_add]
  generalize ti * ((r.x.shape.a0 + tc - 1) / tc) = ra
  generalize min (ra + (r.x.shape.a0 + tc - 1) / tc) r.x.shape.a0 = rb
  by_cases h : ra ≤ rb
  · rw [Nat.add_sub_cancel' h]
  · have e : rb - ra = 0 := by omega
    rw [e, Nat.add_zero, fill_empty _ _ _ _ (le_refl _), fill_empty]
    exact Nat.mul_le_mul_right _ (by omega)

/-- C3. For every `M, K, N >= 0`, row-major `X` (`M x K`) and `Y` (`K x N`), every initial
content of `R` and every worker count `tc >= 1`: after the matmul kernel has run once for each
worker index `0 .. tc-1`, in any order, `R[i*N + j]` is the sum over `k = 0 .. K-1`,
accumulated in increasing `k` from `0.0f`, of `X[i*K + k] * Y[k*N + j]`, for all `i < M` and
`j < N`; the storage beyond `M*N` is untouched. -/
theorem matmul_kernel_correct (A : FloatOps F32 F64) (lanes : Nat) (node : mag_node_t F32)
    (M K N tc : Nat) (order : List Nat) (br : Buf F32)
    (hop : node.op = .MATMUL)
    (hx : node.x.shape = ⟨M, K, 1, 1, 1, 1⟩) (hy : node.y.shape = ⟨K, N, 1, 1, 1, 1⟩)
    (hr : node.shape = ⟨M, N, 1, 1, 1, 1⟩)
    (htc : 1 ≤ tc) (horder : order.Perm (List.range tc)) :
    ∃ out, launch A lanes node tc order br = some out ∧
      (∀ i j, i < M → j < N →
        out (i * N + j) = fold_sum A.add A.zero
          (fun k => A.mul (node.x.base (i * K + k)) (node.y.base (k * N + j))) K) ∧
      (∀ p, M * N ≤ p → out p = br p) := by
  have hrun := launch_fill_total A lanes node tc _ _
    (matmul_val A node.x.base node.y.base node.x.shape.a1 node.y.shape.a1)
    (node.x.shape.a0 * node.y.shape.a1)
    (fun ti b => by
      rw [hop]
      exact matmul_kernel_fill A tc ti node b htc (by rw [hr, hy]) (by rw [hx]; simp)
        (by rw [hy]; simp))
    (chunk_cover_scaled _ tc _ htc) order horder br
  rw [hx, hy] at hrun
  simp only at hrun
  refine ⟨_, hrun, ?_, ?_⟩
  · intro i j hi hj
    have hlt : i * N + j < M * N := by
      rw [Nat.add_comm, Nat.mul_comm i N, Nat.mul_comm M N]
      exact digit_lt N M j i hj hi
    unfold fill
    rw [if_pos ⟨Nat.zero_le _, hlt⟩]
    obtain ⟨hq, hm⟩ := row_div_mod i N (i * N + j) (by omega) (by omega)
    simp only [matmul_val, hq, hm, Nat.add_sub_cancel_left, Nat.mul_comm K i, Nat.mul_comm N]
  · intro p hp
    unfold fill
    rw [if_neg (by omega)]

/-- Witness for C3: `X = [[1,2],[3,4]]`, `Y = [[5,6],[7,8]]` give `[[19,22],[43,50]]`, here
with two workers run in the order 1, 0 over a storage that held other values. -/
theorem matmul_kernel_correct_witness :
    ∃ out, launch exactOps 0 matmul_node 2 [1, 0] blank = some out ∧
      out.take 4 = [.fin 19, .fin 22, .fin 43, .fin 50] := by
  obtain ⟨out, h1, h2, _⟩ := matmul_kernel_correct exactOps 0 matmul_node 2 2 2 2 [1, 0] blank
    rfl rfl rfl rfl (by decide) (List.Perm.swap 0 1 [])
  refine ⟨out, h1, ?_⟩
  show [out 0, out 1, out 2, out 3] = _
  have e0 := h2 0 0 (by decide) (by decide)
  have e1 := h2 0 1 (by decide) (by decide)
  have e2 := h2 1 0 (by decide) (by decide)
  have e3 := h2 1 1 (by decide) (by decide)
  simp only [Nat.zero_mul, Nat.one_mul, Nat.zero_add, Nat.reduceAdd] at e0 e1 e2 e3
  rw [e0, e1, e2, e3]
  decide!

end Matmul

/-! ## Reductions -/

section Reductions

variable {F32 F64 : Type} {σ : Type}

theorem forN_shift (G : Nat → σ → σ) (c lo n : Nat) (s : σ) :
    forN (fun i s => G (i + c) s) lo n s = forN G (lo + c) n s := by
  induction n generalizing lo s with
  | zero => rfl
  | succ n ih =>
    rw [forN, forN, ih]
    have e : lo + 1 + c = lo + c + 1 := by omega
    rw [e]

theorem forN_blocks (G : Nat → σ → σ) (a base n : Nat) (s : σ) :
    forN (fun j s => forN G (base + a * j) a s) 0 n s = forN G base (a * n) s := by
  induction n with
  | zero => rfl
  | succ n ih =>
    rw [forN_succ_last, ih, Nat.mul_succ, forN_append, Nat.zero_add]

/-- The loop nest of the reduction kernels visits the rows in the order of their rank
`i1 + d1*(i2 + d2*(i3 + d3*(i4 + d4*i5)))`. -/
theorem walk5_flat (d : Arr6) (G : Nat → σ → σ) (s : σ) :
    walk5 d (fun i1 i2 i3 i4 i5 s =>
      G (i1 + d.a1 * (i2 + d.a2 * (i3 + d.a3 * (i4 + d.a4 * i5)))) s) s =
    forN G 0 d.rows s := by
  unfold walk5 Arr6.rows
  have l1 : ∀ c s, forN (fun i1 s => G (i1 + d.a1 * c) s) 0 d.a1 s = forN G (d.a1 * c) d.a1 s := by
    intro c s
    rw [forN_shift G (d.a1 * c) 0 d.a1 s, Nat.zero_add]
  have l2 : ∀ c s, forN (fun i2 s => forN G (d.a1 * (i2 + d.a2 * c)) d.a1 s) 0 d.a2 s =
      forN G (d.a1 * d.a2 * c) (d.a1 * d.a2) s := by
    intro c s
    have e : ∀ i2, d.a1 * (i2 + d.a2 * c) = d.a1 * d.a2 * c + d.a1 * i2 := by intro i2; ring
    simp only [e]
    exact forN_blocks G d.a1 _ d.a2 s
  have l3 : ∀ c s, forN (fun i3 s => forN G (d.a1 * d.a2 * (i3 + d.a3 * c)) (d.a1 * d.a2) s)
      0 d.a3 s = forN G (d.a1 * d.a2 * d.a3 * c) (d.a1 * d.a2 * d.a3) s := by
    intro c s
    have e : ∀ i3, d.a1 * d.a2 * (i3 + d.a3 * c) =
        d.a1 * d.a2 * d.a3 * c + d.a1 * d.a2 * i3 := by intro i3; ring
    simp only [e]
    exact forN_blocks G (d.a1 * d.a2) _ d.a3 s
  have l4 : ∀ c s, forN (fun i4 s =>
      forN G (d.a1 * d.a2 * d.a3 * (i4 + d.a4 * c)) (d.a1 * d.a2 * d.a3) s) 0 d.a4 s =
      forN G (d.a1 * d.a2 * d.a3 * d.a4 * c) (d.a1 * d.a2 * d.a3 * d.a4) s := by
    intro c s
    have e : ∀ i4, d.a1 * d.a2 * d.a3 * (i4 + d.a4 * c) =
        d.a1 * d.a2 * d.a3 * d.a4 * c + d.a1 * d.a2 * d.a3 * i4 := by intro i4; ring
    simp only [e]
    exact forN_blocks G (d.a1 * d.a2 * d.a3) _ d.a4 s
  simp only [l1, l2, l3, l4]
  have h := forN_blocks G (d.a1 * d.a2 * d.a3 * d.a4) 0 d.a5 s
  simp only [Nat.zero_add] at h
  exact h

theorem dense_row_offset (d : Arr6) (i1 i2 i3 i4 i5 : Nat) :
    row_offset (dense_strides d) i1 i2 i3 i4 i5 =
      (i1 + d.a1 * (i2 + d.a2 * (i3 + d.a3 * (i4 + d.a4 * i5)))) * d.a0 := by
  simp only [row_offset, dense_strides]
  ring

/-- The loop nest of a reduction kernel over a dense tensor is one loop over its rows. -/
theorem walk5_dense (d : Arr6) (g : Nat → σ → σ) (s : σ) :
    walk5 d (fun i1 i2 i3 i4 i5 s => g (row_offset (dense_strides d) i1 i2 i3 i4 i5) s) s =
      forN (fun row s => g (row * d.a0) s) 0 d.rows s := by
  simp only [dense_row_offset]
  exact walk5_flat d (fun row s => g (row * d.a0) s) s

theorem forN_eq_fold_sum {F : Type} (add : F → F → F) (z : F) (f : Nat → F) (n : Nat) :
    forN (fun i s => add s (f i)) 0 n z = fold_sum add z f n := by
  induction n with
  | zero => rfl
  | succ n ih => rw [forN_succ_last, ih, fold_sum_succ, Nat.zero_add]

theorem mag_vsum_eq (A : FloatOps F32 F64) (n : Nat) (x : Buf F32) (px : Nat) :
    mag_vsum_f64_f32 A n x px = fold_sum A.add64 A.zero64 (fun i => A.up (x (px + i))) n := by
  unfold mag_vsum_f64_f32
  exact forN_eq_fold_sum A.add64 A.zero64 (fun i => A.up (x (px + i))) n

/-- The accumulator of the SUM and MEAN kernels after the loop nest, on a dense input. -/
theorem sum_walk_dense (A : FloatOps F32 F64) (x : mag_tensor_t F32)
    (hx : x.strides = dense_strides x.shape) :
    walk5 x.shape (fun i1 i2 i3 i4 i5 sum =>
      A.add64 sum (mag_vsum_f64_f32 A x.shape.a0 x.base (row_offset x.strides i1 i2 i3 i4 i5)))
      A.zero64 = rows_sum A x.base x.shape.a0 x.shape.rows := by
  rw [hx, walk5_dense x.shape
    (fun off sum => A.add64 sum (mag_vsum_f64_f32 A x.shape.a0 x.base off)) A.zero64]
  simp only [mag_vsum_eq]
  exact forN_eq_fold_sum A.add64 A.zero64 _ _

/-- Splitting a left fold, for an associative addition with right identity `z`. -/
theorem fold_sum_add {F : Type} (add : F → F → F) (z : F) (f : Nat → F)
    (hassoc : ∀ a b c, add (add a b) c = add a (add b c)) (hz : ∀ a, add a z = a)
    (n m : Nat) :
    fold_sum add z f (n + m) = add (fold_sum add z f n) (fold_sum add z (fun i => f (n + i)) m) := by
  induction m with
  | zero => rw [Nat.add_zero]; exact (hz _).symm
  | succ m ih =>
    rw [← Nat.add_assoc, fold_sum_succ, ih, fold_sum_succ, hassoc]

/-- For an associative addition with right identity `0.0`, the row-wise sum is the sum of all
elements in increasing offset. -/
theorem rows_sum_flat (A : FloatOps F32 F64) (x : Buf F32) (d0 rows : Nat)
    (hassoc : ∀ a b c, A.add64 (A.add64 a b) c = A.add64 a (A.add64 b c))
    (hz : ∀ a, A.add64 a A.zero64 = a) :
    rows_sum A x d0 rows = fold_sum A.add64 A.zero64 (fun p => A.up (x p)) (rows * d0) := by
  unfold rows_sum
  induction rows with
  | zero => rw [Nat.zero_mul]; rfl
  | succ r ih =>
    rw [fold_sum_succ, ih, Nat.succ_mul,
      fold_sum_add A.add64 A.zero64 (fun p => A.up (x p)) hassoc hz (r * d0) d0]

theorem rows_mul_eq_prod (d : Arr6) : d.rows * d.a0 = d.prod := by
  unfold Arr6.rows Arr6.prod
  ring

/-- C6. For every dense tensor `x` the SUM kernel, run for any worker payload, stores at element
0 of the output the `double` sum of the elements of `x` converted to `float`, and leaves every
other element alone: the rows of `d0` contiguous elements are each summed from seed 0 and the
row sums accumulated from seed 0 over the `d1*..*d5` rows, so that each of the
`numel = d0*..*d5` elements enters exactly once; when `double` addition is associative with
right identity 0 this is the sum of the elements at offsets `0 .. numel-1` in order. -/
theorem sum_kernel_correct (A : FloatOps F32 F64) (lanes : Nat) (node : mag_node_t F32)
    (tc ti : Nat) (br : Buf F32)
    (hop : node.op = .SUM) (hx : node.x.strides = dense_strides node.x.shape) :
    ∃ out, mag_blas_dispatch_table_forward A lanes node.op ⟨tc, ti, node⟩ br = some out ∧
      out 0 = A.down (rows_sum A node.x.base node.x.shape.a0 node.x.shape.rows) ∧
      (∀ p, p ≠ 0 → out p = br p) ∧
      ((∀ a b c, A.add64 (A.add64 a b) c = A.add64 a (A.add64 b c)) →
        (∀ a, A.add64 a A.zero64 = a) →
        out 0 = A.down (fold_sum A.add64 A.zero64 (fun p => A.up (node.x.base p))
          node.x.shape.prod)) := by
  rw [hop]
  refine ⟨_, rfl, ?_, ?_, ?_⟩
  · show (store br 0 _) 0 = _
    unfold store
    rw [if_pos rfl, sum_walk_dense A node.x hx]
  · intro p hp
    show (store br 0 _) p = _
    unfold store
    rw [if_neg hp]
  · intro hassoc hz
    show (store br 0 _) 0 = _
    unfold store
    rw [if_pos rfl, sum_walk_dense A node.x hx, rows_sum_flat A _ _ _ hassoc hz,
      rows_mul_eq_prod]

/-- Witness for C6: `SUM` over `x = [[1, 2], [3, 4]]` stores 10, here run as worker 0 of 1. -/
theorem sum_kernel_correct_witness :
    ∃ out, mag_blas_dispatch_table_forward exactOps 0 sum_node.op ⟨1, 0, sum_node⟩ blank
        = some out ∧ out 0 = .fin 10 := by
  obtain ⟨out, h1, h2, _, _⟩ := sum_kernel_correct exactOps 0 sum_node 1 0 blank rfl rfl
  refine ⟨out, h1, ?_⟩
  rw [h2]
  decide!


theorem round_half_even_int (z : ℤ) : round_half_even (z : ℚ) = z := by
  unfold round_half_even
  rw [Int.floor_intCast]
  simp

theorem round_half_even_bounds (q : ℚ) :
    ⌊q⌋ ≤ round_half_even q ∧ round_half_even q ≤ ⌊q⌋ + 1 := by
  unfold round_half_even
  split_ifs <;> constructor <;> omega

theorem round_half_even_up (z : ℤ) (f : ℚ) (h1 : 1 / 2 < f) (h2 : f < 1) :
    round_half_even ((z : ℚ) + f) = z + 1 := by
  have hfl : ⌊(z : ℚ) + f⌋ = z := by
    rw [Int.floor_eq_iff]
    constructor <;> linarith
  unfold round_half_even
  rw [hfl]
  have e : (z : ℚ) + f - z = f := by ring
  rw [e, if_neg (by linarith), if_pos h1]

theorem round_half_even_tie_odd (z : ℤ) (hz : z % 2 = 1) :
    round_half_even ((z : ℚ) + 1 / 2) = z + 1 := by
  have hfl : ⌊(z : ℚ) + 1 / 2⌋ = z := by
    rw [Int.floor_eq_iff]
    constructor <;> linarith
  unfold round_half_even
  rw [hfl]
  have e : (z : ℚ) + 1 / 2 - z = 1 / 2 := by ring
  rw [e, if_neg (lt_irrefl _), if_neg (lt_irrefl _), if_neg (by omega)]

theorem log_two_eq (q : ℚ) (L : ℤ) (hlo : (2 : ℚ) ^ L ≤ q) (hhi : q < (2 : ℚ) ^ (L + 1)) :
    Int.log 2 q = L := by
  have hq : 0 < q := lt_of_lt_of_le (by positivity) hlo
  have h1 : L ≤ Int.log 2 q := (Int.zpow_le_iff_le_log (by norm_num) hq).1 (by exact_mod_cast hlo)
  have h2 : Int.log 2 q < L + 1 :=
    (Int.lt_zpow_iff_log_lt (by norm_num) hq).1 (by exact_mod_cast hhi)
  omega

/-- The rounding of a positive value of the binade `[2^L, 2^(L+1))`. -/
theorem rne_of_binade (p : Nat) (q : ℚ) (L : ℤ) (hlo : (2 : ℚ) ^ L ≤ q)
    (hhi : q < (2 : ℚ) ^ (L + 1)) :
    rne p q = (round_half_even (q / 2 ^ (L - ((p : ℤ) - 1))) : ℚ) * 2 ^ (L - ((p : ℤ) - 1)) := by
  have hpos : 0 < q := lt_of_lt_of_le (by positivity) hlo
  unfold rne
  rw [if_neg (ne_of_gt hpos), abs_of_pos hpos, log_two_eq q L hlo hhi]

/-- An integer multiple of a power of two whose multiplier has fewer than `p` bits is its own
rounding to `p` bits. -/
theorem rne_fix_lt (p : Nat) (m e : ℤ) (hm : |m| < 2 ^ p) :
    rne p ((m : ℚ) * 2 ^ e) = (m : ℚ) * 2 ^ e := by
  by_cases hm0 : m = 0
  · subst hm0
    simp [rne]
  have h2 : (0 : ℚ) < 2 := by norm_num
  have hq : (m : ℚ) * 2 ^ e ≠ 0 := mul_ne_zero (by exact_mod_cast hm0) (zpow_ne_zero _ (by norm_num))
  have habs : |(m : ℚ) * 2 ^ e| = (|m| : ℤ) * 2 ^ e := by
    rw [abs_mul, abs_of_pos (zpow_pos h2 e)]
    push_cast
    rfl
  have hpos : 0 < |(m : ℚ) * 2 ^ e| := abs_pos.2 hq
  have hL := Int.zpow_log_le_self (b := 2) (by norm_num) hpos
  have hlt : |(m : ℚ) * 2 ^ e| < (2 : ℚ) ^ ((p : ℤ) + e) := by
    rw [habs, zpow_add₀ (by norm_num : (2 : ℚ) ≠ 0)]
    apply mul_lt_mul_of_pos_right _ (zpow_pos h2 e)
    have : ((|m| : ℤ) : ℚ) < ((2 ^ p : ℤ) : ℚ) := by exact_mod_cast hm
    simpa using this
  have hLlt : Int.log 2 |(m : ℚ) * 2 ^ e| < (p : ℤ) + e := by
    have h3 : ((2 : ℕ) : ℚ) ^ Int.log 2 |(m : ℚ) * 2 ^ e| < (2 : ℚ) ^ ((p : ℤ) + e) :=
      lt_of_le_of_lt hL hlt
    have h4 : ((2 : ℕ) : ℚ) = 2 := by norm_num
    rw [h4] at h3
    exact (zpow_lt_zpow_iff_right₀ (by norm_num : (1 : ℚ) < 2)).1 h3
  unfold rne
  rw [if_neg hq]
  generalize Int.log 2 |(m : ℚ) * 2 ^ e| = L at hLlt
  obtain ⟨n, hn⟩ : ∃ n : ℕ, e = (L - ((p : ℤ) - 1)) + n :=
    ⟨(e - (L - ((p : ℤ) - 1))).toNat, by omega⟩
  have he : (2 : ℚ) ^ e = 2 ^ (L - ((p : ℤ) - 1)) * 2 ^ n := by
    rw [hn, zpow_add₀ (by norm_num : (2 : ℚ) ≠ 0), zpow_natCast]
  show (round_half_even ((m : ℚ) * 2 ^ e / 2 ^ (L - ((p : ℤ) - 1))) : ℚ) *
    2 ^ (L - ((p : ℤ) - 1)) = _
  rw [he]
  have hu : (2 : ℚ) ^ (L - ((p : ℤ) - 1)) ≠ 0 := zpow_ne_zero _ (by norm_num)
  generalize (2 : ℚ) ^ (L - ((p : ℤ) - 1)) = u at hu
  have hdiv : (m : ℚ) * (u * 2 ^ n) / u = ((m * 2 ^ n : ℤ) : ℚ) := by
    push_cast
    field_simp
    ring
  rw [hdiv, round_half_even_int]
  push_cast
  ring

/-- The same for a multiplier of at most `2^p` in magnitude. -/
theorem rne_fix_le (p : Nat) (hp : 1 ≤ p) (m e : ℤ) (hm : |m| ≤ 2 ^ p) :
    rne p ((m : ℚ) * 2 ^ e) = (m : ℚ) * 2 ^ e := by
  rcases lt_or_eq_of_le hm with h | h
  · exact rne_fix_lt p m e h
  · obtain ⟨k, hk⟩ : ∃ k, p = k + 1 := ⟨p - 1, by omega⟩
    subst hk
    have hdvd : (2 : ℤ) ∣ m := by
      have h1 : (2 : ℤ) ∣ |m| := by
        rw [h, pow_succ]
        exact Dvd.intro_left _ rfl
      exact (dvd_abs 2 m).1 h1
    obtain ⟨m1, hm1⟩ := hdvd
    subst hm1
    have hm1lt : |m1| < 2 ^ (k + 1) := by
      rw [abs_mul, pow_succ] at h
      have h3 : |(2 : ℤ)| = 2 := by norm_num
      rw [h3] at h
      have h4 : |m1| = 2 ^ k := by
        have := h
        linarith
      rw [h4, pow_succ]
      have : (0 : ℤ) < 2 ^ k := by positivity
      linarith
    have e1 : (((2 * m1 : ℤ)) : ℚ) * 2 ^ e = (m1 : ℚ) * 2 ^ (e + 1) := by
      rw [zpow_add₀ (by norm_num : (2 : ℚ) ≠ 0)]
      push_cast
      ring
    rw [e1]
    exact rne_fix_lt (k + 1) m1 (e + 1) hm1lt

/-- A value that is its own rounding to `p` bits is an integer multiple of a power of two with
a multiplier of at most `2^p` in magnitude. -/
theorem rne_fixed_form (p : Nat) (q : ℚ) (h : rne p q = q) :
    ∃ m e : ℤ, |m| ≤ 2 ^ p ∧ q = (m : ℚ) * 2 ^ e := by
  by_cases hq : q = 0
  · exact ⟨0, 0, by positivity, by simp [hq]⟩
  have hpos : 0 < |q| := abs_pos.2 hq
  have h2 : (0 : ℚ) < 2 := by norm_num
  have hhi := Int.lt_zpow_succ_log_self (b := 2) (by norm_num) |q|
  have h4 : ((2 : ℕ) : ℚ) = 2 := by norm_num
  rw [h4] at hhi
  unfold rne at h
  rw [if_neg hq] at h
  generalize Int.log 2 |q| = L at h hhi
  refine ⟨round_half_even (q / 2 ^ (L - ((p : ℤ) - 1))), L - ((p : ℤ) - 1), ?_, h.symm⟩
  have hu : (0 : ℚ) < 2 ^ (L - ((p : ℤ) - 1)) := zpow_pos h2 _
  have hx : |q / 2 ^ (L - ((p : ℤ) - 1))| < ((2 ^ p : ℤ) : ℚ) := by
    rw [abs_div, abs_of_pos hu, div_lt_iff₀ hu]
    have e2 : (((2 : ℤ) ^ p : ℤ) : ℚ) * 2 ^ (L - ((p : ℤ) - 1)) = 2 ^ (L + 1) := by
      push_cast
      rw [← zpow_natCast, ← zpow_add₀ (by norm_num : (2 : ℚ) ≠ 0)]
      congr 1
      ring
    rw [e2]
    exact hhi
  generalize q / 2 ^ (L - ((p : ℤ) - 1)) = x at hx
  obtain ⟨hb1, hb2⟩ := round_half_even_bounds x
  rw [abs_lt] at hx
  have hf1 : ⌊x⌋ < 2 ^ p := Int.floor_lt.2 hx.2
  have hf2 : -(2 ^ p : ℤ) ≤ ⌊x⌋ := Int.le_floor.2 (by push_cast at hx ⊢; linarith [hx.1])
  rw [abs_le]
  constructor <;> omega

theorem ieee_val_eq_some (p : Nat) (x q : ℚ) :
    ieee_val p x = some q ↔ rne p x = x ∧ x = q := by
  unfold ieee_val
  split_ifs with h
  · simp [h]
  · simp [h]

theorem ieee_val_fix (p : Nat) (x : ℚ) (h : rne p x = x) : ieee_val p x = some x :=
  (ieee_val_eq_some p x x).2 ⟨h, rfl⟩

theorem rne_nat (p : Nat) (hp : 1 ≤ p) (n : Nat) (h : n ≤ 2 ^ p) : rne p (n : ℚ) = n := by
  have := rne_fix_le p hp (n : ℤ) 0 (by rw [abs_of_nonneg (by positivity)]; exact_mod_cast h)
  simpa using this

/-- A multiple `k * q`, `k <= 2^29`, of a value of 24 significant bits has at most 53. -/
theorem rne_multiple (q : ℚ) (h : rne 24 q = q) (k : Nat) (hk : k ≤ 2 ^ 29) :
    rne 53 ((k : ℚ) * q) = (k : ℚ) * q := by
  obtain ⟨m, e, hm, rfl⟩ := rne_fixed_form 24 q h
  have e1 : (k : ℚ) * ((m : ℚ) * 2 ^ e) = (((k : ℤ) * m : ℤ) : ℚ) * 2 ^ e := by
    push_cast
    ring
  rw [e1]
  apply rne_fix_le 53 (by norm_num)
  rw [abs_mul, abs_of_nonneg (by positivity : (0 : ℤ) ≤ (k : ℤ))]
  have hk1 : (k : ℤ) ≤ 2 ^ 29 := by exact_mod_cast hk
  calc (k : ℤ) * |m| ≤ 2 ^ 29 * 2 ^ 24 :=
        mul_le_mul hk1 hm (abs_nonneg m) (by positivity)
    _ = 2 ^ 53 := by norm_num

/-- The IEEE interpretation meets the rounding laws. -/
theorem ieee_laws : RoundingLaws ieeeOps (ieee_val 24) (ieee_val 53) where
  zero64 := ieee_val_fix 53 0 (by simp [rne])
  up := by
    intro x q h
    obtain ⟨h1, rfl⟩ := (ieee_val_eq_some 24 x q).1 h
    have := rne_multiple x h1 1 (by norm_num)
    simp only [Nat.cast_one, one_mul] at this
    exact ieee_val_fix 53 x this
  ofInt64 := by
    intro n hn
    show ieee_val 53 (rne 53 (n : ℚ)) = some (n : ℚ)
    rw [rne_nat 53 (by norm_num) n hn]
    exact ieee_val_fix 53 _ (rne_nat 53 (by norm_num) n hn)
  add64 := by
    intro a b d qa qb ha hb hd
    obtain ⟨_, rfl⟩ := (ieee_val_eq_some 53 a qa).1 ha
    obtain ⟨_, rfl⟩ := (ieee_val_eq_some 53 b qb).1 hb
    obtain ⟨h1, rfl⟩ := (ieee_val_eq_some 53 d _).1 hd
    show ieee_val 53 (rne 53 (a + b)) = some (a + b)
    rw [h1]
    exact ieee_val_fix 53 _ h1
  div64 := by
    intro a b d qa qb ha hb _ hd
    obtain ⟨_, rfl⟩ := (ieee_val_eq_some 53 a qa).1 ha
    obtain ⟨_, rfl⟩ := (ieee_val_eq_some 53 b qb).1 hb
    obtain ⟨h1, rfl⟩ := (ieee_val_eq_some 53 d _).1 hd
    show ieee_val 53 (rne 53 (a / b)) = some (a / b)
    rw [h1]
    exact ieee_val_fix 53 _ h1
  down := by
    intro d c q hd hc
    obtain ⟨_, rfl⟩ := (ieee_val_eq_some 53 d q).1 hd
    obtain ⟨h1, rfl⟩ := (ieee_val_eq_some 24 c _).1 hc
    show ieee_val 24 (rne 24 c) = some c
    rw [h1]
    exact ieee_val_fix 24 _ h1
  multiples := by
    intro c q k hc hk
    obtain ⟨h1, rfl⟩ := (ieee_val_eq_some 24 c q).1 hc
    exact ⟨(k : ℚ) * c, ieee_val_fix 53 _ (rne_multiple c h1 k hk)⟩
  inj32 := by
    intro a b q ha hb _
    obtain ⟨_, rfl⟩ := (ieee_val_eq_some 24 a q).1 ha
    obtain ⟨_, h⟩ := (ieee_val_eq_some 24 b _).1 hb
    exact h.symm

/-- A left fold of `n` summands of value `w * q` is exact while `n * w <= 2^29`. -/
theorem fold_sum_exact (A : FloatOps F32 F64) (val32 : F32 → Option ℚ) (val64 : F64 → Option ℚ)
    (L : RoundingLaws A val32 val64) (c : F32) (q : ℚ) (hc : val32 c = some q) (w : Nat)
    (f : Nat → F64) (n : Nat) (hf : ∀ i, i < n → val64 (f i) = some ((w : ℚ) * q))
    (hn : n * w ≤ 2 ^ 29) :
    val64 (fold_sum A.add64 A.zero64 f n) = some (((n * w : Nat) : ℚ) * q) := by
  induction n with
  | zero =>
    have h := L.zero64
    simpa [fold_sum] using h
  | succ n ih =>
    have hle : n * w ≤ (n + 1) * w := Nat.mul_le_mul_right w (Nat.le_succ n)
    have ih1 := ih (fun i hi => hf i (by omega)) (le_trans hle hn)
    obtain ⟨d, hd⟩ := L.multiples c q ((n + 1) * w) hc hn
    have e : (((n + 1) * w : Nat) : ℚ) * q = ((n * w : Nat) : ℚ) * q + (w : ℚ) * q := by
      push_cast
      ring
    rw [fold_sum_succ, e]
    rw [e] at hd
    exact L.add64 _ _ d _ _ ih1 (hf n (by omega)) hd

/-- The accumulator of the SUM and MEAN kernels over a constant tensor is exact while the tensor
has at most `2^29` elements. -/
theorem rows_sum_exact (A : FloatOps F32 F64) (val32 : F32 → Option ℚ) (val64 : F64 → Option ℚ)
    (L : RoundingLaws A val32 val64) (x : Buf F32) (d0 rows : Nat) (c : F32) (q : ℚ)
    (hc : val32 c = some q) (hn : rows * d0 ≤ 2 ^ 29) (hx : ∀ p, p < rows * d0 → x p = c) :
    val64 (rows_sum A x d0 rows) = some (((rows * d0 : Nat) : ℚ) * q) := by
  unfold rows_sum
  apply fold_sum_exact A val32 val64 L c q hc d0 _ rows _ hn
  intro row hrow
  have h1 : (row + 1) * d0 ≤ rows * d0 := Nat.mul_le_mul_right d0 hrow
  have h2 : d0 ≤ rows * d0 := by
    rw [Nat.add_mul] at h1
    omega
  have h := fold_sum_exact A val32 val64 L c q hc 1 (fun i => A.up (x (row * d0 + i))) d0
    (fun i hi => by
      show val64 (A.up (x (row * d0 + i))) = some (((1 : Nat) : ℚ) * q)
      rw [hx (row * d0 + i) (by rw [Nat.add_mul] at h1; omega)]
      simpa using L.up c q hc)
    (by omega)
  simpa using h

/-- The value the MEAN kernel stores for a constant tensor of at most `2^29` elements. -/
theorem mean_constant_exact (A : FloatOps F32 F64) (val32 : F32 → Option ℚ)
    (val64 : F64 → Option ℚ) (L : RoundingLaws A val32 val64) (x : Buf F32) (d0 rows : Nat)
    (c : F32) (q : ℚ) (hc : val32 c = some q) (h1 : 1 ≤ rows * d0) (hn : rows * d0 ≤ 2 ^ 29)
    (hx : ∀ p, p < rows * d0 → x p = c) :
    val32 (A.down (A.div64 (rows_sum A x d0 rows) (A.ofInt64 (rows * d0)))) = some q := by
  have hs := rows_sum_exact A val32 val64 L x d0 rows c q hc hn hx
  have ho := L.ofInt64 (rows * d0) (le_trans hn (by norm_num))
  have hne : ((rows * d0 : Nat) : ℚ) ≠ 0 := by
    have : rows * d0 ≠ 0 := by omega
    exact_mod_cast this
  have e : ((rows * d0 : Nat) : ℚ) * q / ((rows * d0 : Nat) : ℚ) = q :=
    mul_div_cancel_left₀ q hne
  obtain ⟨d, hd⟩ := L.multiples c q 1 hc (by norm_num)
  simp only [Nat.cast_one, one_mul] at hd
  have hdiv := L.div64 _ _ d _ _ hs ho hne (by rw [e]; exact hd)
  rw [e] at hdiv
  exact L.down _ c q hdiv hc

/-- The value the MEAN kernel stores, for a dense input. -/
theorem mean_kernel_value {F32 F64 : Type} (A : FloatOps F32 F64) (lanes : Nat)
    (node : mag_node_t F32) (tc ti : Nat) (br : Buf F32)
    (hop : node.op = .MEAN) (hx : node.x.strides = dense_strides node.x.shape)
    (hnumel : node.x.numel = node.x.shape.prod) :
    mag_blas_dispatch_table_forward A lanes node.op ⟨tc, ti, node⟩ br =
      some (store br 0 (A.down (A.div64
        (rows_sum A node.x.base node.x.shape.a0 node.x.shape.rows)
        (A.ofInt64 node.x.shape.prod)))) := by
  rw [hop]
  show some (store br 0 (A.down (A.div64
      (walk5 node.x.shape (fun i1 i2 i3 i4 i5 sum =>
        A.add64 sum (mag_vsum_f64_f32 A node.x.shape.a0 node.x.base
          (row_offset node.x.strides i1 i2 i3 i4 i5))) A.zero64)
      (A.ofInt64 node.x.numel)))) = _
  rw [sum_walk_dense A node.x hx, hnumel]

/-- C7, as amended.  For every dense tensor `x` whose `numel` field is the product of its six
extents, the MEAN kernel, run for any worker payload, stores at element 0 of the output the
`double` sum of the elements (formed as by the SUM kernel) divided by `(double)numel` and
converted to `float`, and leaves every other element alone.  Under the IEEE-754 rounding laws,
for a tensor of at least 1 and at most `2^29` elements all equal to a finite `float` `c`, the
stored value is exactly that of `c`, and it is the datum `c` when `c` is not a zero. -/
theorem mean_kernel_correct (A : FloatOps F32 F64) (lanes : Nat) (node : mag_node_t F32)
    (tc ti : Nat) (br : Buf F32)
    (hop : node.op = .MEAN) (hx : node.x.strides = dense_strides node.x.shape)
    (hnumel : node.x.numel = node.x.shape.prod) :
    ∃ out, mag_blas_dispatch_table_forward A lanes node.op ⟨tc, ti, node⟩ br = some out ∧
      out 0 = A.down (A.div64 (rows_sum A node.x.base node.x.shape.a0 node.x.shape.rows)
        (A.ofInt64 node.x.shape.prod)) ∧
      (∀ p, p ≠ 0 → out p = br p) ∧
      (∀ (val32 : F32 → Option ℚ) (val64 : F64 → Option ℚ) (c : F32) (q : ℚ),
        RoundingLaws A val32 val64 → val32 c = some q →
        1 ≤ node.x.shape.prod → node.x.shape.prod ≤ 2 ^ 29 →
        (∀ p, p < node.x.shape.prod → node.x.base p = c) →
        val32 (out 0) = some q ∧ (q ≠ 0 → out 0 = c)) := by
  refine ⟨_, mean_kernel_value A lanes node tc ti br hop hx hnumel, ?_, ?_, ?_⟩
  · unfold store
    rw [if_pos rfl]
  · intro p hp
    unfold store
    rw [if_neg hp]
  · intro val32 val64 c q L hc h1 hn hall
    have hv : val32 (store br 0 (A.down (A.div64
        (rows_sum A node.x.base node.x.shape.a0 node.x.shape.rows)
        (A.ofInt64 node.x.shape.prod))) 0) = some q := by
      unfold store
      rw [if_pos rfl, ← rows_mul_eq_prod]
      rw [← rows_mul_eq_prod] at h1 hn hall
      exact mean_constant_exact A val32 val64 L node.x.base node.x.shape.a0 node.x.shape.rows
        c q hc h1 hn hall
    exact ⟨hv, fun hq => L.inj32 _ c q hv hc hq⟩

/-- Witness for C7: in IEEE arithmetic `MEAN` over a 1000-element vector of all `1.0` stores
exactly `1.0`. -/
theorem mean_kernel_correct_witness :
    ∃ out, mag_blas_dispatch_table_forward ieeeOps 0 mean_node.op ⟨1, 0, mean_node⟩
        (fun _ => 0) = some out ∧ out 0 = 1 := by
  obtain ⟨out, h1, _, _, h4⟩ :=
    mean_kernel_correct ieeeOps 0 mean_node 1 0 (fun _ => 0) rfl rfl rfl
  refine ⟨out, h1, ?_⟩
  have h1000 : rne 24 (1 : ℚ) = 1 := by
    have h := rne_nat 24 (by norm_num) 1 (by norm_num)
    simpa using h
  exact (h4 (ieee_val 24) (ieee_val 53) 1 1 ieee_laws (ieee_val_fix 24 1 h1000) (by decide)
    (by decide) (fun _ _ => rfl)).2 one_ne_zero

/-- While the accumulator stays below `2^53` units of `2^-23`, adding `near_two` is exact. -/
theorem near_two_sum_exact (k : Nat) (hk : k ≤ 536870944) :
    fold_sum ieeeOps.add64 ieeeOps.zero64 (fun _ => ieeeOps.up near_two) k = (k : ℚ) * near_two := by
  induction k with
  | zero => simp [fold_sum, ieeeOps, qOps]
  | succ k ih =>
    rw [fold_sum_succ, ih (by omega)]
    show rne 53 ((k : ℚ) * near_two + near_two) = _
    have e : (k : ℚ) * near_two + near_two = (((k + 1 : Nat) * 16777215 : Nat) : ℤ) * 2 ^ (-23 : ℤ) := by
      unfold near_two
      push_cast
      norm_num
      ring
    have e2 : ((k + 1 : Nat) : ℚ) * near_two = (((k + 1 : Nat) * 16777215 : Nat) : ℤ) * 2 ^ (-23 : ℤ) := by
      rw [← e]
      push_cast
      ring
    rw [e2, e]
    apply rne_fix_lt
    rw [abs_of_nonneg (by positivity)]
    have : (k + 1) * 16777215 ≤ 536870944 * 16777215 := Nat.mul_le_mul_right _ hk
    have h3 : ((k + 1) * 16777215 : Nat) < 2 ^ 53 := lt_of_le_of_lt this (by norm_num)
    exact_mod_cast h3

/-- Once the accumulator has reached `2^53 - 32` units of `2^-23`, adding `near_two` rounds up to
the addition of `2.0`, as long as the sum stays below `2^55` units. -/
theorem near_two_step (j : Nat) (hj : j + 1 ≤ 1610612704) :
    rne 53 ((9007199254740960 : ℚ) / 8388608 + 2 * (j : ℚ) + near_two) =
      9007199254740960 / 8388608 + 2 * ((j : ℚ) + 1) := by
  have hj0 : (0 : ℚ) ≤ (j : ℚ) := by positivity
  have hj1 : (j : ℚ) + 1 ≤ 1610612704 := by exact_mod_cast hj
  by_cases hN : j + 1 ≤ 536870912
  · -- the sum lies in `[2^53, 2^54)` units: a tie between two doubles
    have hU : (j : ℚ) + 1 ≤ 536870912 := by exact_mod_cast hN
    rw [rne_of_binade 53 _ 30 (by unfold near_two; norm_num; linarith)
      (by unfold near_two; norm_num; linarith)]
    have e : ((9007199254740960 : ℚ) / 8388608 + 2 * (j : ℚ) + near_two) /
        2 ^ ((30 : ℤ) - (((53 : Nat) : ℤ) - 1)) =
        (((4503599627370479 + 8388608 * (j + 1) : Nat) : ℤ) : ℚ) + 1 / 2 := by
      unfold near_two
      push_cast
      norm_num
      ring
    rw [e, round_half_even_tie_odd _ (by omega)]
    push_cast
    norm_num
    ring
  · -- the sum lies in `[2^54, 2^55)` units
    have hU1 : (536870913 : ℚ) ≤ (j : ℚ) + 1 := by
      have : 536870913 ≤ j + 1 := by omega
      exact_mod_cast this
    rw [rne_of_binade 53 _ 31 (by unfold near_two; norm_num; linarith)
      (by unfold near_two; norm_num; linarith)]
    have e : ((9007199254740960 : ℚ) / 8388608 + 2 * (j : ℚ) + near_two) /
        2 ^ ((31 : ℤ) - (((53 : Nat) : ℤ) - 1)) =
        (((2251799813685239 + 4194304 * (j + 1) : Nat) : ℤ) : ℚ) + 3 / 4 := by
      unfold near_two
      push_cast
      norm_num
      ring
    rw [e, round_half_even_up _ _ (by norm_num) (by norm_num)]
    push_cast
    norm_num
    ring

/-- Past the exact phase every addition of `near_two` adds `2.0` to the accumulator. -/
theorem near_two_sum_drift (j : Nat) (hj : j ≤ 1610612704) :
    fold_sum ieeeOps.add64 ieeeOps.zero64 (fun _ => ieeeOps.up near_two) (536870944 + j) =
      9007199254740960 / 8388608 + 2 * (j : ℚ) := by
  induction j with
  | zero =>
    rw [Nat.add_zero, near_two_sum_exact _ (le_refl _)]
    unfold near_two
    norm_num
  | succ j ih =>
    rw [← Nat.add_assoc, fold_sum_succ, ih (by omega)]
    show rne 53 (9007199254740960 / 8388608 + 2 * (j : ℚ) + near_two) = _
    rw [near_two_step j hj]
    push_cast
    ring

/-- The `double` accumulator of MEAN over `2^31` copies of `near_two`. -/
theorem near_two_rows_sum :
    rows_sum ieeeOps near_two_input.base 2147483648 1 = 1125899890065407 * 2 ^ (-18 : ℤ) := by
  unfold rows_sum
  rw [fold_sum_succ]
  have h := near_two_sum_drift 1610612704 (le_refl _)
  have hin : fold_sum ieeeOps.add64 ieeeOps.zero64
      (fun i => ieeeOps.up (near_two_input.base (0 * 2147483648 + i))) 2147483648 =
      1125899890065407 * 2 ^ (-18 : ℤ) := by
    show fold_sum ieeeOps.add64 ieeeOps.zero64 (fun _ => ieeeOps.up near_two)
      (536870944 + 1610612704) = _
    rw [h]
    norm_num
  rw [hin]
  show rne 53 (0 + 1125899890065407 * 2 ^ (-18 : ℤ)) = _
  rw [zero_add]
  exact rne_fix_lt 53 1125899890065407 (-18) (by norm_num)

/-- Claim C7, as stated, fails for a large tensor: in IEEE arithmetic the MEAN of `2^31`
elements all equal to the `float` `2 - 2^-23` is `2.0`.  The `double` accumulator is exact up to
`2^29 + 32` elements; from there on each sum lies half way between two doubles, or nearer to the
upper one, and every addition adds `2.0`. -/
theorem mean_of_large_constant_tensor :
    ieee_val 24 near_two = some near_two ∧
    near_two_mean_node.x.strides = dense_strides near_two_mean_node.x.shape ∧
    near_two_mean_node.x.numel = near_two_mean_node.x.shape.prod ∧
    (∀ p, near_two_mean_node.x.base p = near_two) ∧
    (mag_blas_dispatch_table_forward ieeeOps 0 near_two_mean_node.op
      ⟨1, 0, near_two_mean_node⟩ (fun _ => 0)).map (fun out => out 0) = some 2 ∧
    (2 : ℚ) ≠ near_two := by
  refine ⟨?_, rfl, rfl, fun _ => rfl, ?_, by unfold near_two; norm_num⟩
  · apply ieee_val_fix
    have e : near_two = ((16777215 : ℤ) : ℚ) * 2 ^ (-23 : ℤ) := by
      unfold near_two
      norm_num
    rw [e]
    exact rne_fix_lt 24 16777215 (-23) (by norm_num)
  · rw [mean_kernel_value ieeeOps 0 near_two_mean_node 1 0 _ rfl rfl rfl]
    show some (store _ 0 _ 0) = _
    unfold store
    rw [if_pos rfl]
    congr 1
    show rne 24 (rne 53 (rows_sum ieeeOps near_two_input.base 2147483648 1 /
      rne 53 ((2147483648 : Nat) : ℚ))) = 2
    rw [near_two_rows_sum, rne_nat 53 (by norm_num) 2147483648 (by norm_num)]
    have e1 : (1125899890065407 : ℚ) * 2 ^ (-18 : ℤ) / ((2147483648 : Nat) : ℚ) =
        ((1125899890065407 : ℤ) : ℚ) * 2 ^ (-49 : ℤ) := by
      norm_num
    rw [e1, rne_fix_lt 53 1125899890065407 (-49) (by norm_num)]
    rw [rne_of_binade 24 _ 0 (by norm_num) (by norm_num)]
    have e2 : ((1125899890065407 : ℤ) : ℚ) * 2 ^ (-49 : ℤ) /
        2 ^ ((0 : ℤ) - (((24 : Nat) : ℤ) - 1)) = ((16777215 : ℤ) : ℚ) + 50331647 / 67108864 := by
      norm_num
    rw [e2, round_half_even_up _ _ (by norm_num) (by norm_num)]
    norm_num


/-- The extremum of a run of `n` elements, folded with the accumulator as left operand. -/
theorem extremum_run {F : Type} (le : F → F → Bool) (sel : F → F → F) (top : F)
    (L : ExtremumLaws le sel top) (x : Nat → F) (px n : Nat)
    (hnn : ∀ i, i < n → le (x (px + i)) (x (px + i)) = true) :
    le (forN (fun i m => sel m (x (px + i))) 0 n top)
        (forN (fun i m => sel m (x (px + i))) 0 n top) = true ∧
      (∀ i, i < n → le (forN (fun i m => sel m (x (px + i))) 0 n top) (x (px + i)) = true) ∧
      (forN (fun i m => sel m (x (px + i))) 0 n top = top ∨
        ∃ i, i < n ∧ forN (fun i m => sel m (x (px + i))) 0 n top = x (px + i)) := by
  induction n with
  | zero => exact ⟨L.top_self, fun i hi => absurd hi (by omega), Or.inl rfl⟩
  | succ n ih =>
    obtain ⟨h1, h2, h3⟩ := ih (fun i hi => hnn i (by omega))
    rw [forN_succ_last, Nat.zero_add]
    generalize forN (fun i m => sel m (x (px + i))) 0 n top = v at h1 h2 h3
    have hx := hnn n (by omega)
    have hl := L.sel_left v _ h1 hx
    have hr := L.sel_right v _ h1 hx
    refine ⟨?_, ?_, ?_⟩
    · rcases L.sel_mem v _ h1 hx with e | e
      · rw [e]; exact h1
      · rw [e]; exact hx
    · intro i hi
      by_cases c : i = n
      · subst c; exact hr
      · exact L.trans _ _ _ hl (h2 i (by omega))
    · rcases L.sel_mem v _ h1 hx with e | e
      · rcases h3 with h | ⟨i, hi, h⟩
        · left; rw [e]; exact h
        · right; exact ⟨i, by omega, by rw [e]; exact h⟩
      · right; exact ⟨n, by omega, e⟩

/-- The extremum over `rows` rows of `d0` elements, folded with the accumulator as right
operand of the row extremum. -/
theorem extremum_rows {F : Type} (le : F → F → Bool) (sel : F → F → F) (top : F)
    (L : ExtremumLaws le sel top) (x : Nat → F) (d0 rows : Nat)
    (hnn : ∀ p, p < rows * d0 → le (x p) (x p) = true) :
    le (forN (fun row m => sel (forN (fun i m => sel m (x (row * d0 + i))) 0 d0 top) m)
          0 rows top)
        (forN (fun row m => sel (forN (fun i m => sel m (x (row * d0 + i))) 0 d0 top) m)
          0 rows top) = true ∧
      (∀ p, p < rows * d0 →
        le (forN (fun row m => sel (forN (fun i m => sel m (x (row * d0 + i))) 0 d0 top) m)
          0 rows top) (x p) = true) ∧
      (forN (fun row m => sel (forN (fun i m => sel m (x (row * d0 + i))) 0 d0 top) m)
          0 rows top = top ∨
        ∃ p, p < rows * d0 ∧
          forN (fun row m => sel (forN (fun i m => sel m (x (row * d0 + i))) 0 d0 top) m)
            0 rows top = x p) := by
  induction rows with
  | zero =>
    exact ⟨L.top_self, fun p hp => absurd hp (by simp), Or.inl rfl⟩
  | succ r ih =>
    have hle : r * d0 + d0 = (r + 1) * d0 := by rw [Nat.add_mul, Nat.one_mul]
    obtain ⟨h1, h2, h3⟩ := ih (fun p hp => hnn p (by omega))
    obtain ⟨g1, g2, g3⟩ := extremum_run le sel top L x (r * d0) d0
      (fun i hi => hnn _ (by omega))
    rw [forN_succ_last, Nat.zero_add]
    generalize forN (fun row m => sel (forN (fun i m => sel m (x (row * d0 + i))) 0 d0 top) m)
      0 r top = m at h1 h2 h3
    generalize forN (fun i m => sel m (x (r * d0 + i))) 0 d0 top = v at g1 g2 g3
    have hl := L.sel_left v m g1 h1
    have hr := L.sel_right v m g1 h1
    refine ⟨?_, ?_, ?_⟩
    · rcases L.sel_mem v m g1 h1 with e | e
      · rw [e]; exact g1
      · rw [e]; exact h1
    · intro p hp
      by_cases c : p < r * d0
      · exact L.trans _ _ _ hr (h2 p c)
      · have e : p = r * d0 + (p - r * d0) := by omega
        rw [e]
        exact L.trans _ _ _ hl (g2 (p - r * d0) (by omega))
    · rcases L.sel_mem v m g1 h1 with e | e
      · rcases g3 with h | ⟨i, hi, h⟩
        · left; rw [e]; exact h
        · right; exact ⟨r * d0 + i, by omega, by rw [e]; exact h⟩
      · rcases h3 with h | ⟨p, hp, h⟩
        · left; rw [e]; exact h
        · right; exact ⟨p, by omega, by rw [e]; exact h⟩

/-- The three facts of the claim about an extremum, from the fold invariant. -/
theorem extremum_facts {F : Type} (le : F → F → Bool) (sel : F → F → F) (top : F)
    (L : ExtremumLaws le sel top) (x : Nat → F) (n : Nat) (m : F)
    (h2 : ∀ p, p < n → le m (x p) = true) (h3 : m = top ∨ ∃ p, p < n ∧ m = x p) :
    (∀ p, p < n → le m (x p) = true) ∧ (1 ≤ n → ∃ p, p < n ∧ m = x p) ∧ (n = 0 → m = top) := by
  refine ⟨h2, ?_, ?_⟩
  · intro hn
    rcases h3 with h | h
    · refine ⟨0, by omega, ?_⟩
      have := h2 0 (by omega)
      rw [h] at this
      rw [h]
      exact (L.top_le _ this).symm
    · exact h
  · intro hn
    rcases h3 with h | ⟨p, hp, _⟩
    · exact h
    · omega

/-- C8. For every dense tensor `x` without NaN elements, under the IEEE-754 facts on `<=`,
`fminf`, `fmaxf` and the infinities: the MIN kernel, for any worker payload, stores at element 0
a value that is `<=` every element of `x`, that is an element of `x` when `numel >= 1`, and
that is the seed `INFINITY` when `numel = 0` (some extent is 0); the MAX kernel stores a value
that every element is `<=` to, attained when `numel >= 1`, and `-INFINITY` when `numel = 0`. -/
theorem minmax_kernel_correct (A : FloatOps F32 F64) (lanes : Nat) (node : mag_node_t F32)
    (tc ti : Nat) (br : Buf F32) (L : MinMaxLaws A)
    (hx : node.x.strides = dense_strides node.x.shape)
    (hnan : ∀ p, p < node.x.shape.prod → A.le (node.x.base p) (node.x.base p) = true) :
    (node.op = .MIN →
      ∃ out, mag_blas_dispatch_table_forward A lanes node.op ⟨tc, ti, node⟩ br = some out ∧
        (∀ p, p < node.x.shape.prod → A.le (out 0) (node.x.base p) = true) ∧
        (1 ≤ node.x.shape.prod → ∃ p, p < node.x.shape.prod ∧ out 0 = node.x.base p) ∧
        (node.x.shape.prod = 0 → out 0 = A.infinity)) ∧
    (node.op = .MAX →
      ∃ out, mag_blas_dispatch_table_forward A lanes node.op ⟨tc, ti, node⟩ br = some out ∧
        (∀ p, p < node.x.shape.prod → A.le (node.x.base p) (out 0) = true) ∧
        (1 ≤ node.x.shape.prod → ∃ p, p < node.x.shape.prod ∧ out 0 = node.x.base p) ∧
        (node.x.shape.prod = 0 → out 0 = A.neg A.infinity)) := by
  rw [← rows_mul_eq_prod] at hnan ⊢
  constructor
  · intro hop
    rw [hop]
    refine ⟨_, rfl, ?_⟩
    show (∀ p, p < _ → A.le ((store br 0 _) 0) _ = true) ∧ (1 ≤ _ → ∃ p, p < _ ∧
      (store br 0 _) 0 = _) ∧ (_ = 0 → (store br 0 _) 0 = _)
    unfold store
    simp only [if_pos]
    rw [hx, walk5_dense node.x.shape
      (fun off min => A.fminf (mag_vmin_f32 A node.x.shape.a0 node.x.base off) min) A.infinity]
    obtain ⟨_, h2, h3⟩ := extremum_rows A.le A.fminf A.infinity L.min_laws node.x.base
      node.x.shape.a0 node.x.shape.rows hnan
    exact extremum_facts A.le A.fminf A.infinity L.min_laws node.x.base _ _ h2 h3
  · intro hop
    rw [hop]
    refine ⟨_, rfl, ?_⟩
    show (∀ p, p < _ → A.le _ ((store br 0 _) 0) = true) ∧ (1 ≤ _ → ∃ p, p < _ ∧
      (store br 0 _) 0 = _) ∧ (_ = 0 → (store br 0 _) 0 = _)
    unfold store
    simp only [if_pos]
    rw [hx, walk5_dense node.x.shape
      (fun off max => A.fmaxf (mag_vmax_f32 A node.x.shape.a0 node.x.base off) max)
      (A.neg A.infinity)]
    obtain ⟨_, h2, h3⟩ := extremum_rows (fun a b => A.le b a) A.fmaxf (A.neg A.infinity)
      L.max_laws node.x.base node.x.shape.a0 node.x.shape.rows hnan
    exact extremum_facts (fun a b => A.le b a) A.fmaxf (A.neg A.infinity) L.max_laws
      node.x.base _ _ h2 h3


/-- The exact interpretation satisfies the IEEE-754 facts on `<=`, `fminf`, `fmaxf` and the
infinities. -/
theorem exactOps_minmax_laws : MinMaxLaws exactOps := by
  constructor
  · constructor
    · intro a b c
      cases a <;> cases b <;> cases c <;> simp [exactOps, XR.le]
      exact fun h1 h2 => le_trans h1 h2
    · intro a b
      cases a <;> cases b <;> simp [exactOps, XR.le, XR.fmin]
      rename_i p q
      by_cases h : p ≤ q <;> simp [h]
    · intro a b
      cases a <;> cases b <;> simp [exactOps, XR.le, XR.fmin]
      rename_i p q
      by_cases h : p ≤ q <;> simp [h, XR.le]
      exact le_of_lt (not_le.1 h)
    · intro a b
      cases a <;> cases b <;> simp [exactOps, XR.le, XR.fmin]
      rename_i p q
      by_cases h : p ≤ q <;> simp [h, XR.le]
    · rfl
    · intro a
      cases a <;> simp [exactOps, XR.le]
    · intro a
      cases a <;> simp [exactOps, XR.le]
  · constructor
    · intro a b c
      cases a <;> cases b <;> cases c <;> simp [exactOps, XR.le]
      exact fun h1 h2 => le_trans h2 h1
    · intro a b
      cases a <;> cases b <;> simp [exactOps, XR.le, XR.fmax]
      rename_i p q
      by_cases h : p ≤ q <;> simp [h]
    · intro a b
      cases a <;> cases b <;> simp [exactOps, XR.le, XR.fmax]
      rename_i p q
      by_cases h : p ≤ q <;> simp [h, XR.le]
    · intro a b
      cases a <;> cases b <;> simp [exactOps, XR.le, XR.fmax]
      rename_i p q
      by_cases h : p ≤ q <;> simp [h, XR.le]
      exact le_of_lt (not_le.1 h)
    · rfl
    · intro a
      cases a <;> simp [exactOps, XR.le, XR.neg]
    · intro a
      cases a <;> simp [exactOps, XR.le, XR.neg]

/-- Witness for C8: over `[3, 1, 2]` the MIN kernel stores 1 and the MAX kernel stores 3. -/
theorem minmax_kernel_correct_witness :
    (∃ out, mag_blas_dispatch_table_forward exactOps 0 min_node.op ⟨1, 0, min_node⟩ blank
        = some out ∧
      (∀ p, p < 3 → exactOps.le (out 0) (min_node.x.base p) = true) ∧
      (∃ p, p < 3 ∧ out 0 = min_node.x.base p) ∧ out 0 = .fin 1) ∧
    (∃ out, mag_blas_dispatch_table_forward exactOps 0 max_node.op ⟨1, 0, max_node⟩ blank
        = some out ∧
      (∀ p, p < 3 → exactOps.le (max_node.x.base p) (out 0) = true) ∧
      (∃ p, p < 3 ∧ out 0 = max_node.x.base p) ∧ out 0 = .fin 3) := by
  have hnan : ∀ p, p < 3 → exactOps.le (minmax_input.base p) (minmax_input.base p) = true := by
    intro p hp
    have : p = 0 ∨ p = 1 ∨ p = 2 := by omega
    rcases this with h | h | h <;> subst h <;> decide!
  constructor
  · obtain ⟨out, h1, h2, h3, _⟩ := (minmax_kernel_correct exactOps 0 min_node 1 0 blank
      exactOps_minmax_laws rfl hnan).1 rfl
    refine ⟨out, h1, h2, h3 (by decide), ?_⟩
    have e : mag_blas_dispatch_table_forward exactOps 0 min_node.op ⟨1, 0, min_node⟩ blank =
        some (store blank 0 (mag_blas_min_f32 exactOps ⟨1, 0, min_node⟩ blank |>.get rfl 0)) :=
      rfl
    rw [e] at h1
    rw [← Option.some.inj h1]
    decide!
  · obtain ⟨out, h1, h2, h3, _⟩ := (minmax_kernel_correct exactOps 0 max_node 1 0 blank
      exactOps_minmax_laws rfl hnan).2 rfl
    refine ⟨out, h1, h2, h3 (by decide), ?_⟩
    have e : mag_blas_dispatch_table_forward exactOps 0 max_node.op ⟨1, 0, max_node⟩ blank =
        some (store blank 0 (mag_blas_max_f32 exactOps ⟨1, 0, max_node⟩ blank |>.get rfl 0)) :=
      rfl
    rw [e] at h1
    rw [← Option.some.inj h1]
    decide!


end Reductions

/-! ## The effect of a launch -/

section Effect

variable {F32 F64 : Type}

/-- A launch of a kernel whose workers either return at once (`idle`) or abort. -/
theorem launch_idle_or_abort (A : FloatOps F32 F64) (lanes : Nat) (node : mag_node_t F32)
    (tc : Nat) (idle : Nat → Bool)
    (h : ∀ ti br, mag_blas_dispatch_table_forward A lanes node.op ⟨tc, ti, node⟩ br =
      if idle ti = true then some br else none)
    (order : List Nat) (br : Buf F32) :
    launch A lanes node tc order br = if order.all idle = true then some br else none := by
  induction order with
  | nil => rfl
  | cons t rest ih =>
    rw [launch, h t br]
    by_cases c : idle t = true
    · rw [if_pos c, Option.some_bind, ih]
      simp [c]
    · rw [if_neg c]
      simp [c]

theorem zero_mem_order (tc : Nat) (htc : 1 ≤ tc) (order : List Nat)
    (horder : order.Perm (List.range tc)) : 0 ∈ order :=
  (horder.mem_iff).2 (List.mem_range.2 (by omega))

theorem fill_fill_same {F : Type} (lo hi : Nat) (val : Nat → F) (b : Buf F) :
    fill lo hi val (fill lo hi val b) = fill lo hi val b := by
  funext p
  unfold fill
  split <;> rfl

/-- A vector primitive with an approximate path overwrites its run: the elements of the full
vectors by the lane function, the leftover elements by the scalar function. -/
theorem vec_map_simd_eq_fill {F : Type} (lanes : Nat) (g f : F → F) (n : Nat) (o : Buf F)
    (po : Nat) (x : Buf F) (px : Nat) :
    vec_map_simd lanes g f n o po x px =
      fill po (po + n) (fun p => if p - po < n / lanes * lanes then g (x (px + (p - po)))
        else f (x (px + (p - po)))) o := by
  have hle : n / lanes * lanes ≤ n := Nat.div_mul_le_self n lanes
  have hblock : ∀ k, k < n / lanes → ∀ b : Buf F,
      forN (fun l b => store b (po + (k * lanes + l)) (g (x (px + (k * lanes + l))))) 0 lanes b =
        fill (po + k * lanes) (po + k * lanes + lanes)
          (fun p => if p - po < n / lanes * lanes then g (x (px + (p - po)))
            else f (x (px + (p - po)))) b := by
    intro k hk b
    have hk2 : k * lanes + lanes ≤ n / lanes * lanes := by
      have : (k + 1) * lanes ≤ n / lanes * lanes := Nat.mul_le_mul_right _ (by omega)
      rw [Nat.add_mul, Nat.one_mul] at this
      exact this
    rw [forN_congr (fun l b => store b (po + (k * lanes + l)) (g (x (px + (k * lanes + l)))))
      (fun l b => store b (po + k * lanes + l) (g (x (px + (k * lanes + l))))) 0 lanes b
      (fun l _ _ t => by simp only [Nat.add_assoc])]
    rw [forN_store_fill (fun l => g (x (px + (k * lanes + l)))) (po + k * lanes) 0 lanes b]
    simp only [Nat.add_zero]
    apply fill_congr
    intro p h1 h2
    generalize k * lanes = kl at *
    generalize n / lanes * lanes = nl at *
    rw [if_pos (by omega)]
    show g (x (px + (kl + (p - (po + kl))))) = g (x (px + (p - po)))
    have e : kl + (p - (po + kl)) = p - po := by omega
    rw [e]
  have hblocks : forN (fun k b =>
      forN (fun l b => store b (po + (k * lanes + l)) (g (x (px + (k * lanes + l))))) 0 lanes b)
      0 (n / lanes) o =
      fill po (po + n / lanes * lanes)
        (fun p => if p - po < n / lanes * lanes then g (x (px + (p - po)))
          else f (x (px + (p - po)))) o := by
    rw [forN_congr _ (fun k b => fill (po + k * lanes) (po + k * lanes + lanes)
      (fun p => if p - po < n / lanes * lanes then g (x (px + (p - po)))
          else f (x (px + (p - po)))) b) 0 (n / lanes) o
      (fun k _ hk t => hblock k (by omega) t), forN_fill_blocks]
    simp only [Nat.zero_mul, Nat.add_zero, Nat.zero_add]
  unfold vec_map_simd
  simp only
  rw [hblocks, forN_store_fill (fun i => f (x (px + i))) po (n / lanes * lanes)
      (n - n / lanes * lanes)]
  rw [fill_congr (po + n / lanes * lanes) _ (fun p => f (x (px + (p - po))))
    (fun p => if p - po < n / lanes * lanes then g (x (px + (p - po)))
      else f (x (px + (p - po))))]
  · have e : po + n / lanes * lanes + (n - n / lanes * lanes) = po + n := by omega
    rw [e]
    exact fill_fill _ _ _ _ _ (by omega) (by omega)
  · intro p h1 h2
    rw [if_neg (by omega)]

/-- Every implemented unary kernel is generated from a vector primitive of the form
`vec_map_simd`, with the lane count of the build when the primitive has an approximate path and
0 otherwise. -/
theorem unary_dispatch_simd (A : FloatOps F32 F64) (lanes : Nat) (op : mag_op_t)
    (f : F32 → F32) (hf : unary_fn A op = some f) :
    ∃ (v : VecUnary F32) (g : F32 → F32) (L : Nat),
      mag_blas_dispatch_table_forward A lanes op = mag_cpu_blas_impl_unary v ∧
      ∀ n o po x px, v n o po x px = some (vec_map_simd L g f n o po x px) := by
  cases op <;> simp only [unary_fn, Option.some.injEq] at hf <;> try contradiction
  all_goals subst hf
  all_goals first
    | exact ⟨_, _, lanes, rfl, fun _ _ _ _ _ => rfl⟩
    | exact ⟨_, id, 0, rfl, fun n o po x px =>
        congrArg some (vec_map_simd_zero _ _ n o po x px).symm⟩

/-- One run of an implemented unary kernel, in any build: the worker's slice is overwritten by
a function of the offset that depends on the worker count only. -/
theorem unary_kernel_fill_simd (v : VecUnary F32) (g f : F32 → F32) (L : Nat)
    (hv : ∀ n o po x px, v n o po x px = some (vec_map_simd L g f n o po x px))
    (tc ti : Nat) (node : mag_node_t F32) (br : Buf F32) (htc : 1 ≤ tc) :
    mag_cpu_blas_impl_unary v ⟨tc, ti, node⟩ br =
      some (fill (ti * ((node.numel + tc - 1) / tc))
        (min (ti * ((node.numel + tc - 1) / tc) + (node.numel + tc - 1) / tc) node.numel)
        (fun p =>
          if p - p / ((node.numel + tc - 1) / tc) * ((node.numel + tc - 1) / tc) <
            (min (p / ((node.numel + tc - 1) / tc) * ((node.numel + tc - 1) / tc)
                + (node.numel + tc - 1) / tc) node.numel
              - p / ((node.numel + tc - 1) / tc) * ((node.numel + tc - 1) / tc)) / L * L
          then g (node.x.base p) else f (node.x.base p)) br) := by
  unfold mag_cpu_blas_impl_unary
  simp only [mag_slice_unary_eq tc ti node.numel htc, Option.some_bind]
  generalize (node.numel + tc - 1) / tc = c
  split
  · rename_i h0
    rw [fill_empty _ _ _ _ (by omega)]
  · rename_i h0
    rw [hv, vec_map_simd_eq_fill]
    congr 1
    have e : ti * c + (min (ti * c + c) node.numel - ti * c) = min (ti * c + c) node.numel := by
      omega
    rw [e]
    apply fill_congr
    intro p h1 h2
    have hq : p / c = ti := Nat.div_eq_of_lt_le h1 (by rw [Nat.add_mul]; omega)
    simp only [hq]
    have e2 : ti * c + (p - ti * c) = p := by omega
    rw [e2]


theorem store_zero_eq_fill {F : Type} (b : Buf F) (v : F) :
    store b 0 v = fill 0 1 (fun _ => v) b := by
  funext p
  unfold store fill
  by_cases c : p = 0
  · rw [if_pos c, if_pos (by omega)]
  · rw [if_neg c, if_neg (by omega)]

theorem forN_id {σ : Type} (lo n : Nat) (s : σ) : forN (fun _ t => t) lo n s = s := by
  induction n generalizing lo with
  | zero => rfl
  | succ n ih => rw [forN, ih]

theorem forNM_all_none {σ : Type} (body : Nat → σ → Option σ) (lo n : Nat) (s : σ)
    (h : ∀ i t, body i t = none) : forNM body lo n s = if n = 0 then some s else none := by
  cases n with
  | zero => rfl
  | succ n => rw [forNM, h, if_neg (by omega)]; rfl

theorem forN_copy_fill {F : Type} (v : Nat → F) (n : Nat) (b : Buf F) :
    forN (fun i b => store b i (v i)) 0 n b = fill 0 n v b := by
  rw [forN_congr _ (fun i b => store b (0 + i) (v i)) 0 n b
    (fun i _ _ t => by simp only [Nat.zero_add]), forN_store_fill v 0 0 n b]
  simp only [Nat.zero_add, Nat.sub_zero]

/-- A launch in which every worker returns at once leaves the output storage alone. -/
theorem launch_is_idle (A : FloatOps F32 F64) (lanes : Nat) (node : mag_node_t F32) (tc : Nat)
    (h : ∀ ti br, mag_blas_dispatch_table_forward A lanes node.op ⟨tc, ti, node⟩ br = some br) :
    launch_is A lanes node tc (some (0, fun _ => A.zero)) := by
  intro order _ br
  rw [launch_idle_or_abort A lanes node tc (fun _ => true) (fun ti b => by rw [h]; rfl)]
  simp only [List.all_eq_true, implies_true, if_true, Option.map_some']
  rw [fill_empty _ _ _ _ (le_refl _)]

/-- A launch in which worker 0 aborts and every worker aborts or returns at once. -/
theorem launch_is_abort (A : FloatOps F32 F64) (lanes : Nat) (node : mag_node_t F32) (tc : Nat)
    (htc : 1 ≤ tc) (idle : Nat → Bool) (h0 : idle 0 = false)
    (h : ∀ ti br, mag_blas_dispatch_table_forward A lanes node.op ⟨tc, ti, node⟩ br =
      if idle ti = true then some br else none) :
    launch_is A lanes node tc none := by
  intro order horder br
  rw [launch_idle_or_abort A lanes node tc idle h]
  have hm := zero_mem_order tc htc order horder
  rw [if_neg]
  · rfl
  · rw [List.all_eq_true]
    intro hall
    have := hall 0 hm
    rw [h0] at this
    exact Bool.false_ne_true this

/-- A launch in which every worker overwrites the same range with the same values. -/
theorem launch_is_same (A : FloatOps F32 F64) (lanes : Nat) (node : mag_node_t F32) (tc : Nat)
    (htc : 1 ≤ tc) (total : Nat) (val : Nat → F32)
    (h : ∀ ti br, mag_blas_dispatch_table_forward A lanes node.op ⟨tc, ti, node⟩ br =
      some (fill 0 total val br)) :
    launch_is A lanes node tc (some (total, val)) := by
  intro order horder br
  exact launch_fill_total A lanes node tc (fun _ => 0) (fun _ => total) val total h
    (fun p => ⟨fun hp => ⟨0, by omega, Nat.zero_le _, hp⟩, fun ⟨_, _, _, hp⟩ => hp⟩)
    order horder br

/-- A launch of a partitioned kernel whose ranges cover `[0, total)`. -/
theorem launch_is_cover (A : FloatOps F32 F64) (lanes : Nat) (node : mag_node_t F32) (tc : Nat)
    (lo hi : Nat → Nat) (val : Nat → F32) (total : Nat)
    (h : ∀ ti br, mag_blas_dispatch_table_forward A lanes node.op ⟨tc, ti, node⟩ br =
      some (fill (lo ti) (hi ti) val br))
    (hcover : ∀ p, p < total ↔ ∃ t, t < tc ∧ lo t ≤ p ∧ p < hi t) :
    launch_is A lanes node tc (some (total, val)) := by
  intro order horder br
  exact launch_fill_total A lanes node tc lo hi val total h hcover order horder br

/-- The empty kernel. -/
theorem nop_form (A : FloatOps F32 F64) (lanes : Nat) (node : mag_node_t F32)
    (hd : mag_blas_dispatch_table_forward A lanes node.op = mag_blas_nop) :
    ∃ res, ∀ tc, 1 ≤ tc → launch_is A lanes node tc res :=
  ⟨_, fun tc _ => launch_is_idle A lanes node tc (fun ti br => by rw [hd]; rfl)⟩

/-- The CLONE kernel: every worker copies the `numel` elements, or every worker aborts. -/
theorem clone_form (A : FloatOps F32 F64) (lanes : Nat) (node : mag_node_t F32)
    (hd : mag_blas_dispatch_table_forward A lanes node.op = mag_blas_clone) :
    ∃ res, ∀ tc, 1 ≤ tc → launch_is A lanes node tc res := by
  by_cases c : mag_tensor_is_shape_eq node.x.shape node.shape = true
  · refine ⟨some (node.numel, node.x.base), fun tc htc => launch_is_same A lanes node tc htc _ _
      (fun ti br => ?_)⟩
    rw [hd]
    unfold mag_blas_clone
    simp only [if_pos c]
    rw [forN_copy_fill]
  · refine ⟨none, fun tc htc => launch_is_abort A lanes node tc htc (fun _ => false) rfl
      (fun ti br => ?_)⟩
    rw [hd]
    unfold mag_blas_clone
    simp only [if_neg c]
    rfl

/-- A reduction kernel: every worker stores the same value at element 0. -/
theorem reduction_form (A : FloatOps F32 F64) (lanes : Nat) (node : mag_node_t F32) (v : F32)
    (hd : ∀ tc ti br, mag_blas_dispatch_table_forward A lanes node.op ⟨tc, ti, node⟩ br =
      some (store br 0 v)) :
    ∃ res, ∀ tc, 1 ≤ tc → launch_is A lanes node tc res :=
  ⟨some (1, fun _ => v), fun tc htc => launch_is_same A lanes node tc htc _ _
    (fun ti br => by rw [hd, store_zero_eq_fill])⟩

/-- A scalar-RHS kernel. -/
theorem scalar_form (A : FloatOps F32 F64) (lanes : Nat) (node : mag_node_t F32)
    (op : F32 → F32 → F32)
    (hd : mag_blas_dispatch_table_forward A lanes node.op =
      mag_cpu_blas_impl_unary_scalar (vec_scalar op)) :
    ∃ res, ∀ tc, 1 ≤ tc → launch_is A lanes node tc res :=
  ⟨some (node.numel, fun p => op (node.x.base p) node.xi), fun tc htc =>
    launch_is_cover A lanes node tc _ _ _ _
      (fun ti b => by rw [hd]; exact scalar_kernel_fill op tc ti node b htc)
      (chunk_cover node.numel tc htc)⟩

/-- An implemented unary kernel in a build without an approximate path for it. -/
theorem unary_form_scalar (A : FloatOps F32 F64) (lanes : Nat) (node : mag_node_t F32)
    (f : F32 → F32) (hf : unary_fn A node.op = some f)
    (hmode : lanes = 0 ∨ has_simd_path node.op = false) :
    ∃ res, ∀ tc, 1 ≤ tc → launch_is A lanes node tc res := by
  obtain ⟨v, hd, hv⟩ := unary_dispatch A lanes node.op f hf hmode
  exact ⟨some (node.numel, fun p => f (node.x.base p)), fun tc htc =>
    launch_is_cover A lanes node tc _ _ _ _
      (fun ti b => by rw [hd]; exact unary_kernel_fill v f hv tc ti node b htc)
      (chunk_cover node.numel tc htc)⟩

/-- An implemented unary kernel in any build, for a fixed worker count. -/
theorem unary_form_simd (A : FloatOps F32 F64) (lanes : Nat) (node : mag_node_t F32)
    (f : F32 → F32) (hf : unary_fn A node.op = some f) (tc : Nat) (htc : 1 ≤ tc) :
    ∃ res, launch_is A lanes node tc res := by
  obtain ⟨v, g, L, hd, hv⟩ := unary_dispatch_simd A lanes node.op f hf
  exact ⟨some (node.numel, _), launch_is_cover A lanes node tc _ _ _ _
      (fun ti b => by rw [hd]; exact unary_kernel_fill_simd v g f L hv tc ti node b htc)
      (chunk_cover node.numel tc htc)⟩

/-- One run of an aborting stub: the worker returns at once when its slice is empty and aborts
otherwise. -/
theorem stub_kernel_run (tc ti : Nat) (node : mag_node_t F32) (br : Buf F32) (htc : 1 ≤ tc) :
    mag_cpu_blas_impl_unary (fun n o _ _ _ => vec_panic n o) ⟨tc, ti, node⟩ br =
      if min (ti * ((node.numel + tc - 1) / tc) + (node.numel + tc - 1) / tc) node.numel
          ≤ ti * ((node.numel + tc - 1) / tc) then some br else none := by
  unfold mag_cpu_blas_impl_unary vec_panic
  simp only [mag_slice_unary_eq tc ti node.numel htc, Option.some_bind]
  generalize (node.numel + tc - 1) / tc = c
  by_cases h : min (ti * c + c) node.numel ≤ ti * c
  · rw [if_pos h, if_pos (by omega)]
  · rw [if_neg h, if_neg (by omega), if_neg (by omega)]

theorem chunk_pos (numel tc : Nat) (htc : 1 ≤ tc) (hn : 1 ≤ numel) :
    1 ≤ (numel + tc - 1) / tc := by
  have h := le_chunk_mul numel tc htc
  rcases Nat.eq_zero_or_pos ((numel + tc - 1) / tc) with h0 | h0
  · rw [h0] at h
    omega
  · exact h0

/-- An aborting stub. -/
theorem stub_form (A : FloatOps F32 F64) (lanes : Nat) (node : mag_node_t F32)
    (hd : mag_blas_dispatch_table_forward A lanes node.op =
      mag_cpu_blas_impl_unary (fun n o _ _ _ => vec_panic n o)) :
    ∃ res, ∀ tc, 1 ≤ tc → launch_is A lanes node tc res := by
  by_cases hn : node.numel = 0
  · refine ⟨_, fun tc htc => launch_is_idle A lanes node tc (fun ti br => ?_)⟩
    rw [hd, stub_kernel_run tc ti node br htc, if_pos (by omega)]
  · refine ⟨none, fun tc htc => launch_is_abort A lanes node tc htc
      (fun ti => decide (min (ti * ((node.numel + tc - 1) / tc) + (node.numel + tc - 1) / tc)
        node.numel ≤ ti * ((node.numel + tc - 1) / tc))) ?_ (fun ti br => ?_)⟩
    · have hc := chunk_pos node.numel tc htc (by omega)
      simp only [decide_eq_false_iff_not]
      omega
    · rw [hd, stub_kernel_run tc ti node br htc]
      simp only [decide_eq_true_eq]


/-- A broadcast-binary kernel on a node that meets the data-model invariants. -/
theorem binary_form (A : FloatOps F32 F64) (lanes : Nat) (node : mag_node_t F32)
    (op : F32 → F32 → F32)
    (hd : mag_blas_dispatch_table_forward A lanes node.op =
      mag_cpu_blas_impl_binary (vec_zip op) op)
    (hshape : node.shape = node.x.shape) (hrs : node.strides = dense_strides node.shape)
    (hc : bcast_compat node.x.shape node.y.shape) :
    ∃ res, ∀ tc, 1 ≤ tc → launch_is A lanes node tc res := by
  by_cases hN : node.x.shape.a5 * node.x.shape.a4 * node.x.shape.a3 * node.x.shape.a2
      * node.x.shape.a1 = 0
  · -- no outer index: every slice is empty
    refine ⟨_, fun tc htc => launch_is_idle A lanes node tc (fun ti br => ?_)⟩
    rw [hd]
    unfold mag_cpu_blas_impl_binary mag_binary_fast mag_binary_strided
    simp only [mag_slice_rows_eq tc ti _ htc, Option.some_bind, hN, Nat.min_zero, Nat.zero_sub]
    split <;> rfl
  · have hne := hN
    simp only [Nat.mul_eq_zero, not_or] at hne
    obtain ⟨⟨⟨⟨n5, n4⟩, n3⟩, n2⟩, n1⟩ := hne
    obtain ⟨c0, c1, c2, c3, c4, c5⟩ := hc
    have d1 : 1 ≤ node.x.shape.a1 := by omega
    have d2 : 1 ≤ node.x.shape.a2 := by omega
    have d3 : 1 ≤ node.x.shape.a3 := by omega
    have d4 : 1 ≤ node.x.shape.a4 := by omega
    have e1 : 1 ≤ node.y.shape.a1 := by omega
    have e2 : 1 ≤ node.y.shape.a2 := by omega
    have e3 : 1 ≤ node.y.shape.a3 := by omega
    have e4 : 1 ≤ node.y.shape.a4 := by omega
    have e5 : 1 ≤ node.y.shape.a5 := by omega
    by_cases he0 : 1 ≤ node.y.shape.a0
    · -- every row is written
      have ok : BinaryOk node := ⟨hshape, hrs, d1, d2, d3, d4, he0, e1, e2, e3, e4, e5⟩
      have hdvd : node.x.shape.a0 / node.y.shape.a0 * node.y.shape.a0 = node.x.shape.a0 := by
        rcases c0 with h | h
        · rw [h, Nat.div_self (by omega), Nat.one_mul]
        · rw [h, Nat.div_one, Nat.mul_one]
      exact ⟨some (_, binary_val op node), fun tc htc =>
        launch_is_cover A lanes node tc _ _ _ _
          (fun ti b => by rw [hd]; exact binary_kernel_fill op tc ti node b htc ok hdvd)
          (chunk_cover_scaled _ tc _ htc)⟩
    · have e0 : node.y.shape.a0 = 0 := by omega
      have d0 : node.x.shape.a0 = 0 := by omega
      by_cases hys : node.y.strides.a0 = 1
      · -- fast path: every row divides by `yd0 = 0`
        have hrow : ∀ ri b, mag_binary_fast_row (vec_zip op) node ri b = none := by
          intro ri b
          unfold mag_binary_fast_row
          rw [mag_binary_row_pure _ _ _ _ _ _ d1 d2 d3 d4 e1 e2 e3 e4 e5, e0]
          rfl
        refine ⟨none, fun tc htc => launch_is_abort A lanes node tc htc
          (fun ti => decide (min (ti * ((node.x.shape.a5 * node.x.shape.a4 * node.x.shape.a3
              * node.x.shape.a2 * node.x.shape.a1 + tc - 1) / tc)
            + (node.x.shape.a5 * node.x.shape.a4 * node.x.shape.a3
              * node.x.shape.a2 * node.x.shape.a1 + tc - 1) / tc)
            (node.x.shape.a5 * node.x.shape.a4 * node.x.shape.a3
              * node.x.shape.a2 * node.x.shape.a1)
            - ti * ((node.x.shape.a5 * node.x.shape.a4 * node.x.shape.a3
              * node.x.shape.a2 * node.x.shape.a1 + tc - 1) / tc) = 0)) ?_ (fun ti br => ?_)⟩
        · have hc := chunk_pos _ tc htc (Nat.pos_of_ne_zero hN)
          simp only [decide_eq_false_iff_not]
          omega
        · rw [hd]
          unfold mag_cpu_blas_impl_binary mag_binary_fast
          simp only [mag_slice_rows_eq tc ti _ htc, Option.some_bind, if_pos hys,
            decide_eq_true_eq]
          exact forNM_all_none _ _ _ _ hrow
      · -- strided path: every row loops over `rd0 = 0` elements
        have hrow : ∀ ri b, mag_binary_strided_row op node ri b = some b := by
          intro ri b
          unfold mag_binary_strided_row
          rw [mag_binary_row_pure _ _ _ _ _ _ d1 d2 d3 d4 e1 e2 e3 e4 e5, hshape, d0]
          rfl
        refine ⟨_, fun tc htc => launch_is_idle A lanes node tc (fun ti br => ?_)⟩
        rw [hd]
        unfold mag_cpu_blas_impl_binary mag_binary_strided
        simp only [mag_slice_rows_eq tc ti _ htc, Option.some_bind, if_neg hys]
        rw [forNM_pure _ (fun _ b => b) _ _ _ (fun i _ _ t => hrow i t), forN_id]

/-- The matmul kernel on a node whose output has as many columns as `y`. -/
theorem matmul_form (A : FloatOps F32 F64) (lanes : Nat) (node : mag_node_t F32)
    (hd : mag_blas_dispatch_table_forward A lanes node.op = mag_blas_matmul_f32 A)
    (hN : node.shape.a1 = node.y.shape.a1) :
    ∃ res, ∀ tc, 1 ≤ tc → launch_is A lanes node tc res := by
  by_cases hx : node.x.shape.a2 = 1 ∧ node.x.shape.a3 = 1
  · by_cases hy : node.y.shape.a2 = 1 ∧ node.y.shape.a3 = 1
    · exact ⟨some (_, matmul_val A node.x.base node.y.base node.x.shape.a1 node.y.shape.a1),
        fun tc htc => launch_is_cover A lanes node tc _ _ _ _
          (fun ti b => by rw [hd]; exact matmul_kernel_fill A tc ti node b htc hN hx hy)
          (chunk_cover_scaled _ tc _ htc)⟩
    · refine ⟨none, fun tc htc => launch_is_abort A lanes node tc htc (fun _ => false) rfl
        (fun ti br => ?_)⟩
      rw [hd]
      unfold mag_blas_matmul_f32
      simp only [if_pos hx, if_neg hy]
      rfl
  · refine ⟨none, fun tc htc => launch_is_abort A lanes node tc htc (fun _ => false) rfl
      (fun ti br => ?_)⟩
    rw [hd]
    unfold mag_blas_matmul_f32
    simp only [if_neg hx]
    rfl


/-- One run of the MEAN kernel, for any worker payload. -/
theorem mean_run (A : FloatOps F32 F64) (node : mag_node_t F32) (tc ti : Nat) (br : Buf F32) :
    mag_blas_mean_f32 A ⟨tc, ti, node⟩ br =
      some (store br 0 (A.down (A.div64
        (walk5 node.x.shape (fun i1 i2 i3 i4 i5 sum =>
          A.add64 sum (mag_vsum_f64_f32 A node.x.shape.a0 node.x.base
            (row_offset node.x.strides i1 i2 i3 i4 i5))) A.zero64)
        (A.ofInt64 node.x.numel)))) := rfl

/-- One run of the MIN kernel, for any worker payload. -/
theorem min_run (A : FloatOps F32 F64) (node : mag_node_t F32) (tc ti : Nat) (br : Buf F32) :
    mag_blas_min_f32 A ⟨tc, ti, node⟩ br =
      some (store br 0
        (walk5 node.x.shape (fun i1 i2 i3 i4 i5 min =>
          A.fminf (mag_vmin_f32 A node.x.shape.a0 node.x.base
            (row_offset node.x.strides i1 i2 i3 i4 i5)) min) A.infinity)) := rfl

/-- One run of the MAX kernel, for any worker payload. -/
theorem max_run (A : FloatOps F32 F64) (node : mag_node_t F32) (tc ti : Nat) (br : Buf F32) :
    mag_blas_max_f32 A ⟨tc, ti, node⟩ br =
      some (store br 0
        (walk5 node.x.shape (fun i1 i2 i3 i4 i5 max =>
          A.fmaxf (mag_vmax_f32 A node.x.shape.a0 node.x.base
            (row_offset node.x.strides i1 i2 i3 i4 i5)) max) (A.neg A.infinity))) := rfl

/-- One run of the SUM kernel, for any worker payload. -/
theorem sum_run (A : FloatOps F32 F64) (node : mag_node_t F32) (tc ti : Nat) (br : Buf F32) :
    mag_blas_sum_f32 A ⟨tc, ti, node⟩ br =
      some (store br 0 (A.down
        (walk5 node.x.shape (fun i1 i2 i3 i4 i5 sum =>
          A.add64 sum (mag_vsum_f64_f32 A node.x.shape.a0 node.x.base
            (row_offset node.x.strides i1 i2 i3 i4 i5))) A.zero64))) := rfl

/-- In a build without an approximate path for the node's operator, the effect of a launch
does not depend on the worker count: one `res` serves every `tc >= 1`. -/
theorem launch_form_invariant (A : FloatOps F32 F64) (lanes : Nat) (node : mag_node_t F32)
    (hok : node_ok node) (hmode : lanes = 0 ∨ has_simd_path node.op = false) :
    ∃ res, ∀ tc, 1 ≤ tc → launch_is A lanes node tc res := by
  obtain ⟨hbin, hmat⟩ := hok
  cases hop : node.op
  all_goals first
    | exact nop_form A lanes node (by rw [hop]; rfl)
    | exact clone_form A lanes node (by rw [hop]; rfl)
    | exact reduction_form A lanes node _ (fun tc ti br => by
        rw [hop]; exact mean_run A node tc ti br)
    | exact reduction_form A lanes node _ (fun tc ti br => by
        rw [hop]; exact min_run A node tc ti br)
    | exact reduction_form A lanes node _ (fun tc ti br => by
        rw [hop]; exact max_run A node tc ti br)
    | exact reduction_form A lanes node _ (fun tc ti br => by
        rw [hop]; exact sum_run A node tc ti br)
    | exact stub_form A lanes node (by rw [hop]; rfl)
    | exact unary_form_scalar A lanes node _ (by rw [hop]; rfl) hmode
    | exact scalar_form A lanes node _ (by rw [hop]; rfl)
    | exact matmul_form A lanes node (by rw [hop]; rfl) (hmat hop)
    | (obtain ⟨h1, h2, h3⟩ := hbin (by rw [hop]; rfl)
       exact binary_form A lanes node _ (by rw [hop]; rfl) h1 h2 h3)

theorem no_simd_of_not_unary (A : FloatOps F32 F64) (op : mag_op_t)
    (h : unary_fn A op = none) : has_simd_path op = false := by
  cases op <;> simp [unary_fn] at h <;> rfl

/-- For every build and every worker count, a launch on a node that meets the data-model
invariants has a fixed effect, whatever the order of the workers and the previous content of
the output storage. -/
theorem launch_form (A : FloatOps F32 F64) (lanes : Nat) (node : mag_node_t F32)
    (hok : node_ok node) (tc : Nat) (htc : 1 ≤ tc) :
    ∃ res, launch_is A lanes node tc res := by
  cases hf : unary_fn A node.op with
  | some f => exact unary_form_simd A lanes node f hf tc htc
  | none =>
    obtain ⟨res, h⟩ := launch_form_invariant A lanes node hok
      (Or.inr (no_simd_of_not_unary A node.op hf))
    exact ⟨res, h tc htc⟩


/-- Claim C5, as amended: in a build without an approximate path for the node's operator
(`MAG_APPROXMATH` off, or an operator that has none), a launch on a node that meets the
data-model invariants leaves the output storage exactly as the single-threaded run does, for
every worker count `T >= 1` and every order in which the workers run. -/
theorem thread_count_invariance (A : FloatOps F32 F64) (lanes : Nat) (node : mag_node_t F32)
    (hok : node_ok node) (hmode : lanes = 0 ∨ has_simd_path node.op = false)
    (T : Nat) (hT : 1 ≤ T) (order : List Nat) (horder : order.Perm (List.range T))
    (br : Buf F32) :
    launch A lanes node T order br = launch A lanes node 1 [0] br := by
  obtain ⟨res, h⟩ := launch_form_invariant A lanes node hok hmode
  rw [h T hT order horder br, h 1 (Nat.le_refl 1) [0] (List.Perm.refl _) br]

theorem thread_count_invariance_witness :
    node_ok bcast_node ∧ (4 = 0 ∨ has_simd_path bcast_node.op = false) ∧
      launch exactOps 4 bcast_node 3 [2, 0, 1] blank = launch exactOps 4 bcast_node 1 [0] blank :=
  ⟨by decide, by decide,
    thread_count_invariance exactOps 4 bcast_node (by decide) (by decide) 3 (by decide)
      [2, 0, 1] (by decide) blank⟩

/-- Claim C5, as stated, fails in a build with the approximate paths (4 lanes): for `TANH` over
five elements the single worker computes element 0 with the vector approximation, while with
two workers the first slice has three elements, fewer than a vector, and element 0 is computed
by `tanhf`. -/
theorem thread_count_changes_simd_result :
    node_ok tanh_sym_node ∧
    (launch symOps 4 tanh_sym_node 2 [0, 1] sym_blank).map (fun o => o 0)
      = some (.un .tanhf (.atom 10)) ∧
    (launch symOps 4 tanh_sym_node 1 [0] sym_blank).map (fun o => o 0)
      = some (.un .simd_tanh (.atom 10)) ∧
    launch symOps 4 tanh_sym_node 2 [0, 1] sym_blank
      ≠ launch symOps 4 tanh_sym_node 1 [0] sym_blank := by
  have h2 : (launch symOps 4 tanh_sym_node 2 [0, 1] sym_blank).map (fun o => o 0)
      = some (.un .tanhf (.atom 10)) := by decide
  have h1 : (launch symOps 4 tanh_sym_node 1 [0] sym_blank).map (fun o => o 0)
      = some (.un .simd_tanh (.atom 10)) := by decide
  refine ⟨by decide, h2, h1, fun h => ?_⟩
  rw [h, h1] at h2
  exact absurd h2 (by decide)


/-- The matmul kernel with its effect spelled out: the `M * N` elements of the product when both
assertions hold, an abort otherwise. -/
theorem matmul_launch_is (A : FloatOps F32 F64) (lanes : Nat) (node : mag_node_t F32)
    (hop : node.op = .MATMUL) (hN : node.shape.a1 = node.y.shape.a1) (tc : Nat) (htc : 1 ≤ tc) :
    launch_is A lanes node tc
      (if (node.x.shape.a2 = 1 ∧ node.x.shape.a3 = 1) ∧
          (node.y.shape.a2 = 1 ∧ node.y.shape.a3 = 1) then
        some (node.x.shape.a0 * node.y.shape.a1,
          matmul_val A node.x.base node.y.base node.x.shape.a1 node.y.shape.a1)
      else none) := by
  have hd : mag_blas_dispatch_table_forward A lanes node.op = mag_blas_matmul_f32 A := by
    rw [hop]
    rfl
  by_cases h : (node.x.shape.a2 = 1 ∧ node.x.shape.a3 = 1) ∧
      (node.y.shape.a2 = 1 ∧ node.y.shape.a3 = 1)
  · rw [if_pos h]
    exact launch_is_cover A lanes node tc _ _ _ _
      (fun ti b => by rw [hd]; exact matmul_kernel_fill A tc ti node b htc hN h.1 h.2)
      (chunk_cover_scaled _ tc _ htc)
  · rw [if_neg h]
    refine launch_is_abort A lanes node tc htc (fun _ => false) rfl (fun ti br => ?_)
    rw [hd]
    unfold mag_blas_matmul_f32
    by_cases hx : node.x.shape.a2 = 1 ∧ node.x.shape.a3 = 1
    · have hy : ¬ (node.y.shape.a2 = 1 ∧ node.y.shape.a3 = 1) := fun hy => h ⟨hx, hy⟩
      simp only [if_pos hx, if_neg hy]
      rfl
    · simp only [if_neg hx]
      rfl

/-- Claim C11: idempotence.  For every kernel, every build, every worker count `tc >= 1` and
every node that meets the data-model invariants, with the output storage held apart from the
inputs: when a launch (workers in any order) returns the output storage `out`, a second launch
of the same node on `out` (workers in any order) returns `out` again.  For a matmul node,
moreover, a launch from any other previous content of the output storage returns the same
`M * N` elements. -/
theorem launch_idempotent (A : FloatOps F32 F64) (lanes : Nat) (node : mag_node_t F32)
    (hok : node_ok node) (tc : Nat) (htc : 1 ≤ tc) (o1 o2 : List Nat)
    (h1 : o1.Perm (List.range tc)) (h2 : o2.Perm (List.range tc)) (br out : Buf F32)
    (hrun : launch A lanes node tc o1 br = some out) :
    launch A lanes node tc o2 out = some out ∧
    (node.op = .MATMUL → ∀ br2 : Buf F32, ∃ out2, launch A lanes node tc o2 br2 = some out2 ∧
      ∀ p, p < node.x.shape.a0 * node.y.shape.a1 → out2 p = out p) := by
  constructor
  · obtain ⟨res, h⟩ := launch_form A lanes node hok tc htc
    rw [h o1 h1 br] at hrun
    rw [h o2 h2 out]
    cases res with
    | none => exact absurd hrun (by simp)
    | some e =>
      simp only [Option.map_some', Option.some.injEq] at hrun ⊢
      rw [← hrun, fill_fill_same]
  · intro hop br2
    have h := matmul_launch_is A lanes node hop (hok.2 hop) tc htc
    rw [h o1 h1 br] at hrun
    rw [h o2 h2 br2]
    by_cases c : (node.x.shape.a2 = 1 ∧ node.x.shape.a3 = 1) ∧
        (node.y.shape.a2 = 1 ∧ node.y.shape.a3 = 1)
    · rw [if_pos c] at hrun ⊢
      simp only [Option.map_some', Option.some.injEq] at hrun
      refine ⟨_, rfl, fun p hp => ?_⟩
      rw [← hrun]
      show fill 0 _ _ br2 p = fill 0 _ _ br p
      unfold fill
      rw [if_pos ⟨Nat.zero_le _, hp⟩, if_pos ⟨Nat.zero_le _, hp⟩]
    · rw [if_neg c] at hrun
      exact absurd hrun (by simp)

theorem launch_idempotent_witness :
    ∃ out, launch exactOps 0 matmul_node 2 [0, 1] blank = some out ∧
      launch exactOps 0 matmul_node 2 [1, 0] out = some out := by
  have hs : (launch exactOps 0 matmul_node 2 [0, 1] blank).isSome = true := by decide
  obtain ⟨out, hout⟩ := Option.isSome_iff_exists.1 hs
  exact ⟨out, hout, (launch_idempotent exactOps 0 matmul_node (by decide) 2 (by decide)
    [0, 1] [1, 0] (List.Perm.refl _) (List.Perm.swap 0 1 []) blank out hout).1⟩


/-- Claim C12, as amended: a reduction kernel (MEAN, MIN, MAX, SUM) ignores the worker index
and the worker count; every worker of a launch, a worker with `worker_idx != 0` included, runs
the whole reduction and stores the same value at element 0 of the output. -/
theorem reduction_runs_on_every_worker (A : FloatOps F32 F64) (lanes : Nat)
    (node : mag_node_t F32)
    (hop : node.op = .MEAN ∨ node.op = .MIN ∨ node.op = .MAX ∨ node.op = .SUM) :
    ∃ v, ∀ tc ti br,
      mag_blas_dispatch_table_forward A lanes node.op ⟨tc, ti, node⟩ br = some (store br 0 v) := by
  rcases hop with h | h | h | h
  · exact ⟨_, fun tc ti br => by rw [h]; exact mean_run A node tc ti br⟩
  · exact ⟨_, fun tc ti br => by rw [h]; exact min_run A node tc ti br⟩
  · exact ⟨_, fun tc ti br => by rw [h]; exact max_run A node tc ti br⟩
  · exact ⟨_, fun tc ti br => by rw [h]; exact sum_run A node tc ti br⟩

theorem reduction_runs_on_every_worker_witness :
    ∃ v, (∀ tc ti br, mag_blas_dispatch_table_forward exactOps 0 sum_node.op
        ⟨tc, ti, sum_node⟩ br = some (store br 0 v)) ∧ v = .fin 10 := by
  obtain ⟨v, hv⟩ := reduction_runs_on_every_worker exactOps 0 sum_node
    (Or.inr (Or.inr (Or.inr rfl)))
  refine ⟨v, hv, ?_⟩
  have h := congrArg (fun o => o.map (fun b => b 0)) (hv 3 2 blank)
  have e : (mag_blas_dispatch_table_forward exactOps 0 sum_node.op ⟨3, 2, sum_node⟩ blank).map
      (fun b => b 0) = some (.fin 10) := by decide!
  simp only [e, Option.map_some', store, if_pos, Option.some.injEq] at h
  exact h.symm

/-- Claim C12, as stated, fails: worker 1 of a launch of `SUM([[1, 2], [3, 4]])` with two
workers writes the sum 10 to element 0 of an output storage that held NaN. -/
theorem reduction_worker_one_writes :
    blank 0 = .nan ∧
    (mag_blas_dispatch_table_forward exactOps 0 sum_node.op ⟨2, 1, sum_node⟩ blank).map
      (fun b => b 0) = some (.fin 10) := by
  decide!


/-- Claim C14, as amended: for a node with op `SILU_DV` or `GELU_DV` and a worker count
`tc >= 1`, the dispatched kernel ends in a fatal error exactly for the workers whose slice is
not empty, that is those with `worker_idx * chunk < numel`; a worker with an empty slice
returns at once and leaves the output storage alone. -/
theorem stub_aborts_on_nonempty_slice (A : FloatOps F32 F64) (lanes : Nat)
    (node : mag_node_t F32) (hop : node.op = .SILU_DV ∨ node.op = .GELU_DV)
    (tc ti : Nat) (htc : 1 ≤ tc) (br : Buf F32) :
    mag_blas_dispatch_table_forward A lanes node.op ⟨tc, ti, node⟩ br =
      if ti * ((node.numel + tc - 1) / tc) < node.numel then none else some br := by
  have hd : mag_blas_dispatch_table_forward A lanes node.op =
      mag_cpu_blas_impl_unary (fun n o _ _ _ => vec_panic n o) := by
    rcases hop with h | h <;> rw [h] <;> rfl
  rw [hd, stub_kernel_run tc ti node br htc]
  by_cases hn : node.numel = 0
  · rw [if_pos (by omega), if_neg (by omega)]
  · have hc := chunk_pos node.numel tc htc (by omega)
    by_cases c : ti * ((node.numel + tc - 1) / tc) < node.numel
    · rw [if_pos c, if_neg (by omega)]
    · rw [if_neg c, if_pos (by omega)]

theorem stub_aborts_on_nonempty_slice_witness :
    mag_blas_dispatch_table_forward exactOps 0 silu_dv_node.op ⟨2, 0, silu_dv_node⟩ blank
      = none :=
  (stub_aborts_on_nonempty_slice exactOps 0 silu_dv_node (Or.inl rfl) 2 0 (by decide) blank).trans
    (if_pos (by decide))

/-- Claim C14, as stated, fails: for `SILU_DV` over one element and two workers, the slice of
worker 1 is empty and its kernel run returns normally. -/
theorem stub_returns_on_empty_slice :
    (mag_blas_dispatch_table_forward exactOps 0 silu_dv_node.op
      ⟨2, 1, silu_dv_node⟩ blank).isSome = true := by
  decide

/-- Claim C20: the CLONE kernel.  For a node with op `CLONE` and any worker payload: when the
shape of `x` equals the shape of `r`, the kernel returns an output storage whose first `numel`
elements are those of the buffer of `x`, the rest being as before; when the shapes differ the
kernel aborts, before any store. -/
theorem clone_kernel_copies (A : FloatOps F32 F64) (lanes : Nat) (node : mag_node_t F32)
    (hop : node.op = .CLONE) (tc ti : Nat) (br : Buf F32) :
    (node.x.shape = node.shape →
      ∃ out, mag_blas_dispatch_table_forward A lanes node.op ⟨tc, ti, node⟩ br = some out ∧
        (∀ i, i < node.numel → out i = node.x.base i) ∧
        (∀ i, node.numel ≤ i → out i = br i)) ∧
    (node.x.shape ≠ node.shape →
      mag_blas_dispatch_table_forward A lanes node.op ⟨tc, ti, node⟩ br = none) := by
  have hd : mag_blas_dispatch_table_forward A lanes node.op = mag_blas_clone := by
    rw [hop]
    rfl
  rw [hd]
  unfold mag_blas_clone mag_tensor_is_shape_eq
  constructor
  · intro h
    simp only [h, decide_True, if_true]
    refine ⟨_, rfl, fun i hi => ?_, fun i hi => ?_⟩
    · rw [forN_copy_fill]
      unfold fill
      rw [if_pos ⟨Nat.zero_le _, hi⟩]
    · rw [forN_copy_fill]
      unfold fill
      rw [if_neg (by omega)]
  · intro h
    simp only [h, decide_False]
    rfl

theorem clone_kernel_copies_witness :
    (∃ out, mag_blas_dispatch_table_forward exactOps 0 clone_node.op ⟨2, 1, clone_node⟩ blank
        = some out ∧ out.take 4 = [.fin 1, .fin 2, .fin 3, .nan]) ∧
    mag_blas_dispatch_table_forward exactOps 0 clone_mismatch_node.op
      ⟨2, 1, clone_mismatch_node⟩ blank = none := by
  constructor
  · obtain ⟨out, h, h1, h2⟩ :=
      (clone_kernel_copies exactOps 0 clone_node rfl 2 1 blank).1 (by decide)
    refine ⟨out, h, ?_⟩
    show [out 0, out 1, out 2, out 3] = _
    rw [h1 0 (by decide), h1 1 (by decide), h1 2 (by decide), h2 3 (by decide)]
    decide!
  · exact (clone_kernel_copies exactOps 0 clone_mismatch_node rfl 2 1 blank).2 (by decide)


end Effect

/-! ## The decomposition of the outer index -/

section Decomposition

variable {F32 F64 : Type}

/-- The outer index is recovered from its digits. -/
theorem outer_index_unrank (d : Arr6) (i0 ri : Nat) :
    (outer_index d i0 ri).a1 + d.a1 * ((outer_index d i0 ri).a2 + d.a2 *
      ((outer_index d i0 ri).a3 + d.a3 * ((outer_index d i0 ri).a4 + d.a4 *
        (outer_index d i0 ri).a5))) = ri := by
  simp only [outer_index]
  rw [Nat.mod_add_div, Nat.mod_add_div, Nat.mod_add_div, Nat.mod_add_div]

/-- The digits of an outer index below `d1*d2*d3*d4*d5` lie within the extents. -/
theorem outer_index_in_range (d : Arr6) (hd : all_pos d) (ri : Nat) (hri : ri < d.rows) :
    in_shape d (outer_index d 0 ri) := by
  obtain ⟨h0, h1, h2, h3, h4, h5⟩ := hd
  refine ⟨h0, Nat.mod_lt _ h1, Nat.mod_lt _ h2, Nat.mod_lt _ h3, Nat.mod_lt _ h4, ?_⟩
  show ri / d.a1 / d.a2 / d.a3 / d.a4 < d.a5
  rw [Nat.div_lt_iff_lt_mul h4, Nat.div_lt_iff_lt_mul h3, Nat.div_lt_iff_lt_mul h2,
    Nat.div_lt_iff_lt_mul h1]
  calc ri < d.rows := hri
    _ = d.a5 * d.a4 * d.a3 * d.a2 * d.a1 := by
      simp only [Arr6.rows]
      ring

theorem rows_eq (d : Arr6) : d.a5 * d.a4 * d.a3 * d.a2 * d.a1 = d.rows := by
  simp only [Arr6.rows]
  ring

/-- Claim C13.  For `x` of shape `d` with all extents at least 1, the decomposition of the outer
index by the broadcast-binary kernel is a bijection from `[0, d1*d2*d3*d4*d5)` onto
`[0,d1) x .. x [0,d5)`: its digits lie within the extents, it is injective, every tuple of
digits is met, and the last digit is `ri / (d1*d2*d3*d4)`.  Consequently, on a dense output with
a broadcast-compatible `y` and a worker count `tc >= 1`, worker `t` writes exactly the offsets
`[start_t * d0, end_t * d0)` of its rows, and every output offset below `numel` lies in the
range of exactly one worker. -/
theorem binary_rows_one_writer (A : FloatOps F32 F64) (lanes : Nat) (node : mag_node_t F32)
    (op : F32 → F32 → F32) (tc : Nat)
    (hop : is_broadcast_binary node.op = true) (hf : binary_fn A node.op = some op)
    (hshape : node.shape = node.x.shape) (hd : all_pos node.x.shape)
    (he : bcast_compat node.x.shape node.y.shape)
    (hrs : node.strides = dense_strides node.shape) (htc : 1 ≤ tc) :
    (∀ ri, ri < node.x.shape.rows → in_shape node.x.shape (outer_index node.x.shape 0 ri)) ∧
    (∀ ri rj, outer_index node.x.shape 0 ri = outer_index node.x.shape 0 rj → ri = rj) ∧
    (∀ i, in_shape node.x.shape i → ∃ ri, ri < node.x.shape.rows ∧
      outer_index node.x.shape 0 ri = ⟨0, i.a1, i.a2, i.a3, i.a4, i.a5⟩) ∧
    (∀ ri, (outer_index node.x.shape 0 ri).a5 =
      ri / (node.x.shape.a1 * node.x.shape.a2 * node.x.shape.a3 * node.x.shape.a4)) ∧
    (∀ ti br, mag_blas_dispatch_table_forward A lanes node.op ⟨tc, ti, node⟩ br =
      some (fill (spec_start node.x.shape.rows tc ti * node.x.shape.a0)
        (spec_end node.x.shape.rows tc ti * node.x.shape.a0) (binary_val op node) br)) ∧
    (∀ p, p < node.x.shape.rows * node.x.shape.a0 →
      ∃! t, t < tc ∧ spec_start node.x.shape.rows tc t * node.x.shape.a0 ≤ p ∧
        p < spec_end node.x.shape.rows tc t * node.x.shape.a0) := by
  refine ⟨outer_index_in_range _ hd, ?_, ?_, ?_, ?_, ?_⟩
  · intro ri rj h
    rw [← outer_index_unrank node.x.shape 0 ri, ← outer_index_unrank node.x.shape 0 rj, h]
  · rintro i ⟨_, b1, b2, b3, b4, b5⟩
    refine ⟨i.a1 + node.x.shape.a1 * (i.a2 + node.x.shape.a2 * (i.a3 + node.x.shape.a3 *
      (i.a4 + node.x.shape.a4 * i.a5))), ?_, outer_index_rank _ 0 _ _ _ _ _ b1 b2 b3 b4⟩
    have k4 := digit_lt _ _ _ _ b4 b5
    have k3 := digit_lt _ _ _ _ b3 k4
    have k2 := digit_lt _ _ _ _ b2 k3
    have k1 := digit_lt _ _ _ _ b1 k2
    calc _ < node.x.shape.a1 * (node.x.shape.a2 * (node.x.shape.a3 *
          (node.x.shape.a4 * node.x.shape.a5))) := k1
      _ = _ := by
        simp only [Arr6.rows]
        ring
  · intro ri
    show ri / node.x.shape.a1 / node.x.shape.a2 / node.x.shape.a3 / node.x.shape.a4 = _
    rw [Nat.div_div_eq_div_mul, Nat.div_div_eq_div_mul, Nat.div_div_eq_div_mul]
    simp only [Nat.mul_assoc]
  · intro ti br
    obtain ⟨ok, hdvd⟩ := binary_ok_of_compat node hshape hrs hd he
    rw [binary_dispatch A lanes node.op op hop hf, binary_kernel_fill op tc ti node br htc ok hdvd,
      rows_eq]
    simp only [spec_start, spec_end, spec_chunk_eq _ _ htc]
  · intro p hp
    simp only [spec_start, spec_end, spec_chunk_eq _ _ htc]
    obtain ⟨t, ht, h1, h2⟩ := (chunk_cover_rows _ tc _ htc hd.1 p).1 hp
    refine ⟨t, ⟨ht, h1, h2⟩, ?_⟩
    rintro u ⟨_, g1, g2⟩
    have hd0 : 0 < node.x.shape.a0 := hd.1
    exact slice_disjoint node.x.shape.rows _ u t (p / node.x.shape.a0)
      ((Nat.le_div_iff_mul_le hd0).2 g1) ((Nat.div_lt_iff_lt_mul hd0).2 g2)
      ((Nat.le_div_iff_mul_le hd0).2 h1) ((Nat.div_lt_iff_lt_mul hd0).2 h2)


theorem binary_rows_one_writer_witness :
    (∀ ri, ri < 3 → in_shape bcast_node.x.shape (outer_index bcast_node.x.shape 0 ri)) ∧
    (∃! t, t < 2 ∧ spec_start bcast_node.x.shape.rows 2 t * 2 ≤ 5 ∧
      5 < spec_end bcast_node.x.shape.rows 2 t * 2) := by
  have h := binary_rows_one_writer exactOps 0 bcast_node exactOps.add 2 rfl rfl rfl
    (by decide) (by decide) rfl (by decide)
  exact ⟨h.1, h.2.2.2.2.2 5 (by decide)⟩


end Decomposition

/-! ## Storage buffers: proofs -/

section Storage

variable {B : Type}

theorem wrap64_of_lt (n : Nat) (h : n < 2 ^ 64) : wrap64 n = n :=
  Nat.mod_eq_of_lt h

theorem wrap64_sub (a b : Nat) (hb : b ≤ a) (ha : a < 2 ^ 64) :
    wrap64 (a + 2 ^ 64 - b) = a - b := by
  unfold wrap64
  have e : a + 2 ^ 64 - b = a - b + 2 ^ 64 := by omega
  rw [e, Nat.add_mod_right]
  exact Nat.mod_eq_of_lt (by omega)

/-- Claim C17.  For a storage buffer that lies within the address space
(`base + size < 2^64`) and every `offs <= size`: `set(offs, x)` returns, afterwards every byte
of the buffer at a position in `[offs, size)` is `x`, every byte at a position in `[0, offs)` is
as before, and so is every byte of the memory outside `[base + offs, base + size)`. -/
theorem buf_set_fills (sto : mag_storage_buffer_t) (offs : Nat) (x : B) (mem : Mem B)
    (hfit : sto.base + sto.size < 2 ^ 64) (hoffs : offs ≤ sto.size) :
    ∃ mem1, mag_cpu_buf_set sto offs x mem = some mem1 ∧
      (∀ p, offs ≤ p → p < sto.size → mem1 (sto.base + p) = x) ∧
      (∀ p, p < offs → mem1 (sto.base + p) = mem (sto.base + p)) ∧
      (∀ a, ¬ (sto.base + offs ≤ a ∧ a < sto.base + sto.size) → mem1 a = mem a) := by
  unfold mag_cpu_buf_set
  rw [wrap64_of_lt _ (by omega : sto.base + offs < 2 ^ 64), wrap64_of_lt _ hfit,
    wrap64_sub _ _ hoffs (by omega), if_pos (by omega)]
  refine ⟨_, rfl, fun p h1 h2 => ?_, fun p h => ?_, fun a h => ?_⟩
  · unfold memset
    rw [if_pos (by omega)]
  · unfold memset
    rw [if_neg (by omega)]
  · unfold memset
    rw [if_neg (by omega)]

theorem buf_set_fills_witness :
    ∃ mem1, mag_cpu_buf_set small_storage 4 7 ramp_memory = some mem1 ∧
      mem1 (4096 + 3) = ramp_memory (4096 + 3) ∧ mem1 (4096 + 4) = 7 ∧ mem1 (4096 + 15) = 7 ∧
      mem1 (4096 + 16) = ramp_memory (4096 + 16) := by
  obtain ⟨mem1, h, h1, h2, h3⟩ := buf_set_fills small_storage 4 7 ramp_memory
    (by decide) (by decide)
  exact ⟨mem1, h, h2 3 (by decide), h1 4 (by decide) (by decide),
    h1 15 (by decide) (by decide), h3 (4096 + 16) (by decide)⟩

/-- Claim C18: round trip.  For a storage buffer within the address space, `offs + n <= size`,
a source region that does not overlap the target region and a destination region outside the
buffer: `copy_in(offs, src, n)` followed by `copy_out(offs, dst, n)` both return and leave the
`n` bytes at `dst` equal to the `n` bytes that were, and still are, at `src`; `copy_in` changes
no byte outside `[base + offs, base + offs + n)` and `copy_out` changes no byte of the
buffer. -/
theorem copy_round_trip (sto : mag_storage_buffer_t) (offs n src dst : Nat) (mem : Mem B)
    (hfit : sto.base + sto.size < 2 ^ 64) (hn : offs + n ≤ sto.size)
    (hsrc : src + n ≤ sto.base + offs ∨ sto.base + offs + n ≤ src)
    (hdst : dst + n ≤ sto.base ∨ sto.base + sto.size ≤ dst) :
    ∃ mem1 mem2, mag_cpu_buf_cpy_host_device sto offs src n mem = some mem1 ∧
      mag_cpu_buf_cpy_device_host sto offs dst n mem1 = some mem2 ∧
      (∀ i, i < n → mem2 (dst + i) = mem (src + i) ∧ mem1 (src + i) = mem (src + i)) ∧
      (∀ a, ¬ (sto.base + offs ≤ a ∧ a < sto.base + offs + n) → mem1 a = mem a) ∧
      (∀ p, p < sto.size → mem2 (sto.base + p) = mem1 (sto.base + p)) := by
  unfold mag_cpu_buf_cpy_host_device mag_cpu_buf_cpy_device_host
  have hle : sto.base + offs + n ≤ sto.base + sto.size := by omega
  simp only [wrap64_of_lt _ (by omega : sto.base + offs < 2 ^ 64), wrap64_of_lt _ hfit,
    wrap64_of_lt _ (by omega : sto.base + offs + n < 2 ^ 64), if_pos hle]
  refine ⟨_, _, rfl, rfl, fun i hi => ?_, fun a h => ?_, fun p hp => ?_⟩
  · constructor
    · unfold memcpy
      rw [if_pos (by omega), if_pos (by omega)]
      congr 1
      omega
    · unfold memcpy
      rw [if_neg (by omega)]
  · unfold memcpy
    rw [if_neg h]
  · show memcpy _ dst _ n (sto.base + p) = _
    unfold memcpy
    rw [if_neg (by omega)]

theorem copy_round_trip_witness :
    ∃ mem1 mem2, mag_cpu_buf_cpy_host_device small_storage 4 100 8 ramp_memory = some mem1 ∧
      mag_cpu_buf_cpy_device_host small_storage 4 200 8 mem1 = some mem2 ∧
      mem2 200 = ramp_memory 100 ∧ mem2 207 = ramp_memory 107 := by
  obtain ⟨mem1, mem2, h1, h2, h3, _, _⟩ := copy_round_trip small_storage 4 8 100 200 ramp_memory
    (by decide) (by decide) (by decide) (by decide)
  exact ⟨mem1, mem2, h1, h2, (h3 0 (by decide)).1, (h3 7 (by decide)).1⟩

/-- Claim C19 fails on the code: for the 16-byte buffer at address 4096, `offs = 2^64 - 4096`
and `n = 8` violate `offs + n <= size`, yet `base + offs` wraps to 0, the assertion
`base+offs+n <= base+size` reads `8 <= 4112` and passes, and both copies run on the 8 bytes at
address 0, outside the buffer. -/
theorem copy_assertion_wraps :
    ¬ (2 ^ 64 - 4096 + 8 ≤ small_storage.size) ∧
    (mag_cpu_buf_cpy_host_device small_storage (2 ^ 64 - 4096) 100 8 ramp_memory).map
      (fun m => (m 0, m 7)) = some (100, 107) ∧
    (mag_cpu_buf_cpy_device_host small_storage (2 ^ 64 - 4096) 200 8 ramp_memory).map
      (fun m => (m 200, m 207)) = some (0, 7) := by
  decide


end Storage

/-! ## Thread pool: proofs -/

section PoolProofs

/-- Claim C16 fails on the code.  A pool of two workers runs `RELU([-1, 0, 1])`, the thread of
worker 1 taking its turn before the main thread: when `mag_threadpool_parallel_compute` returns,
`num_completed = num_workers = 2`, `pool.phase = 1` and worker 1 has phase 1, but worker 0, whose
kernel the main thread runs without calling `mag_worker_await_work`, still has phase 0.  With
`MAG_DEBUG` the assertion `workers[i].phase == pool->phase` of the barrier fails at `i = 0`. -/
theorem pool_worker_zero_phase_stale :
    (mag_threadpool_parallel_compute exactOps 0 false (some pool_of_two) relu_node [1, 0]
        blank).map
      (fun s => s.1.map (fun p =>
        (p.num_completed, p.num_workers, p.phase, p.workers.map (fun w => w.phase))))
      = .done (some (2, 2, 1, [0, 1])) ∧
    (mag_threadpool_parallel_compute exactOps 0 false (some pool_of_two) relu_node [0, 1]
        blank).map
      (fun s => s.1.map (fun p =>
        (p.num_completed, p.num_workers, p.phase, p.workers.map (fun w => w.phase))))
      = .done (some (2, 2, 1, [0, 1])) ∧
    (mag_threadpool_parallel_compute exactOps 0 true (some pool_of_two) relu_node [1, 0]
        blank).map (fun s => s.1.map (fun p => p.phase)) = .abort :=
  ⟨by decide, by decide, by decide⟩


end PoolProofs

/-! ## Dispatch: the empty kernel, the aliased kernel, the single-threaded path -/

section Dispatch

variable {F32 F64 : Type}

/-- Claim C21: for a node whose op is `NOP`, `VIEW`, `TRANSPOSE` or `PERMUTE` the dispatched
kernel is the empty kernel `mag_blas_nop`, and for every worker payload it returns the output
storage as it received it. -/
theorem structural_ops_are_nops (A : FloatOps F32 F64) (lanes : Nat) (node : mag_node_t F32)
    (hop : node.op = .NOP ∨ node.op = .VIEW ∨ node.op = .TRANSPOSE ∨ node.op = .PERMUTE) :
    mag_blas_dispatch_table_forward A lanes node.op = mag_blas_nop ∧
    ∀ tc ti br, mag_blas_dispatch_table_forward A lanes node.op ⟨tc, ti, node⟩ br = some br := by
  have hd : mag_blas_dispatch_table_forward A lanes node.op = mag_blas_nop := by
    rcases hop with h | h | h | h <;> rw [h] <;> rfl
  refine ⟨hd, fun tc ti br => ?_⟩
  rw [hd]
  rfl

theorem structural_ops_are_nops_witness :
    (mag_blas_dispatch_table_forward exactOps 0 (dense_node .TRANSPOSE ⟨3, 1, 1, 1, 1, 1⟩
        muls_input muls_input .nan).op
      ⟨2, 1, dense_node .TRANSPOSE ⟨3, 1, 1, 1, 1, 1⟩ muls_input muls_input .nan⟩ blank).map
      (fun b => b.take 3) = some [.nan, .nan, .nan] := by
  rw [(structural_ops_are_nops exactOps 0
    (dense_node .TRANSPOSE ⟨3, 1, 1, 1, 1, 1⟩ muls_input muls_input .nan)
    (Or.inr (Or.inr (Or.inl rfl)))).2 2 1 blank]
  rfl

/-- Claim C29: `mag_vsoftmax_dv_f32` returns exactly what `mag_vsoftmax_f32` returns, for every
`n`, output and input; and for every worker payload a node with op `SOFTMAX_DV` produces the
output storage that the same node with op `SOFTMAX` produces (in every build: the approximate
path is shared too). -/
theorem softmax_dv_eq_softmax (A : FloatOps F32 F64) (lanes : Nat) :
    (∀ n o po x px,
      mag_vsoftmax_dv_f32 A lanes n o po x px = mag_vsoftmax_f32 A lanes n o po x px) ∧
    (∀ (node : mag_node_t F32) tc ti br,
      mag_blas_dispatch_table_forward A lanes .SOFTMAX_DV
          ⟨tc, ti, { node with op := .SOFTMAX_DV }⟩ br =
        mag_blas_dispatch_table_forward A lanes .SOFTMAX
          ⟨tc, ti, { node with op := .SOFTMAX }⟩ br) :=
  ⟨fun _ _ _ _ _ => rfl, fun _ _ _ _ => rfl⟩

/-- Claim C27: without a pool, `mag_threadpool_parallel_compute(NULL, node)` has exactly the
effect of one run of the kernel dispatched for `node->op` with `worker_idx = 0` and
`worker_count = 1`, that is of a launch with the single worker 0: it aborts when that run
aborts and returns its output storage otherwise.  For that payload the slice of the unary and
scalar kernels and the row range of the binary and matmul kernels are the whole range
`[0, numel)`. -/
theorem single_thread_compute (A : FloatOps F32 F64) (lanes : Nat) (debug : Bool)
    (node : mag_node_t F32) (order : List Nat) (br : Buf F32) (numel : Nat) :
    mag_threadpool_parallel_compute A lanes debug none node order br =
      (match mag_blas_dispatch_table_forward A lanes node.op ⟨1, 0, node⟩ br with
        | none => .abort
        | some b => .done (none, b)) ∧
    launch A lanes node 1 [0] br =
      mag_blas_dispatch_table_forward A lanes node.op ⟨1, 0, node⟩ br ∧
    mag_slice_unary 1 0 numel = some (0, numel) ∧
    mag_slice_rows 1 0 numel = some (0, numel) := by
  refine ⟨?_, ?_, ?_, ?_⟩
  · show (match Option.map (fun b => ((⟨1, 0, none⟩ : mag_worker_payload_t F32), b))
        (mag_blas_dispatch_table_forward A lanes node.op ⟨1, 0, node⟩ br) with
      | none => Run.abort
      | some r => Run.done (none, r.2)) = _
    cases mag_blas_dispatch_table_forward A lanes node.op ⟨1, 0, node⟩ br <;> rfl
  · unfold launch
    cases mag_blas_dispatch_table_forward A lanes node.op ⟨1, 0, node⟩ br <;> rfl
  · rw [mag_slice_unary_eq 1 0 numel (le_refl 1)]
    simp
  · rw [mag_slice_rows_eq 1 0 numel (le_refl 1)]
    simp


end Dispatch

/-! ## The CPU device: proofs -/

section DeviceProofs

variable {F : Type}

/-- Claim C28: `mag_cpu_exec_bwd` ends in a fatal error for every device, every node and every
content of the output storage; it returns no storage and no pool, having run no kernel. -/
theorem exec_bwd_aborts (dvc : mag_compute_device_t F) (root : mag_node_t F) (br : Buf F) :
    mag_cpu_exec_bwd dvc root br = .abort :=
  rfl

theorem threadpool_create_worker (n i : Nat) (hi : i < n) :
    (mag_threadpool_create n : mag_threadpool_t F).workers[i]? =
      some (mag_worker_init i n (decide (i > 0))) := by
  unfold mag_threadpool_create
  simp only [List.getElem?_map, List.getElem?_range hi, Option.map_some']

/-- Claim C30: device construction.  The worker count is `thread_count` when that is not 0 and
`max(1, cpu_virtual_cores)` when it is 0.  The device has a pool exactly when the count exceeds
1; such a pool is the one `mag_threadpool_create` builds for the count: it has that many
workers, worker `i` carries `thread_idx = i` and `thread_num = count`, and the workers that
spawned a thread are exactly those with `i > 0`. -/
theorem device_worker_count (ctx : mag_ctx_t) (desc : mag_device_descriptor_t) :
    (mag_init_device_cpu ctx desc : mag_compute_device_t F) =
      mag_cpu_init_interface ctx
        (if desc.thread_count = 0 then max 1 ctx.cpu_virtual_cores else desc.thread_count) ∧
    (∀ n, ((mag_cpu_init_interface ctx n : mag_compute_device_t F).impl.isSome = true ↔ 1 < n) ∧
      (1 < n → ∃ pool, (mag_cpu_init_interface ctx n : mag_compute_device_t F).impl = some pool ∧
        pool.num_workers = n ∧ pool.workers.length = n ∧
        ∀ i, i < n → ∃ w, pool.workers[i]? = some w ∧
          w.payload.thread_idx = i ∧ w.payload.thread_num = n ∧
          (w.thread = true ↔ 0 < i))) := by
  constructor
  · unfold mag_init_device_cpu mag_xmax
    by_cases h : desc.thread_count = 0
    · simp only [h, ne_eq, not_true_eq_false, if_false, if_true]
      congr 1
      by_cases c : 1 > ctx.cpu_virtual_cores
      · rw [if_pos c, Nat.max_eq_left (by omega)]
      · rw [if_neg c, Nat.max_eq_right (by omega)]
    · simp only [h, ne_eq, not_false_eq_true, if_true, if_false]
  · intro n
    unfold mag_cpu_init_interface
    constructor
    · by_cases c : n > 1
      · simp only [if_pos c, Option.isSome_some, true_iff]
        exact c
      · simp only [if_neg c, Option.isSome_none, Bool.false_eq_true, false_iff]
        exact c
    · intro hn
      refine ⟨mag_threadpool_create n, by simp only [if_pos hn], rfl, ?_, fun i hi => ?_⟩
      · simp [mag_threadpool_create]
      · exact ⟨_, threadpool_create_worker n i hi, rfl, rfl, by simp [mag_worker_init]⟩

theorem device_worker_count_example :
    ((mag_init_device_cpu ⟨8⟩ ⟨0⟩ : mag_compute_device_t XR).impl.map
      (fun p => (p.num_workers, p.workers.map (fun w => (w.payload.thread_idx, w.thread)))))
      = some (8, [(0, false), (1, true), (2, true), (3, true), (4, true), (5, true), (6, true),
        (7, true)]) ∧
    ((mag_init_device_cpu ⟨0⟩ ⟨0⟩ : mag_compute_device_t XR).impl.isSome = false) ∧
    ((mag_init_device_cpu ⟨8⟩ ⟨1⟩ : mag_compute_device_t XR).impl.isSome = false) ∧
    ((mag_init_device_cpu ⟨8⟩ ⟨2⟩ : mag_compute_device_t XR).impl.map (fun p => p.num_workers))
      = some 2 :=
  ⟨by decide, by decide, by decide, by decide⟩


end DeviceProofs

/-! ## Pointwise functions -/

section Pointwise

/-- Claim C22 fails on the code: the `SIGMOID_DV` kernel applies `x * (1 - x)` to the input
element itself, without the sigmoid.  On the input 0 it stores `0 * (1 - 0) = 0`, where the
derivative of the sigmoid is `sigma(0) * (1 - sigma(0)) = 1/4`; in the symbolic interpretation
the stored term is the product of the input with `1 - input`, and holds no `expf`. -/
theorem sigmoid_dv_skips_sigmoid :
    (launch exactOps 0 sigmoid_dv_node 1 [0] blank).map (fun out => out 0) = some (.fin 0) ∧
    (XR.fin 0 ≠ .fin (1 / 4)) ∧
    unary_fn symOps .SIGMOID_DV = some (sigmoid_dv_f32 symOps) ∧
    sigmoid_dv_f32 symOps (.atom 10) = .bin .mul (.atom 10) (.bin .sub (.atom 1) (.atom 10)) :=
  ⟨by decide!, by decide!, rfl, rfl⟩


/-- The derivative of `t => max t 0` on the reals, away from 0. -/
theorem relu_hasDerivAt (x : ℝ) (hx : x ≠ 0) :
    HasDerivAt (fun t : ℝ => max t 0) (if x ≤ 0 then 0 else 1) x := by
  rcases lt_or_gt_of_ne hx with h | h
  · rw [if_pos (le_of_lt h)]
    refine (hasDerivAt_const x (0 : ℝ)).congr_of_eventuallyEq ?_
    filter_upwards [Iio_mem_nhds h] with t ht
    exact max_eq_right (le_of_lt ht)
  · rw [if_neg (not_le.2 h)]
    refine (hasDerivAt_id x).congr_of_eventuallyEq ?_
    filter_upwards [Ioi_mem_nhds h] with t ht
    exact max_eq_left (le_of_lt ht)

/-- Claim C23.  With the values of `float` read as extended rationals (every `float` is a NaN,
an infinity or a rational, and `<=`, `<` compare them as such): `RELU_DV` applies `relu_dv`, which
is 0 on every non-NaN `x <= 0` and 1 on every `x > 0`, these being all the non-NaN values; in
particular `relu_dv(0) = 0`.  `RELU` applies `relu(t) = max(t, 0)` on the finite values, and at
every finite `x != 0` the value `relu_dv(x)` is the derivative of `t => max(t, 0)` at `x`. -/
theorem relu_dv_is_derivative :
    unary_fn exactOps .RELU_DV = some (relu_dv_f32 exactOps) ∧
    (∀ x : XR, x ≠ .nan → XR.le x (.fin 0) = true → relu_dv_f32 exactOps x = .fin 0) ∧
    (∀ x : XR, x ≠ .nan → XR.lt (.fin 0) x = true → relu_dv_f32 exactOps x = .fin 1) ∧
    (∀ x : XR, x ≠ .nan → XR.le x (.fin 0) = true ∨ XR.lt (.fin 0) x = true) ∧
    relu_dv_f32 exactOps (.fin 0) = .fin 0 ∧
    (∀ t : ℚ, relu_f32 exactOps (.fin t) = .fin (max t 0)) ∧
    (∀ q : ℚ, q ≠ 0 → ∃ v : ℚ, relu_dv_f32 exactOps (.fin q) = .fin v ∧
      HasDerivAt (fun t : ℝ => max t 0) (v : ℝ) (q : ℝ)) := by
  refine ⟨rfl, ?_, ?_, ?_, ?_, ?_, ?_⟩
  · intro x _ h
    show (if XR.le x (.fin 0) = true then XR.fin 0 else .fin 1) = _
    rw [if_pos h]
  · intro x _ h
    show (if XR.le x (.fin 0) = true then XR.fin 0 else .fin 1) = _
    cases x with
    | nan => exact absurd h (by decide)
    | ninf => exact absurd h (by decide)
    | pinf => rfl
    | fin a =>
      have ha : (0 : ℚ) < a := by simpa [XR.lt] using h
      have hle : XR.le (.fin a) (.fin 0) = false := by
        simp only [XR.le, decide_eq_false_iff_not, not_le]
        exact ha
      rw [hle]
      rfl
  · intro x hx
    cases x with
    | nan => exact absurd rfl hx
    | ninf => exact Or.inl rfl
    | pinf => exact Or.inr rfl
    | fin a =>
      rcases le_or_lt a 0 with h | h
      · exact Or.inl (by simpa [XR.le] using h)
      · exact Or.inr (by simpa [XR.lt] using h)
  · show (if XR.le (.fin 0) (.fin 0) = true then XR.fin 0 else .fin 1) = _
    rw [if_pos (by simp [XR.le])]
  · intro t
    show (if XR.lt (.fin 0) (.fin t) = true then XR.fin t else .fin 0) = _
    by_cases h : 0 < t
    · rw [if_pos (by simpa [XR.lt] using h), max_eq_left (le_of_lt h)]
    · rw [if_neg (by simpa [XR.lt] using h), max_eq_right (not_lt.1 h)]
  · intro q hq
    refine ⟨if q ≤ 0 then 0 else 1, ?_, ?_⟩
    · show (if XR.le (.fin q) (.fin 0) = true then XR.fin 0 else .fin 1) = _
      by_cases h : q ≤ 0
      · rw [if_pos (by simpa [XR.le] using h), if_pos h]
      · rw [if_neg (by simpa [XR.le] using h), if_neg h]
    · have h := relu_hasDerivAt (q : ℝ) (by exact_mod_cast hq)
      by_cases c : q ≤ 0
      · have c2 : (q : ℝ) ≤ 0 := by exact_mod_cast c
        rw [if_pos c2] at h
        rw [if_pos c]
        exact_mod_cast h
      · have c2 : ¬ (q : ℝ) ≤ 0 := by exact_mod_cast c
        rw [if_neg c2] at h
        rw [if_neg c]
        exact_mod_cast h


/-- Claim C24.  Read the finite `float` values in a linearly ordered field, with `x + y` and
`x / y` the exact results rounded by a monotone `rnd` that fixes 0, 1 and 6 (round to nearest;
the identity for exact arithmetic), and `fminf`, `fmaxf` the minimum and the maximum.  Then
`HARD_SIGMOID` applies `hard_sigmoid(x) = min(1, max(0, (x + 3)/6))`, with the sum and the
quotient rounded; the value lies in `[0, 1]`, is 0 for `x <= -3`, is 1 for `x >= 3`, is the
computed `(x + 3)/6` for `-3 <= x <= 3`, and does not decrease when `x` grows. -/
theorem hard_sigmoid_clamps {F32 F64 : Type} [LinearOrderedField F32] (A : FloatOps F32 F64)
    (rnd : F32 → F32) (hmono : Monotone rnd) (h0 : rnd 0 = 0) (h1 : rnd 1 = 1) (h6 : rnd 6 = 6)
    (hadd : ∀ a b, A.add a b = rnd (a + b)) (hdiv : ∀ a b, A.div a b = rnd (a / b))
    (hzero : A.zero = 0) (hone : A.one = 1) (hthree : A.three = 3) (hsix : A.six = 6)
    (hmin : ∀ a b, A.fminf a b = min a b) (hmax : ∀ a b, A.fmaxf a b = max a b) :
    unary_fn A .HARD_SIGMOID = some (hard_sigmoid_f32 A) ∧
    (∀ x, hard_sigmoid_f32 A x = min 1 (max 0 (rnd (rnd (x + 3) / 6)))) ∧
    ((∀ a, rnd a = a) → ∀ x, hard_sigmoid_f32 A x = min 1 (max 0 ((x + 3) / 6))) ∧
    (∀ x, 0 ≤ hard_sigmoid_f32 A x ∧ hard_sigmoid_f32 A x ≤ 1) ∧
    (∀ x, x ≤ -3 → hard_sigmoid_f32 A x = 0) ∧
    (∀ x, 3 ≤ x → hard_sigmoid_f32 A x = 1) ∧
    (∀ x, -3 ≤ x → x ≤ 3 → hard_sigmoid_f32 A x = A.div (A.add x A.three) A.six) ∧
    Monotone (hard_sigmoid_f32 A) := by
  have hform : ∀ x, hard_sigmoid_f32 A x = min 1 (max 0 (rnd (rnd (x + 3) / 6))) := by
    intro x
    unfold hard_sigmoid_f32
    rw [hmin, hmax, hdiv, hadd, hzero, hone, hthree, hsix]
  have h6pos : (0 : F32) < 6 := by norm_num
  refine ⟨rfl, hform, ?_, ?_, ?_, ?_, ?_, ?_⟩
  · intro hid x
    rw [hform, hid, hid]
  · intro x
    rw [hform]
    exact ⟨le_min zero_le_one (le_max_left _ _), min_le_left _ _⟩
  · intro x hx
    rw [hform]
    have e1 : rnd (x + 3) ≤ 0 := by
      rw [← h0]
      exact hmono (by linarith)
    have e2 : rnd (rnd (x + 3) / 6) ≤ 0 := by
      rw [← h0]
      exact hmono (div_nonpos_of_nonpos_of_nonneg e1 (le_of_lt h6pos))
    rw [max_eq_left e2, min_eq_right zero_le_one]
  · intro x hx
    rw [hform]
    have e1 : 6 ≤ rnd (x + 3) := by
      rw [← h6]
      exact hmono (by linarith)
    have e2 : 1 ≤ rnd (rnd (x + 3) / 6) := by
      rw [← h1]
      exact hmono ((one_le_div h6pos).2 e1)
    rw [max_eq_right (le_trans zero_le_one e2), min_eq_left e2]
  · intro x hl hr
    rw [hform, hdiv, hadd, hthree, hsix]
    have e1 : 0 ≤ rnd (x + 3) := by
      rw [← h0]
      exact hmono (by linarith)
    have e2 : rnd (x + 3) ≤ 6 := by
      rw [← h6]
      exact hmono (by linarith)
    have e3 : 0 ≤ rnd (rnd (x + 3) / 6) := by
      rw [← h0]
      exact hmono (div_nonneg e1 (le_of_lt h6pos))
    have e4 : rnd (rnd (x + 3) / 6) ≤ 1 := by
      rw [← h1]
      exact hmono ((div_le_one h6pos).2 e2)
    rw [max_eq_right e3, min_eq_right e4]
  · intro x y hxy
    rw [hform, hform]
    have e1 : rnd (rnd (x + 3) / 6) ≤ rnd (rnd (y + 3) / 6) :=
      hmono (div_le_div_of_nonneg_right (hmono (by linarith)) (le_of_lt h6pos))
    exact min_le_min (le_refl 1) (max_le_max (le_refl 0) e1)

theorem hard_sigmoid_clamps_witness :
    hard_sigmoid_f32 qOps (-5) = 0 ∧ hard_sigmoid_f32 qOps 0 = 1 / 2 ∧
      hard_sigmoid_f32 qOps 7 = 1 := by
  have h := hard_sigmoid_clamps qOps id monotone_id rfl rfl rfl (fun _ _ => rfl) (fun _ _ => rfl)
    rfl rfl rfl rfl (fun _ _ => rfl) (fun _ _ => rfl)
  refine ⟨h.2.2.2.2.1 (-5) (by norm_num), ?_, h.2.2.2.2.2.1 7 (by norm_num)⟩
  rw [h.2.2.2.2.2.2.1 0 (by norm_num) (by norm_num)]
  show ((0 : ℚ) + 3) / 6 = 1 / 2
  norm_num


end Pointwise

/-! ## Inputs are read-only -/

section ReadOnly

variable {F32 F64 : Type} {F : Type}

theorem set_update (m : Storages F) (r : Nat) (b : Buf F) (i : Nat) (v : F) :
    store_in (Function.update m r b) r i v = Function.update m r (store b i v) := by
  unfold store_in
  rw [Function.update_same, Function.update_idem]

theorem forN_update (m : Storages F) (r : Nat) (H : Nat → Storages F → Storages F)
    (G : Nat → Buf F → Buf F)
    (h : ∀ i b, H i (Function.update m r b) = Function.update m r (G i b)) (lo n : Nat)
    (b : Buf F) :
    forN H lo n (Function.update m r b) = Function.update m r (forN G lo n b) := by
  induction n generalizing lo b with
  | zero => rfl
  | succ n ih => rw [forN, forN, h, ih]

theorem forNM_update (m : Storages F) (r : Nat) (H : Nat → Storages F → Option (Storages F))
    (G : Nat → Buf F → Option (Buf F))
    (h : ∀ i b, H i (Function.update m r b) = (G i b).map (Function.update m r)) (lo n : Nat)
    (b : Buf F) :
    forNM H lo n (Function.update m r b) = (forNM G lo n b).map (Function.update m r) := by
  induction n generalizing lo b with
  | zero => rfl
  | succ n ih =>
    rw [forNM, forNM, h]
    cases G lo b with
    | none => rfl
    | some b1 => exact ih (lo + 1) b1

theorem vec_map_ref_eq (f : F → F) (n r po sx px : Nat) (m : Storages F) (b : Buf F)
    (hx : sx ≠ r) :
    vec_map_ref f n r po sx px (Function.update m r b) =
      Function.update m r (vec_map f n b po (m sx) px) := by
  unfold vec_map_ref vec_map
  apply forN_update
  intro i b
  rw [Function.update_noteq hx, set_update]

theorem vec_map_simd_ref_eq (lanes : Nat) (g f : F → F) (n r po sx px : Nat) (m : Storages F)
    (b : Buf F) (hx : sx ≠ r) :
    vec_map_simd_ref lanes g f n r po sx px (Function.update m r b) =
      Function.update m r (vec_map_simd lanes g f n b po (m sx) px) := by
  unfold vec_map_simd_ref vec_map_simd
  simp only []
  rw [forN_update m r _ (fun k b =>
    forN (fun l b => store b (po + (k * lanes + l)) (g (m sx (px + (k * lanes + l))))) 0 lanes b)]
  · apply forN_update
    intro i b
    rw [Function.update_noteq hx, set_update]
  · intro k b
    apply forN_update
    intro l c
    rw [Function.update_noteq hx, set_update]

theorem vec_zip_ref_eq (op : F → F → F) (n r po sx px sy py : Nat) (m : Storages F) (b : Buf F)
    (hx : sx ≠ r) (hy : sy ≠ r) :
    vec_zip_ref op n r po sx px sy py (Function.update m r b) =
      Function.update m r (vec_zip op n b po (m sx) px (m sy) py) := by
  unfold vec_zip_ref vec_zip
  apply forN_update
  intro i b
  rw [Function.update_noteq hx, Function.update_noteq hy, set_update]

theorem vec_scalar_ref_eq (op : F → F → F) (n r po sx px : Nat) (y : F) (m : Storages F)
    (b : Buf F) (hx : sx ≠ r) :
    vec_scalar_ref op n r po sx px y (Function.update m r b) =
      Function.update m r (vec_scalar op n b po (m sx) px y) := by
  unfold vec_scalar_ref vec_scalar
  apply forN_update
  intro i b
  rw [Function.update_noteq hx, set_update]

/-- The unary kernel on the storages stores what the unary kernel on the loaded node returns into
the storage of the node, when the vector primitives correspond. -/
theorem unary_ref_eq (v : VecUnary F32) (vr : VecUnaryRef F32)
    (hv : ∀ n r po sx px (m : Storages F32) b, sx ≠ r →
      vr n r po sx px (Function.update m r b) = (v n b po (m sx) px).map (Function.update m r))
    (tc ti : Nat) (n : node_ref F32) (m : Storages F32) (b : Buf F32)
    (hx : n.x.storage ≠ n.storage) :
    mag_cpu_blas_impl_unary_ref vr tc ti n (Function.update m n.storage b) =
      (mag_cpu_blas_impl_unary v ⟨tc, ti, n.load m⟩ b).map (Function.update m n.storage) := by
  unfold mag_cpu_blas_impl_unary_ref mag_cpu_blas_impl_unary
  show (mag_slice_unary tc ti n.numel).bind _ = Option.map _ ((mag_slice_unary tc ti n.numel).bind _)
  cases mag_slice_unary tc ti n.numel with
  | none => rfl
  | some sl =>
    obtain ⟨ra, vmel⟩ := sl
    simp only [Option.some_bind]
    by_cases c : vmel ≤ 0
    · rw [if_pos c, if_pos c]
      rfl
    · rw [if_neg c, if_neg c]
      exact hv vmel n.storage ra n.x.storage ra m b hx

theorem scalar_ref_eq (op : F32 → F32 → F32)
    (tc ti : Nat) (n : node_ref F32) (m : Storages F32) (b : Buf F32)
    (hx : n.x.storage ≠ n.storage) :
    mag_cpu_blas_impl_unary_scalar_ref (vec_scalar_ref op) tc ti n (Function.update m n.storage b) =
      (mag_cpu_blas_impl_unary_scalar (vec_scalar op) ⟨tc, ti, n.load m⟩ b).map
        (Function.update m n.storage) := by
  unfold mag_cpu_blas_impl_unary_scalar_ref mag_cpu_blas_impl_unary_scalar
  show (mag_slice_unary tc ti n.numel).bind _ = Option.map _ ((mag_slice_unary tc ti n.numel).bind _)
  cases mag_slice_unary tc ti n.numel with
  | none => rfl
  | some sl =>
    obtain ⟨ra, vmel⟩ := sl
    simp only [Option.some_bind]
    by_cases c : vmel ≤ 0
    · rw [if_pos c, if_pos c]
      rfl
    · rw [if_neg c, if_neg c]
      exact congrArg some (vec_scalar_ref_eq op vmel n.storage ra n.x.storage ra n.xi m b hx)

theorem clone_ref_eq (tc ti : Nat) (n : node_ref F32) (m : Storages F32) (b : Buf F32)
    (hx : n.x.storage ≠ n.storage) :
    mag_blas_clone_ref tc ti n (Function.update m n.storage b) =
      (mag_blas_clone ⟨tc, ti, n.load m⟩ b).map (Function.update m n.storage) := by
  unfold mag_blas_clone_ref mag_blas_clone
  show (if mag_tensor_is_shape_eq n.x.shape n.shape = true then _ else _) =
    Option.map _ (if mag_tensor_is_shape_eq n.x.shape n.shape = true then _ else _)
  by_cases c : mag_tensor_is_shape_eq n.x.shape n.shape = true
  · rw [if_pos c, if_pos c]
    refine congrArg some ?_
    apply forN_update
    intro i b
    rw [Function.update_noteq hx, set_update]
    rfl
  · rw [if_neg c, if_neg c]
    rfl

theorem binary_ref_eq (op : F32 → F32 → F32)
    (tc ti : Nat) (n : node_ref F32) (m : Storages F32) (b : Buf F32)
    (hx : n.x.storage ≠ n.storage) (hy : n.y.storage ≠ n.storage) :
    mag_cpu_blas_impl_binary_ref (vec_zip_ref op) op tc ti n (Function.update m n.storage b) =
      (mag_cpu_blas_impl_binary (vec_zip op) op ⟨tc, ti, n.load m⟩ b).map
        (Function.update m n.storage) := by
  unfold mag_cpu_blas_impl_binary_ref mag_cpu_blas_impl_binary
  show (mag_slice_rows tc ti (n.x.shape.a5 * n.x.shape.a4 * n.x.shape.a3 * n.x.shape.a2 *
      n.x.shape.a1)).bind (fun sl => if n.y.strides.a0 = 1 then
        forNM (mag_binary_fast_row_ref (vec_zip_ref op) n) sl.1 (sl.2 - sl.1)
          (Function.update m n.storage b)
      else forNM (mag_binary_strided_row_ref op n) sl.1 (sl.2 - sl.1)
          (Function.update m n.storage b)) =
    Option.map _ ((mag_slice_rows tc ti (n.x.shape.a5 * n.x.shape.a4 * n.x.shape.a3 *
      n.x.shape.a2 * n.x.shape.a1)).bind (fun sl => if n.y.strides.a0 = 1 then
        mag_binary_fast (vec_zip op) (n.load m) sl.1 sl.2 b
      else mag_binary_strided op (n.load m) sl.1 sl.2 b))
  cases mag_slice_rows tc ti (n.x.shape.a5 * n.x.shape.a4 * n.x.shape.a3 * n.x.shape.a2 *
      n.x.shape.a1) with
  | none => rfl
  | some sl =>
    obtain ⟨ra, rb⟩ := sl
    simp only [Option.some_bind]
    by_cases c : n.y.strides.a0 = 1
    · rw [if_pos c, if_pos c]
      unfold mag_binary_fast
      apply forNM_update
      intro ri b
      unfold mag_binary_fast_row_ref mag_binary_fast_row
      show (mag_binary_row n.strides n.x.shape n.x.strides n.y.shape n.y.strides ri).bind _ =
        Option.map _ ((mag_binary_row n.strides n.x.shape n.x.strides n.y.shape n.y.strides
          ri).bind _)
      cases mag_binary_row n.strides n.x.shape n.x.strides n.y.shape n.y.strides ri with
      | none => rfl
      | some pp =>
        obtain ⟨pr, px, py⟩ := pp
        simp only [Option.some_bind]
        show (cdiv n.x.shape.a0 n.y.shape.a0).bind _ =
          Option.map _ ((cdiv n.x.shape.a0 n.y.shape.a0).bind _)
        cases cdiv n.x.shape.a0 n.y.shape.a0 with
        | none => rfl
        | some yor =>
          simp only [Option.some_bind]
          refine congrArg some ?_
          apply forN_update
          intro i b
          exact vec_zip_ref_eq op _ _ _ _ _ _ _ m b hx hy
    · rw [if_neg c, if_neg c]
      unfold mag_binary_strided
      apply forNM_update
      intro ri b
      unfold mag_binary_strided_row_ref mag_binary_strided_row
      show (mag_binary_row n.strides n.x.shape n.x.strides n.y.shape n.y.strides ri).bind _ =
        Option.map _ ((mag_binary_row n.strides n.x.shape n.x.strides n.y.shape n.y.strides
          ri).bind _)
      cases mag_binary_row n.strides n.x.shape n.x.strides n.y.shape n.y.strides ri with
      | none => rfl
      | some pp =>
        obtain ⟨pr, px, py⟩ := pp
        simp only [Option.some_bind]
        apply forNM_update
        intro i b
        show (cmod i n.y.shape.a0).bind _ = Option.map _ ((cmod i n.y.shape.a0).bind _)
        cases cmod i n.y.shape.a0 with
        | none => rfl
        | some k =>
          simp only [Option.some_bind]
          refine congrArg some ?_
          rw [Function.update_noteq hx, Function.update_noteq hy, set_update]
          rfl

theorem matmul_ref_eq (A : FloatOps F32 F64)
    (tc ti : Nat) (n : node_ref F32) (m : Storages F32) (b : Buf F32)
    (hx : n.x.storage ≠ n.storage) (hy : n.y.storage ≠ n.storage) :
    mag_blas_matmul_f32_ref A tc ti n (Function.update m n.storage b) =
      (mag_blas_matmul_f32 A ⟨tc, ti, n.load m⟩ b).map (Function.update m n.storage) := by
  unfold mag_blas_matmul_f32_ref mag_blas_matmul_f32
  show (if n.x.shape.a2 = 1 ∧ n.x.shape.a3 = 1 then _ else _) =
    Option.map _ (if n.x.shape.a2 = 1 ∧ n.x.shape.a3 = 1 then _ else _)
  by_cases c1 : n.x.shape.a2 = 1 ∧ n.x.shape.a3 = 1
  · rw [if_pos c1, if_pos c1]
    show (if n.y.shape.a2 = 1 ∧ n.y.shape.a3 = 1 then _ else _) =
      Option.map _ (if n.y.shape.a2 = 1 ∧ n.y.shape.a3 = 1 then _ else _)
    by_cases c2 : n.y.shape.a2 = 1 ∧ n.y.shape.a3 = 1
    · rw [if_pos c2, if_pos c2]
      show (mag_slice_rows tc ti n.x.shape.a0).map _ =
        Option.map _ ((mag_slice_rows tc ti n.x.shape.a0).map _)
      cases mag_slice_rows tc ti n.x.shape.a0 with
      | none => rfl
      | some sl =>
        obtain ⟨ra, rb⟩ := sl
        simp only [Option.map_some']
        refine congrArg some ?_
        apply forN_update
        intro i b
        unfold mag_matmul_row_ref mag_matmul_row
        simp only []
        rw [forN_update m n.storage _ (fun j b => store b (n.shape.a1 * i + j) A.zero)
          (fun j b => set_update m n.storage b _ _)]
        apply forN_update
        intro k b
        apply forN_update
        intro j b
        rw [Function.update_noteq hx, Function.update_noteq hy, Function.update_same, set_update]
        rfl
    · rw [if_neg c2, if_neg c2]
      rfl
  · rw [if_neg c1, if_neg c1]
    rfl

/-- A reduction kernel: the value is computed from loads of the storage of `x`, the one store
goes to element 0 of the storage of the node. -/
theorem reduce_ref_eq (val : Buf F32 → F32) (n : node_ref F32)
    (m : Storages F32) (b : Buf F32) (hx : n.x.storage ≠ n.storage) :
    some (store_in (Function.update m n.storage b) n.storage 0
        (val (Function.update m n.storage b n.x.storage))) =
      (some (store b 0 (val (m n.x.storage)))).map (Function.update m n.storage) := by
  rw [Function.update_noteq hx, set_update]
  rfl

theorem vec_panic_ref_eq (k r : Nat) (m : Storages F) (b : Buf F) :
    vec_panic_ref k (Function.update m r b) = (vec_panic k b).map (Function.update m r) := by
  unfold vec_panic_ref vec_panic
  by_cases c : k = 0
  · rw [if_pos c, if_pos c]
    rfl
  · rw [if_neg c, if_neg c]
    rfl

/-- Every kernel of the dispatch table, acting on the storages of a node whose inputs live in
other storages than its output, stores into the storage of the node what the kernel on the loaded
node returns, and aborts when that one does. -/
theorem dispatch_ref_eq (A : FloatOps F32 F64) (lanes : Nat) (n : node_ref F32) (tc ti : Nat)
    (m : Storages F32) (b : Buf F32)
    (hx : n.x.storage ≠ n.storage) (hy : n.y.storage ≠ n.storage) :
    mag_blas_dispatch_table_ref A lanes n.op tc ti n (Function.update m n.storage b) =
      (mag_blas_dispatch_table_forward A lanes n.op ⟨tc, ti, n.load m⟩ b).map
        (Function.update m n.storage) := by
  cases n.op with
  | NOP =>
    exact rfl
  | CLONE =>
    exact clone_ref_eq tc ti n m b hx
  | VIEW =>
    exact rfl
  | TRANSPOSE =>
    exact rfl
  | PERMUTE =>
    exact rfl
  | MEAN =>
    exact reduce_ref_eq
      (fun buf => A.down (A.div64 (walk5 n.x.shape (fun i1 i2 i3 i4 i5 sum =>
        A.add64 sum (mag_vsum_f64_f32 A n.x.shape.a0 buf (row_offset n.x.strides i1 i2 i3 i4 i5)))
        A.zero64) (A.ofInt64 n.x.numel))) n m b hx
  | MIN =>
    exact reduce_ref_eq
      (fun buf => walk5 n.x.shape (fun i1 i2 i3 i4 i5 min =>
        A.fminf (mag_vmin_f32 A n.x.shape.a0 buf (row_offset n.x.strides i1 i2 i3 i4 i5)) min)
        A.infinity) n m b hx
  | MAX =>
    exact reduce_ref_eq
      (fun buf => walk5 n.x.shape (fun i1 i2 i3 i4 i5 max =>
        A.fmaxf (mag_vmax_f32 A n.x.shape.a0 buf (row_offset n.x.strides i1 i2 i3 i4 i5)) max)
        (A.neg A.infinity)) n m b hx
  | SUM =>
    exact reduce_ref_eq
      (fun buf => A.down (walk5 n.x.shape (fun i1 i2 i3 i4 i5 sum =>
        A.add64 sum (mag_vsum_f64_f32 A n.x.shape.a0 buf (row_offset n.x.strides i1 i2 i3 i4 i5)))
        A.zero64)) n m b hx
  | ABS =>
    exact unary_ref_eq (mag_vabs_f32 A) (fun k so po sx px m => some (vec_map_ref A.fabsf k so po sx px m))
      (fun k r po sx px m b h => congrArg some (vec_map_ref_eq A.fabsf k r po sx px m b h))
      tc ti n m b hx
  | NEG =>
    exact unary_ref_eq (mag_vneg_f32 A) (fun k so po sx px m => some (vec_map_ref A.neg k so po sx px m))
      (fun k r po sx px m b h => congrArg some (vec_map_ref_eq A.neg k r po sx px m b h))
      tc ti n m b hx
  | LOG =>
    exact unary_ref_eq (mag_vlog_f32 A lanes)
      (fun k so po sx px m => some (vec_map_simd_ref lanes A.simd_log A.logf k so po sx px m))
      (fun k r po sx px m b h =>
        congrArg some (vec_map_simd_ref_eq lanes A.simd_log A.logf k r po sx px m b h))
      tc ti n m b hx
  | SQR =>
    exact unary_ref_eq (mag_vsqr_f32 A) (fun k so po sx px m => some (vec_map_ref (sqr_f32 A) k so po sx px m))
      (fun k r po sx px m b h => congrArg some (vec_map_ref_eq (sqr_f32 A) k r po sx px m b h))
      tc ti n m b hx
  | SQRT =>
    exact unary_ref_eq (mag_vsqrt_f32 A) (fun k so po sx px m => some (vec_map_ref A.sqrtf k so po sx px m))
      (fun k r po sx px m b h => congrArg some (vec_map_ref_eq A.sqrtf k r po sx px m b h))
      tc ti n m b hx
  | SIN =>
    exact unary_ref_eq (mag_vsin_f32 A lanes)
      (fun k so po sx px m => some (vec_map_simd_ref lanes A.simd_sin A.sinf k so po sx px m))
      (fun k r po sx px m b h =>
        congrArg some (vec_map_simd_ref_eq lanes A.simd_sin A.sinf k r po sx px m b h))
      tc ti n m b hx
  | COS =>
    exact unary_ref_eq (mag_vcos_f32 A lanes)
      (fun k so po sx px m => some (vec_map_simd_ref lanes A.simd_cos A.cosf k so po sx px m))
      (fun k r po sx px m b h =>
        congrArg some (vec_map_simd_ref_eq lanes A.simd_cos A.cosf k r po sx px m b h))
      tc ti n m b hx
  | STEP =>
    exact unary_ref_eq (mag_vstep_f32 A) (fun k so po sx px m => some (vec_map_ref (step_f32 A) k so po sx px m))
      (fun k r po sx px m b h => congrArg some (vec_map_ref_eq (step_f32 A) k r po sx px m b h))
      tc ti n m b hx
  | SOFTMAX =>
    exact unary_ref_eq (mag_vsoftmax_f32 A lanes)
      (fun k so po sx px m => some (vec_map_simd_ref lanes A.simd_expf A.expf k so po sx px m))
      (fun k r po sx px m b h =>
        congrArg some (vec_map_simd_ref_eq lanes A.simd_expf A.expf k r po sx px m b h))
      tc ti n m b hx
  | SOFTMAX_DV =>
    exact unary_ref_eq (mag_vsoftmax_dv_f32 A lanes)
      (fun k so po sx px m => some (vec_map_simd_ref lanes A.simd_expf A.expf k so po sx px m))
      (fun k r po sx px m b h =>
        congrArg some (vec_map_simd_ref_eq lanes A.simd_expf A.expf k r po sx px m b h))
      tc ti n m b hx
  | SIGMOID =>
    exact unary_ref_eq (mag_vsigmoid_f32 A lanes)
      (fun k so po sx px m => some (vec_map_simd_ref lanes (sigmoid_lane A) (sigmoid_f32 A) k so po sx px m))
      (fun k r po sx px m b h =>
        congrArg some (vec_map_simd_ref_eq lanes (sigmoid_lane A) (sigmoid_f32 A) k r po sx px m b h))
      tc ti n m b hx
  | SIGMOID_DV =>
    exact unary_ref_eq (mag_vsigmoid_dv_f32 A) (fun k so po sx px m => some (vec_map_ref (sigmoid_dv_f32 A) k so po sx px m))
      (fun k r po sx px m b h => congrArg some (vec_map_ref_eq (sigmoid_dv_f32 A) k r po sx px m b h))
      tc ti n m b hx
  | HARD_SIGMOID =>
    exact unary_ref_eq (mag_vhard_sigmoid_f32 A) (fun k so po sx px m => some (vec_map_ref (hard_sigmoid_f32 A) k so po sx px m))
      (fun k r po sx px m b h => congrArg some (vec_map_ref_eq (hard_sigmoid_f32 A) k r po sx px m b h))
      tc ti n m b hx
  | SILU =>
    exact unary_ref_eq (mag_vsilu_f32 A lanes)
      (fun k so po sx px m => some (vec_map_simd_ref lanes (silu_lane A) (silu_f32 A) k so po sx px m))
      (fun k r po sx px m b h =>
        congrArg some (vec_map_simd_ref_eq lanes (silu_lane A) (silu_f32 A) k r po sx px m b h))
      tc ti n m b hx
  | SILU_DV =>
    exact unary_ref_eq mag_vsilu_dv_f32 (fun k _ _ _ _ m => vec_panic_ref k m)
      (fun k r _ _ _ m b _ => vec_panic_ref_eq k r m b) tc ti n m b hx
  | TANH =>
    exact unary_ref_eq (mag_vtanh_f32 A lanes)
      (fun k so po sx px m => some (vec_map_simd_ref lanes A.simd_tanh A.tanhf k so po sx px m))
      (fun k r po sx px m b h =>
        congrArg some (vec_map_simd_ref_eq lanes A.simd_tanh A.tanhf k r po sx px m b h))
      tc ti n m b hx
  | TANH_DV =>
    exact unary_ref_eq (mag_vtanh_dv_f32 A) (fun k so po sx px m => some (vec_map_ref (tanh_dv_f32 A) k so po sx px m))
      (fun k r po sx px m b h => congrArg some (vec_map_ref_eq (tanh_dv_f32 A) k r po sx px m b h))
      tc ti n m b hx
  | RELU =>
    exact unary_ref_eq (mag_vrelu_f32 A) (fun k so po sx px m => some (vec_map_ref (relu_f32 A) k so po sx px m))
      (fun k r po sx px m b h => congrArg some (vec_map_ref_eq (relu_f32 A) k r po sx px m b h))
      tc ti n m b hx
  | RELU_DV =>
    exact unary_ref_eq (mag_vrelu_dv_f32 A) (fun k so po sx px m => some (vec_map_ref (relu_dv_f32 A) k so po sx px m))
      (fun k r po sx px m b h => congrArg some (vec_map_ref_eq (relu_dv_f32 A) k r po sx px m b h))
      tc ti n m b hx
  | GELU =>
    exact unary_ref_eq (mag_vgelu_f32 A lanes)
      (fun k so po sx px m => some (vec_map_simd_ref lanes (gelu_lane A) (gelu_f32 A) k so po sx px m))
      (fun k r po sx px m b h =>
        congrArg some (vec_map_simd_ref_eq lanes (gelu_lane A) (gelu_f32 A) k r po sx px m b h))
      tc ti n m b hx
  | GELU_DV =>
    exact unary_ref_eq mag_vgelu_dv_f32 (fun k _ _ _ _ m => vec_panic_ref k m)
      (fun k r _ _ _ m b _ => vec_panic_ref_eq k r m b) tc ti n m b hx
  | ADD =>
    exact binary_ref_eq A.add tc ti n m b hx hy
  | SUB =>
    exact binary_ref_eq A.sub tc ti n m b hx hy
  | MUL =>
    exact binary_ref_eq A.mul tc ti n m b hx hy
  | DIV =>
    exact binary_ref_eq A.div tc ti n m b hx hy
  | ADDS =>
    exact scalar_ref_eq A.add tc ti n m b hx
  | SUBS =>
    exact scalar_ref_eq A.sub tc ti n m b hx
  | MULS =>
    exact scalar_ref_eq A.mul tc ti n m b hx
  | DIVS =>
    exact scalar_ref_eq A.div tc ti n m b hx
  | MATMUL =>
    exact matmul_ref_eq A tc ti n m b hx hy

/-- Claim C25: inputs are read-only during a kernel call.  For every operator of the dispatch
table, every build, every worker payload and every node whose output storage is not the storage
of `op_inputs[0]` nor of `op_inputs[1]`: the kernel, with each of its loads and stores acting on
the storage it names, returns exactly when the kernel on the loaded node does, and then the
storages of both inputs hold, element for element, what they held before the call, as does every
storage other than the node's own, which holds the kernel's output. -/
theorem inputs_read_only (A : FloatOps F32 F64) (lanes : Nat) (n : node_ref F32) (tc ti : Nat)
    (m : Storages F32) (hx : n.x.storage ≠ n.storage) (hy : n.y.storage ≠ n.storage) :
    mag_blas_dispatch_table_ref A lanes n.op tc ti n m =
      (mag_blas_dispatch_table_forward A lanes n.op ⟨tc, ti, n.load m⟩ (m n.storage)).map
        (Function.update m n.storage) ∧
    ∀ m1, mag_blas_dispatch_table_ref A lanes n.op tc ti n m = some m1 →
      (∀ i, m1 n.x.storage i = m n.x.storage i) ∧ (∀ i, m1 n.y.storage i = m n.y.storage i) ∧
      (∀ s, s ≠ n.storage → m1 s = m s) := by
  have h := dispatch_ref_eq A lanes n tc ti m (m n.storage) hx hy
  rw [Function.update_eq_self] at h
  refine ⟨h, fun m1 h1 => ?_⟩
  rw [h] at h1
  cases hk : mag_blas_dispatch_table_forward A lanes n.op ⟨tc, ti, n.load m⟩ (m n.storage) with
  | none =>
    rw [hk] at h1
    exact absurd h1 (by simp)
  | some out =>
    rw [hk] at h1
    simp only [Option.map_some', Option.some.injEq] at h1
    subst h1
    refine ⟨fun i => ?_, fun i => ?_, fun s hs => ?_⟩
    · rw [Function.update_noteq hx]
    · rw [Function.update_noteq hy]
    · rw [Function.update_noteq hs]

/-- Witness for C25: `ADD` over `x = [1, 2, 3, 4]` in storage 1 and `y = [10, 20, 30, 40]` in
storage 2, with the output in storage 0, run as worker 0 of 1: storage 0 receives
`[11, 22, 33, 44]` and storages 1 and 2 hold what they held. -/
theorem inputs_read_only_witness :
    ∃ m1, mag_blas_dispatch_table_ref exactOps 0 add_ref.op 1 0 add_ref three_storages = some m1 ∧
      (m1 0).take 4 = [.fin 11, .fin 22, .fin 33, .fin 44] ∧
      (m1 1).take 4 = [.fin 1, .fin 2, .fin 3, .fin 4] ∧
      (m1 2).take 4 = [.fin 10, .fin 20, .fin 30, .fin 40] := by
  obtain ⟨h0, hro⟩ := inputs_read_only exactOps 0 add_ref 1 0 three_storages
    (by decide) (by decide)
  have hout : (mag_blas_dispatch_table_forward exactOps 0 add_ref.op
      ⟨1, 0, add_ref.load three_storages⟩ (three_storages add_ref.storage)).map
      (fun o => o.take 4) = some [.fin 11, .fin 22, .fin 33, .fin 44] := by decide!
  cases hk : mag_blas_dispatch_table_forward exactOps 0 add_ref.op
      ⟨1, 0, add_ref.load three_storages⟩ (three_storages add_ref.storage) with
  | none =>
    rw [hk] at hout
    exact absurd hout (by simp)
  | some out =>
    rw [hk] at hout h0
    simp only [Option.map_some', Option.some.injEq] at hout
    obtain ⟨h1, h2, _⟩ := hro _ h0
    refine ⟨_, h0, ?_, ?_, ?_⟩
    · show (Function.update three_storages 0 out 0).take 4 = _
      rw [Function.update_same]
      exact hout
    · show [_, _, _, _] = _
      rw [show (1 : Nat) = add_ref.x.storage from rfl, h1, h1, h1, h1]
      rfl
    · show [_, _, _, _] = _
      rw [show (2 : Nat) = add_ref.y.storage from rfl, h2, h2, h2, h2]
      rfl

end ReadOnly

/-! ## Addressing in the matmul kernel -/

section MatmulAddressing

variable {F32 F64 : Type}

/-- Launches of two nodes whose kernels agree on every payload and storage agree. -/
theorem launch_congr (A : FloatOps F32 F64) (lanes : Nat) (n1 n2 : mag_node_t F32) (tc : Nat)
    (h : ∀ ti br, mag_blas_dispatch_table_forward A lanes n1.op ⟨tc, ti, n1⟩ br =
      mag_blas_dispatch_table_forward A lanes n2.op ⟨tc, ti, n2⟩ br)
    (order : List Nat) (br : Buf F32) :
    launch A lanes n1 tc order br = launch A lanes n2 tc order br := by
  induction order generalizing br with
  | nil => rfl
  | cons t rest ih =>
    unfold launch
    rw [h t br]
    cases mag_blas_dispatch_table_forward A lanes n2.op ⟨tc, t, n2⟩ br with
    | none => rfl
    | some b => exact ih b

/-- Claim C26, as amended: the matmul kernel does not use strides.  For `x` of shape
`(M, K, 1, 1, 1, 1)`, `y` of shape `(K, N, 1, 1, 1, 1)` and `r` of shape `(M, N, 1, 1, 1, 1)`,
whatever the three `strides` fields hold, it addresses the three buffers as row-major matrices
whose row length is `shape[1]`: after a launch the element of `r` at offset `i*N + j` is the sum
over `k` of `X[i*K + k] * Y[k*N + j]`, for `i < M` and `j < N`, and a launch of the node with
any other strides returns the same output storage. -/
theorem matmul_row_major_addressing (A : FloatOps F32 F64) (lanes : Nat)
    (node : mag_node_t F32) (M K N tc : Nat) (order : List Nat) (br : Buf F32)
    (hop : node.op = .MATMUL)
    (hx : node.x.shape = ⟨M, K, 1, 1, 1, 1⟩) (hy : node.y.shape = ⟨K, N, 1, 1, 1, 1⟩)
    (hr : node.shape = ⟨M, N, 1, 1, 1, 1⟩)
    (htc : 1 ≤ tc) (horder : order.Perm (List.range tc)) :
    (∃ out, launch A lanes node tc order br = some out ∧
      ∀ i j, i < M → j < N →
        out (i * N + j) = fold_sum A.add A.zero
          (fun k => A.mul (node.x.base (i * K + k)) (node.y.base (k * N + j))) K) ∧
    (∀ rs xs ys : Arr6,
      launch A lanes ⟨node.op, node.numel, node.shape, rs,
          ⟨node.x.numel, node.x.shape, xs, node.x.base⟩,
          ⟨node.y.numel, node.y.shape, ys, node.y.base⟩, node.xi⟩ tc order br =
        launch A lanes node tc order br) := by
  constructor
  · have h := matmul_launch_is A lanes node hop (by rw [hr, hy]) tc htc order horder br
    rw [if_pos (by rw [hx, hy]; simp)] at h
    rw [hx, hy] at h
    simp only [Option.map_some'] at h
    refine ⟨_, h, fun i j hi hj => ?_⟩
    have hlt : i * N + j < M * N := by
      rw [Nat.add_comm, Nat.mul_comm i N, Nat.mul_comm M N]
      exact digit_lt N M j i hj hi
    unfold fill
    rw [if_pos ⟨Nat.zero_le _, hlt⟩]
    obtain ⟨hq, hm⟩ := row_div_mod i N (i * N + j) (by omega) (by omega)
    simp only [matmul_val, hq, hm, Nat.add_sub_cancel_left, Nat.mul_comm K i, Nat.mul_comm N]
  · intro rs xs ys
    refine launch_congr A lanes _ _ tc (fun ti b => ?_) order br
    show mag_blas_dispatch_table_forward A lanes node.op _ b = _
    rw [hop]
    rfl

theorem matmul_row_major_addressing_witness :
    ∃ out, launch exactOps 0 matmul_node 2 [1, 0] blank = some out ∧
      out (1 * 2 + 0) = .fin 43 := by
  obtain ⟨out, h1, h2⟩ := (matmul_row_major_addressing exactOps 0 matmul_node 2 2 2 2 [1, 0] blank
    rfl rfl rfl rfl (by decide) (List.Perm.swap 0 1 [])).1
  refine ⟨out, h1, ?_⟩
  rw [h2 1 0 (by decide) (by decide)]
  decide!

/-- Claim C26, as stated, fails: for `X`, `Y`, `R` of shape `(2, 2)` with the dense strides of
the data model (`strides = (1, 2, ..)`), storages `1, 2, 3, 4` and `5, 6, 7, 8`, the element of
`r` at the logical index `(0, 0)`, offset `0*rs0 + 0*rs1 = 0`, is `1*5 + 2*7 = 19` after the
kernel, while the sum over `k` of `X(0, k) * Y(k, 0)`, with `X(i, k)` at `i*xs0 + k*xs1` and
`Y(k, j)` at `k*ys0 + j*ys1`, is `1*5 + 3*6 = 23`. -/
theorem matmul_not_stride_addressed :
    matmul_node.strides = dense_strides matmul_node.shape ∧
    matmul_node.x.strides = dense_strides matmul_node.x.shape ∧
    matmul_node.y.strides = dense_strides matmul_node.y.shape ∧
    (launch exactOps 0 matmul_node 1 [0] blank).map
      (fun out => out (offset6 matmul_node.strides ⟨0, 0, 0, 0, 0, 0⟩)) = some (.fin 19) ∧
    fold_sum exactOps.add exactOps.zero
      (fun k => exactOps.mul
        (matmul_node.x.base (offset6 matmul_node.x.strides ⟨0, k, 0, 0, 0, 0⟩))
        (matmul_node.y.base (offset6 matmul_node.y.strides ⟨k, 0, 0, 0, 0, 0⟩))) 2
      = .fin 23 :=
  ⟨rfl, rfl, rfl, by decide!, by decide!⟩


end MatmulAddressing

/-! ## Storage allocation and pool operations -/

section PoolOps

variable {F32 F64 : Type} {B : Type}

/-- Claim C31: for every requested size greater than 0, `mag_cpu_alloc_storage` returns a
descriptor over the allocated block whose `size` field is the requested size, whose `alignment`
field is 16, and whose operations are the CPU `set`, copy-in and copy-out routines; a request
of size 0 is fatal. -/
theorem alloc_storage_descriptor (block size : Nat) :
    (0 < size → ∃ (sto : mag_storage_buffer_t) (ops : mag_storage_buffer_ops B),
      mag_cpu_alloc_storage block size = some (sto, ops) ∧
      sto.base = block ∧ sto.size = size ∧ sto.alignment = 16 ∧ 16 ≤ sto.alignment ∧
      ops.set = mag_cpu_buf_set ∧ ops.cpy_host_device = mag_cpu_buf_cpy_host_device ∧
      ops.cpy_device_host = mag_cpu_buf_cpy_device_host) ∧
    (size = 0 →
      (mag_cpu_alloc_storage block size : Option (mag_storage_buffer_t × mag_storage_buffer_ops B))
        = none) := by
  constructor
  · intro h
    unfold mag_cpu_alloc_storage
    rw [if_neg (by omega)]
    exact ⟨_, _, rfl, rfl, rfl, rfl, le_refl _, rfl, rfl, rfl⟩
  · intro h
    unfold mag_cpu_alloc_storage
    rw [if_pos h]

/-- Claim C33.  In every state where `pool.interrupt` is true, `mag_worker_await_work` returns
false whatever the phases are and leaves the worker as it is, and a turn of the worker's
thread runs no kernel and changes nothing.  In every state where `interrupt` is false and
`pool.phase > worker.phase` it returns true and sets `worker.phase` to `pool.phase`.  After the
shutdown update (`interrupt = true`, `++phase`) the wake condition
`interrupt || pool.phase > worker.phase` holds for every worker, so that every worker's
`mag_worker_await_work` returns false. -/
theorem await_work_after_shutdown (A : FloatOps F32 F64) (lanes : Nat)
    (pool : mag_threadpool_t F32) (worker : mag_worker_t F32) :
    (pool.interrupt = true → mag_worker_await_work worker pool = some (false, worker)) ∧
    (pool.interrupt = true → ∀ i br, i < pool.workers.length →
      mag_worker_thread_exec_op A lanes pool i br = some (pool, br)) ∧
    (pool.interrupt = false → pool.phase > worker.phase →
      mag_worker_await_work worker pool = some (true, { worker with phase := pool.phase })) ∧
    ((mag_threadpool_destroy pool).interrupt = true ∨
      (mag_threadpool_destroy pool).phase > worker.phase) ∧
    mag_worker_await_work worker (mag_threadpool_destroy pool) = some (false, worker) := by
  have hint : ∀ (p : mag_threadpool_t F32) (w : mag_worker_t F32), p.interrupt = true →
      mag_worker_await_work w p = some (false, w) := by
    intro p w h
    unfold mag_worker_await_work
    rw [if_neg (by simp [h]), if_pos h]
  refine ⟨hint pool worker, ?_, ?_, Or.inl rfl, hint _ worker rfl⟩
  · intro h i br hi
    unfold mag_worker_thread_exec_op
    rw [List.getElem?_eq_getElem hi]
    simp only [hint pool _ h]
  · intro h hp
    unfold mag_worker_await_work
    rw [if_neg (by simp [hp]), if_neg (by simp [h])]

theorem await_work_after_shutdown_witness :
    (mag_worker_await_work (mag_worker_init 1 2 true : mag_worker_t XR)
        (mag_threadpool_destroy pool_of_two)).map (fun r => (r.1, r.2.phase)) = some (false, 0) ∧
    (mag_worker_await_work (mag_worker_init 1 2 true : mag_worker_t XR)
        (mag_threadpool_kickoff pool_of_two relu_node)).map (fun r => (r.1, r.2.phase))
      = some (true, 1) := by
  have h := await_work_after_shutdown exactOps 0 (mag_threadpool_kickoff pool_of_two relu_node)
    (mag_worker_init 1 2 true)
  have h2 := await_work_after_shutdown exactOps 0 pool_of_two (mag_worker_init 1 2 true)
  exact ⟨by rw [h2.2.2.2.2]; rfl, by rw [h.2.2.1 rfl (by decide)]; rfl⟩

/-- Claim C34.  `mag_worker_exec_thread_local` runs the dispatched kernel exactly when
`payload.node` is set: with a node it returns what the kernel returns (aborting when it aborts)
and the payload with `node` cleared; without a node it returns the payload and the storage as
they are.  Hence a second call on the payload the first call left runs no kernel. -/
theorem exec_thread_local_once (A : FloatOps F32 F64) (lanes : Nat)
    (payload : mag_worker_payload_t F32) (br : Buf F32) :
    (∀ node, payload.node = some node →
      mag_worker_exec_thread_local A lanes payload br =
        (mag_blas_dispatch_table_forward A lanes node.op
          ⟨payload.thread_num, payload.thread_idx, node⟩ br).map
          fun b => ({ payload with node := none }, b)) ∧
    (payload.node = none → mag_worker_exec_thread_local A lanes payload br = some (payload, br)) ∧
    (∀ p1 b1, mag_worker_exec_thread_local A lanes payload br = some (p1, b1) →
      p1.node = none ∧ p1.thread_idx = payload.thread_idx ∧ p1.thread_num = payload.thread_num ∧
      ∀ b2, mag_worker_exec_thread_local A lanes p1 b2 = some (p1, b2)) := by
  have hnone : ∀ (p : mag_worker_payload_t F32) (b : Buf F32), p.node = none →
      mag_worker_exec_thread_local A lanes p b = some (p, b) := by
    intro p b h
    unfold mag_worker_exec_thread_local
    rw [h]
  refine ⟨fun node h => ?_, hnone payload br, fun p1 b1 h => ?_⟩
  · unfold mag_worker_exec_thread_local
    rw [h]
  · have hp : p1.node = none ∧ p1.thread_idx = payload.thread_idx ∧
        p1.thread_num = payload.thread_num := by
      cases hn : payload.node with
      | none =>
        rw [hnone payload br hn] at h
        simp only [Option.some.injEq, Prod.mk.injEq] at h
        rw [← h.1]
        exact ⟨hn, rfl, rfl⟩
      | some node =>
        unfold mag_worker_exec_thread_local at h
        rw [hn] at h
        simp only [Option.map_eq_some'] at h
        obtain ⟨b, _, hb⟩ := h
        simp only [Prod.mk.injEq] at hb
        rw [← hb.1]
        exact ⟨rfl, rfl, rfl⟩
    exact ⟨hp.1, hp.2.1, hp.2.2, fun b2 => hnone p1 b2 hp.1⟩


/-- What a call of `mag_worker_exec_and_broadcast` that returns has done. -/
theorem exec_and_broadcast_some (A : FloatOps F32 F64) (lanes : Nat)
    (pool p1 : mag_threadpool_t F32) (i : Nat) (br b1 : Buf F32)
    (h : mag_worker_exec_and_broadcast A lanes pool i br = some (p1, b1)) :
    ∃ w r, pool.workers[i]? = some w ∧
      mag_worker_exec_thread_local A lanes w.payload br = some r ∧
      p1 = { pool with
        workers := pool.workers.set i { w with payload := r.1 },
        num_completed := wrap64 (pool.num_completed + 1) } ∧
      b1 = r.2 := by
  unfold mag_worker_exec_and_broadcast at h
  cases hw : pool.workers[i]? with
  | none =>
    rw [hw] at h
    exact absurd h (by simp)
  | some w =>
    rw [hw] at h
    simp only [Option.map_eq_some'] at h
    obtain ⟨r, hr, he⟩ := h
    simp only [Prod.mk.injEq] at he
    exact ⟨w, r, rfl, hr, he.1.symm, he.2.symm⟩

/-- What a turn of a worker thread that returns has done: nothing, or the worker took the
phase of the pool and executed. -/
theorem thread_exec_op_some (A : FloatOps F32 F64) (lanes : Nat)
    (pool p1 : mag_threadpool_t F32) (i : Nat) (br b1 : Buf F32)
    (h : mag_worker_thread_exec_op A lanes pool i br = some (p1, b1)) :
    (p1 = pool ∧ b1 = br) ∨
    ∃ w, pool.workers[i]? = some w ∧
      mag_worker_exec_and_broadcast A lanes
        { pool with workers := pool.workers.set i { w with phase := pool.phase } } i br
        = some (p1, b1) := by
  unfold mag_worker_thread_exec_op at h
  cases hw : pool.workers[i]? with
  | none =>
    rw [hw] at h
    exact absurd h (by simp)
  | some w =>
    rw [hw] at h
    simp only at h
    unfold mag_worker_await_work at h
    by_cases c1 : ¬ (pool.interrupt = true ∨ pool.phase > w.phase)
    · rw [if_pos c1] at h
      simp only [Option.some.injEq, Prod.mk.injEq] at h
      exact Or.inl ⟨h.1.symm, h.2.symm⟩
    · rw [if_neg c1] at h
      by_cases c2 : pool.interrupt = true
      · rw [if_pos c2] at h
        simp only [Option.some.injEq, Prod.mk.injEq] at h
        exact Or.inl ⟨h.1.symm, h.2.symm⟩
      · rw [if_neg c2] at h
        exact Or.inr ⟨w, rfl, h⟩


theorem pool_frame_refl {F : Type} (p : mag_threadpool_t F) : pool_frame p p :=
  ⟨rfl, rfl, rfl, rfl, fun _ w1 h => ⟨w1, h, rfl, rfl, rfl⟩⟩

theorem pool_frame_trans {F : Type} (p p1 p2 : mag_threadpool_t F) (h1 : pool_frame p p1)
    (h2 : pool_frame p1 p2) : pool_frame p p2 := by
  obtain ⟨a1, a2, a3, a4, a5⟩ := h1
  obtain ⟨c1, c2, c3, c4, c5⟩ := h2
  refine ⟨c1.trans a1, c2.trans a2, c3.trans a3, c4.trans a4, fun j w2 h => ?_⟩
  obtain ⟨w1, hw1, e1, e2, e3⟩ := c5 j w2 h
  obtain ⟨w, hw, g1, g2, g3⟩ := a5 j w1 hw1
  exact ⟨w, hw, e1.trans g1, e2.trans g2, e3.trans g3⟩

/-- Replacing worker `i` by a worker with the same indices and thread keeps the frame. -/
theorem pool_frame_set {F : Type} (p : mag_threadpool_t F) (i nc : Nat) (w w1 : mag_worker_t F)
    (hw : p.workers[i]? = some w) (h1 : w1.payload.thread_idx = w.payload.thread_idx)
    (h2 : w1.payload.thread_num = w.payload.thread_num) (h3 : w1.thread = w.thread) :
    pool_frame p { p with workers := p.workers.set i w1, num_completed := nc } := by
  refine ⟨rfl, rfl, rfl, List.length_set _ _ _, fun j wj hj => ?_⟩
  simp only [List.getElem?_set] at hj
  by_cases c : i = j
  · subst c
    rw [if_pos rfl] at hj
    split at hj
    · simp only [Option.some.injEq] at hj
      subst hj
      exact ⟨w, hw, h1, h2, h3⟩
    · exact absurd hj (by simp)
  · rw [if_neg c] at hj
    exact ⟨wj, hj, rfl, rfl, rfl⟩

theorem exec_thread_local_indices (A : FloatOps F32 F64) (lanes : Nat)
    (payload : mag_worker_payload_t F32) (br : Buf F32)
    (r : mag_worker_payload_t F32 × Buf F32)
    (h : mag_worker_exec_thread_local A lanes payload br = some r) :
    r.1.thread_idx = payload.thread_idx ∧ r.1.thread_num = payload.thread_num := by
  unfold mag_worker_exec_thread_local at h
  cases hn : payload.node with
  | none =>
    rw [hn] at h
    simp only [Option.some.injEq] at h
    rw [← h]
    exact ⟨rfl, rfl⟩
  | some node =>
    rw [hn] at h
    simp only [Option.map_eq_some'] at h
    obtain ⟨b, _, hb⟩ := h
    rw [← hb]
    exact ⟨rfl, rfl⟩

theorem exec_and_broadcast_frame (A : FloatOps F32 F64) (lanes : Nat)
    (pool p1 : mag_threadpool_t F32) (i : Nat) (br b1 : Buf F32)
    (h : mag_worker_exec_and_broadcast A lanes pool i br = some (p1, b1)) :
    pool_frame pool p1 := by
  obtain ⟨w, r, hw, hr, hp, _⟩ := exec_and_broadcast_some A lanes pool p1 i br b1 h
  obtain ⟨e1, e2⟩ := exec_thread_local_indices A lanes w.payload br r hr
  rw [hp]
  exact pool_frame_set pool i _ w _ hw e1 e2 rfl

theorem thread_exec_op_frame (A : FloatOps F32 F64) (lanes : Nat)
    (pool p1 : mag_threadpool_t F32) (i : Nat) (br b1 : Buf F32)
    (h : mag_worker_thread_exec_op A lanes pool i br = some (p1, b1)) :
    pool_frame pool p1 := by
  rcases thread_exec_op_some A lanes pool p1 i br b1 h with ⟨hp, _⟩ | ⟨w, hw, hx⟩
  · rw [hp]
    exact pool_frame_refl pool
  · have f1 : pool_frame pool
        { pool with workers := pool.workers.set i { w with phase := pool.phase } } :=
      pool_frame_set pool i pool.num_completed w _ hw rfl rfl rfl
    exact pool_frame_trans _ _ _ f1 (exec_and_broadcast_frame A lanes _ p1 i br b1 hx)

theorem pool_turns_frame (A : FloatOps F32 F64) (lanes : Nat) (order : List Nat)
    (pool p1 : mag_threadpool_t F32) (br b1 : Buf F32)
    (h : pool_turns A lanes order pool br = some (p1, b1)) : pool_frame pool p1 := by
  induction order generalizing pool br with
  | nil =>
    simp only [pool_turns, Option.some.injEq, Prod.mk.injEq] at h
    rw [← h.1]
    exact pool_frame_refl pool
  | cons i rest ih =>
    unfold pool_turns at h
    simp only [Option.bind_eq_some] at h
    obtain ⟨s, hs, hrest⟩ := h
    have f1 : pool_frame pool s.1 := by
      by_cases c : i = 0
      · rw [if_pos c] at hs
        exact exec_and_broadcast_frame A lanes pool s.1 0 br s.2 hs
      · rw [if_neg c] at hs
        exact thread_exec_op_frame A lanes pool s.1 i br s.2 hs
    exact pool_frame_trans _ _ _ f1 (ih s.1 s.2 hrest)


theorem barrier_done {F : Type} (debug : Bool) (pool p1 : mag_threadpool_t F)
    (h : mag_threadpool_barrier debug pool = .done p1) : p1 = pool := by
  unfold mag_threadpool_barrier at h
  split at h
  · exact absurd h (by simp)
  · split at h
    · exact absurd h (by simp)
    · simp only [Run.done.injEq] at h
      exact h.symm

/-- What a call of `mag_threadpool_parallel_compute` on a pool that returns has done: kickoff,
then turns of the threads that keep the frame of the pool. -/
theorem parallel_compute_done (A : FloatOps F32 F64) (lanes : Nat) (debug : Bool)
    (pool p1 : mag_threadpool_t F32) (node : mag_node_t F32) (order : List Nat)
    (br b1 : Buf F32)
    (h : mag_threadpool_parallel_compute A lanes debug (some pool) node order br
      = .done (some p1, b1)) :
    pool_frame (mag_threadpool_kickoff pool node) p1 := by
  unfold mag_threadpool_parallel_compute at h
  simp only at h
  cases ht : pool_turns A lanes order (mag_threadpool_kickoff pool node) br with
  | none =>
    rw [ht] at h
    exact absurd h (by simp)
  | some s =>
    rw [ht] at h
    simp only at h
    cases hb : mag_threadpool_barrier debug s.1 with
    | abort =>
      rw [hb] at h
      exact absurd h (by simp [Run.map])
    | blocked =>
      rw [hb] at h
      exact absurd h (by simp [Run.map])
    | done p2 =>
      rw [hb] at h
      simp only [Run.map, Run.done.injEq, Prod.mk.injEq, Option.some.injEq] at h
      rw [← h.1, barrier_done debug s.1 p2 hb]
      exact pool_turns_frame A lanes order _ s.1 br s.2 ht

/-- Claim C32.  `mag_threadpool_kickoff` sets the payload node of every worker to the submitted
node, sets `num_completed` to 0 and replaces `phase` by `phase + 1` (modulo `2^64`: exactly one
more unless the counter wraps), and leaves `interrupt`, `num_workers` and every worker's phase,
`thread_idx`, `thread_num` and thread as they are.  The other operations of a launch
(`mag_worker_exec_and_broadcast`, a turn of a worker thread, the barrier) leave `pool.phase` as
it is, so that a launch that returns has advanced it by exactly one kickoff; shutdown advances it
by one as well. -/
theorem kickoff_advances_counters (A : FloatOps F32 F64) (lanes : Nat) (debug : Bool)
    (pool : mag_threadpool_t F32) (node : mag_node_t F32) :
    ((mag_threadpool_kickoff pool node).workers =
        pool.workers.map (fun w => { w with payload := { w.payload with node := some node } }) ∧
      (∀ (i : Nat) (w : mag_worker_t F32), pool.workers[i]? = some w →
        ∃ w1 : mag_worker_t F32,
        (mag_threadpool_kickoff pool node).workers[i]? = some w1 ∧
        w1.payload.node = some node ∧ w1.phase = w.phase ∧
        w1.payload.thread_idx = w.payload.thread_idx ∧
        w1.payload.thread_num = w.payload.thread_num ∧ w1.thread = w.thread) ∧
      (mag_threadpool_kickoff pool node).num_completed = 0 ∧
      (mag_threadpool_kickoff pool node).phase = wrap64 (pool.phase + 1) ∧
      (pool.phase + 1 < 2 ^ 64 → (mag_threadpool_kickoff pool node).phase = pool.phase + 1) ∧
      (mag_threadpool_kickoff pool node).interrupt = pool.interrupt ∧
      (mag_threadpool_kickoff pool node).num_workers = pool.num_workers) ∧
    (∀ i br p1 b1, mag_worker_exec_and_broadcast A lanes pool i br = some (p1, b1) →
      p1.phase = pool.phase) ∧
    (∀ i br p1 b1, mag_worker_thread_exec_op A lanes pool i br = some (p1, b1) →
      p1.phase = pool.phase) ∧
    (∀ p1, mag_threadpool_barrier debug pool = .done p1 → p1.phase = pool.phase) ∧
    (∀ order br p1 b1,
      mag_threadpool_parallel_compute A lanes debug (some pool) node order br
        = .done (some p1, b1) →
      p1.phase = wrap64 (pool.phase + 1)) ∧
    ((mag_threadpool_destroy pool).phase = wrap64 (pool.phase + 1) ∧
      (pool.phase + 1 < 2 ^ 64 → pool.phase < (mag_threadpool_destroy pool).phase)) := by
  refine ⟨⟨rfl, fun i w hw => ?_, rfl, rfl, fun h => wrap64_of_lt _ h, rfl, rfl⟩,
    fun i br p1 b1 h => (exec_and_broadcast_frame A lanes pool p1 i br b1 h).1,
    fun i br p1 b1 h => (thread_exec_op_frame A lanes pool p1 i br b1 h).1,
    fun p1 h => by rw [barrier_done debug pool p1 h],
    fun order br p1 b1 h => (parallel_compute_done A lanes debug pool p1 node order br b1 h).1,
    rfl, fun h => ?_⟩
  · refine ⟨{ w with payload := { w.payload with node := some node } }, ?_, rfl, rfl, rfl, rfl,
      rfl⟩
    show (pool.workers.map _)[i]? = _
    rw [List.getElem?_map, hw]
    rfl
  · show pool.phase < wrap64 (pool.phase + 1)
    rw [wrap64_of_lt _ h]
    omega

theorem kickoff_advances_counters_example :
    ((mag_threadpool_kickoff pool_of_two relu_node).phase,
      (mag_threadpool_kickoff pool_of_two relu_node).num_completed,
      (mag_threadpool_kickoff pool_of_two relu_node).workers.map
        (fun w => (w.phase, w.payload.thread_idx, w.payload.thread_num, w.payload.node.isSome)))
      = (1, 0, [(0, 0, 2, true), (0, 1, 2, true)]) := by
  decide

theorem workers_indexed_of_frame {F : Type} (n : Nat) (p p1 : mag_threadpool_t F)
    (h : workers_indexed n p) (f : pool_frame p p1) : workers_indexed n p1 := by
  obtain ⟨a1, a2, a3⟩ := h
  obtain ⟨_, _, c3, c4, c5⟩ := f
  refine ⟨c3.trans a1, c4.trans a2, fun j w1 hj => ?_⟩
  obtain ⟨w, hw, e1, e2, _⟩ := c5 j w1 hj
  obtain ⟨g1, g2⟩ := a3 j w hw
  exact ⟨e1.trans g1, e2.trans g2⟩

theorem workers_indexed_kickoff {F : Type} (n : Nat) (p : mag_threadpool_t F)
    (node : mag_node_t F) (h : workers_indexed n p) :
    workers_indexed n (mag_threadpool_kickoff p node) := by
  obtain ⟨a1, a2, a3⟩ := h
  refine ⟨a1, ?_, fun j w1 hj => ?_⟩
  · show (p.workers.map _).length = n
    rw [List.length_map, a2]
  · have hj2 : (p.workers.map
        (fun w => { w with payload := { w.payload with node := some node } }))[j]? = some w1 := hj
    rw [List.getElem?_map] at hj2
    simp only [Option.map_eq_some'] at hj2
    obtain ⟨w, hw, he⟩ := hj2
    rw [← he]
    exact a3 j w hw

theorem workers_indexed_create {F : Type} (n : Nat) :
    workers_indexed n (mag_threadpool_create n : mag_threadpool_t F) := by
  refine ⟨rfl, by simp [mag_threadpool_create], fun i w hw => ?_⟩
  have hlen : i < n := by
    have := (List.getElem?_eq_some.1 hw).1
    simpa [mag_threadpool_create] using this
  rw [threadpool_create_worker n i hlen] at hw
  simp only [Option.some.injEq] at hw
  rw [← hw]
  exact ⟨rfl, rfl⟩

/-- Claim C37.  In every pool state reachable from `mag_threadpool_create(n)` by kernel
launches, the pool has `num_workers = n` workers and worker `i` carries `thread_idx = i` and
`thread_num = n`, for every `i < n`: the worker indices are `0 .. n-1`, each once.  Kickoff and
the execution of the kernels (a launch that returns) keep every worker's `thread_idx` and
`thread_num`. -/
theorem reachable_workers_indexed (A : FloatOps F32 F64) (lanes : Nat) (debug : Bool) (n : Nat)
    (pool : mag_threadpool_t F32) (h : Reachable A lanes debug n pool) :
    pool.num_workers = n ∧ pool.workers.length = n ∧
    (∀ i, i < n → ∃ w, pool.workers[i]? = some w ∧
      w.payload.thread_idx = i ∧ w.payload.thread_num = n) ∧
    pool.workers.map (fun w => w.payload.thread_idx) = List.range n ∧
    (∀ node, workers_indexed n (mag_threadpool_kickoff pool node)) ∧
    (∀ node order br p1 b1,
      mag_threadpool_parallel_compute A lanes debug (some pool) node order br
        = .done (some p1, b1) →
      pool_frame (mag_threadpool_kickoff pool node) p1 ∧ workers_indexed n p1) := by
  have hind : workers_indexed n pool := by
    induction h with
    | create => exact workers_indexed_create n
    | launch p p1 node order br b1 _ hrun ih =>
      exact workers_indexed_of_frame n _ _ (workers_indexed_kickoff n p node ih)
        (parallel_compute_done A lanes debug p p1 node order br b1 hrun)
  obtain ⟨a1, a2, a3⟩ := hind
  refine ⟨a1, a2, fun i hi => ?_, ?_, fun node => workers_indexed_kickoff n pool node ⟨a1, a2, a3⟩,
    fun node order br p1 b1 hrun => ?_⟩
  · have hi2 : i < pool.workers.length := by omega
    exact ⟨pool.workers[i], List.getElem?_eq_getElem hi2,
      a3 i _ (List.getElem?_eq_getElem hi2)⟩
  · apply List.ext_getElem?
    intro i
    rw [List.getElem?_map]
    by_cases hi : i < n
    · have hi2 : i < pool.workers.length := by omega
      rw [List.getElem?_eq_getElem hi2, List.getElem?_range hi, Option.map_some',
        (a3 i _ (List.getElem?_eq_getElem hi2)).1]
    · rw [List.getElem?_eq_none (by omega), List.getElem?_eq_none (by simp; omega)]
      rfl
  · have f := parallel_compute_done A lanes debug pool p1 node order br b1 hrun
    exact ⟨f, workers_indexed_of_frame n _ _ (workers_indexed_kickoff n pool node ⟨a1, a2, a3⟩) f⟩


theorem reachable_workers_indexed_witness :
    ∃ p : mag_threadpool_t XR, Reachable exactOps 0 false 2 p ∧ p.phase = 1 ∧
      p.num_workers = 2 ∧ p.workers.map (fun w => w.payload.thread_idx) = [0, 1] := by
  have hd : (mag_threadpool_parallel_compute exactOps 0 false (some pool_of_two) relu_node
      [1, 0] blank).map (fun s => s.1.map (fun p => p.phase)) = .done (some 1) := by decide
  cases hr : mag_threadpool_parallel_compute exactOps 0 false (some pool_of_two) relu_node
      [1, 0] blank with
  | abort =>
    rw [hr] at hd
    exact absurd hd (by simp [Run.map])
  | blocked =>
    rw [hr] at hd
    exact absurd hd (by simp [Run.map])
  | done s =>
    obtain ⟨op, b1⟩ := s
    rw [hr] at hd
    cases op with
    | none => exact absurd hd (by simp [Run.map])
    | some p =>
      have hreach : Reachable exactOps 0 false 2 p :=
        Reachable.launch pool_of_two p relu_node [1, 0] blank b1 Reachable.create hr
      have h := reachable_workers_indexed exactOps 0 false 2 p hreach
      refine ⟨p, hreach, ?_, h.1, h.2.2.2.1⟩
      simpa [Run.map] using hd


end PoolOps

/-! ## Frames and shape of the partition -/

section PartitionShape

variable {F32 F64 : Type}

/-- Claim C36.  For a matmul node with `x` of shape `(M, K)`, `y` of shape `(K, N)` and `r` of
shape `(M, N)`, every worker count `tc >= 1` and every worker index `t`: the kernel run for
worker `t` returns, and it leaves every element of `R` unchanged that is not an `R[i*N + j]`
with `i` in `[t*rpw, min((t+1)*rpw, M))` and `j < N`, where `rpw = ceil(M / tc)`; in particular
every element `R[i*N + j]` of any other row `i` is unchanged. -/
theorem matmul_worker_rows (A : FloatOps F32 F64) (lanes : Nat) (node : mag_node_t F32)
    (M K N tc t : Nat) (br : Buf F32) (hop : node.op = .MATMUL)
    (hx : node.x.shape = ⟨M, K, 1, 1, 1, 1⟩) (hy : node.y.shape = ⟨K, N, 1, 1, 1, 1⟩)
    (hr : node.shape = ⟨M, N, 1, 1, 1, 1⟩) (htc : 1 ≤ tc) :
    ∃ out, mag_blas_dispatch_table_forward A lanes node.op ⟨tc, t, node⟩ br = some out ∧
      (∀ p, (¬ ∃ i j, spec_start M tc t ≤ i ∧ i < spec_end M tc t ∧ j < N ∧ p = i * N + j) →
        out p = br p) ∧
      (∀ i j, ¬ (spec_start M tc t ≤ i ∧ i < spec_end M tc t) → j < N →
        out (i * N + j) = br (i * N + j)) := by
  have hrun : mag_blas_dispatch_table_forward A lanes node.op ⟨tc, t, node⟩ br =
      some (fill (spec_start M tc t * N) (spec_end M tc t * N)
        (matmul_val A node.x.base node.y.base K N) br) := by
    rw [hop]
    show mag_blas_matmul_f32 A ⟨tc, t, node⟩ br = _
    rw [matmul_kernel_fill A tc t node br htc (by rw [hr, hy]) (by rw [hx]; simp)
      (by rw [hy]; simp), hx, hy]
    simp only [spec_start, spec_end, spec_chunk_eq _ _ htc]
  have hframe : ∀ p, (¬ ∃ i j, spec_start M tc t ≤ i ∧ i < spec_end M tc t ∧ j < N ∧
      p = i * N + j) →
      fill (spec_start M tc t * N) (spec_end M tc t * N)
        (matmul_val A node.x.base node.y.base K N) br p = br p := by
    intro p hp
    unfold fill
    rw [if_neg]
    rintro ⟨h1, h2⟩
    have hN : 0 < N := by
      rcases Nat.eq_zero_or_pos N with h | h
      · subst h
        simp at h2
      · exact h
    refine hp ⟨p / N, p % N, (Nat.le_div_iff_mul_le hN).2 h1, (Nat.div_lt_iff_lt_mul hN).2 h2,
      Nat.mod_lt _ hN, ?_⟩
    rw [Nat.mul_comm]
    exact (Nat.div_add_mod p N).symm
  refine ⟨_, hrun, hframe, fun i j hi hj => hframe _ ?_⟩
  rintro ⟨i2, j2, h1, h2, h3, he⟩
  have e : i = i2 := by
    have q1 : (i * N + j) / N = i := by
      rw [Nat.mul_comm, Nat.mul_add_div (by omega), Nat.div_eq_of_lt hj, Nat.add_zero]
    have q2 : (i2 * N + j2) / N = i2 := by
      rw [Nat.mul_comm, Nat.mul_add_div (by omega), Nat.div_eq_of_lt h3, Nat.add_zero]
    rw [← q1, he, q2]
  subst e
  exact hi ⟨h1, h2⟩

theorem matmul_worker_rows_witness :
    ∃ out, mag_blas_dispatch_table_forward exactOps 0 matmul_node.op ⟨2, 1, matmul_node⟩ blank
        = some out ∧ out (0 * 2 + 0) = blank (0 * 2 + 0) ∧ out (0 * 2 + 1) = blank (0 * 2 + 1) := by
  obtain ⟨out, h1, _, h3⟩ := matmul_worker_rows exactOps 0 matmul_node 2 2 2 2 1 blank
    rfl rfl rfl rfl (by decide)
  have hs : ¬ (spec_start 2 2 1 ≤ 0 ∧ 0 < spec_end 2 2 1) := by
    simp only [spec_start, spec_end, spec_chunk_eq 2 2 (by decide)]
    decide
  exact ⟨out, h1, h3 0 0 hs (by decide), h3 0 1 hs (by decide)⟩


/-- The workers below `ceil(numel / chunk)` are those whose first index lies below `numel`. -/
theorem busy_iff (numel c t : Nat) (hc : 1 ≤ c) : t < (numel + c - 1) / c ↔ t * c < numel := by
  rw [Nat.lt_iff_add_one_le, Nat.le_div_iff_mul_le (by omega), Nat.add_mul, Nat.one_mul]
  generalize t * c = m
  omega

/-- Claim C38: the shape of the ceil-chunk partition.  For `numel >= 1` and `tc >= 1`, with
`chunk = ceil(numel / tc)` and `busy = ceil(numel / chunk)`: `chunk >= 1` and
`1 <= busy <= tc`; the workers with a non-empty slice are exactly those with index `t < busy`;
each of them but the last has exactly `chunk` elements; the last one, `t = busy - 1`, ends at
`numel` and has between 1 and `chunk` elements; every worker with `t >= busy` computes a slice
of 0 elements (an empty row range in the binary and matmul kernels) and a kernel generated by
`mag_cpu_blas_impl_unary` returns the output storage as it is. -/
theorem partition_shape (numel tc : Nat) (hn : 1 ≤ numel) (htc : 1 ≤ tc) :
    1 ≤ spec_chunk numel tc ∧
    1 ≤ spec_chunk numel (spec_chunk numel tc) ∧
    spec_chunk numel (spec_chunk numel tc) ≤ tc ∧
    (∀ t, spec_start numel tc t < spec_end numel tc t ↔
      t < spec_chunk numel (spec_chunk numel tc)) ∧
    (∀ t, t + 1 < spec_chunk numel (spec_chunk numel tc) →
      spec_end numel tc t - spec_start numel tc t = spec_chunk numel tc) ∧
    (∀ t, t + 1 = spec_chunk numel (spec_chunk numel tc) →
      spec_end numel tc t = numel ∧ 1 ≤ spec_end numel tc t - spec_start numel tc t ∧
      spec_end numel tc t - spec_start numel tc t ≤ spec_chunk numel tc) ∧
    (∀ t, spec_chunk numel (spec_chunk numel tc) ≤ t →
      mag_slice_unary tc t numel = some (spec_start numel tc t, 0) ∧
      (∃ ra rb, mag_slice_rows tc t numel = some (ra, rb) ∧ rb ≤ ra) ∧
      ∀ (F : Type) (v : VecUnary F) (node : mag_node_t F) (br : Buf F), node.numel = numel →
        mag_cpu_blas_impl_unary v ⟨tc, t, node⟩ br = some br) := by
  have hc : 1 ≤ (numel + tc - 1) / tc := chunk_pos numel tc htc hn
  have hcover := le_chunk_mul numel tc htc
  have hsu := fun t => mag_slice_unary_eq tc t numel htc
  have hsr := fun t => mag_slice_rows_eq tc t numel htc
  simp only [spec_start, spec_end, spec_chunk_eq numel tc htc,
    spec_chunk_eq numel ((numel + tc - 1) / tc) hc]
  generalize (numel + tc - 1) / tc = c at hc hcover hsu hsr ⊢
  have hb := busy_iff numel c
  refine ⟨hc, ?_, ?_, fun t => ?_, fun t ht => ?_, fun t ht => ?_, fun t ht => ?_⟩
  · have := (hb 0 hc).2 (by omega)
    omega
  · by_contra hlt
    have := (hb tc hc).1 (by omega)
    rw [Nat.mul_comm] at this
    omega
  · rw [hb t hc]
    generalize t * c = m
    omega
  · have h1 := (hb (t + 1) hc).1 ht
    rw [Nat.add_mul, Nat.one_mul] at h1
    generalize t * c = m at h1 ⊢
    omega
  · have h1 := (hb t hc).1 (by omega)
    have h2 : ¬ (t + 1) * c < numel := fun h => by
      have := (hb (t + 1) hc).2 h
      omega
    rw [Nat.add_mul, Nat.one_mul] at h2
    generalize t * c = m at h1 h2 ⊢
    omega
  · have h1 : ¬ t * c < numel := fun h => by
      have := (hb t hc).2 h
      omega
    have hz : min (t * c + c) numel - t * c = 0 := by
      generalize t * c = m at h1 ⊢
      omega
    have hs : mag_slice_unary tc t numel = some (t * c, 0) := by
      rw [hsu t, hz]
    refine ⟨hs, ⟨_, _, hsr t, ?_⟩, fun F v node br hnode => ?_⟩
    · generalize t * c = m at h1 ⊢
      omega
    · unfold mag_cpu_blas_impl_unary
      simp only [hnode, hs, Option.some_bind, le_refl, if_true]


theorem partition_shape_witness :
    spec_chunk 9 8 = 2 ∧ spec_chunk 9 (spec_chunk 9 8) = 5 ∧
    (∀ t, spec_start 9 8 t < spec_end 9 8 t ↔ t < 5) ∧
    mag_slice_unary 8 5 9 = some (spec_start 9 8 5, 0) := by
  have h := partition_shape 9 8 (by decide) (by decide)
  have e1 : spec_chunk 9 8 = 2 := by
    rw [spec_chunk_eq 9 8 (by decide)]
  have e2 : spec_chunk 9 (spec_chunk 9 8) = 5 := by
    rw [e1, spec_chunk_eq 9 2 (by decide)]
  refine ⟨e1, e2, fun t => ?_, ?_⟩
  · rw [h.2.2.2.1 t, e2]
  · exact (h.2.2.2.2.2.2 5 (by rw [e2])).1


end PartitionShape

/-! ## Bounds of the broadcast-binary kernels -/

section Bounds

variable {F32 F64 : Type}

theorem dense_row_ptr_x (rs d yd ys : Arr6) (ri : Nat) :
    (binary_row_ptrs rs d (dense_strides d) yd ys ri).2.1 = ri * d.a0 := by
  simp only [binary_row_ptrs, outer_index, dense_strides]
  have k1 := Nat.mod_add_div ri d.a1
  have k2 := Nat.mod_add_div (ri / d.a1) d.a2
  have k3 := Nat.mod_add_div (ri / d.a1 / d.a2) d.a3
  have k4 := Nat.mod_add_div (ri / d.a1 / d.a2 / d.a3) d.a4
  generalize ri / d.a1 / d.a2 / d.a3 / d.a4 = q5 at *
  generalize ri / d.a1 / d.a2 / d.a3 % d.a4 = m4 at *
  generalize ri / d.a1 / d.a2 / d.a3 = q4 at *
  generalize ri / d.a1 / d.a2 % d.a3 = m3 at *
  generalize ri / d.a1 / d.a2 = q3 at *
  generalize ri / d.a1 % d.a2 = m2 at *
  generalize ri / d.a1 = q2 at *
  generalize ri % d.a1 = m1 at *
  subst k1 k2 k3 k4
  ring

/-- An offset formed from digits within the extents, under dense strides, lies below the number
of elements. -/
theorem dense_offset_lt (e : Arr6) (i0 i1 i2 i3 i4 i5 : Nat) (h0 : i0 < e.a0) (h1 : i1 < e.a1)
    (h2 : i2 < e.a2) (h3 : i3 < e.a3) (h4 : i4 < e.a4) (h5 : i5 < e.a5) :
    i5 * (dense_strides e).a5 + i4 * (dense_strides e).a4 + i3 * (dense_strides e).a3
      + i2 * (dense_strides e).a2 + i1 * (dense_strides e).a1 + i0 * (dense_strides e).a0
      < e.prod := by
  have k4 := digit_lt _ _ _ _ h4 h5
  have k3 := digit_lt _ _ _ _ h3 k4
  have k2 := digit_lt _ _ _ _ h2 k3
  have k1 := digit_lt _ _ _ _ h1 k2
  have k0 := digit_lt _ _ _ _ h0 k1
  simp only [dense_strides, Arr6.prod]
  calc _ = i0 + e.a0 * (i1 + e.a1 * (i2 + e.a2 * (i3 + e.a3 * (i4 + e.a4 * i5)))) := by ring
    _ < e.a0 * (e.a1 * (e.a2 * (e.a3 * (e.a4 * e.a5)))) := k0
    _ = _ := by ring

theorem binary_x_offset_dense {F : Type} (r : mag_node_t F)
    (hxs : r.x.strides = dense_strides r.x.shape) (p : Nat) : binary_x_offset r p = p := by
  unfold binary_x_offset
  rw [hxs, dense_row_ptr_x, Nat.mul_comm]
  exact Nat.div_add_mod p _

theorem binary_y_offset_lt {F : Type} (r : mag_node_t F)
    (hys : r.y.strides = dense_strides r.y.shape) (he : all_pos r.y.shape) (p : Nat) :
    binary_y_offset r p < r.y.shape.prod := by
  obtain ⟨e0, e1, e2, e3, e4, e5⟩ := he
  unfold binary_y_offset
  rw [hys]
  simp only [binary_row_ptrs]
  exact dense_offset_lt r.y.shape _ _ _ _ _ _ (Nat.mod_lt _ e0) (Nat.mod_lt _ e1)
    (Nat.mod_lt _ e2) (Nat.mod_lt _ e3) (Nat.mod_lt _ e4) (Nat.mod_lt _ e5)


/-- Claim C35.  For a broadcast-binary node with dense `x` and `r` of equal shape, all extents
at least 1, a dense broadcast-compatible `y`, `numel` fields equal to the products of the
extents, and a worker count `tc >= 1`: on the rows of worker `ti`, the fast-path branch, the
strided-path branch and the dispatched kernel all return (no quotient or remainder by zero is
evaluated) the output storage in which exactly the offsets `p` of these rows hold
`x[xo p] op y[yo p]`, where `xo p` and `yo p` are the offsets the kernel forms; the written
offsets lie in `[0, x.numel)`, every `xo p` is `p` itself, and every `yo p` lies in
`[0, y.numel)`. -/
theorem binary_kernel_in_bounds (A : FloatOps F32 F64) (lanes : Nat) (node : mag_node_t F32)
    (op : F32 → F32 → F32) (tc ti : Nat) (br : Buf F32)
    (hop : is_broadcast_binary node.op = true) (hf : binary_fn A node.op = some op)
    (hshape : node.shape = node.x.shape) (hd : all_pos node.x.shape)
    (he : bcast_compat node.x.shape node.y.shape)
    (hrs : node.strides = dense_strides node.shape)
    (hxs : node.x.strides = dense_strides node.x.shape)
    (hys : node.y.strides = dense_strides node.y.shape)
    (hxn : node.x.numel = node.x.shape.prod) (hyn : node.y.numel = node.y.shape.prod)
    (htc : 1 ≤ tc) :
    mag_binary_fast (vec_zip op) node (spec_start node.x.shape.rows tc ti)
        (spec_end node.x.shape.rows tc ti) br =
      some (fill (spec_start node.x.shape.rows tc ti * node.x.shape.a0)
        (spec_end node.x.shape.rows tc ti * node.x.shape.a0)
        (fun p => op (node.x.base (binary_x_offset node p))
          (node.y.base (binary_y_offset node p))) br) ∧
    mag_binary_strided op node (spec_start node.x.shape.rows tc ti)
        (spec_end node.x.shape.rows tc ti) br =
      some (fill (spec_start node.x.shape.rows tc ti * node.x.shape.a0)
        (spec_end node.x.shape.rows tc ti * node.x.shape.a0)
        (fun p => op (node.x.base (binary_x_offset node p))
          (node.y.base (binary_y_offset node p))) br) ∧
    mag_blas_dispatch_table_forward A lanes node.op ⟨tc, ti, node⟩ br =
      some (fill (spec_start node.x.shape.rows tc ti * node.x.shape.a0)
        (spec_end node.x.shape.rows tc ti * node.x.shape.a0)
        (fun p => op (node.x.base (binary_x_offset node p))
          (node.y.base (binary_y_offset node p))) br) ∧
    spec_end node.x.shape.rows tc ti * node.x.shape.a0 ≤ node.x.numel ∧
    (∀ p, binary_x_offset node p = p) ∧
    (∀ p, p < spec_end node.x.shape.rows tc ti * node.x.shape.a0 →
      binary_x_offset node p < node.x.numel) ∧
    (∀ p, binary_y_offset node p < node.y.numel) := by
  obtain ⟨ok, hdvd⟩ := binary_ok_of_compat node hshape hrs hd he
  have hys0 : node.y.strides.a0 = 1 := by
    rw [hys]
    rfl
  have hpos : all_pos node.y.shape := by
    obtain ⟨d0, d1, d2, d3, d4, d5⟩ := hd
    obtain ⟨c0, c1, c2, c3, c4, c5⟩ := he
    exact ⟨by omega, by omega, by omega, by omega, by omega, by omega⟩
  have hend : spec_end node.x.shape.rows tc ti * node.x.shape.a0 ≤ node.x.numel := by
    rw [hxn, ← rows_mul_eq_prod]
    exact Nat.mul_le_mul_right _ (Nat.min_le_right _ _)
  have hxo := binary_x_offset_dense node hxs
  refine ⟨?_, ?_, ?_, hend, hxo, fun p hp => ?_, fun p => ?_⟩
  · exact binary_rows_fill _ _ _ (fun ri b => binary_fast_row_fill op node ri b ok hys0 hdvd)
      _ _ _
  · exact binary_rows_fill _ _ _ (fun ri b => binary_strided_row_fill op node ri b ok) _ _ _
  · rw [binary_dispatch A lanes node.op op hop hf,
      binary_kernel_fill op tc ti node br htc ok hdvd, rows_eq]
    simp only [spec_start, spec_end, spec_chunk_eq _ _ htc]
    rfl
  · rw [hxo]
    omega
  · rw [hyn]
    exact binary_y_offset_lt node hys hpos p

theorem binary_kernel_in_bounds_witness :
    (mag_blas_dispatch_table_forward exactOps 0 bcast_node.op ⟨2, 1, bcast_node⟩ blank).isSome
      = true ∧
    (∀ p, binary_y_offset bcast_node p < 3) ∧ (∀ p, binary_x_offset bcast_node p = p) := by
  have h := binary_kernel_in_bounds exactOps 0 bcast_node exactOps.add 2 1 blank rfl rfl rfl
    (by decide) (by decide) rfl rfl rfl rfl rfl (by decide)
  refine ⟨?_, h.2.2.2.2.2.2, h.2.2.2.2.1⟩
  rw [h.2.2.1]
  rfl


end Bounds

/-! ## The SOFTMAX kernel -/

section Softmax

variable {F32 F64 : Type}

end Softmax

/-! ## The unary and scalar-RHS kernels in place -/

section InPlace

variable {F32 F64 : Type} {F : Type}

theorem pmap_empty (lo hi : Nat) (h : Nat → F → F) (b : Buf F) (hle : hi ≤ lo) :
    pmap lo hi h b = b := by
  funext p
  unfold pmap
  rw [if_neg (by omega)]

theorem pmap_pmap (lo mid hi : Nat) (h : Nat → F → F) (b : Buf F) (h1 : lo ≤ mid)
    (h2 : mid ≤ hi) : pmap mid hi h (pmap lo mid h b) = pmap lo hi h b := by
  funext p
  unfold pmap
  by_cases c1 : mid ≤ p ∧ p < hi
  · have c3 : ¬ (lo ≤ p ∧ p < mid) := by omega
    have c4 : lo ≤ p ∧ p < hi := by omega
    simp only [if_pos c1, if_neg c3, if_pos c4]
  · by_cases c2 : lo ≤ p ∧ p < mid
    · have c4 : lo ≤ p ∧ p < hi := by omega
      simp only [if_neg c1, if_pos c2, if_pos c4]
    · have c4 : ¬ (lo ≤ p ∧ p < hi) := by omega
      simp only [if_neg c1, if_neg c2, if_neg c4]

/-- A loop that replaces each element of a range by a function of itself. -/
theorem forN_map_range (f : F → F) (p lo n : Nat) (b : Buf F) :
    forN (fun i c => store c (p + i) (f (c (p + i)))) lo n b =
      pmap (p + lo) (p + lo + n) (fun _ => f) b := by
  induction n with
  | zero => rw [pmap_empty _ _ _ _ (by omega)]; rfl
  | succ n ih =>
    rw [forN_succ_last, ih]
    funext q
    unfold store pmap
    by_cases c1 : q = p + (lo + n)
    · subst c1
      rw [if_pos rfl, if_neg (by omega), if_pos (by omega)]
    · rw [if_neg c1]
      by_cases c2 : p + lo ≤ q ∧ q < p + lo + n
      · rw [if_pos c2, if_pos (by omega)]
      · rw [if_neg c2, if_neg (by omega)]

/-- A loop over consecutive blocks, each replaced elementwise. -/
theorem forN_pmap_blocks (h : Nat → F → F) (base w n : Nat) (b : Buf F) :
    forN (fun k c => pmap (base + k * w) (base + k * w + w) h c) 0 n b =
      pmap base (base + n * w) h b := by
  induction n with
  | zero => rw [pmap_empty _ _ _ _ (by simp)]; rfl
  | succ n ih =>
    rw [forN_succ_last, ih]
    simp only [Nat.zero_add]
    have e : base + n * w + w = base + (n + 1) * w := by ring
    rw [e]
    exact pmap_pmap _ _ _ _ _ (Nat.le_add_right _ _)
      (Nat.add_le_add_left (Nat.mul_le_mul_right w (by omega)) _)

/-- The stores of one vector, whose lanes were loaded from the buffer `c`. -/
theorem vector_store_pmap (g : F → F) (p k L : Nat) (c : Buf F) :
    forN (fun l c1 => store c1 (p + (k * L + l)) (g (c (p + (k * L + l))))) 0 L c =
      pmap (p + k * L) (p + k * L + L) (fun _ => g) c := by
  rw [forN_congr _ (fun l c1 => store c1 (p + k * L + l) (g (c (p + k * L + l)))) 0 L c
    (fun l _ _ t => by simp only [Nat.add_assoc]),
    forN_store_fill (fun l => g (c (p + k * L + l))) (p + k * L) 0 L c]
  funext q
  unfold fill pmap
  simp only [Nat.add_zero]
  by_cases c1 : p + k * L ≤ q ∧ q < p + k * L + L
  · rw [if_pos c1, if_pos c1]
    congr 2
    omega
  · rw [if_neg c1, if_neg c1]


/-- The scalar loop run in place writes what it writes from a copy of the buffer. -/
theorem vec_map_alias_eq (f : F → F) (n : Nat) (b : Buf F) (p : Nat) :
    vec_map_alias f n b p p = vec_map f n b p b p := by
  unfold vec_map_alias
  rw [forN_map_range f p 0 n b, vec_map_eq_fill]
  funext q
  unfold pmap fill
  simp only [Nat.add_zero]
  by_cases c : p ≤ q ∧ q < p + n
  · rw [if_pos c, if_pos c]
    congr 2
    omega
  · rw [if_neg c, if_neg c]

/-- The scalar-RHS loop run in place writes what it writes from a copy of the buffer. -/
theorem vec_scalar_alias_eq (op : F → F → F) (n : Nat) (b : Buf F) (p : Nat) (y : F) :
    vec_scalar_alias op n b p p y = vec_scalar op n b p b p y := by
  unfold vec_scalar_alias
  rw [forN_map_range (fun v => op v y) p 0 n b, vec_scalar_eq_fill]
  funext q
  unfold pmap fill
  simp only [Nat.add_zero]
  by_cases c : p ≤ q ∧ q < p + n
  · rw [if_pos c, if_pos c]
    congr 2
    omega
  · rw [if_neg c, if_neg c]

/-- The vector loops run in place write what they write from a copy of the buffer. -/
theorem vec_map_simd_alias_eq (lanes : Nat) (g f : F → F) (n : Nat) (b : Buf F) (p : Nat) :
    vec_map_simd_alias lanes g f n b p p = vec_map_simd lanes g f n b p b p := by
  have hle : n / lanes * lanes ≤ n := Nat.div_mul_le_self n lanes
  unfold vec_map_simd_alias
  simp only []
  rw [forN_congr _ (fun k c => pmap (p + k * lanes) (p + k * lanes + lanes) (fun _ => g) c)
    0 (n / lanes) b (fun k _ _ c => vector_store_pmap g p k lanes c),
    forN_pmap_blocks, forN_map_range f p (n / lanes * lanes) (n - n / lanes * lanes),
    vec_map_simd_eq_fill]
  funext q
  unfold pmap fill
  generalize n / lanes * lanes = m at hle ⊢
  by_cases c : p ≤ q ∧ q < p + n
  · rw [if_pos c]
    by_cases c2 : q - p < m
    · have c3 : ¬ (p + m ≤ q ∧ q < p + m + (n - m)) := by omega
      have c4 : p ≤ q ∧ q < p + m := by omega
      have e : p + (q - p) = q := by omega
      simp only [if_neg c3, if_pos c4, if_pos c2, e]
    · have c3 : p + m ≤ q ∧ q < p + m + (n - m) := by omega
      have c4 : ¬ (p ≤ q ∧ q < p + m) := by omega
      have e : p + (q - p) = q := by omega
      simp only [if_pos c3, if_neg c4, if_neg c2, e]
  · have c3 : ¬ (p + m ≤ q ∧ q < p + m + (n - m)) := by omega
    have c4 : ¬ (p ≤ q ∧ q < p + m) := by omega
    simp only [if_neg c, if_neg c3, if_neg c4]

/-- A kernel generated by `mag_cpu_blas_impl_unary` run in place does what the kernel does on
a copy of the output storage taken as the input. -/
theorem unary_alias_run (va : VecUnaryAlias F32) (v : VecUnary F32)
    (hv : ∀ n b p, va n b p p = v n b p b p) (tc ti : Nat) (node : mag_node_t F32)
    (b : Buf F32) :
    mag_cpu_blas_impl_unary_alias va ⟨tc, ti, node⟩ b =
      mag_cpu_blas_impl_unary v ⟨tc, ti, with_input node b⟩ b := by
  unfold mag_cpu_blas_impl_unary_alias mag_cpu_blas_impl_unary with_input
  simp only [hv]

theorem scalar_alias_run (op : F32 → F32 → F32) (tc ti : Nat) (node : mag_node_t F32)
    (b : Buf F32) :
    mag_cpu_blas_impl_unary_scalar_alias (vec_scalar_alias op) ⟨tc, ti, node⟩ b =
      mag_cpu_blas_impl_unary_scalar (vec_scalar op) ⟨tc, ti, with_input node b⟩ b := by
  unfold mag_cpu_blas_impl_unary_scalar_alias mag_cpu_blas_impl_unary_scalar with_input
  simp only [vec_scalar_alias_eq]

/-- Every kernel of the in-place table, run on the storage `b`, does what the kernel of the
dispatch table does with a copy of `b` as the input. -/
theorem alias_run_eq (A : FloatOps F32 F64) (lanes : Nat) (node : mag_node_t F32)
    (k : Kernel F32) (hk : mag_blas_dispatch_table_alias A lanes node.op = some k)
    (tc ti : Nat) (b : Buf F32) :
    k ⟨tc, ti, node⟩ b =
      mag_blas_dispatch_table_forward A lanes node.op ⟨tc, ti, with_input node b⟩ b := by
  cases hop : node.op <;> rw [hop] at hk <;>
    simp only [mag_blas_dispatch_table_alias, Option.some.injEq] at hk <;>
    try contradiction
  all_goals subst hk
  all_goals first
    | exact unary_alias_run _ _ (fun n b p => congrArg some (vec_map_alias_eq _ n b p)) tc ti
        node b
    | exact unary_alias_run _ _ (fun n b p => congrArg some (vec_map_simd_alias_eq _ _ _ n b p))
        tc ti node b
    | exact unary_alias_run _ (fun n o _ _ _ => vec_panic n o) (fun _ _ _ => rfl) tc ti node b
    | exact scalar_alias_run _ tc ti node b


/-- The operators of the in-place table: the implemented unary operators, the scalar-RHS
operators and the two stubs. -/
theorem alias_table_ops (A : FloatOps F32 F64) (lanes : Nat) (op : mag_op_t) (k : Kernel F32)
    (hk : mag_blas_dispatch_table_alias A lanes op = some k) :
    (∃ f, unary_fn A op = some f) ∨
    (is_scalar_rhs op = true ∧ ∃ f, binary_fn A op = some f) ∨
    mag_blas_dispatch_table_forward A lanes op =
      mag_cpu_blas_impl_unary (fun n o _ _ _ => vec_panic n o) := by
  cases op <;> simp only [mag_blas_dispatch_table_alias] at hk <;> try contradiction
  all_goals first
    | exact Or.inl ⟨_, rfl⟩
    | exact Or.inr (Or.inl ⟨rfl, _, rfl⟩)
    | exact Or.inr (Or.inr rfl)

/-- One run of a kernel of the dispatch table that has an in-place counterpart, on the input
buffer `s`: the worker aborts, or it replaces each element of its slice by a function of the
offset and of the element of `s` at that offset. -/
theorem table_run_form (A : FloatOps F32 F64) (lanes : Nat) (node : mag_node_t F32)
    (k : Kernel F32) (hk : mag_blas_dispatch_table_alias A lanes node.op = some k)
    (tc : Nat) (htc : 1 ≤ tc) :
    ∃ (H : Nat → F32 → F32) (ab : Nat → Bool), ∀ ti s b,
      mag_blas_dispatch_table_forward A lanes node.op ⟨tc, ti, with_input node s⟩ b =
        if ab ti = true then none
        else some (fill (ti * ((node.numel + tc - 1) / tc))
          (min (ti * ((node.numel + tc - 1) / tc) + (node.numel + tc - 1) / tc) node.numel)
          (fun p => H p (s p)) b) := by
  rcases alias_table_ops A lanes node.op k hk with ⟨f, hf⟩ | ⟨hs, f, hf⟩ | hd
  · obtain ⟨v, g, L, hd, hv⟩ := unary_dispatch_simd A lanes node.op f hf
    refine ⟨fun p a =>
      if p - p / ((node.numel + tc - 1) / tc) * ((node.numel + tc - 1) / tc) <
        (min (p / ((node.numel + tc - 1) / tc) * ((node.numel + tc - 1) / tc)
            + (node.numel + tc - 1) / tc) node.numel
          - p / ((node.numel + tc - 1) / tc) * ((node.numel + tc - 1) / tc)) / L * L
      then g a else f a, fun _ => false, fun ti s b => ?_⟩
    rw [hd, unary_kernel_fill_simd v g f L hv tc ti (with_input node s) b htc]
    rfl
  · refine ⟨fun _ a => f a node.xi, fun _ => false, fun ti s b => ?_⟩
    rw [scalar_dispatch A lanes node.op f hs hf,
      scalar_kernel_fill f tc ti (with_input node s) b htc]
    rfl
  · refine ⟨fun _ a => a, fun ti => decide (¬ (min (ti * ((node.numel + tc - 1) / tc)
      + (node.numel + tc - 1) / tc) node.numel ≤ ti * ((node.numel + tc - 1) / tc))),
      fun ti s b => ?_⟩
    rw [hd, stub_kernel_run tc ti (with_input node s) b htc]
    show (if min (ti * ((node.numel + tc - 1) / tc) + (node.numel + tc - 1) / tc) node.numel
      ≤ ti * ((node.numel + tc - 1) / tc) then some b else none) = _
    by_cases c : min (ti * ((node.numel + tc - 1) / tc) + (node.numel + tc - 1) / tc)
        node.numel ≤ ti * ((node.numel + tc - 1) / tc)
    · rw [if_pos c, if_neg (by simp only [decide_eq_true_eq, not_not]; exact c),
        fill_empty _ _ _ _ c]
    · rw [if_neg c, if_pos (by simp only [decide_eq_true_eq]; exact c)]

/-- A launch in place equals the launch of the dispatched kernel on a copy `s` of the storage
taken as the input, as long as the slices of the workers still to run hold what `s` holds. -/
theorem launch_in_place_eq (A : FloatOps F32 F64) (lanes : Nat) (node : mag_node_t F32)
    (k : Kernel F32) (hk : mag_blas_dispatch_table_alias A lanes node.op = some k)
    (tc : Nat) (htc : 1 ≤ tc) (s : Buf F32) (order : List Nat) (hnd : order.Nodup)
    (b : Buf F32)
    (hagree : ∀ t, t ∈ order → ∀ p, t * ((node.numel + tc - 1) / tc) ≤ p →
      p < min (t * ((node.numel + tc - 1) / tc) + (node.numel + tc - 1) / tc) node.numel →
      b p = s p) :
    launch_kernel k node tc order b = launch A lanes (with_input node s) tc order b := by
  obtain ⟨H, ab, hform⟩ := table_run_form A lanes node k hk tc htc
  induction order generalizing b with
  | nil => rfl
  | cons t rest ih =>
    unfold launch_kernel launch
    rw [alias_run_eq A lanes node k hk tc t b]
    show (mag_blas_dispatch_table_forward A lanes node.op ⟨tc, t, with_input node b⟩ b).bind _ =
      (mag_blas_dispatch_table_forward A lanes node.op ⟨tc, t, with_input node s⟩ b).bind _
    rw [hform t b b, hform t s b]
    by_cases c : ab t = true
    · simp only [if_pos c]
      rfl
    · simp only [if_neg c, Option.some_bind]
      rw [fill_congr _ _ (fun p => H p (b p)) (fun p => H p (s p)) b
          (fun p h1 h2 => congrArg (H p) (hagree t (List.mem_cons_self _ _) p h1 h2))]
      apply ih (List.nodup_cons.1 hnd).2
      intro u hu p h1 h2
      have hne : ¬ (t * ((node.numel + tc - 1) / tc) ≤ p ∧ p <
          min (t * ((node.numel + tc - 1) / tc) + (node.numel + tc - 1) / tc) node.numel) := by
        rintro ⟨g1, g2⟩
        have := slice_disjoint node.numel _ t u p g1 g2 h1 h2
        subst this
        exact (List.nodup_cons.1 hnd).1 hu
      unfold fill
      rw [if_neg hne]
      exact hagree u (List.mem_cons_of_mem _ hu) p h1 h2


/-- Claim C39.  For a unary or scalar-RHS node whose input lives in the node's own storage, every
build, every worker count `tc >= 1` and every order of the workers: the launch in place returns
what the launch of the dispatched kernel returns when it reads the input from a copy of the
storage taken before the launch.  Hence, for an implemented unary operator with pointwise
function `f` in a build without an approximate path for it, `r[i] = f(x_before[i])` for every
`i < numel`, and for a scalar-RHS operator `r[i] = x_before[i] op s`; the storage beyond
`numel` is untouched. -/
theorem unary_in_place_safe (A : FloatOps F32 F64) (lanes : Nat) (node : mag_node_t F32)
    (k : Kernel F32) (tc : Nat) (order : List Nat) (br : Buf F32)
    (hk : mag_blas_dispatch_table_alias A lanes node.op = some k) (htc : 1 ≤ tc)
    (horder : order.Perm (List.range tc)) :
    launch_kernel k node tc order br = launch A lanes (with_input node br) tc order br ∧
    (∀ f, unary_fn A node.op = some f → (lanes = 0 ∨ has_simd_path node.op = false) →
      ∃ out, launch_kernel k node tc order br = some out ∧
        (∀ i, i < node.numel → out i = f (br i)) ∧ (∀ i, node.numel ≤ i → out i = br i)) ∧
    (∀ op, is_scalar_rhs node.op = true → binary_fn A node.op = some op →
      ∃ out, launch_kernel k node tc order br = some out ∧
        (∀ i, i < node.numel → out i = op (br i) node.xi) ∧
        (∀ i, node.numel ≤ i → out i = br i)) := by
  have hnd : order.Nodup := (horder.nodup_iff).2 (List.nodup_range tc)
  have heq := launch_in_place_eq A lanes node k hk tc htc br order hnd br
    (fun _ _ _ _ _ => rfl)
  refine ⟨heq, fun f hf hmode => ?_, fun op hs hf => ?_⟩
  · obtain ⟨v, hd, hv⟩ := unary_dispatch A lanes node.op f hf hmode
    have hrun := launch_fill_total A lanes (with_input node br) tc _ _
      (fun p => f (br p)) node.numel
      (fun ti b => by
        show mag_blas_dispatch_table_forward A lanes node.op ⟨tc, ti, with_input node br⟩ b = _
        rw [hd]
        exact unary_kernel_fill v f hv tc ti (with_input node br) b htc)
      (chunk_cover node.numel tc htc) order horder br
    rw [heq]
    refine ⟨_, hrun, fun i hi => ?_, fun i hi => ?_⟩
    · unfold fill
      rw [if_pos ⟨Nat.zero_le _, hi⟩]
    · unfold fill
      rw [if_neg (by omega)]
  · have hrun := launch_fill_total A lanes (with_input node br) tc _ _
      (fun p => op (br p) node.xi) node.numel
      (fun ti b => by
        show mag_blas_dispatch_table_forward A lanes node.op ⟨tc, ti, with_input node br⟩ b = _
        rw [scalar_dispatch A lanes node.op op hs hf]
        exact scalar_kernel_fill op tc ti (with_input node br) b htc)
      (chunk_cover node.numel tc htc) order horder br
    rw [heq]
    refine ⟨_, hrun, fun i hi => ?_, fun i hi => ?_⟩
    · unfold fill
      rw [if_pos ⟨Nat.zero_le _, hi⟩]
    · unfold fill
      rw [if_neg (by omega)]

theorem unary_in_place_safe_witness :
    ∃ out, launch_kernel
        (mag_cpu_blas_impl_unary_alias fun n b po px =>
          some (vec_map_alias (relu_f32 exactOps) n b po px))
        relu_node 2 [1, 0] relu_input.base = some out ∧
      out.take 4 = [.fin 0, .fin 0, .fin 1, .nan] := by
  obtain ⟨out, h, h1, h2⟩ := (unary_in_place_safe exactOps 0 relu_node _ 2 [1, 0]
    relu_input.base rfl (by decide) (List.Perm.swap 0 1 [])).2.1 (relu_f32 exactOps) rfl
    (Or.inl rfl)
  refine ⟨out, h, ?_⟩
  show [out 0, out 1, out 2, out 3] = _
  rw [h1 0 (by decide), h1 1 (by decide), h1 2 (by decide), h2 3 (by decide)]
  decide!

end InPlace

end Magnetron
